import Mathlib

/-!
# AEON: range trees, block and inode-number allocators, directory entries

A shallow embedding of `balloc.c`, `inode.c`, `dir.c` and `aeon_dir.h`.

Conventions of the embedding.

* `unsigned long` values are natural numbers below `2 ^ 64`, `u32` values are below
  `2 ^ 32`; a C operation that can wrap is written with an explicit `%`.
* A pointer to a range node is the address `addr` of the node; `NULL` is `none`.
  Reading through a pointer that designates no node of the tree has no defined
  behaviour in C: the functions that do it return `none`.
* The kernel's red-black tree is a binary tree of range nodes.  Colours and
  rotations are not represented: `rb_insert_color` and `rb_erase` are the
  kernel's and keep the in-order sequence of the remaining nodes, which is all
  the sources rely on.
-/

namespace Aeon

/-! ## Errno values and integer conversions -/

def ENOMEM : Int := 12
def EINVAL : Int := 22
def ENOSPC : Int := 28
def EMLINK : Int := 31

/-- Conversion of an `unsigned long` to `long` (two's complement). -/
def to_long (x : Nat) : Int :=
  if x % 2 ^ 64 < 2 ^ 63 then ((x % 2 ^ 64 : Nat) : Int) else ((x % 2 ^ 64 : Nat) : Int) - 2 ^ 64

/-- Conversion of an integer to `int` (two's complement, 32 bits). -/
def to_int (x : Int) : Int :=
  if x % 2 ^ 32 < 2 ^ 31 then x % 2 ^ 32 else x % 2 ^ 32 - 2 ^ 32

/-- Conversion of an integer to `unsigned long`. -/
def to_ulong (x : Int) : Nat := (x % 2 ^ 64).toNat

/-- The value of `x - 1` in `unsigned long` arithmetic. -/
def u64_dec (x : Nat) : Nat := to_ulong ((x : Int) - 1)

/-! ## Range nodes and range trees (`balloc.c`) -/

/-- Kind of a range tree (`enum node_type`). -/
inductive node_type where
  | NODE_BLOCK : node_type
  | NODE_INODE : node_type
  | NODE_DIR : node_type
  deriving DecidableEq, Repr

/-- Modelled from the spec: `struct aeon_range_node` is declared in `aeon.h`, which is
not among the sources.  The spec's RangeNode is `{low, high, payload}` with
`low == high == hash` for a directory node, so the `hash` member read by the sources
is the member `range_low` (the two members share storage: `aeon_insert_range_node`
reads `new_node->range_low` as the key of a directory node whose `hash` was set).
`addr` is the address of the node object. -/
structure aeon_range_node where
  addr : Nat
  range_low : Nat
  range_high : Nat
  direntry : Nat
  deriving DecidableEq, Repr

/-- The member `hash` of a range node. -/
def aeon_range_node.hash (n : aeon_range_node) : Nat := n.range_low

/-- The kernel's `struct rb_root`: a binary tree whose nodes are embedded in range nodes. -/
inductive rb_root where
  | nil : rb_root
  | node (rb_left : rb_root) (entry : aeon_range_node) (rb_right : rb_root) : rb_root
  deriving DecidableEq, Repr

/-- In-order sequence of the nodes of a tree. -/
def rb_root.toList : rb_root → List aeon_range_node
  | .nil => []
  | .node l n r => l.toList ++ n :: r.toList

/-- Some tree with a given in-order sequence. -/
def rb_of_list : List aeon_range_node → rb_root
  | [] => .nil
  | n :: rest => .node .nil n (rb_of_list rest)

/-- Addresses of the nodes of a tree, in order. -/
def rb_addrs (t : rb_root) : List Nat := t.toList.map aeon_range_node.addr

/-- Dereference of a node pointer: the node of the tree at that address. -/
def rb_entry (t : rb_root) (a : Nat) : Option aeon_range_node :=
  t.toList.find? (fun n => n.addr = a)

/-- Successor of the node at address `a` in a sequence of nodes. -/
def list_next : List aeon_range_node → Nat → Option aeon_range_node
  | [], _ => none
  | n :: rest, a => if n.addr = a then rest.head? else list_next rest a

/-- Kernel `rb_next`: in-order successor of the node at address `a`. -/
def rb_next (t : rb_root) (a : Nat) : Option aeon_range_node := list_next t.toList a

/-- Kernel `rb_prev`: in-order predecessor of the node at address `a`. -/
def rb_prev (t : rb_root) (a : Nat) : Option aeon_range_node := list_next t.toList.reverse a

/-- Kernel `rb_first`: the lowest node in order. -/
def rb_first (t : rb_root) : Option aeon_range_node := t.toList.head?

/-- Kernel `rb_erase`: unlinks the node at address `a`; the other nodes keep their order. -/
def rb_erase (a : Nat) (t : rb_root) : rb_root :=
  rb_of_list (t.toList.filter (fun n => !decide (n.addr = a)))

/-- Kernel `rb_link_node`: the new node becomes a leaf. -/
def rb_link_node (new_node : aeon_range_node) : rb_root := .node .nil new_node .nil

/-- Kernel `rb_insert_color`: recolouring and rotations, which keep the in-order sequence. -/
def rb_insert_color (t : rb_root) : rb_root := t

/-- Assignment to members of the node at address `a` through a pointer to it. -/
def rb_store (a : Nat) (f : aeon_range_node → aeon_range_node) : rb_root → rb_root
  | .nil => .nil
  | .node l n r => .node (rb_store a f l) (if n.addr = a then f n else n) (rb_store a f r)

/-- Comparison of a key with a node (`aeon_rbtree_compare_rangenode`). -/
def aeon_rbtree_compare_rangenode (curr : aeon_range_node) (key : Nat) (type : node_type) : Int :=
  if type = node_type.NODE_DIR then
    if key < curr.hash then -1
    else if key > curr.hash then 1
    else 0
  else
    if key < curr.range_low then -1
    else if key > curr.range_high then 1
    else 0

/-- The descent of `aeon_insert_range_node`: `none` when a node compares equal to the key,
otherwise the tree with the new node linked where the descent ended. -/
def insert_descend : rb_root → aeon_range_node → node_type → Option rb_root
  | .nil, new_node, _ => some (rb_link_node new_node)
  | .node l curr r, new_node, type =>
    let compVal := aeon_rbtree_compare_rangenode curr new_node.range_low type
    if compVal = -1 then
      (insert_descend l new_node type).map (fun l1 => .node l1 curr r)
    else if compVal = 1 then
      (insert_descend r new_node type).map (fun r1 => .node l curr r1)
    else none

/-- Insertion of a node (`aeon_insert_range_node`): the return value and the tree. -/
def aeon_insert_range_node (tree : rb_root) (new_node : aeon_range_node) (type : node_type) :
    Int × rb_root :=
  match insert_descend tree new_node type with
  | none => (-EINVAL, tree)
  | some t => (0, rb_insert_color t)

/-- The loop of `aeon_find_range_node`; `curr` is the node visited last. -/
def find_descend : rb_root → Nat → node_type → Option aeon_range_node →
    Int × Option aeon_range_node
  | .nil, _, _, curr => (0, curr)
  | .node l c r, key, type, _ =>
    let compVal := aeon_rbtree_compare_rangenode c key type
    if compVal = -1 then find_descend l key type (some c)
    else if compVal = 1 then find_descend r key type (some c)
    else (1, some c)

/-- Lookup of a key (`aeon_find_range_node`): the return value and `*ret_node`. -/
def aeon_find_range_node (tree : rb_root) (key : Nat) (type : node_type) :
    Int × Option aeon_range_node :=
  find_descend tree key type none

/-- Insertion into a block tree (`aeon_insert_blocktree`). -/
def aeon_insert_blocktree (tree : rb_root) (new_node : aeon_range_node) : Int × rb_root :=
  aeon_insert_range_node tree new_node node_type.NODE_BLOCK

/-! ## Block allocator (`balloc.c`) -/

/-- One shard of the block allocator (`struct free_list`, declared in `balloc.h`). -/
structure free_list where
  block_free_tree : rb_root
  first_node : Option Nat
  last_node : Option Nat
  num_free_blocks : Nat
  num_blocknode : Nat
  alloc_data_count : Nat
  alloc_data_pages : Nat
  block_start : Nat
  block_end : Nat
  index : Nat
  deriving DecidableEq, Repr

/-- Number of blocks of a node as the sources compute it: `range_high - range_low + 1`
in `unsigned long` arithmetic. -/
def curr_blocks_of (curr : aeon_range_node) : Nat :=
  to_ulong ((curr.range_high : Int) - curr.range_low + 1)

/-- State at the exit of the `while` loop of `aeon_alloc_blocks_in_free_list`. -/
structure alloc_scan where
  free_list : free_list
  num_blocks : Nat
  new_blocknr : Nat
  found : Bool
  deriving DecidableEq, Repr

/-- The branch "allocate the whole blocknode" of the loop of
`aeon_alloc_blocks_in_free_list` for the node `curr`. -/
def alloc_whole_blocknode (fl : free_list) (curr : aeon_range_node) : alloc_scan :=
  let tree := fl.block_free_tree
  let fl1 : free_list :=
    if some curr.addr = fl.first_node then
      { fl with first_node := (rb_next tree curr.addr).map aeon_range_node.addr }
    else fl
  let fl2 : free_list :=
    if some curr.addr = fl1.last_node then
      { fl1 with last_node := (rb_prev tree curr.addr).map aeon_range_node.addr }
    else fl1
  let fl3 : free_list :=
    { fl2 with block_free_tree := rb_erase curr.addr tree,
               num_blocknode := u64_dec fl2.num_blocknode }
  ⟨fl3, curr_blocks_of curr, curr.range_low, true⟩

/-- The branch "allocate partial blocknode" of the loop of
`aeon_alloc_blocks_in_free_list` for the node `curr`. -/
def alloc_part_blocknode (fl : free_list) (curr : aeon_range_node) (num_blocks : Nat) :
    alloc_scan :=
  let tree := rb_store curr.addr
    (fun n => { n with range_low := (n.range_low + num_blocks) % 2 ^ 64 }) fl.block_free_tree
  ⟨{ fl with block_free_tree := tree }, num_blocks, curr.range_low, true⟩

/-- The `while (temp)` loop of `aeon_alloc_blocks_in_free_list`, run over the nodes from
`temp` on in ascending order (`temp = rb_next(temp)` moves to the tail). -/
def alloc_loop (fl : free_list) (btype : Nat) (num_blocks new_blocknr : Nat) :
    List aeon_range_node → alloc_scan
  | [] => ⟨fl, num_blocks, new_blocknr, false⟩
  | curr :: rest =>
    let curr_blocks := curr_blocks_of curr
    if num_blocks ≥ curr_blocks then
      if btype > 0 ∧ num_blocks > curr_blocks then
        alloc_loop fl btype num_blocks new_blocknr rest
      else alloc_whole_blocknode fl curr
    else alloc_part_blocknode fl curr num_blocks

/-- Nodes from the one at address `a` on, in ascending order. -/
def nodes_from (t : rb_root) (a : Nat) : List aeon_range_node :=
  t.toList.dropWhile (fun n => !decide (n.addr = a))

/-- Result of `aeon_alloc_blocks_in_free_list`. -/
structure alloc_result where
  ret : Int
  new_blocknr : Nat
  free_list : free_list
  deriving DecidableEq, Repr

/-- The part of `aeon_alloc_blocks_in_free_list` after the loop: the test of
`num_free_blocks`, the update of the count and the return value. -/
def alloc_finish (s : alloc_scan) : alloc_result :=
  if s.free_list.num_free_blocks < s.num_blocks then
    ⟨-ENOSPC, s.new_blocknr, s.free_list⟩
  else if s.found then
    ⟨to_long s.num_blocks, s.new_blocknr,
      { s.free_list with num_free_blocks := s.free_list.num_free_blocks - s.num_blocks }⟩
  else ⟨-ENOSPC, s.new_blocknr, s.free_list⟩

/-- Allocation inside one shard (`aeon_alloc_blocks_in_free_list`).  `new_blocknr` is the
value of `*new_blocknr` at entry.  `none`: `first_node` designates no node of the tree. -/
def aeon_alloc_blocks_in_free_list (fl : free_list) (btype : Nat) (num_blocks : Nat)
    (new_blocknr : Nat) : Option alloc_result :=
  match fl.first_node with
  | none => some ⟨-ENOSPC, new_blocknr, fl⟩
  | some first =>
    if fl.num_free_blocks = 0 then some ⟨-ENOSPC, new_blocknr, fl⟩
    else
      match rb_entry fl.block_free_tree first with
      | none => none
      | some _ =>
        some (alloc_finish
          (alloc_loop fl btype num_blocks new_blocknr (nodes_from fl.block_free_tree first)))

/-! ## Inode-number shards and the superblock information -/

/-- The members of the persistent region table (`struct aeon_region_table`, declared in
`aeon.h`) that the inode-number allocator writes. -/
structure aeon_region_table where
  i_range_high : Nat
  allocated : Nat
  i_allocated : Nat
  freed : Nat
  deriving DecidableEq, Repr

/-- One shard of the inode-number allocator (`struct inode_map`, declared in `aeon.h`);
`art` is the region table `AEON_R_TABLE(inode_map)`. -/
structure inode_map where
  inode_inuse_tree : rb_root
  first_inode_range : Option Nat
  num_range_node_inode : Int
  art : aeon_region_table
  deriving DecidableEq, Repr

/-- The members of `struct aeon_sb_info` (declared in `aeon.h`) used by the allocators.
`cpus` is the number of shards; the counters whose C type is not in the sources are
integers. -/
structure aeon_sb_info where
  cpus : Nat
  num_blocks : Nat
  per_list_blocks : Nat
  s_inodes_used_count : Int
  free_lists : Nat → free_list
  inode_maps : Nat → inode_map

/-- Test made before an allocation (`not_enough_blocks`). -/
def not_enough_blocks (fl : free_list) (num_blocks : Nat) : Bool :=
  decide (fl.num_free_blocks < num_blocks) || fl.first_node.isNone || fl.last_node.isNone

/-- The shard with the most free blocks (`aeon_get_candidate_free_list`).  The running
maximum is the C `int num_free_blocks`: it is converted to `unsigned long` in the
comparison and the shard's count is converted to `int` in the assignment. -/
def aeon_get_candidate_free_list (sbi : aeon_sb_info) : Nat :=
  ((List.range sbi.cpus).foldl
    (fun (st : Nat × Int) i =>
      if (sbi.free_lists i).num_free_blocks > to_ulong st.2 then
        (i, to_int (sbi.free_lists i).num_free_blocks)
      else st)
    (0, 0)).1

/-- The `retry:` part of `aeon_new_blocks`: the shard on which the allocation is made.
The first argument is `2 - retried`. -/
def new_blocks_retry (sbi : aeon_sb_info) (num_blocks : Nat) : Nat → Nat → Nat
  | 0, cpuid => cpuid
  | k + 1, cpuid =>
    if not_enough_blocks (sbi.free_lists cpuid) num_blocks then
      new_blocks_retry sbi num_blocks k (aeon_get_candidate_free_list sbi)
    else cpuid

/-- Result of `aeon_new_blocks`: the return value, `*blocknr` and the shards. -/
structure new_blocks_result where
  ret : Int
  blocknr : Nat
  sbi : aeon_sb_info

/-- Block allocation (`aeon_new_blocks`).  `blocknr` is the value of `*blocknr` at entry,
`cpuid = none` stands for `ANY_CPU`, `numblocks` is the value of
`aeon_get_numblocks(btype)` and `this_cpu` the value of `aeon_get_cpuid(sb)` (both are
defined in `aeon.h`, which is not among the sources).  The shard locks are not
represented here. -/
def aeon_new_blocks (sbi : aeon_sb_info) (blocknr : Nat) (num : Nat) (btype : Nat)
    (cpuid : Option Nat) (numblocks : Nat) (this_cpu : Nat) : Option new_blocks_result :=
  let num_blocks := (num * numblocks) % 2 ^ 64
  let cpuid0 := match cpuid with
    | none => this_cpu
    | some c => c
  let cpuid1 := new_blocks_retry sbi num_blocks 2 cpuid0
  match aeon_alloc_blocks_in_free_list (sbi.free_lists cpuid1) btype num_blocks 0 with
  | none => none
  | some r =>
    let fl1 : free_list :=
      if r.ret > 0 then
        { r.free_list with alloc_data_count := r.free_list.alloc_data_count + 1,
                           alloc_data_pages := r.free_list.alloc_data_pages + r.ret.toNat }
      else r.free_list
    let sbi1 : aeon_sb_info := { sbi with free_lists := Function.update sbi.free_lists cpuid1 fl1 }
    if r.ret ≤ 0 ∨ r.new_blocknr = 0 then some ⟨-ENOSPC, blocknr, sbi1⟩
    else some ⟨to_int (r.ret / (numblocks : Int)), r.new_blocknr, sbi1⟩

/-- The constant `MAX_INODE` of `aeon_alloc_unused_inode`: `1UL << 31` stored in a `u32`. -/
def MAX_INODE : Nat := (1 <<< 31) % 2 ^ 32

/-- Result of `aeon_alloc_unused_inode`: the return value, `*ino` and the state. -/
structure alloc_inode_result where
  ret : Int
  ino : Nat
  sbi : aeon_sb_info

/-- Allocation of an inode number (`aeon_alloc_unused_inode`).  `ino` is the value of
`*ino` at entry and `map_id` designates the shard `&sbi->inode_maps[map_id]` passed as
`inode_map`.  `aligned` is the state after the branch "Aligns to left" when its test
holds, `filled` the state after whichever branch is taken (`none`: the `else` branch).
The function returns `none` when `first_inode_range` designates no node of the tree. -/
def aeon_alloc_unused_inode (sbi : aeon_sb_info) (cpuid : Nat) (ino : Nat) (map_id : Nat) :
    Option alloc_inode_result :=
  let imap := sbi.inode_maps map_id
  let tree := imap.inode_inuse_tree
  match imap.first_inode_range with
  | none => none
  | some a =>
    match rb_entry tree a with
    | none => none
    | some i =>
      let next := rb_next tree a
      let next_range_low := match next with
        | none => MAX_INODE
        | some next_i => next_i.range_low
      let new_ino := (i.range_high + 1) % 2 ^ 32
      let limit := u64_dec next_range_low
      let aligned : Option inode_map :=
        if new_ino < limit then
          some { imap with
            inode_inuse_tree := rb_store a (fun n => { n with range_high := new_ino }) tree }
        else none
      let filled : Option inode_map :=
        match next with
        | some next_i =>
          if new_ino = limit then
            some { imap with
              inode_inuse_tree :=
                rb_erase next_i.addr
                  (rb_store a (fun n => { n with range_high := next_i.range_high }) tree),
              num_range_node_inode := imap.num_range_node_inode - 1 }
          else aligned
        | none => aligned
      match filled with
      | none => some ⟨-ENOSPC, ino, sbi⟩
      | some im1 =>
        let high := match rb_entry im1.inode_inuse_tree a with
          | some i1 => i1.range_high
          | none => 0
        let art1 : aeon_region_table :=
          { im1.art with i_range_high := high % 2 ^ 32,
                         allocated := im1.art.allocated + 1,
                         i_allocated := im1.art.i_allocated + 1 }
        let im2 : inode_map := { im1 with art := art1 }
        some ⟨0, (new_ino * sbi.cpus + cpuid) % 2 ^ 32,
          { sbi with s_inodes_used_count := sbi.s_inodes_used_count + 1,
                     inode_maps := Function.update sbi.inode_maps map_id im2 }⟩

/-- Insertion into the tree of shard `cpu` (`aeon_insert_inodetree`). -/
def aeon_insert_inodetree (sbi : aeon_sb_info) (new_node : aeon_range_node) (cpu : Nat) :
    Int × aeon_sb_info :=
  let im := sbi.inode_maps cpu
  let r := aeon_insert_range_node im.inode_inuse_tree new_node node_type.NODE_INODE
  let im1 : inode_map := { im with inode_inuse_tree := r.2 }
  (r.1, { sbi with inode_maps := Function.update sbi.inode_maps cpu im1 })

/-- Lookup of an external inode number (`aeon_search_inodetree`). -/
def aeon_search_inodetree (sbi : aeon_sb_info) (ino : Nat) : Int × Option aeon_range_node :=
  let cpu := ino % sbi.cpus
  let tree := (sbi.inode_maps cpu).inode_inuse_tree
  let internal_ino := ino / sbi.cpus
  aeon_find_range_node tree internal_ino node_type.NODE_INODE

/-- The label `block_found` of `aeon_free_inuse_inode`. -/
def free_block_found (sbi : aeon_sb_info) (cpuid : Nat) (ret : Int) : Int × aeon_sb_info :=
  let im := sbi.inode_maps cpuid
  let im1 : inode_map := { im with art := { im.art with freed := im.art.freed + 1 } }
  (ret, { sbi with
    s_inodes_used_count := sbi.s_inodes_used_count - 1,
    inode_maps := Function.update sbi.inode_maps cpuid im1 })

/-- Assignment to the tree and node count of shard `cpuid`. -/
def set_inode_tree (sbi : aeon_sb_info) (cpuid : Nat) (tree : rb_root) (num : Int) :
    aeon_sb_info :=
  let imap : inode_map :=
    { (sbi.inode_maps cpuid) with inode_inuse_tree := tree, num_range_node_inode := num }
  { sbi with inode_maps := Function.update sbi.inode_maps cpuid imap }

/-- Release of an inode number (`aeon_free_inuse_inode`).  `curr_node` is the result of
`aeon_alloc_inode_node` should the function call it (`none` for `NULL`), and `ret` is
the value of the local variable `ret`, which the function does not initialise.
`sbi.cpus` is a divisor and is not zero. -/
def aeon_free_inuse_inode (sbi : aeon_sb_info) (ino : Nat) (curr_node : Option aeon_range_node)
    (ret : Int) : Int × aeon_sb_info :=
  let cpuid := ino % sbi.cpus
  let internal_ino := ino / sbi.cpus
  let imap := sbi.inode_maps cpuid
  let tree := imap.inode_inuse_tree
  let num := imap.num_range_node_inode
  match aeon_search_inodetree sbi ino with
  | (_, none) => (-EINVAL, sbi)
  | (found, some i) =>
    if found = 0 then (-EINVAL, sbi)
    else if internal_ino = i.range_low ∧ internal_ino = i.range_high then
      free_block_found (set_inode_tree sbi cpuid (rb_erase i.addr tree) (num - 1)) cpuid ret
    else if internal_ino = i.range_low ∧ internal_ino < i.range_high then
      free_block_found
        (set_inode_tree sbi cpuid
          (rb_store i.addr (fun n => { n with range_low := (internal_ino + 1) % 2 ^ 64 }) tree)
          num)
        cpuid ret
    else if internal_ino > i.range_low ∧ internal_ino = i.range_high then
      free_block_found
        (set_inode_tree sbi cpuid
          (rb_store i.addr
            (fun n => { n with range_high := u64_dec internal_ino }) tree)
          num)
        cpuid ret
    else if internal_ino > i.range_low ∧ internal_ino < i.range_high then
      match curr_node with
      | none => free_block_found sbi cpuid ret
      | some c =>
        let c1 : aeon_range_node :=
          { c with range_low := (internal_ino + 1) % 2 ^ 64, range_high := i.range_high }
        let tree1 := rb_store i.addr
          (fun n => { n with range_high := u64_dec internal_ino }) tree
        let r := aeon_insert_inodetree (set_inode_tree sbi cpuid tree1 num) c1 cpuid
        if r.1 ≠ 0 then (r.1, r.2)
        else
          free_block_found
            (set_inode_tree r.2 cpuid (r.2.inode_maps cpuid).inode_inuse_tree (num + 1))
            cpuid r.1
    else (ret, sbi)

/-- One iteration of the loop of `aeon_init_inode_inuse_list` for shard `i`;
`range_node` is the result of `aeon_alloc_inode_node` (`none` for `NULL`). -/
def init_inode_inuse_shard (sbi : aeon_sb_info) (i : Nat) (range_node : Option aeon_range_node) :
    Int × aeon_sb_info :=
  match range_node with
  | none => (-ENOMEM, sbi)
  | some n =>
    let imap := sbi.inode_maps i
    let n1 : aeon_range_node :=
      { n with range_low := 0, range_high := imap.art.i_range_high % 2 ^ 32 }
    let r := aeon_insert_inodetree sbi n1 i
    if r.1 ≠ 0 then (r.1, r.2)
    else
      let imap1 : inode_map :=
        { (r.2.inode_maps i) with num_range_node_inode := 1, first_inode_range := some n1.addr }
      (0, { r.2 with inode_maps := Function.update r.2.inode_maps i imap1 })

/-- The loop of `aeon_init_inode_inuse_list` over the shards `i, i + 1, ...`, `k` of them
left; `nodes i` is the result of `aeon_alloc_inode_node` in iteration `i`. -/
def init_inode_inuse_loop (nodes : Nat → Option aeon_range_node) :
    Nat → Nat → aeon_sb_info → Int × aeon_sb_info
  | 0, _, sbi => (0, sbi)
  | k + 1, i, sbi =>
    let r := init_inode_inuse_shard sbi i (nodes i)
    if r.1 ≠ 0 then r else init_inode_inuse_loop nodes k (i + 1) r.2

/-- Construction of the inode trees (`aeon_init_inode_inuse_list`). -/
def aeon_init_inode_inuse_list (sbi : aeon_sb_info) (nodes : Nat → Option aeon_range_node) :
    Int × aeon_sb_info :=
  init_inode_inuse_loop nodes sbi.cpus 0 sbi

/-! ## Concrete states used in the examples -/

/-- A block shard holding the single free range `[lo, hi]` in the node at address 1. -/
def single_range_shard (lo hi : Nat) : free_list :=
  { block_free_tree := .node .nil ⟨1, lo, hi, 0⟩ .nil,
    first_node := some 1,
    last_node := some 1,
    num_free_blocks := hi - lo + 1,
    num_blocknode := 1,
    alloc_data_count := 0,
    alloc_data_pages := 0,
    block_start := lo,
    block_end := hi,
    index := 0 }

/-- An inode shard with a given tree whose `first_inode_range` is the node at address 1. -/
def inode_shard_of (tree : rb_root) (num : Int) : inode_map :=
  { inode_inuse_tree := tree,
    first_inode_range := some 1,
    num_range_node_inode := num,
    art := ⟨0, 0, 0, 0⟩ }

/-- A superblock information with `cpus` shards, all equal. -/
def uniform_sbi (cpus : Nat) (fl : free_list) (im : inode_map) : aeon_sb_info :=
  { cpus := cpus,
    num_blocks := 0,
    per_list_blocks := 0,
    s_inodes_used_count := 0,
    free_lists := fun _ => fl,
    inode_maps := fun _ => im }

/-- The internal numbers covered by a sequence of range nodes. -/
def covers (l : List aeon_range_node) (x : Nat) : Prop :=
  ∃ n ∈ l, n.range_low ≤ x ∧ x ≤ n.range_high

/-- Number of free blocks described by a sequence of nodes: the sum of
`range_high - range_low + 1`. -/
def sum_blocks (l : List aeon_range_node) : Nat :=
  (l.map (fun n => n.range_high - n.range_low + 1)).sum

/-- The nodes of a block or inode tree are ordered and disjoint: every node has
`range_low <= range_high` and, in order, each `range_high` is below the `range_low` of
every later node. -/
def ranges_ordered (l : List aeon_range_node) : Prop :=
  (∀ n ∈ l, n.range_low ≤ n.range_high) ∧ l.Pairwise (fun a b => a.range_high < b.range_low)

/-- The nodes of a directory tree are in strictly ascending order of `hash`. -/
def hashes_ordered (l : List aeon_range_node) : Prop :=
  l.Pairwise (fun a b => a.hash < b.hash)

/-- The order that a tree of a given kind keeps. -/
def tree_ordered (type : node_type) (l : List aeon_range_node) : Prop :=
  if type = node_type.NODE_DIR then hashes_ordered l else ranges_ordered l

/-- A node matches a key: equal `hash` for a directory tree, `range_low <= key <=
range_high` for a block or inode tree. -/
def node_matches (type : node_type) (m : aeon_range_node) (key : Nat) : Prop :=
  if type = node_type.NODE_DIR then m.hash = key
  else m.range_low ≤ key ∧ key ≤ m.range_high

/-- An inode or block tree with the three nodes `[0, 5]`, `[10, 20]` and `[30, 40]`,
the middle one at the root. -/
def three_range_tree : rb_root :=
  .node (.node .nil ⟨1, 0, 5, 0⟩ .nil) ⟨2, 10, 20, 0⟩ (.node .nil ⟨3, 30, 40, 0⟩ .nil)

/-- The nodes that take the place of node `i` when the internal number `internal` is
released: nothing when it equals both bounds, `i` with `range_low` raised by 1 when it
equals `range_low` only, `i` with `range_high` lowered by 1 when it equals `range_high`
only, and otherwise `[i.low, internal - 1]` followed by the new node `c` holding
`[internal + 1, i.high]`. -/
def free_replacement (i : aeon_range_node) (internal : Nat) (c : aeon_range_node) :
    List aeon_range_node :=
  if internal = i.range_low ∧ internal = i.range_high then []
  else if internal = i.range_low then [{ i with range_low := internal + 1 }]
  else if internal = i.range_high then [{ i with range_high := internal - 1 }]
  else [{ i with range_high := internal - 1 },
        { c with range_low := internal + 1, range_high := i.range_high }]

/-- A superblock information with one inode shard whose tree is empty and whose region
table has the given `i_range_high`: the state before `aeon_init_inode_inuse_list`. -/
def fresh_inode_sbi (cpus : Nat) (i_range_high : Nat) : aeon_sb_info :=
  { cpus := cpus,
    num_blocks := 0,
    per_list_blocks := 0,
    s_inodes_used_count := 0,
    free_lists := fun _ => single_range_shard 0 0,
    inode_maps := fun _ =>
      { inode_inuse_tree := .nil,
        first_inode_range := none,
        num_range_node_inode := 0,
        art := ⟨i_range_high, 0, 0, 0⟩ } }

/-- Size of a node: `range_high - range_low + 1`. -/
def node_blocks (n : aeon_range_node) : Nat := n.range_high - n.range_low + 1

/-- Bounds of the blocks of shard `index` (`aeon_init_free_list`). -/
def aeon_init_free_list (sbi : aeon_sb_info) (fl : free_list) (index : Nat) : free_list :=
  let per_list_blocks := sbi.num_blocks / sbi.cpus
  let block_start := (per_list_blocks * index) % 2 ^ 64
  { fl with block_start := block_start,
            block_end := u64_dec ((block_start + per_list_blocks) % 2 ^ 64) }

/-- The body of the loop of `aeon_init_blockmap` for shard `i` and the node `blknode`
returned by `aeon_alloc_block_node`: the value of `ret` and the shard. -/
def init_blockmap_shard (sbi : aeon_sb_info) (i : Nat) (blknode : aeon_range_node) :
    Int × free_list :=
  let fl1 := aeon_init_free_list sbi (sbi.free_lists i) i
  let fl2 : free_list :=
    { fl1 with num_free_blocks := to_ulong ((fl1.block_end : Int) - fl1.block_start + 1) }
  let blknode1 : aeon_range_node :=
    { blknode with range_low := fl2.block_start, range_high := fl2.block_end }
  let r := aeon_insert_blocktree fl2.block_free_tree blknode1
  if r.1 ≠ 0 then (r.1, fl2)
  else
    (0, { fl2 with block_free_tree := r.2,
                   first_node := some blknode1.addr,
                   last_node := some blknode1.addr,
                   num_blocknode := 1 })

/-- The loop of `aeon_init_blockmap` over the shards `i, i + 1, ...`, `k` of them left.
`nodes i` is the result of `aeon_alloc_block_node` in iteration `i`; the function
writes through it without a test, so `NULL` gives `none`.  When the insertion fails the
function returns at once. -/
def init_blockmap_loop (nodes : Nat → Option aeon_range_node) :
    Nat → Nat → aeon_sb_info → Option aeon_sb_info
  | 0, _, sbi => some sbi
  | k + 1, i, sbi =>
    match nodes i with
    | none => none
    | some blknode =>
      let r := init_blockmap_shard sbi i blknode
      let sbi1 : aeon_sb_info := { sbi with free_lists := Function.update sbi.free_lists i r.2 }
      if r.1 ≠ 0 then some sbi1
      else init_blockmap_loop nodes k (i + 1) sbi1

/-- Construction of the free lists (`aeon_init_blockmap`). -/
def aeon_init_blockmap (sbi : aeon_sb_info) (nodes : Nat → Option aeon_range_node) :
    Option aeon_sb_info :=
  init_blockmap_loop nodes sbi.cpus 0
    { sbi with per_list_blocks := sbi.num_blocks / sbi.cpus }

/-- The shard that `aeon_init_blockmap` builds from the shard `fl` for index `i`, `p`
blocks per shard and the node `n`: the single free node `[i * p, (i + 1) * p - 1]`. -/
def init_shard_spec (fl : free_list) (i p : Nat) (n : aeon_range_node) : free_list :=
  { fl with block_free_tree := .node .nil { n with range_low := i * p,
                                                   range_high := (i + 1) * p - 1 } .nil,
            first_node := some n.addr,
            last_node := some n.addr,
            num_free_blocks := p,
            num_blocknode := 1,
            block_start := i * p,
            block_end := (i + 1) * p - 1 }

/-! ## Directory entries (`aeon_dir.h`, `dir.c`) -/

/-- BKDR string hash (`BKDRHash`): `hash = hash * seed + (*str++)` in `unsigned long`
arithmetic over the first `length` characters (none when the `int length` is not
positive); a character is its value as a C `char` (an integer), converted to
`unsigned long` by the addition. -/
def BKDRHash (str : List Int) (length : Int) : Nat :=
  (str.take length.toNat).foldl (fun hash c => to_ulong ((hash : Int) * 131 + c)) 0

/-- Insertion of a name into the directory index (`aeon_insert_dir_tree`); `node` is the
result of `aeon_alloc_dir_node` (`none` for `NULL`). -/
def aeon_insert_dir_tree (rb_tree : rb_root) (name : List Int) (namelen : Int)
    (direntry : Nat) (node : Option aeon_range_node) : Int × rb_root :=
  let hash := BKDRHash name namelen
  match node with
  | none => (-ENOMEM, rb_tree)
  | some node =>
    aeon_insert_range_node rb_tree { node with range_low := hash, direntry := direntry }
      node_type.NODE_DIR

/-- Removal of a name from the directory index (`aeon_remove_dir_tree` of `dir.c`). -/
def aeon_remove_dir_tree (rb_tree : rb_root) (name : List Int) (namelen : Int) :
    Int × rb_root :=
  let hash := BKDRHash name namelen
  match aeon_find_range_node rb_tree hash node_type.NODE_DIR with
  | (_, none) => (-EINVAL, rb_tree)
  | (found, some ret_node) =>
    if found = 0 ∨ hash ≠ ret_node.hash then (-EINVAL, rb_tree)
    else (0, rb_erase ret_node.addr rb_tree)

/-- Lookup of a name (`aeon_find_dentry`): the entry, `none` for `NULL`.  The length is
an `unsigned long` here and is converted to the `int` parameter of `BKDRHash`. -/
def aeon_find_dentry (rb_tree : rb_root) (name : List Int) (namelen : Nat) : Option Nat :=
  let hash := BKDRHash name (to_int namelen)
  match aeon_find_range_node rb_tree hash node_type.NODE_DIR with
  | (_, none) => none
  | (found, some ret_node) =>
    if found ≠ 0 ∧ hash = ret_node.hash then some ret_node.direntry else none

/-- The polynomial of a string in 131: the sum of `s[i] * 131 ^ (n - 1 - i)` over the
`n` characters of `s`. -/
def bkdr_poly (s : List Int) : Int :=
  ((List.range s.length).map (fun i => s.getD i 0 * 131 ^ (s.length - 1 - i))).sum

/-! ## Directory entry blocks (`dir.c`, `aeon_dir.h`) -/

/-- Constants and macros that the sources take from `aeon.h`, which is not among them,
and the offsets of the members that `dir.c` and `inode.c` access but whose declaration is
not among the sources (`struct aeon_dentry` of `aeon_dir.h` does not list
`d_next_dentry_block`, `d_prev_dentry_block`, `d_this_dentry_block`, `d_mode`, `d_size`,
`dev.rdev` and `i_blocknr`; `struct aeon_inode` is declared in `aeon_inode.h`). -/
structure aeon_consts where
  AEON_HEAD : Nat
  AEON_SHIFT : Nat
  AEON_D_SHIFT : Nat
  AEON_I_SHIFT : Nat
  AEON_I_NUM_PER_PAGE : Nat
  AEON_INTERNAL_ENTRY : Nat
  MAX_ENTRY : Nat
  AEON_NAME_LEN : Nat
  AEON_PAGES_FOR_DENTRY : Nat
  SEED : Nat
  AEON_DENTRY_CSIZE : Nat
  READDIR_END : Nat
  d_next_dentry_block : Nat
  d_prev_dentry_block : Nat
  d_this_dentry_block : Nat
  d_mode : Nat
  d_size : Nat
  rdev : Nat
  i_blocknr : Nat
  aeon_ino : Nat

/-- Size of the packed `struct aeon_dentry` of `aeon_dir.h`: the sum of the sizes of its
members `name_len`, `valid`, `persisted`, `ino`, `d_pinode_addr`, `d_inode_addr`,
`d_dentry_addr`, `name`, `pad` and `csum`. -/
def sizeof_aeon_dentry (AEON_NAME_LEN : Nat) : Nat :=
  1 + 1 + 1 + 4 + 8 + 8 + 8 + (AEON_NAME_LEN + 1) + 92 + 4

/-- Offsets of the members of the packed `struct aeon_dentry` of `aeon_dir.h`. -/
def offsetof_name_len : Nat := 0
def offsetof_valid : Nat := 1
def offsetof_persisted : Nat := 2
def offsetof_ino : Nat := 3
def offsetof_d_pinode_addr : Nat := 7
def offsetof_d_inode_addr : Nat := 15
def offsetof_d_dentry_addr : Nat := 23
def offsetof_name : Nat := 31
def offsetof_csum (AEON_NAME_LEN : Nat) : Nat := 31 + (AEON_NAME_LEN + 1) + 92

/-- Conversion of an integer to `unsigned int`. -/
def to_u32 (x : Int) : Nat := (x % 2 ^ 32).toNat

/-- Read of one byte of memory. -/
def load8 (m : Nat → Nat) (a : Nat) : Nat := m a % 256

/-- Write of one byte of memory. -/
def store8 (m : Nat → Nat) (a v : Nat) : Nat → Nat :=
  fun x => if x = a then v % 256 else m x

/-- Write of the `w` low bytes of a value in little-endian order (`cpu_to_le`). -/
def store_le : Nat → (Nat → Nat) → Nat → Nat → (Nat → Nat)
  | 0, m, _, _ => m
  | w + 1, m, a, v => store_le w (store8 m a v) (a + 1) (v / 256)

/-- Read of a little-endian value of `w` bytes (`le_to_cpu`). -/
def load_le : Nat → (Nat → Nat) → Nat → Nat
  | 0, _, _ => 0
  | w + 1, m, a => load8 m a + 256 * load_le w m (a + 1)

/-- Kernel `memset`. -/
def memset (m : Nat → Nat) (s c n : Nat) : Nat → Nat :=
  fun x => if s ≤ x ∧ x < s + n then c % 256 else m x

/-- Write of a sequence of bytes from an address on. -/
def store_bytes : (Nat → Nat) → Nat → List Nat → (Nat → Nat)
  | m, _, [] => m
  | m, a, b :: rest => store_bytes (store8 m a b) (a + 1) rest

/-- The `n` bytes of memory from an address on. -/
def load_bytes (m : Nat → Nat) (a n : Nat) : List Nat :=
  (List.range n).map (fun k => load8 m (a + k))

/-- One bit of the kernel's `crc32_le`:
`crc = (crc >> 1) ^ ((crc & 1) ? CRCPOLY_LE : 0)`. -/
def crc32_bit (crc : Nat) : Nat :=
  (crc / 2) ^^^ (if crc % 2 = 1 then 0xedb88320 else 0)

/-- One byte of the kernel's `crc32_le`: `crc ^= *p++` and eight bit steps. -/
def crc32_byte (crc b : Nat) : Nat :=
  crc32_bit (crc32_bit (crc32_bit (crc32_bit (crc32_bit (crc32_bit (crc32_bit
    (crc32_bit (crc ^^^ b))))))))

/-- Kernel `crc32_le(crc, p, len)` on the bytes read from `p`. -/
def crc32_le (crc : Nat) (p : List Nat) : Nat :=
  p.foldl crc32_byte (crc % 2 ^ 32)

/-- Checksum of a directory entry as computed by `is_persisted_dentry` and
`aeon_update_dentry_csum`: `crc32_le(SEED, de, AEON_DENTRY_CSIZE)`. -/
def dentry_crc (cfg : aeon_consts) (m : Nat → Nat) (de : Nat) : Nat :=
  crc32_le cfg.SEED (load_bytes m de cfg.AEON_DENTRY_CSIZE)

/-- Check of the checksum of a directory entry (`is_persisted_dentry`). -/
def is_persisted_dentry (cfg : aeon_consts) (m : Nat → Nat) (de : Nat) : Int :=
  let temp := dentry_crc cfg m de
  if temp ≠ load_le 4 m (de + offsetof_csum cfg.AEON_NAME_LEN) then 0 else 1

/-- Update of the checksum of a directory entry (`aeon_update_dentry_csum`). -/
def aeon_update_dentry_csum (cfg : aeon_consts) (m : Nat → Nat) (de : Nat) : Nat → Nat :=
  store_le 4 m (de + offsetof_csum cfg.AEON_NAME_LEN) (dentry_crc cfg m de)

/-- The dentry map of a directory (`struct aeon_dentry_map`). -/
structure aeon_dentry_map where
  block_dentry : Nat → Nat
  next_map : Nat
  num_dentries : Nat
  num_latest_dentry : Nat
  num_internal_dentries : Nat

/-- The members of the directory's `struct aeon_inode` that `dir.c` accesses, and the
address of the inode. -/
structure aeon_inode where
  addr : Nat
  aeon_ino : Nat
  parent_ino : Nat
  i_pinode_addr : Nat
  i_new : Nat
  i_links_count : Int
  i_dentry_table_block : Nat

/-- The members of `struct aeon_mdata` that `aeon_add_dentry` reads (`pidir` is part of
the state). -/
structure aeon_mdata where
  ino : Nat
  pi_addr : Nat
  mode : Nat
  size : Nat
  rdev : Nat

/-- State that `dir.c` works on: the index `sih->rb_tree` of a directory, its dentry map
`sih->de_info->de_map`, the addresses held by the list `sih->de_info->di->invalid_list`
(head first), the inode `pidir` of the directory, the persistent memory as bytes, the
answers that `aeon_get_new_dentry_block` is still to give and the blocks passed to
`aeon_insert_blocks_into_free_list` so far. -/
structure dir_state where
  rb_tree : rb_root
  de_map : aeon_dentry_map
  invalid_list : List Nat
  pidir : aeon_inode
  pmem : Nat → Nat
  new_dentry_blocks : List (Nat × Nat)
  freed_blocks : List (Nat × Nat)

/-- Kernel `MAX_ERRNO`, `ERR_PTR` and `IS_ERR`. -/
def MAX_ERRNO : Int := 4095
def ERR_PTR (error : Int) : Nat := to_ulong error
def IS_ERR (ptr : Nat) : Bool := decide (to_ulong (-MAX_ERRNO) ≤ ptr)

/-- Modelled from the spec: `aeon_get_new_dentry_block` is not among the sources; the
spec says that the directory requests one new block from the block allocator.  The call
takes the next answer `(blocknr, de_addr)` of the allocator: the number of the block and
the address stored through `de_addr`; with no answer left it returns 0 and stores
nothing. -/
def aeon_get_new_dentry_block (st : dir_state) (de_addr : Nat) : Nat × Nat × dir_state :=
  match st.new_dentry_blocks with
  | [] => (0, de_addr, st)
  | (blocknr, addr) :: rest => (blocknr % 2 ^ 64, addr % 2 ^ 64, { st with new_dentry_blocks := rest })

/-- Allocation of a new block of entries (`aeon_alloc_new_dentry_block`): the returned
pointer, `*d_blocknr` and the state. -/
def aeon_alloc_new_dentry_block (st : dir_state) : Nat × Nat × dir_state :=
  match aeon_get_new_dentry_block st 0 with
  | (d_blocknr, de_addr, st1) =>
    if d_blocknr = 0 then (ERR_PTR (-ENOSPC), d_blocknr, st1)
    else (de_addr, d_blocknr, st1)

/-- Address of the next unused slot of the latest block (`aeon_get_internal_dentry`). -/
def aeon_get_internal_dentry (cfg : aeon_consts) (de_map : aeon_dentry_map) : Nat :=
  let latest_entry := de_map.num_latest_dentry % 2 ^ 32
  let internal_entry := de_map.num_internal_dentries % 2 ^ 32
  let head_addr := (de_map.block_dentry latest_entry <<< cfg.AEON_SHIFT) % 2 ^ 64
  let internal_offset := (internal_entry <<< cfg.AEON_D_SHIFT) % 2 ^ 32
  (cfg.AEON_HEAD + head_addr + internal_offset) % 2 ^ 64

/-- Reuse of the most recently invalidated slot (`aeon_reuse_space_for_dentry`); the list
is not empty when the function is called, `list_first_entry` of an empty list is no
entry. -/
def aeon_reuse_space_for_dentry (st : dir_state) : Option (Nat × dir_state) :=
  match st.invalid_list with
  | [] => none
  | d_addr :: rest => some (d_addr, { st with invalid_list := rest })

/-- Initialisation of the dentry map of a new directory (`aeon_init_dentry_map`);
`de_info` and `adi` tell whether the two `kzalloc` calls succeed. -/
def aeon_init_dentry_map (cfg : aeon_consts) (st : dir_state) (de_info adi : Bool) :
    Int × dir_state :=
  if !de_info then (-ENOMEM, st)
  else if !adi then (-ENOMEM, st)
  else
    let de_map : aeon_dentry_map :=
      { block_dentry := fun _ => 0, next_map := 0, num_dentries := 0,
        num_latest_dentry := 0,
        num_internal_dentries := cfg.AEON_INTERNAL_ENTRY % 2 ^ 32 }
    let pidir := { st.pidir with i_new := 0 }
    (0, { st with de_map := de_map, invalid_list := [], pidir := pidir })

/-- The two bootstrap entries of a new directory (`aeon_init_dentry`). -/
def aeon_init_dentry (cfg : aeon_consts) (st : dir_state) : Int × dir_state :=
  match aeon_get_new_dentry_block st 0 with
  | (blocknr, de_addr, st1) =>
    if blocknr = 0 then (-ENOSPC, st1)
    else
      let pi := st1.pidir
      let pi_addr := to_ulong ((pi.addr : Int) - cfg.AEON_HEAD)
      let de_addr_base := to_ulong ((de_addr : Int) - cfg.AEON_HEAD)
      let direntry := de_addr
      let m1 := store_bytes st1.pmem (direntry + offsetof_name) [46, 0]
      let m2 := store8 m1 (direntry + offsetof_name_len) 2
      let m3 := store_le 4 m2 (direntry + offsetof_ino) pi.aeon_ino
      let m4 := store_le 8 m3 (direntry + offsetof_d_pinode_addr) pi.i_pinode_addr
      let m5 := store_le 8 m4 (direntry + offsetof_d_inode_addr) pi_addr
      let m6 := store_le 8 m5 (direntry + offsetof_d_dentry_addr) de_addr_base
      let m7 := store8 m6 (direntry + offsetof_valid) 1
      let m8 := store8 m7 (direntry + offsetof_persisted) 1
      let m9 := aeon_update_dentry_csum cfg m8 direntry
      let dotdot := (de_addr + (1 <<< cfg.AEON_D_SHIFT) % 2 ^ 32) % 2 ^ 64
      let n1 := store_bytes m9 (dotdot + offsetof_name) [46, 46, 0]
      let n2 := store8 n1 (dotdot + offsetof_name_len) 3
      let n3 := store_le 4 n2 (dotdot + offsetof_ino) pi.parent_ino
      let n4 := store8 n3 (dotdot + offsetof_persisted) 1
      let n5 := store8 n4 (dotdot + offsetof_valid) 1
      let n6 := aeon_update_dentry_csum cfg n5 dotdot
      let pi1 := { pi with i_dentry_table_block := blocknr }
      let block_dentry := Function.update st1.de_map.block_dentry 0 blocknr
      let de_map := { st1.de_map with
        num_internal_dentries := 2, num_dentries := 2, block_dentry := block_dentry }
      (0, { st1 with pmem := n6, pidir := pi1, de_map := de_map })

/-- Test of the list of invalidated slots (`isInvalidSpace`). -/
def isInvalidSpace (st : dir_state) : Int :=
  if st.invalid_list.isEmpty then 0 else 1

/-- Linking of a new block of entries (`aeon_register_dentry_to_map`). -/
def aeon_register_dentry_to_map (cfg : aeon_consts) (st : dir_state) (blocknr : Nat) :
    dir_state :=
  let global := st.de_map.num_latest_dentry
  let de := (cfg.AEON_HEAD + (st.de_map.block_dentry global <<< cfg.AEON_SHIFT) % 2 ^ 64)
    % 2 ^ 64
  let m1 := store_le 8 st.pmem (de + cfg.d_next_dentry_block) blocknr
  let de1 := (cfg.AEON_HEAD + (blocknr <<< cfg.AEON_SHIFT) % 2 ^ 64) % 2 ^ 64
  let m2 := store_le 8 m1 (de1 + cfg.d_prev_dentry_block) (st.de_map.block_dentry global)
  let global1 := (global + 1) % 2 ^ 32
  let block_dentry := Function.update st.de_map.block_dentry global1 blocknr
  let de_map := { st.de_map with
    num_latest_dentry := global1, block_dentry := block_dentry, num_internal_dentries := 1 }
  { st with pmem := m2, de_map := de_map }

/-- The end of `aeon_get_dentry_space`: `(*direntry)->valid = 1` and
`de_map->num_dentries++`. -/
def get_dentry_space_done (st : dir_state) (direntry : Nat) : Int × Nat × dir_state :=
  let m := store8 st.pmem (direntry + offsetof_valid) 1
  let de_map := { st.de_map with num_dentries := (st.de_map.num_dentries + 1) % 2 ^ 64 }
  (0, direntry, { st with pmem := m, de_map := de_map })

/-- A slot for a new entry (`aeon_get_dentry_space`): the return value, `*direntry`
(`NULL`, which is 0, as `aeon_add_dentry` passes it, when it is not assigned) and the
state.  In the last branch the list of invalidated slots is not empty, so that
`aeon_reuse_space_for_dentry` has an entry to return. -/
def aeon_get_dentry_space (cfg : aeon_consts) (st : dir_state) : Int × Nat × dir_state :=
  if isInvalidSpace st = 0 then
    if st.de_map.num_internal_dentries = cfg.AEON_INTERNAL_ENTRY then
      if st.de_map.num_latest_dentry ≥ to_u32 ((cfg.MAX_ENTRY : Int) - 1) then
        (-EMLINK, 0, st)
      else
        match aeon_alloc_new_dentry_block st with
        | (direntry, blocknr, st1) =>
          if IS_ERR direntry then (-ENOSPC, direntry, st1)
          else get_dentry_space_done (aeon_register_dentry_to_map cfg st1 blocknr) direntry
    else
      let direntry := aeon_get_internal_dentry cfg st.de_map
      let de_map := { st.de_map with
        num_internal_dentries := (st.de_map.num_internal_dentries + 1) % 2 ^ 32 }
      get_dentry_space_done { st with de_map := de_map } direntry
  else
    match aeon_reuse_space_for_dentry st with
    | none => (0, 0, st)
    | some (direntry, st1) => get_dentry_space_done st1 direntry

/-- The bytes that `strscpy(dest, src, count)` stores: the characters of `src` before
its terminating zero, at most `count - 1` of them, and a zero. -/
def strscpy_bytes (src : List Int) (count : Nat) : List Nat :=
  if count = 0 then []
  else (((src.map (fun c => (c % 256).toNat)).takeWhile (fun b => b != 0)).take (count - 1))
    ++ [0]

/-- Filling of a new entry (`aeon_fill_dentry_data`); the members that `aeon_dir.h` does
not list are taken as 8 bytes (`d_this_dentry_block`), 2 bytes (`d_mode`, `d_size`) and
4 bytes (`dev.rdev`). -/
def aeon_fill_dentry_data (cfg : aeon_consts) (st : dir_state) (de : Nat) (am : aeon_mdata)
    (name : List Int) (namelen : Int) : dir_state :=
  let i_addr_offset := to_ulong ((am.pi_addr : Int) - cfg.AEON_HEAD)
  let d_addr_offset := to_ulong ((de : Int) - cfg.AEON_HEAD)
  let i_paddr_offset := to_ulong ((st.pidir.addr : Int) - cfg.AEON_HEAD)
  let m1 := store8 st.pmem (de + offsetof_name_len) (namelen % 256).toNat
  let m2 := store_le 4 m1 (de + offsetof_ino) am.ino
  let m3 := store_le 8 m2 (de + offsetof_d_pinode_addr) i_paddr_offset
  let m4 := store_le 8 m3 (de + offsetof_d_inode_addr) i_addr_offset
  let m5 := store_le 8 m4 (de + offsetof_d_dentry_addr) d_addr_offset
  let m6 := store_bytes m5 (de + offsetof_name) (strscpy_bytes name (to_ulong (namelen + 1)))
  let m7 := store_le 8 m6 (de + cfg.d_this_dentry_block) (d_addr_offset >>> cfg.AEON_SHIFT)
  let m8 := store_le 2 m7 (de + cfg.d_mode) am.mode
  let m9 := store_le 2 m8 (de + cfg.d_size) am.size
  let m10 := store_le 4 m9 (de + cfg.rdev) am.rdev
  let m11 := store8 m10 (de + offsetof_valid) 1
  let m12 := store8 m11 (de + offsetof_persisted) 1
  { st with pmem := aeon_update_dentry_csum cfg m12 de }

/-- Invalidation of an entry (`aeon_release_dentry_block`); the store through a `NULL`
pointer has no defined behaviour. -/
def aeon_release_dentry_block (cfg : aeon_consts) (st : dir_state) (de : Nat) :
    Option dir_state :=
  if de = 0 then none
  else
    let m := store8 st.pmem (de + offsetof_valid) 0
    some { st with pmem := aeon_update_dentry_csum cfg m de }

/-- The part of `aeon_add_dentry` after the bootstrap of a new directory. -/
def add_dentry_entry (cfg : aeon_consts) (st : dir_state) (am : aeon_mdata)
    (name : List Int) (namelen : Int) (node : Option aeon_range_node) : Int × dir_state :=
  match aeon_get_dentry_space cfg st with
  | (err, new_direntry, st1) =>
    if err ≠ 0 then (err, st1)
    else
      let st2 := aeon_fill_dentry_data cfg st1 new_direntry am name namelen
      match aeon_insert_dir_tree st2.rb_tree name namelen new_direntry node with
      | (err1, tree) =>
        if err1 ≠ 0 then (err1, { st2 with rb_tree := tree })
        else
          let pidir := { st2.pidir with i_links_count := st2.pidir.i_links_count + 1 }
          (0, { st2 with rb_tree := tree, pidir := pidir })

/-- Addition of a name to a directory (`aeon_add_dentry`); `de_info` and `adi` tell
whether the allocations of `aeon_init_dentry_map` succeed, `node` is the result of
`aeon_alloc_dir_node`.  The result is `none` when the function stores through the `NULL`
pointer `new_direntry` (label `out1`). -/
def aeon_add_dentry (cfg : aeon_consts) (st : dir_state) (am : aeon_mdata)
    (name : List Int) (namelen : Int) (de_info adi : Bool) (node : Option aeon_range_node) :
    Option (Int × dir_state) :=
  if namelen = 0 ∨ namelen ≥ cfg.AEON_NAME_LEN then some (-EINVAL, st)
  else if st.pidir.i_new ≠ 0 then
    match aeon_init_dentry_map cfg st de_info adi with
    | (err, st1) =>
      if err ≠ 0 then some (err, st1)
      else
        match aeon_init_dentry cfg st1 with
        | (err1, st2) =>
          if err1 ≠ 0 then (aeon_release_dentry_block cfg st2 0).map (fun st3 => (err1, st3))
          else some (add_dentry_entry cfg st2 am name namelen node)
  else some (add_dentry_entry cfg st am name namelen node)

/-- Removal of a name from a directory (`aeon_remove_dentry`); `len` is
`dentry->d_name.len`, `adi` tells whether the `kmalloc` succeeds. -/
def aeon_remove_dentry (cfg : aeon_consts) (st : dir_state) (name : List Int) (len : Nat)
    (de : Nat) (adi : Bool) : Int × dir_state :=
  if len % 2 ^ 32 = 0 then (-EINVAL, st)
  else if !adi then (-ENOMEM, st)
  else
    match aeon_remove_dir_tree st.rb_tree name (to_int (len % 2 ^ 32 : Nat)) with
    | (err, tree) =>
      if err ≠ 0 then (err, st)
      else
        let de_map := { st.de_map with num_dentries := u64_dec st.de_map.num_dentries }
        let m1 := store8 st.pmem (de + offsetof_valid) 0
        let m2 := memset m1 (de + offsetof_name) 0 (load8 m1 (de + offsetof_name_len) + 1)
        let m3 := aeon_update_dentry_csum cfg m2 de
        let pidir := { st.pidir with i_links_count := st.pidir.i_links_count - 1 }
        (0, { st with rb_tree := tree, invalid_list := de :: st.invalid_list,
                      de_map := de_map, pmem := m3, pidir := pidir })

/-- Successive calls of `aeon_remove_dentry`, one for each name, length and record: the
return values and the final state. -/
def remove_dentries (cfg : aeon_consts) :
    dir_state → List (List Int × Nat × Nat) → List Int × dir_state
  | st, [] => ([], st)
  | st, (name, len, de) :: rest =>
    let r := aeon_remove_dentry cfg st name len de true
    let rs := remove_dentries cfg r.2 rest
    (r.1 :: rs.1, rs.2)

/-- Successive calls of `aeon_get_dentry_space`: the return values with the slots
returned, and the final state. -/
def get_dentry_spaces (cfg : aeon_consts) : dir_state → Nat → List (Int × Nat) × dir_state
  | st, 0 => ([], st)
  | st, k + 1 =>
    let r := aeon_get_dentry_space cfg st
    let rs := get_dentry_spaces cfg r.2.2 k
    ((r.1, r.2.1) :: rs.1, rs.2)

/-- The dentry-map states reached from a bootstrapped directory (`aeon_init_dentry_map`
followed by a successful `aeon_init_dentry`) by calls of `aeon_get_dentry_space` and
`aeon_remove_dentry`. -/
inductive dentry_reachable (cfg : aeon_consts) : dir_state → Prop
  | init (st : dir_state) (de_info adi : Bool)
      (h1 : (aeon_init_dentry_map cfg st de_info adi).1 = 0)
      (h2 : (aeon_init_dentry cfg (aeon_init_dentry_map cfg st de_info adi).2).1 = 0) :
      dentry_reachable cfg (aeon_init_dentry cfg (aeon_init_dentry_map cfg st de_info adi).2).2
  | get_space (st : dir_state) (h : dentry_reachable cfg st) :
      dentry_reachable cfg (aeon_get_dentry_space cfg st).2.2
  | remove (st : dir_state) (name : List Int) (len de : Nat) (adi : Bool)
      (h : dentry_reachable cfg st) :
      dentry_reachable cfg (aeon_remove_dentry cfg st name len de adi).2

/-- An example configuration: 4096-byte blocks of sixteen 256-byte entries, names of up
to 127 characters, the members that `aeon_dir.h` does not list placed in the padding. -/
def example_consts : aeon_consts :=
  { AEON_HEAD := 1048576, AEON_SHIFT := 12, AEON_D_SHIFT := 8, AEON_I_SHIFT := 8,
    AEON_I_NUM_PER_PAGE := 16, AEON_INTERNAL_ENTRY := 16, MAX_ENTRY := 4,
    AEON_NAME_LEN := 127, AEON_PAGES_FOR_DENTRY := 1, SEED := 0,
    AEON_DENTRY_CSIZE := 251, READDIR_END := 4294967295,
    d_next_dentry_block := 160, d_prev_dentry_block := 168, d_this_dentry_block := 176,
    d_mode := 184, d_size := 186, rdev := 188, i_blocknr := 192, aeon_ino := 0 }

/-- An example directory inode. -/
def example_pidir : aeon_inode :=
  { addr := 1048576 + 8192, aeon_ino := 5, parent_ino := 1, i_pinode_addr := 4096,
    i_new := 1, i_links_count := 2, i_dentry_table_block := 0 }

/-- An example: a new directory before its first entry, with zeroed memory and an
allocator that will answer with the blocks 16 and 17. -/
def example_new_dir : dir_state :=
  { rb_tree := .nil,
    de_map := { block_dentry := fun _ => 0, next_map := 0, num_dentries := 0,
                num_latest_dentry := 0, num_internal_dentries := 0 },
    invalid_list := [], pidir := example_pidir, pmem := fun _ => 0,
    new_dentry_blocks := [(16, 1048576 + 16 * 4096), (17, 1048576 + 17 * 4096)],
    freed_blocks := [] }

/-- The example directory after its bootstrap. -/
def example_dir : dir_state :=
  (aeon_init_dentry example_consts (aeon_init_dentry_map example_consts example_new_dir true true).2).2

/-- The example directory after the names "a" and "b" were added with
`aeon_add_dentry`; their records are the slots 2 and 3 of block 16, at the addresses
1114624 and 1114880. -/
def example_dir_ab : dir_state :=
  (add_dentry_entry example_consts
    (add_dentry_entry example_consts example_dir ⟨7, 1048576 + 12288, 0, 0, 0⟩ [97] 1
      (some ⟨1, 0, 0, 0⟩)).2
    ⟨8, 1048576 + 12544, 0, 0, 0⟩ [98] 1 (some ⟨2, 0, 0, 0⟩)).2

/-- The example directory after the name `\x01d` (hash 231) was added; its record is
the slot 2 of block 16, at the address 1114624. -/
def example_dir_one : dir_state :=
  (add_dentry_entry example_consts example_dir ⟨7, 1048576 + 12288, 0, 0, 0⟩ [1, 100] 2
    (some ⟨1, 0, 0, 0⟩)).2

/-- An example: a directory whose only block, 16, is full; the first record of the
block, at 1114112, is marked persisted and carries the checksum that
`aeon_update_dentry_csum` computed for it; the allocator will answer with block 17. -/
def example_dir_full : dir_state :=
  { rb_tree := .nil,
    de_map := { block_dentry := fun i => if i = 0 then 16 else 0, next_map := 0,
                num_dentries := 16, num_latest_dentry := 0, num_internal_dentries := 16 },
    invalid_list := [],
    pidir := { example_pidir with i_new := 0, i_dentry_table_block := 16 },
    pmem := aeon_update_dentry_csum example_consts
      (store8 (fun _ => 0) (1114112 + offsetof_persisted) 1) 1114112,
    new_dentry_blocks := [(17, 1048576 + 17 * 4096)],
    freed_blocks := [] }

/-- Modelled from the spec: `aeon_insert_blocks_into_free_list` is not among the sources;
the spec says that the block is returned to the block allocator.  The call is recorded
in `freed_blocks`; `free_err` gives its return value for a block number. -/
def aeon_insert_blocks_into_free_list (st : dir_state) (blocknr num : Nat)
    (free_err : Nat → Int) : Int × dir_state :=
  (free_err blocknr, { st with freed_blocks := st.freed_blocks ++ [(blocknr, num)] })

/-- The inner loop of `aeon_free_cached_dentry_blocks`: whether none of the
`AEON_INTERNAL_ENTRY` records of a block is valid (the value of `free` after the loop). -/
def dentry_block_free (cfg : aeon_consts) (m : Nat → Nat) (blocknr : Nat) : Bool :=
  (List.range cfg.AEON_INTERNAL_ENTRY).all (fun internal =>
    let de := (cfg.AEON_HEAD + (blocknr <<< cfg.AEON_SHIFT) % 2 ^ 64
      + (internal <<< cfg.AEON_D_SHIFT) % 2 ^ 32) % 2 ^ 64
    load8 m (de + offsetof_valid) == 0)

/-- The outer loop of `aeon_free_cached_dentry_blocks` over the values of `global` still
to visit. -/
def free_cached_loop (cfg : aeon_consts) (free_err : Nat → Int) :
    List Nat → dir_state → Int × dir_state
  | [], st => (0, st)
  | global :: rest, st =>
    let blocknr := st.de_map.block_dentry global
    if dentry_block_free cfg st.pmem blocknr then
      match aeon_insert_blocks_into_free_list st blocknr cfg.AEON_PAGES_FOR_DENTRY free_err with
      | (err, st1) =>
        if err ≠ 0 then (-EINVAL, st1) else free_cached_loop cfg free_err rest st1
    else free_cached_loop cfg free_err rest st

/-- Release of the blocks without a valid record (`aeon_free_cached_dentry_blocks`) of a
directory that has a dentry map: `global` runs from 1 to `num_latest_dentry`. -/
def aeon_free_cached_dentry_blocks (cfg : aeon_consts) (st : dir_state)
    (free_err : Nat → Int) : Int × dir_state :=
  free_cached_loop cfg free_err
    ((List.range st.de_map.num_latest_dentry).map (fun g => g + 1)) st

/-- The blocks listed in `block_dentry[0 .. num_latest_dentry]`. -/
def listed_blocks (de_map : aeon_dentry_map) : List Nat :=
  (List.range (de_map.num_latest_dentry + 1)).map de_map.block_dentry

/-- The example directory with block 16 full, after the name "a" was added (its record is
the first of the new block 17, at 1118208) and removed again. -/
def example_dir_emptied : dir_state :=
  (aeon_remove_dentry example_consts
    (add_dentry_entry example_consts example_dir_full ⟨7, 1048576 + 12288, 0, 0, 0⟩ [97] 1
      (some ⟨1, 0, 0, 0⟩)).2 [97] 1 1118208 true).2

/-- The value of a byte as a `char` (signed, as on x86). -/
def char_of_byte (b : Nat) : Int :=
  if b % 256 < 128 then ((b % 256 : Nat) : Int) else ((b % 256 : Nat) : Int) - 256

/-- Address of an inode (`aeon_get_inode_address` of `inode.c`): the return value and
`*pi_addr`; `virt_addr` and `cpus` are the members of `sbi`.  The remainder by
`sbi->cpus` has no defined value for 0 CPUs. -/
def aeon_get_inode_address (cfg : aeon_consts) (virt_addr cpus : Nat) (m : Nat → Nat)
    (ino de : Nat) : Option (Int × Nat) :=
  if cpus % 2 ^ 32 = 0 then none
  else
    let i_blocknr := load_le 8 m (de + cfg.i_blocknr)
    let cpuid0 := to_int ((ino % (cpus % 2 ^ 32) : Nat) : Int)
    let cpuid := if cpuid0 ≥ to_int cpus then cpuid0 - to_int cpus else cpuid0
    let internal_ino := (to_u32 ((ino : Int) - cpuid) / (cpus % 2 ^ 32))
      % cfg.AEON_I_NUM_PER_PAGE
    let pi_addr := (virt_addr + (i_blocknr <<< cfg.AEON_SHIFT) % 2 ^ 64
      + (internal_ino <<< cfg.AEON_I_SHIFT) % 2 ^ 64) % 2 ^ 64
    if ino ≠ load_le 4 m (pi_addr + cfg.aeon_ino) then some (-EINVAL, pi_addr)
    else some (0, pi_addr)

/-- The node at which `aeon_readdir` starts (the value of `temp` before the loop) for a
position other than `READDIR_END`. -/
def readdir_start (tree : rb_root) (pos : Nat) : Option aeon_range_node :=
  if pos = 0 then rb_first tree
  else
    match aeon_find_range_node tree pos node_type.NODE_DIR with
    | (_, none) => none
    | (found, some curr) => if found ≠ 0 ∧ pos = curr.hash then some curr else none

/-- The loop of `aeon_readdir`, for at most `fuel` passes through its body: the return
value, `ctx->pos` and the entries passed to `dir_emit` so far; `none` when the loop has
not ended after `fuel` passes.  `dir_emit` tells for an entry whether the VFS accepts it. -/
def readdir_loop (cfg : aeon_consts) (virt_addr cpus : Nat) (m : Nat → Nat) (tree : rb_root)
    (dir_emit : Nat → Bool) :
    Nat → Option aeon_range_node → List Nat → Option (Int × Nat × List Nat)
  | 0, some _, _ => none
  | _, none, emitted => some (0, cfg.READDIR_END, emitted)
  | fuel + 1, some curr, emitted =>
    let entry := curr.direntry
    let name_len := load8 m (entry + offsetof_name_len)
    let name := (load_bytes m (entry + offsetof_name) name_len).map char_of_byte
    let pos := BKDRHash name name_len
    let ino := load_le 4 m (entry + offsetof_ino)
    if ino = 0 then readdir_loop cfg virt_addr cpus m tree dir_emit fuel (some curr) emitted
    else
      match aeon_get_inode_address cfg virt_addr cpus m ino entry with
      | none => none
      | some (err, _) =>
        if err ≠ 0 then some (err, cfg.READDIR_END, emitted)
        else if !dir_emit entry then some (0, pos, emitted)
        else readdir_loop cfg virt_addr cpus m tree dir_emit fuel (rb_next tree curr.addr)
          (emitted ++ [entry])

/-- Iteration over a directory (`aeon_readdir`) with `ctx->pos = pos`; `dots` is the
result of `dir_emit_dots`. -/
def aeon_readdir (cfg : aeon_consts) (virt_addr cpus : Nat) (m : Nat → Nat) (tree : rb_root)
    (dots : Bool) (dir_emit : Nat → Bool) (fuel pos : Nat) : Option (Int × Nat × List Nat) :=
  if pos ≠ 0 ∧ pos = cfg.READDIR_END then some (0, pos, [])
  else if !dots then some (-EINVAL, pos, [])
  else readdir_loop cfg virt_addr cpus m tree dir_emit fuel (readdir_start tree pos) []

/-- The example directory after a name was added with the inode number 0. -/
def example_dir_ino0 : dir_state :=
  (add_dentry_entry example_consts example_dir ⟨0, 1048576 + 12288, 0, 0, 0⟩ [97] 1
    (some ⟨1, 0, 0, 0⟩)).2

/-- A record that `aeon_readdir` passes to the VFS and steps over: its `ino` is not 0,
`aeon_get_inode_address` succeeds for it and `dir_emit` accepts it. -/
def record_listable (cfg : aeon_consts) (virt_addr cpus : Nat) (m : Nat → Nat)
    (dir_emit : Nat → Bool) (entry : Nat) : Prop :=
  load_le 4 m (entry + offsetof_ino) ≠ 0 ∧
  (∃ a, aeon_get_inode_address cfg virt_addr cpus m (load_le 4 m (entry + offsetof_ino)) entry
    = some (0, a)) ∧
  dir_emit entry = true

/-- An example index of the names "a" and "b" with records at 1000 and 2000. -/
def example_listing_tree : rb_root :=
  .node .nil ⟨1, 97, 0, 1000⟩ (.node .nil ⟨2, 98, 0, 2000⟩ .nil)

/-- An example memory for the index of "a" and "b": the records hold the inode numbers 7
and 8, and the inodes 7 and 8 of the table at 4096 (4 CPUs, 256 bytes an inode) hold
their numbers. -/
def example_listing_mem : Nat → Nat :=
  fun x => if x = 1003 then 7 else if x = 2003 then 8 else if x = 4352 then 7
    else if x = 4608 then 8 else 0

/-! ## Shard locks -/

/-- An acquisition or a release of the lock of a shard (`spin_lock` and `spin_unlock` of
`free_list->s_lock`, `mutex_lock` and `mutex_unlock` of `inode_map->inode_table_mutex`). -/
inductive lock_event where
  | lock (shard : Nat) : lock_event
  | unlock (shard : Nat) : lock_event
  deriving DecidableEq, Repr

/-- The shard locks held after a sequence of lock events, starting with the locks `held`;
`none` if the sequence acquires a lock while a lock is held, or releases a lock that is
not held. -/
def locks_held : List Nat → List lock_event → Option (List Nat)
  | held, [] => some held
  | held, .lock i :: rest => if held = [] then locks_held [i] rest else none
  | held, .unlock i :: rest => if i ∈ held then locks_held (held.erase i) rest else none

/-- The lock events of the `retry:` part of `aeon_new_blocks`, up to the label `alloc`;
the first argument is `2 - retried`. -/
def new_blocks_retry_locks (sbi : aeon_sb_info) (num_blocks : Nat) :
    Nat → Nat → List lock_event
  | 0, cpuid => [.lock cpuid]
  | k + 1, cpuid =>
    if not_enough_blocks (sbi.free_lists cpuid) num_blocks then
      [.lock cpuid, .unlock cpuid]
        ++ new_blocks_retry_locks sbi num_blocks k (aeon_get_candidate_free_list sbi)
    else [.lock cpuid]

/-- The lock events of `aeon_new_blocks`: those of the `retry:` part and the
`spin_unlock` after the allocation on the shard chosen. -/
def aeon_new_blocks_locks (sbi : aeon_sb_info) (num : Nat) (cpuid : Option Nat)
    (numblocks : Nat) (this_cpu : Nat) : List lock_event :=
  let num_blocks := (num * numblocks) % 2 ^ 64
  let cpuid0 := match cpuid with
    | none => this_cpu
    | some c => c
  new_blocks_retry_locks sbi num_blocks 2 cpuid0
    ++ [.unlock (new_blocks_retry sbi num_blocks 2 cpuid0)]

/-- Address of an inode in the current inode block of a shard (`search_imem_addr`);
`virt_addr` is `sbi->virt_addr` and `curr_i_blocknr` the member of the shard. -/
def search_imem_addr (cfg : aeon_consts) (virt_addr cpus curr_i_blocknr ino : Nat) : Nat :=
  let cpuid0 := to_int ((ino % cpus : Nat) : Int)
  let cpuid := if cpuid0 ≥ to_int cpus then cpuid0 - to_int cpus else cpuid0
  let internal_ino := (to_ulong ((ino : Int) - cpuid) / cpus) % cfg.AEON_I_NUM_PER_PAGE
  (virt_addr + (curr_i_blocknr <<< cfg.AEON_SHIFT) % 2 ^ 64
    + (internal_ino <<< cfg.AEON_I_SHIFT) % 2 ^ 64) % 2 ^ 64

/-- Address of a new inode (`aeon_get_new_inode_address`): the return value, `*pi_addr`
and `*i_blocknr`.  `new_inode_block` is the value returned by `aeon_get_new_inode_block`,
which is not among the sources. -/
def aeon_get_new_inode_address (cfg : aeon_consts) (virt_addr cpus curr_i_blocknr : Nat)
    (free_ino pi_addr new_inode_block : Nat) : Int × Nat × Nat :=
  if new_inode_block % 2 ^ 64 = 0 then (0, pi_addr, 0)
  else
    let addr := search_imem_addr cfg virt_addr cpus curr_i_blocknr free_ino
    if addr = 0 then (0, addr, new_inode_block % 2 ^ 64)
    else (1, addr, new_inode_block % 2 ^ 64)

/-- Result of `aeon_new_aeon_inode`: the inode number returned, `*pi_addr`, `*i_blocknr`,
`aeon_sb->s_map_id`, the shards and the lock events of the call. -/
structure new_inode_result where
  ino : Nat
  pi_addr : Nat
  i_blocknr : Nat
  s_map_id : Nat
  sbi : aeon_sb_info
  locks : List lock_event

/-- Allocation of an inode (`aeon_new_aeon_inode`) with the events on the shard's
`inode_table_mutex`.  `pi_addr` and `i_blocknr` are the values of `*pi_addr` and
`*i_blocknr` at entry; `none` when `sbi->cpus` is 0 or `aeon_alloc_unused_inode` reads
through a dangling `first_inode_range`. -/
def aeon_new_aeon_inode (cfg : aeon_consts) (sbi : aeon_sb_info) (s_map_id : Nat)
    (virt_addr curr_i_blocknr new_inode_block pi_addr i_blocknr : Nat) :
    Option new_inode_result :=
  if sbi.cpus = 0 then none
  else
    let map_id := s_map_id
    let s_map_id1 := (s_map_id + 1) % sbi.cpus
    match aeon_alloc_unused_inode sbi map_id 0 map_id with
    | none => none
    | some r =>
      if r.ret ≠ 0 then
        some ⟨0, pi_addr, i_blocknr, s_map_id1, r.sbi, [.lock map_id, .unlock map_id]⟩
      else
        match aeon_get_new_inode_address cfg virt_addr sbi.cpus curr_i_blocknr r.ino pi_addr
            new_inode_block with
        | (ret, pi_addr1, i_blocknr1) =>
          if ret = 0 then
            some ⟨0, pi_addr1, i_blocknr1, s_map_id1, r.sbi,
              [.lock map_id, .unlock map_id, .unlock map_id]⟩
          else
            some ⟨r.ino, pi_addr1, i_blocknr1, s_map_id1, r.sbi,
              [.lock map_id, .unlock map_id]⟩

/-- An example: 4 inode shards, each holding the ranges `[0, 0]` and `[2, 2 ^ 30]` in
the nodes at the addresses 1 and 2, `first_inode_range` designating the lowest node. -/
def example_gap_sbi : aeon_sb_info :=
  uniform_sbi 4 (single_range_shard 0 0)
    (inode_shard_of (.node .nil ⟨1, 0, 0, 0⟩ (.node .nil ⟨2, 2, 1073741824, 0⟩ .nil)) 2)

/-- Invariant of the tree of an inode shard: the ranges are ordered and disjoint with
`range_low <= range_high`, the node objects are distinct, and every `range_high` is
below `2 ^ 32 - 1`. -/
def inode_tree_inv (l : List aeon_range_node) : Prop :=
  ranges_ordered l ∧ (l.map aeon_range_node.addr).Nodup ∧ ∀ n ∈ l, n.range_high < 2 ^ 32 - 1

/-- Total number of internal inode numbers covered by the range nodes of all shards. -/
def total_covered (sbi : aeon_sb_info) : Nat :=
  ((List.range sbi.cpus).map
    (fun k => sum_blocks (sbi.inode_maps k).inode_inuse_tree.toList)).sum

/-- The states of the inode shards reached from the state built by
`aeon_init_inode_inuse_list` (on empty trees, with region tables whose `i_range_high` is
not `2 ^ 32 - 1`) by calls of `aeon_alloc_unused_inode` (that do not read through a
dangling `first_inode_range`) and of `aeon_free_inuse_inode` (whose new node, if it
allocates one, is a new object). -/
inductive inode_reachable : aeon_sb_info → Prop
  | init (sbi0 : aeon_sb_info) (nodes : Nat → Option aeon_range_node)
      (hempty : ∀ k, (sbi0.inode_maps k).inode_inuse_tree = .nil)
      (hhigh : ∀ k, k < sbi0.cpus → (sbi0.inode_maps k).art.i_range_high % 2 ^ 32 < 2 ^ 32 - 1)
      (hret : (aeon_init_inode_inuse_list sbi0 nodes).1 = 0) :
      inode_reachable (aeon_init_inode_inuse_list sbi0 nodes).2
  | alloc (sbi : aeon_sb_info) (cpuid ino map_id : Nat) (r : alloc_inode_result)
      (h : inode_reachable sbi)
      (hr : aeon_alloc_unused_inode sbi cpuid ino map_id = some r) :
      inode_reachable r.sbi
  | free (sbi : aeon_sb_info) (ino : Nat) (curr_node : Option aeon_range_node) (ret : Int)
      (h : inode_reachable sbi)
      (hfresh : ∀ c, curr_node = some c →
        c.addr ∉ rb_addrs (sbi.inode_maps (ino % sbi.cpus)).inode_inuse_tree) :
      inode_reachable (aeon_free_inuse_inode sbi ino curr_node ret).2

/-- The states reached from a state `s` by successful calls: `aeon_alloc_unused_inode`
on a shard that returns 0, and `aeon_free_inuse_inode` of a number that is in use, whose
node allocation (should it need one) succeeds with a new object. -/
inductive inode_run (s : aeon_sb_info) : aeon_sb_info → Prop
  | start : inode_run s s
  | alloc (sbi : aeon_sb_info) (cpuid ino map_id : Nat) (r : alloc_inode_result)
      (h : inode_run s sbi) (hmap : map_id < sbi.cpus)
      (hr : aeon_alloc_unused_inode sbi cpuid ino map_id = some r) (hret : r.ret = 0) :
      inode_run s r.sbi
  | free (sbi : aeon_sb_info) (ino : Nat) (c : aeon_range_node) (ret : Int)
      (h : inode_run s sbi) (hcpus : 0 < sbi.cpus)
      (hfresh : c.addr ∉ rb_addrs (sbi.inode_maps (ino % sbi.cpus)).inode_inuse_tree)
      (hused : covers (sbi.inode_maps (ino % sbi.cpus)).inode_inuse_tree.toList
        (ino / sbi.cpus)) :
      inode_run s (aeon_free_inuse_inode sbi ino (some c) ret).2

/-- An example: one inode shard holding the range `[0, 5]`, with 6 inodes counted as
used. -/
def example_count_sbi : aeon_sb_info :=
  { uniform_sbi 1 (single_range_shard 0 0)
      (inode_shard_of (.node .nil ⟨1, 0, 5, 0⟩ .nil) 1) with s_inodes_used_count := 6 }

/-- An example: one inode shard holding the range `[0, 2 ^ 32 - 1]`, with `2 ^ 32` inodes
counted as used. -/
def example_full_sbi : aeon_sb_info :=
  { uniform_sbi 1 (single_range_shard 0 0)
      (inode_shard_of (.node .nil ⟨1, 0, 4294967295, 0⟩ .nil) 1) with
    s_inodes_used_count := 4294967296 }

/-! ## Slots handed out by a directory -/

/-- Address of the slot `slot` of the block `blocknr`, as `aeon_get_internal_dentry`
computes it. -/
def slot_addr (cfg : aeon_consts) (blocknr slot : Nat) : Nat :=
  (cfg.AEON_HEAD + (blocknr <<< cfg.AEON_SHIFT) % 2 ^ 64
    + (slot <<< cfg.AEON_D_SHIFT) % 2 ^ 32) % 2 ^ 64

/-- The slots in use according to the counters of a dentry map, the two bootstrap slots
apart: the slots of the blocks before the latest one, and the first
`num_internal_dentries` slots of the latest block. -/
def handed_out (cfg : aeon_consts) (de_map : aeon_dentry_map) (x : Nat) : Prop :=
  ∃ g j, g ≤ de_map.num_latest_dentry ∧
    j < (if g = de_map.num_latest_dentry then de_map.num_internal_dentries
      else cfg.AEON_INTERNAL_ENTRY) ∧
    ¬ (g = 0 ∧ j < 2) ∧ x = slot_addr cfg (de_map.block_dentry g) j

/-- The slots of the blocks below `B` have distinct addresses. -/
def slots_distinct (cfg : aeon_consts) (B : Nat) : Prop :=
  ∀ b b1 j j1, b < B → b1 < B → j < cfg.AEON_INTERNAL_ENTRY → j1 < cfg.AEON_INTERNAL_ENTRY →
    slot_addr cfg b j = slot_addr cfg b1 j1 → b = b1 ∧ j = j1

/-- The next answer of the block allocator, if there is one, is a block below `B` that
is not listed in the dentry map, with the address of its first slot. -/
def fresh_answer (cfg : aeon_consts) (B : Nat) (st : dir_state) : Prop :=
  ∀ b a rest, st.new_dentry_blocks = (b, a) :: rest →
    b < B ∧ a = slot_addr cfg b 0 ∧
    ∀ g, g ≤ st.de_map.num_latest_dentry → st.de_map.block_dentry g ≠ b

/-- The directory states reached from a bootstrapped directory by calls of
`aeon_add_dentry` (on a directory that is not new) and of `aeon_remove_dentry` with the
record that the index holds for the name, the block allocator answering with blocks that
are not in the directory; the list holds the slots that `aeon_get_dentry_space` has
returned and that have not been invalidated since. -/
inductive slots_reachable (cfg : aeon_consts) (B : Nat) : dir_state → List Nat → Prop
  | init (st : dir_state) (de_info adi : Bool)
      (h1 : (aeon_init_dentry_map cfg st de_info adi).1 = 0)
      (h2 : (aeon_init_dentry cfg (aeon_init_dentry_map cfg st de_info adi).2).1 = 0)
      (htree : st.rb_tree = .nil)
      (hb : (aeon_init_dentry cfg
        (aeon_init_dentry_map cfg st de_info adi).2).2.de_map.block_dentry 0 < B) :
      slots_reachable cfg B
        (aeon_init_dentry cfg (aeon_init_dentry_map cfg st de_info adi).2).2 []
  | add (st : dir_state) (live : List Nat) (am : aeon_mdata) (name : List Int)
      (namelen : Int) (node : Option aeon_range_node)
      (h : slots_reachable cfg B st live) (hfresh : fresh_answer cfg B st) :
      slots_reachable cfg B (add_dentry_entry cfg st am name namelen node).2
        (if (aeon_get_dentry_space cfg st).1 = 0 then (aeon_get_dentry_space cfg st).2.1 :: live
          else live)
  | remove (st : dir_state) (live : List Nat) (name : List Int) (len de : Nat) (adi : Bool)
      (h : slots_reachable cfg B st live) (hlen : len < 2 ^ 32)
      (hde : aeon_find_dentry st.rb_tree name len = some de) :
      slots_reachable cfg B (aeon_remove_dentry cfg st name len de adi).2
        (if (aeon_remove_dentry cfg st name len de adi).1 = 0 then live.erase de else live)

/-- Invariant of a directory state and the list of its live slots. -/
structure slots_inv (cfg : aeon_consts) (B : Nat) (st : dir_state) (live : List Nat) :
    Prop where
  live_nodup : live.Nodup
  invalid_nodup : st.invalid_list.Nodup
  invalid_not_live : ∀ x ∈ st.invalid_list, x ∉ live
  live_handed : ∀ x ∈ live, handed_out cfg st.de_map x
  invalid_handed : ∀ x ∈ st.invalid_list, handed_out cfg st.de_map x
  index_live : ∀ n ∈ st.rb_tree.toList, n.direntry ∈ live
  index_nodup : (st.rb_tree.toList.map aeon_range_node.direntry).Nodup
  blocks_lt : ∀ g, g ≤ st.de_map.num_latest_dentry → st.de_map.block_dentry g < B
  blocks_inj : ∀ g g1, g ≤ st.de_map.num_latest_dentry → g1 ≤ st.de_map.num_latest_dentry →
    st.de_map.block_dentry g = st.de_map.block_dentry g1 → g = g1
  latest_lt : st.de_map.num_latest_dentry ≤ cfg.MAX_ENTRY - 1
  internal_pos : 1 ≤ st.de_map.num_internal_dentries
  internal_le : st.de_map.num_internal_dentries ≤ cfg.AEON_INTERNAL_ENTRY
  internal_boot : st.de_map.num_latest_dentry = 0 → 2 ≤ st.de_map.num_internal_dentries

/-- A directory at its limit: the list of block addresses holds `MAX_ENTRY = 4` blocks
(16, 17, 18, 19), the latest block has handed out all its 16 slots and no slot waits for
reuse. -/
def example_dir_limit : dir_state :=
  { example_new_dir with
    pidir := { example_pidir with i_new := 0 },
    de_map := { block_dentry := fun g => 16 + g, next_map := 0, num_dentries := 64,
                num_latest_dentry := 3, num_internal_dentries := 16 } }

/-- The example constants with blocks of 3 slots, so that the first added name fills
block 16 and the second one makes the directory grow. -/
def example_small_consts : aeon_consts :=
  { example_consts with AEON_INTERNAL_ENTRY := 3 }

/-- The bootstrapped example directory with blocks of 3 slots. -/
def example_small_dir : dir_state :=
  (aeon_init_dentry example_small_consts
    (aeon_init_dentry_map example_small_consts example_new_dir true true).2).2

/-- The small example directory after the name `a` was added: block 16 is full. -/
def example_small_a : dir_state :=
  (add_dentry_entry example_small_consts example_small_dir ⟨7, 1048576 + 12288, 0, 0, 0⟩
    [97] 1 (some ⟨1, 0, 0, 0⟩)).2

/-- The small example directory after the names `a` and `b` were added: `b` is in
block 17. -/
def example_small_ab : dir_state :=
  (add_dentry_entry example_small_consts example_small_a ⟨8, 1048576 + 12544, 0, 0, 0⟩
    [98] 1 (some ⟨2, 0, 0, 0⟩)).2

/-- The small example directory after `a` and `b` were added and `a` was removed. -/
def example_small_b : dir_state :=
  (aeon_remove_dentry example_small_consts example_small_ab [97] 1
    (1048576 + 16 * 4096 + 2 * 256) true).2

/-! ## Theorems -/

theorem toList_rb_of_list (l : List aeon_range_node) : (rb_of_list l).toList = l := by
  induction l with
  | nil => rfl
  | cons n rest ih => simp [rb_of_list, rb_root.toList, ih]

theorem toList_rb_erase (a : Nat) (t : rb_root) :
    (rb_erase a t).toList = t.toList.filter (fun n => !decide (n.addr = a)) := by
  simp [rb_erase, toList_rb_of_list]

theorem toList_rb_store (a : Nat) (f : aeon_range_node → aeon_range_node) (t : rb_root) :
    (rb_store a f t).toList = t.toList.map (fun n => if n.addr = a then f n else n) := by
  induction t with
  | nil => rfl
  | node l n r ihl ihr => simp [rb_store, rb_root.toList, ihl, ihr]

theorem sum_blocks_cons (n : aeon_range_node) (l : List aeon_range_node) :
    sum_blocks (n :: l) = (n.range_high - n.range_low + 1) + sum_blocks l := by
  simp [sum_blocks]

theorem sum_blocks_filter_of_not_mem (a : Nat) (l : List aeon_range_node)
    (h : a ∉ l.map aeon_range_node.addr) :
    l.filter (fun m => !decide (m.addr = a)) = l := by
  rw [List.filter_eq_self]
  intro m hm
  have : m.addr ≠ a := fun e => h (e ▸ List.mem_map_of_mem _ hm)
  simpa using this

theorem sum_blocks_erase (l : List aeon_range_node) (n : aeon_range_node)
    (hnd : (l.map aeon_range_node.addr).Nodup) (hn : n ∈ l) :
    sum_blocks (l.filter (fun m => !decide (m.addr = n.addr))) + (n.range_high - n.range_low + 1)
      = sum_blocks l := by
  induction l with
  | nil => cases hn
  | cons m rest ih =>
    simp only [List.map_cons, List.nodup_cons] at hnd
    rcases List.mem_cons.1 hn with e | hin
    · subst e
      have := sum_blocks_filter_of_not_mem n.addr rest hnd.1
      simp only [List.filter_cons, this, sum_blocks_cons, decide_True, Bool.not_true]
      simp
      omega
    · have hne : m.addr ≠ n.addr := fun e => hnd.1 (e ▸ List.mem_map_of_mem _ hin)
      have := ih hnd.2 hin
      simp only [List.filter_cons, hne, sum_blocks_cons, decide_False, Bool.not_false, if_true]
      omega

theorem map_store_of_not_mem (a : Nat) (f : aeon_range_node → aeon_range_node)
    (l : List aeon_range_node) (h : a ∉ l.map aeon_range_node.addr) :
    l.map (fun m => if m.addr = a then f m else m) = l := by
  induction l with
  | nil => rfl
  | cons m rest ih =>
    simp only [List.map_cons, List.mem_cons, not_or] at h
    have hne : m.addr ≠ a := fun e => h.1 e.symm
    simp [hne, ih h.2]

theorem sum_blocks_store (l : List aeon_range_node) (n : aeon_range_node)
    (f : aeon_range_node → aeon_range_node)
    (hnd : (l.map aeon_range_node.addr).Nodup) (hn : n ∈ l) :
    sum_blocks (l.map (fun m => if m.addr = n.addr then f m else m))
        + (n.range_high - n.range_low + 1)
      = sum_blocks l + ((f n).range_high - (f n).range_low + 1) := by
  induction l with
  | nil => cases hn
  | cons m rest ih =>
    simp only [List.map_cons, List.nodup_cons] at hnd
    rcases List.mem_cons.1 hn with e | hin
    · subst e
      have := map_store_of_not_mem n.addr f rest hnd.1
      simp [this, sum_blocks_cons]
      omega
    · have hne : m.addr ≠ n.addr := fun e => hnd.1 (e ▸ List.mem_map_of_mem _ hin)
      have := ih hnd.2 hin
      simp [hne, sum_blocks_cons]
      omega

theorem le_sum_blocks (l : List aeon_range_node) (n : aeon_range_node) (hn : n ∈ l) :
    n.range_high - n.range_low + 1 ≤ sum_blocks l := by
  induction l with
  | nil => cases hn
  | cons m rest ih =>
    rcases List.mem_cons.1 hn with e | hin
    · subst e; simp [sum_blocks_cons]
    · have := ih hin
      simp [sum_blocks_cons]; omega

theorem curr_blocks_of_eq (n : aeon_range_node) (h : n.range_low ≤ n.range_high)
    (hb : n.range_high - n.range_low + 1 < 2 ^ 64) :
    curr_blocks_of n = n.range_high - n.range_low + 1 := by
  unfold curr_blocks_of to_ulong
  omega

theorem alloc_loop_spec (fl : free_list) (btype num_blocks nb : Nat)
    (hnd : (rb_addrs fl.block_free_tree).Nodup)
    (h64 : fl.num_free_blocks < 2 ^ 64)
    (hhi : ∀ n ∈ fl.block_free_tree.toList, n.range_high < 2 ^ 64)
    (hle : ∀ n ∈ fl.block_free_tree.toList, n.range_low ≤ n.range_high)
    (hsum : fl.num_free_blocks = sum_blocks fl.block_free_tree.toList)
    (ns : List aeon_range_node) (hns : ∀ n ∈ ns, n ∈ fl.block_free_tree.toList) :
    (alloc_loop fl btype num_blocks nb ns).free_list.num_free_blocks = fl.num_free_blocks ∧
    (((alloc_loop fl btype num_blocks nb ns).found = false ∧
        (alloc_loop fl btype num_blocks nb ns).free_list = fl) ∨
     ((alloc_loop fl btype num_blocks nb ns).found = true ∧
        sum_blocks (alloc_loop fl btype num_blocks nb ns).free_list.block_free_tree.toList
          + (alloc_loop fl btype num_blocks nb ns).num_blocks = fl.num_free_blocks)) := by
  induction ns with
  | nil => simp [alloc_loop]
  | cons curr rest ih =>
    have hin : curr ∈ fl.block_free_tree.toList := hns curr (List.mem_cons_self _ _)
    have hsz := le_sum_blocks _ _ hin
    have hcb : curr_blocks_of curr = curr.range_high - curr.range_low + 1 :=
      curr_blocks_of_eq curr (hle curr hin) (by omega)
    unfold alloc_loop
    simp only []
    by_cases h1 : num_blocks ≥ curr_blocks_of curr
    · rw [if_pos h1]
      by_cases h2 : btype > 0 ∧ num_blocks > curr_blocks_of curr
      · rw [if_pos h2]
        exact ih (fun n hn => hns n (List.mem_cons_of_mem _ hn))
      · rw [if_neg h2]
        unfold alloc_whole_blocknode
        have he := sum_blocks_erase _ curr hnd hin
        refine ⟨?_, Or.inr ⟨rfl, ?_⟩⟩
        · simp only []
          split_ifs <;> rfl
        · simp only [toList_rb_erase]
          rw [hcb, hsum]
          exact he
    · rw [if_neg h1]
      unfold alloc_part_blocknode
      refine ⟨rfl, Or.inr ⟨rfl, ?_⟩⟩
      simp only [toList_rb_store]
      have hs := sum_blocks_store _ curr
        (fun n => { n with range_low := (n.range_low + num_blocks) % 2 ^ 64 }) hnd hin
      have hlow := hle curr hin
      have hhigh := hhi curr hin
      have hmod : (curr.range_low + num_blocks) % 2 ^ 64 = curr.range_low + num_blocks := by
        apply Nat.mod_eq_of_lt
        omega
      simp only [hmod] at hs
      rw [hsum]
      omega

theorem rb_entry_isSome (t : rb_root) (a : Nat) (h : a ∈ rb_addrs t) :
    ∃ n, rb_entry t a = some n := by
  unfold rb_addrs at h
  obtain ⟨n, hn, rfl⟩ := List.mem_map.1 h
  cases hf : rb_entry t n.addr with
  | some m => exact ⟨m, rfl⟩
  | none =>
    unfold rb_entry at hf
    rw [List.find?_eq_none] at hf
    have := hf n hn
    simp at this

theorem mem_nodes_from (t : rb_root) (a : Nat) (n : aeon_range_node)
    (h : n ∈ nodes_from t a) : n ∈ t.toList :=
  (List.dropWhile_sublist _).subset h

/-- C1: for a block shard whose nodes all have `range_low <= range_high` and whose
`num_free_blocks` is the sum of `range_high - range_low + 1` over the nodes of
`block_free_tree`, and for every `btype` and `num_blocks`, the call of
`aeon_alloc_blocks_in_free_list` returns (a block count or `-ENOSPC`) and the shard
after it again satisfies `num_free_blocks = sum of (range_high - range_low + 1)` over
the nodes of the tree.  The shard is a well-formed C state:
`first_node` is `NULL` or designates a node of the tree, the nodes are distinct
objects, and the counter and the bounds are `unsigned long` values. -/
theorem C1_alloc_blocks_keeps_free_count (fl : free_list) (btype num_blocks new_blocknr : Nat)
    (hfirst : ∀ a, fl.first_node = some a → a ∈ rb_addrs fl.block_free_tree)
    (hnd : (rb_addrs fl.block_free_tree).Nodup)
    (h64 : fl.num_free_blocks < 2 ^ 64)
    (hhi : ∀ n ∈ fl.block_free_tree.toList, n.range_high < 2 ^ 64)
    (hle : ∀ n ∈ fl.block_free_tree.toList, n.range_low ≤ n.range_high)
    (hsum : fl.num_free_blocks = sum_blocks fl.block_free_tree.toList) :
    ∃ r, aeon_alloc_blocks_in_free_list fl btype num_blocks new_blocknr = some r ∧
      r.free_list.num_free_blocks = sum_blocks r.free_list.block_free_tree.toList := by
  unfold aeon_alloc_blocks_in_free_list
  cases hf : fl.first_node with
  | none => exact ⟨_, rfl, hsum⟩
  | some first =>
    simp only []
    by_cases h0 : fl.num_free_blocks = 0
    · rw [if_pos h0]; exact ⟨_, rfl, hsum⟩
    · rw [if_neg h0]
      obtain ⟨n0, hn0⟩ := rb_entry_isSome _ _ (hfirst first hf)
      rw [hn0]
      simp only []
      unfold alloc_finish
      have hspec := alloc_loop_spec fl btype num_blocks new_blocknr hnd h64 hhi hle hsum
        (nodes_from fl.block_free_tree first) (fun n hn => mem_nodes_from _ _ _ hn)
      obtain ⟨hfree, hcase⟩ := hspec
      rcases hcase with ⟨hfound, hsame⟩ | ⟨hfound, hs⟩
      · by_cases hlt : (alloc_loop fl btype num_blocks new_blocknr
            (nodes_from fl.block_free_tree first)).free_list.num_free_blocks
            < (alloc_loop fl btype num_blocks new_blocknr
            (nodes_from fl.block_free_tree first)).num_blocks
        · rw [if_pos hlt]
          refine ⟨_, rfl, ?_⟩
          simp only [hsame]; exact hsum
        · rw [if_neg hlt, hfound]
          refine ⟨_, rfl, ?_⟩
          simp only [hsame]; exact hsum
      · have hlt : ¬ (alloc_loop fl btype num_blocks new_blocknr
            (nodes_from fl.block_free_tree first)).free_list.num_free_blocks
            < (alloc_loop fl btype num_blocks new_blocknr
            (nodes_from fl.block_free_tree first)).num_blocks := by
          rw [hfree]; omega
        rw [if_neg hlt, hfound]
        refine ⟨_, rfl, ?_⟩
        simp only [if_true]
        show _ - _ = _
        rw [hfree]; omega

theorem to_long_of_lt (x : Nat) (h : x < 2 ^ 63) : to_long x = (x : Int) := by
  unfold to_long
  have h1 : x % 2 ^ 64 = x := Nat.mod_eq_of_lt (by omega)
  rw [h1, if_pos h]

theorem to_int_of_lt (x : Nat) (h : x < 2 ^ 31) : to_int (x : Int) = (x : Int) := by
  unfold to_int
  have h1 : (x : Int) % 2 ^ 32 = x := Int.emod_eq_of_lt (by omega) (by omega)
  rw [h1, if_pos (by omega)]

/-- C2 (amended): `aeon_new_blocks` with an ordinary block type (`btype` 0, one block
per unit) on a chosen shard `c` whose first free range `[lo, hi]` holds more than `n`
blocks (`n >= 1`): provided `lo >= 1` and `n < 2 ^ 31`, the call returns count `n` and
block number `lo`, the range becomes `[lo + n, hi]`, the other nodes are unchanged and
`num_free_blocks` drops by `n`. -/
theorem C2_new_blocks_takes_low_end (sbi : aeon_sb_info) (c blocknr n this_cpu : Nat)
    (first : aeon_range_node) (rest : List aeon_range_node) (last : Nat)
    (htree : (sbi.free_lists c).block_free_tree.toList = first :: rest)
    (hfirst : (sbi.free_lists c).first_node = some first.addr)
    (hlast : (sbi.free_lists c).last_node = some last)
    (hnd : (rb_addrs (sbi.free_lists c).block_free_tree).Nodup)
    (h64 : (sbi.free_lists c).num_free_blocks < 2 ^ 64)
    (hhi : first.range_high < 2 ^ 64)
    (hle : first.range_low ≤ first.range_high)
    (hsum : (sbi.free_lists c).num_free_blocks
      = sum_blocks (sbi.free_lists c).block_free_tree.toList)
    (hn : 1 ≤ n) (hmore : n < first.range_high - first.range_low + 1)
    (hlo : 1 ≤ first.range_low) (hint : n < 2 ^ 31) :
    ∃ r, aeon_new_blocks sbi blocknr n 0 (some c) 1 this_cpu = some r ∧
      r.ret = (n : Int) ∧ r.blocknr = first.range_low ∧
      (r.sbi.free_lists c).block_free_tree.toList
        = { first with range_low := first.range_low + n } :: rest ∧
      (r.sbi.free_lists c).num_free_blocks + n = (sbi.free_lists c).num_free_blocks := by
  have hsz : first.range_high - first.range_low + 1 ≤ (sbi.free_lists c).num_free_blocks := by
    rw [hsum, htree, sum_blocks_cons]; omega
  have hcb : curr_blocks_of first = first.range_high - first.range_low + 1 :=
    curr_blocks_of_eq first hle (by omega)
  have hnb : (n * 1) % 2 ^ 64 = n := by
    rw [Nat.mul_one]; exact Nat.mod_eq_of_lt (by omega)
  have hne : not_enough_blocks (sbi.free_lists c) n = false := by
    simp [not_enough_blocks, hfirst, hlast]; omega
  have hretry : new_blocks_retry sbi n 2 c = c := by
    simp [new_blocks_retry, hne]
  have hentry : rb_entry (sbi.free_lists c).block_free_tree first.addr = some first := by
    simp [rb_entry, htree]
  have hfrom : nodes_from (sbi.free_lists c).block_free_tree first.addr = first :: rest := by
    simp [nodes_from, htree, List.dropWhile_cons]
  have hnotin : first.addr ∉ rest.map aeon_range_node.addr := by
    unfold rb_addrs at hnd
    rw [htree, List.map_cons, List.nodup_cons] at hnd
    exact hnd.1
  have hmod : (first.range_low + n) % 2 ^ 64 = first.range_low + n :=
    Nat.mod_eq_of_lt (by omega)
  have h0 : (sbi.free_lists c).num_free_blocks ≠ 0 := by omega
  obtain ⟨t1, ht1⟩ : ∃ t1, t1 = rb_store first.addr
      (fun m => { m with range_low := (m.range_low + n) % 2 ^ 64 })
      (sbi.free_lists c).block_free_tree := ⟨_, rfl⟩
  have hloop : alloc_loop (sbi.free_lists c) 0 n 0 (first :: rest) =
      ⟨{ (sbi.free_lists c) with block_free_tree := t1 }, n, first.range_low, true⟩ := by
    unfold alloc_loop
    simp only []
    rw [if_neg (by rw [hcb]; omega), ht1]
    rfl
  have halloc : aeon_alloc_blocks_in_free_list (sbi.free_lists c) 0 n 0 =
      some ⟨(n : Int), first.range_low, { (sbi.free_lists c) with block_free_tree := t1, num_free_blocks := (sbi.free_lists c).num_free_blocks - n }⟩ := by
    unfold aeon_alloc_blocks_in_free_list
    rw [hfirst]
    simp only []
    rw [if_neg h0, hentry]
    simp only []
    rw [hfrom, hloop]
    unfold alloc_finish
    simp only []
    rw [if_neg (by omega), to_long_of_lt n (by omega)]
    rfl
  unfold aeon_new_blocks
  simp only [hnb, hretry, halloc]
  have hpos : (n : Int) > 0 := by omega
  rw [if_pos hpos, if_neg (by omega)]
  refine ⟨_, rfl, ?_, rfl, ?_, ?_⟩
  · simp only [Nat.cast_one, Int.ediv_one]
    exact to_int_of_lt n hint
  · simp only [Function.update_same, ht1, toList_rb_store, htree, List.map_cons, if_true]
    rw [map_store_of_not_mem _ _ _ hnotin, hmod]
  · simp only [Function.update_same]
    omega

/-- Witness of C1: a request of 10 blocks on the shard holding `[0, 999]`. -/
theorem C1_alloc_blocks_keeps_free_count_witness :
    ∃ r, aeon_alloc_blocks_in_free_list (single_range_shard 0 999) 0 10 0 = some r ∧
      r.free_list.num_free_blocks = sum_blocks r.free_list.block_free_tree.toList :=
  C1_alloc_blocks_keeps_free_count (single_range_shard 0 999) 0 10 0
    (by intro a h; cases h; decide) (by decide) (by decide) (by decide) (by decide) (by decide)

/-- C2 as stated fails on the scenario of the specification: on the shard holding the
single free range `[0, 999]`, `aeon_new_blocks` for 10 ordinary blocks returns `-ENOSPC`
(the allocated block number 0 is taken for a failure), although the range has become
`[10, 999]` and `num_free_blocks` 990. -/
theorem C2_new_blocks_block_zero :
    ∃ r, aeon_new_blocks (uniform_sbi 1 (single_range_shard 0 999) (inode_shard_of .nil 0))
        0 10 0 (some 0) 1 0 = some r ∧
      r.ret = -ENOSPC ∧ r.ret ≠ 10 ∧
      (r.sbi.free_lists 0).block_free_tree.toList = [⟨1, 10, 999, 0⟩] ∧
      (r.sbi.free_lists 0).num_free_blocks = 990 :=
  ⟨_, rfl, by decide, by decide, by decide, by decide⟩

/-- Witness of C2 (amended): 10 blocks from the shard holding `[1, 999]`. -/
theorem C2_new_blocks_takes_low_end_witness :
    ∃ r, aeon_new_blocks (uniform_sbi 1 (single_range_shard 1 999) (inode_shard_of .nil 0))
        0 10 0 (some 0) 1 0 = some r ∧
      r.ret = ((10 : Nat) : Int) ∧ r.blocknr = 1 ∧
      (r.sbi.free_lists 0).block_free_tree.toList = [⟨1, 1 + 10, 999, 0⟩] ∧
      (r.sbi.free_lists 0).num_free_blocks + 10 = 999 :=
  C2_new_blocks_takes_low_end (uniform_sbi 1 (single_range_shard 1 999) (inode_shard_of .nil 0))
    0 0 10 0 ⟨1, 1, 999, 0⟩ [] 1 rfl rfl rfl (by decide) (by decide) (by decide) (by decide)
    (by decide) (by decide) (by decide) (by decide) (by decide)

theorem find_addr_split (pre post : List aeon_range_node) (i : aeon_range_node)
    (h : i.addr ∉ pre.map aeon_range_node.addr) :
    (pre ++ i :: post).find? (fun n => n.addr = i.addr) = some i := by
  induction pre with
  | nil => simp
  | cons m rest ih =>
    simp only [List.map_cons, List.mem_cons, not_or] at h
    have hne : ¬ m.addr = i.addr := fun e => h.1 e.symm
    simp [List.find?_cons, hne, ih h.2]

theorem list_next_split (pre post : List aeon_range_node) (i : aeon_range_node)
    (h : i.addr ∉ pre.map aeon_range_node.addr) :
    list_next (pre ++ i :: post) i.addr = post.head? := by
  induction pre with
  | nil => simp [list_next]
  | cons m rest ih =>
    simp only [List.map_cons, List.mem_cons, not_or] at h
    have hne : ¬ m.addr = i.addr := fun e => h.1 e.symm
    simp [list_next, hne, ih h.2]

theorem nodup_split (pre post : List aeon_range_node) (i : aeon_range_node)
    (h : ((pre ++ i :: post).map aeon_range_node.addr).Nodup) :
    i.addr ∉ pre.map aeon_range_node.addr ∧ i.addr ∉ post.map aeon_range_node.addr := by
  rw [List.map_append, List.map_cons, List.nodup_append] at h
  obtain ⟨_, h2, h3⟩ := h
  rw [List.nodup_cons] at h2
  refine ⟨fun hin => ?_, h2.1⟩
  exact h3 hin (List.mem_cons_self _ _)

theorem map_store_split (pre post : List aeon_range_node) (i : aeon_range_node)
    (f : aeon_range_node → aeon_range_node)
    (h : ((pre ++ i :: post).map aeon_range_node.addr).Nodup) :
    (pre ++ i :: post).map (fun m => if m.addr = i.addr then f m else m)
      = pre ++ f i :: post := by
  obtain ⟨h1, h2⟩ := nodup_split pre post i h
  rw [List.map_append, List.map_cons, map_store_of_not_mem _ _ _ h1,
    map_store_of_not_mem _ _ _ h2, if_pos rfl]

theorem filter_erase_split (pre post : List aeon_range_node) (i : aeon_range_node)
    (h : ((pre ++ i :: post).map aeon_range_node.addr).Nodup) :
    (pre ++ i :: post).filter (fun m => !decide (m.addr = i.addr)) = pre ++ post := by
  obtain ⟨h1, h2⟩ := nodup_split pre post i h
  rw [List.filter_append, List.filter_cons, sum_blocks_filter_of_not_mem _ _ h1,
    sum_blocks_filter_of_not_mem _ _ h2]
  simp

theorem rb_entry_split (t : rb_root) (pre post : List aeon_range_node) (i : aeon_range_node)
    (ht : t.toList = pre ++ i :: post) (h : (rb_addrs t).Nodup) :
    rb_entry t i.addr = some i := by
  unfold rb_addrs at h
  rw [ht] at h
  unfold rb_entry
  rw [ht]
  exact find_addr_split pre post i (nodup_split pre post i h).1

theorem rb_next_split (t : rb_root) (pre post : List aeon_range_node) (i : aeon_range_node)
    (ht : t.toList = pre ++ i :: post) (h : (rb_addrs t).Nodup) :
    rb_next t i.addr = post.head? := by
  unfold rb_addrs at h
  rw [ht] at h
  unfold rb_next
  rw [ht]
  exact list_next_split pre post i (nodup_split pre post i h).1

theorem toList_rb_store_split (t : rb_root) (pre post : List aeon_range_node)
    (i : aeon_range_node) (f : aeon_range_node → aeon_range_node)
    (ht : t.toList = pre ++ i :: post) (h : (rb_addrs t).Nodup) :
    (rb_store i.addr f t).toList = pre ++ f i :: post := by
  unfold rb_addrs at h
  rw [ht] at h
  rw [toList_rb_store, ht]
  exact map_store_split pre post i f h

theorem toList_rb_erase_split (t : rb_root) (pre post : List aeon_range_node)
    (i : aeon_range_node)
    (ht : t.toList = pre ++ i :: post) (h : (rb_addrs t).Nodup) :
    (rb_erase i.addr t).toList = pre ++ post := by
  unfold rb_addrs at h
  rw [ht] at h
  rw [toList_rb_erase, ht]
  exact filter_erase_split pre post i h

theorem u64_dec_eq (x : Nat) (h1 : 1 ≤ x) (h2 : x ≤ 2 ^ 64) : u64_dec x = x - 1 := by
  unfold u64_dec to_ulong
  omega

theorem MAX_INODE_eq : MAX_INODE = 2147483648 := by
  unfold MAX_INODE
  simp [Nat.shiftLeft_eq]

/-- C3 (amended): for an inode shard whose `first_inode_range` designates the node
`[lo, hi]` and which has either no following node (with `hi + 1 < 2^31 - 1`) or a
following node with `low > hi + 2`, and provided `(hi + 1) * cpus + cpuid < 2^32`,
`aeon_alloc_unused_inode` on shard `cpuid` of `cpus` shards succeeds, sets that node to
`[lo, hi + 1]`, leaves every other node unchanged and returns the external number
`(hi + 1) * cpus + cpuid`. -/
theorem C3_alloc_unused_inode_extends (sbi : aeon_sb_info) (cpuid ino : Nat)
    (i : aeon_range_node) (pre post : List aeon_range_node)
    (htree : (sbi.inode_maps cpuid).inode_inuse_tree.toList = pre ++ i :: post)
    (hfirst : (sbi.inode_maps cpuid).first_inode_range = some i.addr)
    (hnd : (rb_addrs (sbi.inode_maps cpuid).inode_inuse_tree).Nodup)
    (hcpu : cpuid < sbi.cpus)
    (hnext : (post = [] ∧ i.range_high + 1 < 2 ^ 31 - 1) ∨
      (∃ nx rest, post = nx :: rest ∧ nx.range_low > i.range_high + 2 ∧ nx.range_low < 2 ^ 64))
    (hfit : (i.range_high + 1) * sbi.cpus + cpuid < 2 ^ 32) :
    ∃ r, aeon_alloc_unused_inode sbi cpuid ino cpuid = some r ∧
      r.ret = 0 ∧ r.ino = (i.range_high + 1) * sbi.cpus + cpuid ∧
      (r.sbi.inode_maps cpuid).inode_inuse_tree.toList
        = pre ++ { i with range_high := i.range_high + 1 } :: post := by
  have hentry := rb_entry_split _ pre post i htree hnd
  have hnx := rb_next_split _ pre post i htree hnd
  have hhi : i.range_high + 1 < 2 ^ 32 := by
    have : (i.range_high + 1) * 1 ≤ (i.range_high + 1) * sbi.cpus :=
      Nat.mul_le_mul_left _ (by omega)
    omega
  have hnew : (i.range_high + 1) % 2 ^ 32 = i.range_high + 1 := Nat.mod_eq_of_lt hhi
  have hino : ((i.range_high + 1) * sbi.cpus + cpuid) % 2 ^ 32
      = (i.range_high + 1) * sbi.cpus + cpuid := Nat.mod_eq_of_lt hfit
  have hstore := toList_rb_store_split _ pre post i
    (fun n => { n with range_high := i.range_high + 1 }) htree hnd
  unfold aeon_alloc_unused_inode
  simp only [hfirst, hentry, hnx, hnew, hino]
  rcases hnext with ⟨hp, hlt⟩ | ⟨nx, rest, hp, hgt, hb⟩
  · subst hp
    have hlim : u64_dec MAX_INODE = 2147483647 := by
      rw [MAX_INODE_eq]; exact u64_dec_eq _ (by norm_num) (by norm_num)
    have hlt2 : i.range_high + 1 < 2147483647 := by omega
    simp only [List.head?_nil, hlim, if_pos hlt2]
    refine ⟨_, rfl, rfl, rfl, ?_⟩
    simp only [Function.update_same]
    exact hstore
  · subst hp
    have hlim : u64_dec nx.range_low = nx.range_low - 1 :=
      u64_dec_eq _ (by omega) (by omega)
    have hne : ¬ (i.range_high + 1 = nx.range_low - 1) := by omega
    have hlt2 : i.range_high + 1 < nx.range_low - 1 := by omega
    simp only [List.head?_cons, hlim, if_neg hne, if_pos hlt2]
    refine ⟨_, rfl, rfl, rfl, ?_⟩
    simp only [Function.update_same]
    exact hstore

/-- C3 as stated fails when the external number does not fit 32 bits: on shard 0 of 4
shards whose only node is `[0, 2^30 - 1]` the call succeeds and extends the node to
`[0, 2^30]`, but the number it returns is 0, not `(hi + 1) * cpus + cpuid = 2^32`. -/
theorem C3_alloc_unused_inode_wraps :
    ∃ r, aeon_alloc_unused_inode
        (uniform_sbi 4 (single_range_shard 0 0)
          (inode_shard_of (.node .nil ⟨1, 0, 1073741823, 0⟩ .nil) 1)) 0 0 0 = some r ∧
      r.ret = 0 ∧ r.ino = 0 ∧ r.ino ≠ (1073741823 + 1) * 4 + 0 ∧
      (r.sbi.inode_maps 0).inode_inuse_tree.toList = [⟨1, 0, 1073741824, 0⟩] :=
  ⟨_, rfl, by decide, by decide, by decide, by decide⟩

/-- Witness of C3 (amended): shard 0 of 4 shards starting with `[0, 100]` yields the
internal number 101, the range `[0, 101]` and the external number `101 * 4`. -/
theorem C3_alloc_unused_inode_extends_witness :
    ∃ r, aeon_alloc_unused_inode
        (uniform_sbi 4 (single_range_shard 0 0)
          (inode_shard_of (.node .nil ⟨1, 0, 100, 0⟩ .nil) 1)) 0 0 0 = some r ∧
      r.ret = 0 ∧ r.ino = (100 + 1) * 4 + 0 ∧
      (r.sbi.inode_maps 0).inode_inuse_tree.toList = [] ++ [⟨1, 0, 100 + 1, 0⟩] :=
  C3_alloc_unused_inode_extends
    (uniform_sbi 4 (single_range_shard 0 0) (inode_shard_of (.node .nil ⟨1, 0, 100, 0⟩ .nil) 1))
    0 0 ⟨1, 0, 100, 0⟩ [] [] rfl rfl (by decide) (by decide) (Or.inl ⟨rfl, by decide⟩)
    (by decide)

theorem covers_append (l1 l2 : List aeon_range_node) (x : Nat) :
    covers (l1 ++ l2) x ↔ covers l1 x ∨ covers l2 x := by
  unfold covers
  constructor
  · rintro ⟨n, hn, h⟩
    rcases List.mem_append.1 hn with h1 | h2
    · exact Or.inl ⟨n, h1, h⟩
    · exact Or.inr ⟨n, h2, h⟩
  · rintro (⟨n, hn, h⟩ | ⟨n, hn, h⟩)
    · exact ⟨n, List.mem_append_left _ hn, h⟩
    · exact ⟨n, List.mem_append_right _ hn, h⟩

theorem covers_cons (n : aeon_range_node) (l : List aeon_range_node) (x : Nat) :
    covers (n :: l) x ↔ (n.range_low ≤ x ∧ x ≤ n.range_high) ∨ covers l x := by
  unfold covers
  constructor
  · rintro ⟨m, hm, h⟩
    rcases List.mem_cons.1 hm with e | h2
    · subst e; exact Or.inl h
    · exact Or.inr ⟨m, h2, h⟩
  · rintro (h | ⟨m, hm, h⟩)
    · exact ⟨n, List.mem_cons_self _ _, h⟩
    · exact ⟨m, List.mem_cons_of_mem _ hm, h⟩

/-- C10 (amended): for an inode shard whose `first_inode_range` designates the node
`[lo, hi]` with `hi + 1 < 2^32` and whose next node in order is `[nlo, nhi]` with
`nlo = hi + 2`, `aeon_alloc_unused_inode` succeeds with the internal number `hi + 1`
(it returns `(hi + 1) * cpus + cpuid` as a 32-bit value), sets the node to `[lo, nhi]`,
erases the next node and decrements `num_range_node_inode` by 1, so that the covered
set becomes the old set plus `hi + 1`. -/
theorem C10_alloc_unused_inode_fills_gap (sbi : aeon_sb_info) (cpuid ino : Nat)
    (i nx : aeon_range_node) (pre rest : List aeon_range_node)
    (htree : (sbi.inode_maps cpuid).inode_inuse_tree.toList = pre ++ i :: nx :: rest)
    (hfirst : (sbi.inode_maps cpuid).first_inode_range = some i.addr)
    (hnd : (rb_addrs (sbi.inode_maps cpuid).inode_inuse_tree).Nodup)
    (hi_le : i.range_low ≤ i.range_high) (hnx_le : nx.range_low ≤ nx.range_high)
    (hgap : nx.range_low = i.range_high + 2)
    (h32 : i.range_high + 1 < 2 ^ 32) :
    ∃ r, aeon_alloc_unused_inode sbi cpuid ino cpuid = some r ∧
      r.ret = 0 ∧ r.ino = ((i.range_high + 1) * sbi.cpus + cpuid) % 2 ^ 32 ∧
      (r.sbi.inode_maps cpuid).inode_inuse_tree.toList
        = pre ++ { i with range_high := nx.range_high } :: rest ∧
      (r.sbi.inode_maps cpuid).num_range_node_inode
        = (sbi.inode_maps cpuid).num_range_node_inode - 1 ∧
      ∀ x, covers (r.sbi.inode_maps cpuid).inode_inuse_tree.toList x ↔
        (covers (sbi.inode_maps cpuid).inode_inuse_tree.toList x ∨ x = i.range_high + 1) := by
  have hentry := rb_entry_split _ pre (nx :: rest) i htree hnd
  have hnxt := rb_next_split _ pre (nx :: rest) i htree hnd
  have hnew : (i.range_high + 1) % 2 ^ 32 = i.range_high + 1 := Nat.mod_eq_of_lt h32
  have hlim : u64_dec nx.range_low = i.range_high + 1 := by
    rw [u64_dec_eq _ (by omega) (by omega)]; omega
  have hstore := toList_rb_store_split _ pre (nx :: rest) i
    (fun n => { n with range_high := nx.range_high }) htree hnd
  have hnd1 : (rb_addrs (rb_store i.addr (fun n => { n with range_high := nx.range_high })
      (sbi.inode_maps cpuid).inode_inuse_tree)).Nodup := by
    unfold rb_addrs at hnd ⊢
    rw [hstore]; rw [htree] at hnd
    simpa using hnd
  have hstore1 : (rb_store i.addr (fun n => { n with range_high := nx.range_high })
      (sbi.inode_maps cpuid).inode_inuse_tree).toList
      = (pre ++ [{ i with range_high := nx.range_high }]) ++ nx :: rest := by
    rw [hstore]; simp
  have herase := toList_rb_erase_split _ _ rest nx hstore1 hnd1
  have hfinal : (rb_erase nx.addr (rb_store i.addr
      (fun n => { n with range_high := nx.range_high })
      (sbi.inode_maps cpuid).inode_inuse_tree)).toList
      = pre ++ { i with range_high := nx.range_high } :: rest := by
    rw [herase]; simp
  unfold aeon_alloc_unused_inode
  simp only [hfirst, hentry, hnxt, hnew, List.head?_cons, hlim, if_true]
  refine ⟨_, rfl, rfl, rfl, ?_, ?_, ?_⟩
  · simp only [Function.update_same]
    exact hfinal
  · simp only [Function.update_same]
  · intro x
    simp only [Function.update_same]
    rw [hfinal, htree]
    simp only [covers_append, covers_cons]
    constructor
    · rintro (h | ⟨h1, h2⟩ | h)
      · exact Or.inl (Or.inl h)
      · by_cases hx : x ≤ i.range_high
        · exact Or.inl (Or.inr (Or.inl ⟨h1, hx⟩))
        · by_cases hx2 : x = i.range_high + 1
          · exact Or.inr hx2
          · exact Or.inl (Or.inr (Or.inr (Or.inl ⟨by omega, h2⟩)))
      · exact Or.inl (Or.inr (Or.inr (Or.inr h)))
    · rintro ((h | ⟨h1, h2⟩ | ⟨h1, h2⟩ | h) | h)
      · exact Or.inl h
      · exact Or.inr (Or.inl ⟨h1, by omega⟩)
      · exact Or.inr (Or.inl ⟨by omega, h2⟩)
      · exact Or.inr (Or.inr h)
      · exact Or.inr (Or.inl ⟨by omega, by omega⟩)

/-- C10 as stated fails when `hi + 1` does not fit 32 bits: with the nodes
`[0, 2^32 - 1]` and `[2^32 + 1, 2^32 + 4]` the call succeeds, but it sets the first node
to `[0, 0]`, keeps the next node and leaves `num_range_node_inode` unchanged. -/
theorem C10_alloc_unused_inode_truncates :
    ∃ r, aeon_alloc_unused_inode
        (uniform_sbi 1 (single_range_shard 0 0)
          (inode_shard_of
            (.node .nil ⟨1, 0, 4294967295, 0⟩ (.node .nil ⟨2, 4294967297, 4294967300, 0⟩ .nil)) 2))
        0 0 0 = some r ∧
      r.ret = 0 ∧
      (r.sbi.inode_maps 0).inode_inuse_tree.toList
        = [⟨1, 0, 0, 0⟩, ⟨2, 4294967297, 4294967300, 0⟩] ∧
      (r.sbi.inode_maps 0).num_range_node_inode = 2 :=
  ⟨_, rfl, by decide, by decide, by decide⟩

/-- Witness of C10 (amended): the nodes `[0, 100]` and `[102, 200]` become `[0, 200]`. -/
theorem C10_alloc_unused_inode_fills_gap_witness :
    ∃ r, aeon_alloc_unused_inode
        (uniform_sbi 1 (single_range_shard 0 0)
          (inode_shard_of (.node .nil ⟨1, 0, 100, 0⟩ (.node .nil ⟨2, 102, 200, 0⟩ .nil)) 2))
        0 0 0 = some r ∧
      r.ret = 0 ∧ r.ino = ((100 + 1) * 1 + 0) % 2 ^ 32 ∧
      (r.sbi.inode_maps 0).inode_inuse_tree.toList = [] ++ [⟨1, 0, 200, 0⟩] ∧
      (r.sbi.inode_maps 0).num_range_node_inode = 2 - 1 ∧
      ∀ x, covers (r.sbi.inode_maps 0).inode_inuse_tree.toList x ↔
        (covers [⟨1, 0, 100, 0⟩, ⟨2, 102, 200, 0⟩] x ∨ x = 100 + 1) :=
  C10_alloc_unused_inode_fills_gap
    (uniform_sbi 1 (single_range_shard 0 0)
      (inode_shard_of (.node .nil ⟨1, 0, 100, 0⟩ (.node .nil ⟨2, 102, 200, 0⟩ .nil)) 2))
    0 0 ⟨1, 0, 100, 0⟩ ⟨2, 102, 200, 0⟩ [] [] rfl rfl (by decide) (by decide) (by decide)
    rfl (by decide)

/-! ### Descent in a tree whose in-order sequence is split by the key -/

theorem find_descend_found (key : Nat) (type : node_type) (m : aeon_range_node) :
    ∀ (t : rb_root) (A B : List aeon_range_node) (prev : Option aeon_range_node),
      t.toList = A ++ m :: B →
      (∀ a ∈ A, aeon_rbtree_compare_rangenode a key type = 1) →
      aeon_rbtree_compare_rangenode m key type = 0 →
      (∀ b ∈ B, aeon_rbtree_compare_rangenode b key type = -1) →
      find_descend t key type prev = (1, some m) := by
  intro t
  induction t with
  | nil => intro A B prev h; simp [rb_root.toList] at h
  | node l c r ihl ihr =>
    intro A B prev h hA hm hB
    simp only [rb_root.toList] at h
    unfold find_descend
    simp only []
    rcases List.append_eq_append_iff.1 h with ⟨a1, h1, h2⟩ | ⟨c1, h1, h2⟩
    · cases a1 with
      | nil =>
        simp only [List.nil_append, List.cons.injEq] at h2
        obtain ⟨rfl, _⟩ := h2
        rw [hm]; simp
      | cons x a2 =>
        simp only [List.cons_append, List.cons.injEq] at h2
        obtain ⟨rfl, h3⟩ := h2
        have hc : aeon_rbtree_compare_rangenode c key type = 1 :=
          hA c (by rw [h1]; simp)
        rw [hc]
        simp only [show ¬ ((1 : Int) = -1) by decide, if_false, if_true]
        exact ihr a2 B (some c) h3 (fun a ha => hA a (by rw [h1]; simp [ha])) hm hB
    · cases c1 with
      | nil =>
        simp only [List.nil_append, List.cons.injEq] at h2
        obtain ⟨rfl, _⟩ := h2
        rw [hm]; simp
      | cons x c2 =>
        simp only [List.cons_append, List.cons.injEq] at h2
        obtain ⟨rfl, h3⟩ := h2
        have hc : aeon_rbtree_compare_rangenode c key type = -1 :=
          hB c (by rw [h3]; simp)
        rw [hc]
        simp only [if_true]
        exact ihl A c2 (some c) h1 hA hm (fun b hb => hB b (by rw [h3]; simp [hb]))

theorem find_descend_not_found (key : Nat) (type : node_type) :
    ∀ (t : rb_root) (A B : List aeon_range_node) (prev : Option aeon_range_node),
      t.toList = A ++ B →
      (∀ a ∈ A, aeon_rbtree_compare_rangenode a key type = 1) →
      (∀ b ∈ B, aeon_rbtree_compare_rangenode b key type = -1) →
      (find_descend t key type prev).1 = 0 := by
  intro t
  induction t with
  | nil => intro A B prev _ _ _; rfl
  | node l c r ihl ihr =>
    intro A B prev h hA hB
    simp only [rb_root.toList] at h
    unfold find_descend
    simp only []
    rcases List.append_eq_append_iff.1 h with ⟨a1, h1, h2⟩ | ⟨c1, h1, h2⟩
    · cases a1 with
      | nil =>
        simp only [List.nil_append] at h2
        rw [List.append_nil] at h1
        have hc : aeon_rbtree_compare_rangenode c key type = -1 :=
          hB c (by rw [← h2]; simp)
        rw [hc]
        simp only [if_true]
        exact ihl A [] (some c) (by rw [h1]; simp) hA (by simp)
      | cons x a2 =>
        simp only [List.cons_append, List.cons.injEq] at h2
        obtain ⟨rfl, h3⟩ := h2
        have hc : aeon_rbtree_compare_rangenode c key type = 1 :=
          hA c (by rw [h1]; simp)
        rw [hc]
        simp only [show ¬ ((1 : Int) = -1) by decide, if_false, if_true]
        exact ihr a2 B (some c) h3 (fun a ha => hA a (by rw [h1]; simp [ha])) hB
    · have hc : aeon_rbtree_compare_rangenode c key type = -1 :=
        hB c (by rw [h2]; simp)
      rw [hc]
      simp only [if_true]
      exact ihl A c1 (some c) h1 hA (fun b hb => hB b (by rw [h2]; simp [hb]))

theorem insert_descend_split (new_node : aeon_range_node) (type : node_type) :
    ∀ (t : rb_root) (A B : List aeon_range_node),
      t.toList = A ++ B →
      (∀ a ∈ A, aeon_rbtree_compare_rangenode a new_node.range_low type = 1) →
      (∀ b ∈ B, aeon_rbtree_compare_rangenode b new_node.range_low type = -1) →
      ∃ t1, insert_descend t new_node type = some t1 ∧ t1.toList = A ++ new_node :: B := by
  intro t
  induction t with
  | nil =>
    intro A B h _ _
    simp only [rb_root.toList] at h
    have hA : A = [] := (List.append_eq_nil.1 h.symm).1
    have hB : B = [] := (List.append_eq_nil.1 h.symm).2
    subst hA; subst hB
    exact ⟨_, rfl, by simp [rb_link_node, rb_root.toList]⟩
  | node l c r ihl ihr =>
    intro A B h hA hB
    simp only [rb_root.toList] at h
    unfold insert_descend
    simp only []
    rcases List.append_eq_append_iff.1 h with ⟨a1, h1, h2⟩ | ⟨c1, h1, h2⟩
    · cases a1 with
      | nil =>
        simp only [List.nil_append] at h2
        rw [List.append_nil] at h1
        have hc : aeon_rbtree_compare_rangenode c new_node.range_low type = -1 :=
          hB c (by rw [← h2]; simp)
        rw [hc]
        simp only [if_true]
        obtain ⟨t1, ht1, hl1⟩ := ihl A [] (by rw [h1]; simp) hA (by simp)
        rw [ht1]
        refine ⟨_, rfl, ?_⟩
        simp only [rb_root.toList, hl1, ← h2]
        simp
      | cons x a2 =>
        simp only [List.cons_append, List.cons.injEq] at h2
        obtain ⟨rfl, h3⟩ := h2
        have hc : aeon_rbtree_compare_rangenode c new_node.range_low type = 1 :=
          hA c (by rw [h1]; simp)
        rw [hc]
        simp only [show ¬ ((1 : Int) = -1) by decide, if_false, if_true]
        obtain ⟨t1, ht1, hl1⟩ :=
          ihr a2 B h3 (fun a ha => hA a (by rw [h1]; simp [ha])) hB
        rw [ht1]
        refine ⟨_, rfl, ?_⟩
        simp only [rb_root.toList, hl1, h1]
        simp
    · have hc : aeon_rbtree_compare_rangenode c new_node.range_low type = -1 :=
        hB c (by rw [h2]; simp)
      rw [hc]
      simp only [if_true]
      obtain ⟨t1, ht1, hl1⟩ :=
        ihl A c1 h1 hA (fun b hb => hB b (by rw [h2]; simp [hb]))
      rw [ht1]
      refine ⟨_, rfl, ?_⟩
      simp only [rb_root.toList, hl1, h2]
      simp

theorem insert_descend_dup (new_node : aeon_range_node) (type : node_type)
    (m : aeon_range_node) :
    ∀ (t : rb_root) (A B : List aeon_range_node),
      t.toList = A ++ m :: B →
      (∀ a ∈ A, aeon_rbtree_compare_rangenode a new_node.range_low type = 1) →
      aeon_rbtree_compare_rangenode m new_node.range_low type = 0 →
      (∀ b ∈ B, aeon_rbtree_compare_rangenode b new_node.range_low type = -1) →
      insert_descend t new_node type = none := by
  intro t
  induction t with
  | nil => intro A B h; simp [rb_root.toList] at h
  | node l c r ihl ihr =>
    intro A B h hA hm hB
    simp only [rb_root.toList] at h
    unfold insert_descend
    simp only []
    rcases List.append_eq_append_iff.1 h with ⟨a1, h1, h2⟩ | ⟨c1, h1, h2⟩
    · cases a1 with
      | nil =>
        simp only [List.nil_append, List.cons.injEq] at h2
        obtain ⟨rfl, _⟩ := h2
        rw [hm]; simp
      | cons x a2 =>
        simp only [List.cons_append, List.cons.injEq] at h2
        obtain ⟨rfl, h3⟩ := h2
        have hc : aeon_rbtree_compare_rangenode c new_node.range_low type = 1 :=
          hA c (by rw [h1]; simp)
        rw [hc]
        simp only [show ¬ ((1 : Int) = -1) by decide, if_false, if_true]
        rw [ihr a2 B h3 (fun a ha => hA a (by rw [h1]; simp [ha])) hm hB]
        rfl
    · cases c1 with
      | nil =>
        simp only [List.nil_append, List.cons.injEq] at h2
        obtain ⟨rfl, _⟩ := h2
        rw [hm]; simp
      | cons x c2 =>
        simp only [List.cons_append, List.cons.injEq] at h2
        obtain ⟨rfl, h3⟩ := h2
        have hc : aeon_rbtree_compare_rangenode c new_node.range_low type = -1 :=
          hB c (by rw [h3]; simp)
        rw [hc]
        simp only [if_true]
        rw [ihl A c2 h1 hA hm (fun b hb => hB b (by rw [h3]; simp [hb]))]
        rfl

theorem compare_cases (curr : aeon_range_node) (key : Nat) (type : node_type) :
    aeon_rbtree_compare_rangenode curr key type = -1 ∨
    aeon_rbtree_compare_rangenode curr key type = 1 ∨
    aeon_rbtree_compare_rangenode curr key type = 0 := by
  unfold aeon_rbtree_compare_rangenode
  split_ifs <;> simp

theorem compare_range (curr : aeon_range_node) (key : Nat) (type : node_type)
    (ht : type ≠ node_type.NODE_DIR) :
    (aeon_rbtree_compare_rangenode curr key type = -1 ↔ key < curr.range_low) ∧
    (aeon_rbtree_compare_rangenode curr key type = 1 ↔
      curr.range_low ≤ key ∧ curr.range_high < key) ∧
    (aeon_rbtree_compare_rangenode curr key type = 0 ↔
      curr.range_low ≤ key ∧ key ≤ curr.range_high) := by
  unfold aeon_rbtree_compare_rangenode
  rw [if_neg ht]
  split_ifs <;> simp <;> omega

theorem compare_dir (curr : aeon_range_node) (key : Nat) :
    (aeon_rbtree_compare_rangenode curr key node_type.NODE_DIR = -1 ↔ key < curr.hash) ∧
    (aeon_rbtree_compare_rangenode curr key node_type.NODE_DIR = 1 ↔ curr.hash < key) ∧
    (aeon_rbtree_compare_rangenode curr key node_type.NODE_DIR = 0 ↔ key = curr.hash) := by
  unfold aeon_rbtree_compare_rangenode
  rw [if_pos rfl]
  split_ifs <;> simp <;> omega

/-- An ordered sequence is split by any key: the nodes below the key, then possibly a
node that compares equal, then the nodes above the key. -/
theorem ordered_split (type : node_type) (key : Nat) :
    ∀ l : List aeon_range_node, tree_ordered type l →
      ∃ A B, l = A ++ B ∧
        (∀ a ∈ A, aeon_rbtree_compare_rangenode a key type = 1) ∧
        ((∀ b ∈ B, aeon_rbtree_compare_rangenode b key type = -1) ∨
          ∃ m B1, B = m :: B1 ∧ aeon_rbtree_compare_rangenode m key type = 0 ∧
            ∀ b ∈ B1, aeon_rbtree_compare_rangenode b key type = -1) := by
  intro l
  induction l with
  | nil => intro _; exact ⟨[], [], rfl, by simp, Or.inl (by simp)⟩
  | cons n rest ih =>
    intro h
    have hrest : tree_ordered type rest := by
      unfold tree_ordered at h ⊢
      split_ifs at h ⊢ with hd
      · exact (List.pairwise_cons.1 h).2
      · exact ⟨fun m hm => h.1 m (List.mem_cons_of_mem _ hm), (List.pairwise_cons.1 h.2).2⟩
    have habove : aeon_rbtree_compare_rangenode n key type ≠ 1 →
        ∀ b ∈ rest, aeon_rbtree_compare_rangenode b key type = -1 := by
      intro hn b hb
      unfold tree_ordered at h
      split_ifs at h with hd
      · subst hd
        have hlt := (List.pairwise_cons.1 h).1 b hb
        rw [(compare_dir b key).1]
        rw [Ne, (compare_dir n key).2.1] at hn
        omega
      · have hlt := (List.pairwise_cons.1 h.2).1 b hb
        have hle := h.1 n (List.mem_cons_self _ _)
        rw [(compare_range b key type hd).1]
        rw [Ne, (compare_range n key type hd).2.1] at hn
        omega
    rcases compare_cases n key type with hc | hc | hc
    · refine ⟨[], n :: rest, rfl, by simp, Or.inl ?_⟩
      intro b hb
      rcases List.mem_cons.1 hb with e | hb
      · rw [e]; exact hc
      · exact habove (by rw [hc]; decide) b hb
    · obtain ⟨A, B, hl, hA, hB⟩ := ih hrest
      refine ⟨n :: A, B, by rw [hl]; rfl, ?_, hB⟩
      intro a ha
      rcases List.mem_cons.1 ha with e | ha
      · rw [e]; exact hc
      · exact hA a ha
    · exact ⟨[], n :: rest, rfl, by simp,
        Or.inr ⟨n, rest, rfl, hc, habove (by rw [hc]; decide)⟩⟩

theorem node_matches_iff (type : node_type) (m : aeon_range_node) (key : Nat) :
    node_matches type m key ↔ aeon_rbtree_compare_rangenode m key type = 0 := by
  unfold node_matches
  split_ifs with hd
  · subst hd
    rw [(compare_dir m key).2.2]
    exact eq_comm
  · rw [(compare_range m key type hd).2.2]

/-- In an ordered tree the lookup finds the node that compares equal to the key. -/
theorem find_ordered_found (type : node_type) (tree : rb_root) (key : Nat)
    (hord : tree_ordered type tree.toList) (m : aeon_range_node) (hm : m ∈ tree.toList)
    (hc : aeon_rbtree_compare_rangenode m key type = 0) :
    aeon_find_range_node tree key type = (1, some m) := by
  obtain ⟨A, B, hl, hA, hB⟩ := ordered_split type key tree.toList hord
  have hnotA : m ∉ A := fun h => by
    have := hA m h
    rw [hc] at this
    exact absurd this (by decide)
  have hmB : m ∈ B := by
    rw [hl] at hm
    rcases List.mem_append.1 hm with h | h
    · exact absurd h hnotA
    · exact h
  rcases hB with hB | ⟨m1, B1, rfl, hm1, hB1⟩
  · have := hB m hmB
    rw [hc] at this
    exact absurd this (by decide)
  · have hmm : m = m1 := by
      rcases List.mem_cons.1 hmB with e | h
      · exact e
      · have := hB1 m h
        rw [hc] at this
        exact absurd this (by decide)
    subst hmm
    exact find_descend_found key type m tree A B1 none hl hA hm1 hB1

/-- In an ordered tree the lookup returns 0 when no node compares equal to the key. -/
theorem find_ordered_not_found (type : node_type) (tree : rb_root) (key : Nat)
    (hord : tree_ordered type tree.toList)
    (hno : ∀ m ∈ tree.toList, aeon_rbtree_compare_rangenode m key type ≠ 0) :
    (aeon_find_range_node tree key type).1 = 0 := by
  obtain ⟨A, B, hl, hA, hB⟩ := ordered_split type key tree.toList hord
  rcases hB with hB | ⟨m1, B1, rfl, hm1, _⟩
  · exact find_descend_not_found key type tree A B none hl hA hB
  · exact absurd hm1 (hno m1 (by rw [hl]; simp))

/-- C20: for every ordered, disjoint range tree and every key, `aeon_find_range_node`
returns 1 with `*ret_node` set to the node that matches the key (`hash` equal to the key
for directory kind, `range_low <= key <= range_high` for block and inode kind) if such a
node is in the tree, and returns 0 if no node of the tree matches.  The function only
reads the tree: its embedding has no tree among its results. -/
theorem C20_find_range_node (type : node_type) (tree : rb_root) (key : Nat)
    (hord : tree_ordered type tree.toList) :
    (∀ m ∈ tree.toList, node_matches type m key →
      aeon_find_range_node tree key type = (1, some m)) ∧
    ((∀ m ∈ tree.toList, ¬ node_matches type m key) →
      (aeon_find_range_node tree key type).1 = 0) := by
  constructor
  · intro m hm hmatch
    exact find_ordered_found type tree key hord m hm ((node_matches_iff type m key).1 hmatch)
  · intro hno
    exact find_ordered_not_found type tree key hord
      (fun m hm h => hno m hm ((node_matches_iff type m key).2 h))

theorem three_range_tree_ordered (type : node_type) (h : type ≠ node_type.NODE_DIR) :
    tree_ordered type three_range_tree.toList := by
  unfold tree_ordered
  rw [if_neg h]
  unfold ranges_ordered
  decide

/-- Witness of C20: lookups in the tree `[0, 5]`, `[10, 20]`, `[30, 40]`. -/
theorem C20_find_range_node_witness :
    (∀ m ∈ three_range_tree.toList, node_matches node_type.NODE_INODE m 35 →
      aeon_find_range_node three_range_tree 35 node_type.NODE_INODE = (1, some m)) ∧
    ((∀ m ∈ three_range_tree.toList, ¬ node_matches node_type.NODE_INODE m 35) →
      (aeon_find_range_node three_range_tree 35 node_type.NODE_INODE).1 = 0) :=
  C20_find_range_node node_type.NODE_INODE three_range_tree 35
    (three_range_tree_ordered _ (by decide))

/-- The descents of the lookup and of the insertion agree: either the lookup finds a
node and nothing is inserted, or the lookup fails and the new node is linked in. -/
theorem insert_descend_find (new_node : aeon_range_node) (type : node_type) :
    ∀ (t : rb_root) (prev : Option aeon_range_node),
      ((find_descend t new_node.range_low type prev).1 = 1 ∧
        insert_descend t new_node type = none) ∨
      ((find_descend t new_node.range_low type prev).1 = 0 ∧
        ∃ t1 A B, insert_descend t new_node type = some t1 ∧ t.toList = A ++ B ∧
          t1.toList = A ++ new_node :: B) := by
  intro t
  induction t with
  | nil =>
    intro prev
    exact Or.inr ⟨rfl, _, [], [], rfl, rfl, rfl⟩
  | node l c r ihl ihr =>
    intro prev
    unfold find_descend insert_descend
    simp only []
    rcases compare_cases c new_node.range_low type with hc | hc | hc
    · rw [hc]
      simp only [if_true]
      rcases ihl (some c) with ⟨h1, h2⟩ | ⟨h1, t1, A, B, h2, h3, h4⟩
      · exact Or.inl ⟨h1, by rw [h2]; rfl⟩
      · refine Or.inr ⟨h1, _, A, B ++ c :: r.toList, by rw [h2]; rfl, ?_, ?_⟩
        · simp [rb_root.toList, h3]
        · simp [rb_root.toList, h4]
    · rw [hc]
      simp only [show ¬ ((1 : Int) = -1) by decide, if_false, if_true]
      rcases ihr (some c) with ⟨h1, h2⟩ | ⟨h1, t1, A, B, h2, h3, h4⟩
      · exact Or.inl ⟨h1, by rw [h2]; rfl⟩
      · refine Or.inr ⟨h1, _, l.toList ++ c :: A, B, by rw [h2]; rfl, ?_, ?_⟩
        · simp [rb_root.toList, h3]
        · simp [rb_root.toList, h4]
    · rw [hc]
      simp

/-- C18: `aeon_insert_range_node` returns `-EINVAL` and leaves the tree unchanged
whenever its search reaches a node that compares equal to the key of the new node (the
search is the one of `aeon_find_range_node` for `new_node->range_low`); otherwise it
returns 0 and the tree holds the new node among the old ones, in their order.  In an
ordered tree the first case is exactly the case that a node matching the key exists:
for directory kind a node with the same hash, for block and inode kind a node whose
`[range_low, range_high]` contains the new node's `range_low`. -/
theorem C18_insert_range_node_duplicate (type : node_type) (tree : rb_root)
    (new_node : aeon_range_node) :
    ((aeon_find_range_node tree new_node.range_low type).1 = 1 →
      aeon_insert_range_node tree new_node type = (-EINVAL, tree)) ∧
    ((aeon_find_range_node tree new_node.range_low type).1 ≠ 1 →
      ∃ t1 A B, aeon_insert_range_node tree new_node type = (0, t1) ∧
        tree.toList = A ++ B ∧ t1.toList = A ++ new_node :: B) ∧
    (tree_ordered type tree.toList →
      ((aeon_find_range_node tree new_node.range_low type).1 = 1 ↔
        ∃ m ∈ tree.toList, node_matches type m new_node.range_low)) := by
  refine ⟨?_, ?_, ?_⟩
  · intro h
    unfold aeon_find_range_node at h
    rcases insert_descend_find new_node type tree none with ⟨_, h2⟩ | ⟨h1, _⟩
    · unfold aeon_insert_range_node
      rw [h2]
    · rw [h1] at h
      exact absurd h (by decide)
  · intro h
    unfold aeon_find_range_node at h
    rcases insert_descend_find new_node type tree none with ⟨h1, _⟩ | ⟨_, t1, A, B, h2, h3, h4⟩
    · exact absurd h1 h
    · refine ⟨t1, A, B, ?_, h3, h4⟩
      unfold aeon_insert_range_node
      rw [h2]
      rfl
  · intro hord
    constructor
    · intro h
      by_contra hno
      have := find_ordered_not_found type tree new_node.range_low hord
        (fun m hm hc => hno ⟨m, hm, (node_matches_iff type m _).2 hc⟩)
      rw [this] at h
      exact absurd h (by decide)
    · rintro ⟨m, hm, hmatch⟩
      rw [find_ordered_found type tree new_node.range_low hord m hm
        ((node_matches_iff type m _).1 hmatch)]

/-- Witness of C18: inserting a node whose `range_low` 15 lies in `[10, 20]`. -/
theorem C18_insert_range_node_duplicate_witness :
    aeon_insert_range_node three_range_tree ⟨9, 15, 16, 0⟩ node_type.NODE_INODE
      = (-EINVAL, three_range_tree) ∧
    (∃ m ∈ three_range_tree.toList, node_matches node_type.NODE_INODE m 15) ∧
    (∃ t1 A B, aeon_insert_range_node three_range_tree ⟨9, 7, 8, 0⟩ node_type.NODE_INODE
      = (0, t1) ∧ three_range_tree.toList = A ++ B ∧ t1.toList = A ++ ⟨9, 7, 8, 0⟩ :: B) :=
  ⟨(C18_insert_range_node_duplicate node_type.NODE_INODE three_range_tree ⟨9, 15, 16, 0⟩).1
      (by decide),
    ((C18_insert_range_node_duplicate node_type.NODE_INODE three_range_tree
      ⟨9, 15, 16, 0⟩).2.2 (three_range_tree_ordered _ (by decide))).1 (by decide),
    (C18_insert_range_node_duplicate node_type.NODE_INODE three_range_tree ⟨9, 7, 8, 0⟩).2.1
      (by decide)⟩

theorem ranges_ordered_insert (A B : List aeon_range_node) (n : aeon_range_node)
    (h : ranges_ordered (A ++ B)) (hn : n.range_low ≤ n.range_high)
    (hA : ∀ a ∈ A, a.range_high < n.range_low)
    (hB : ∀ b ∈ B, n.range_high < b.range_low) :
    ranges_ordered (A ++ n :: B) := by
  obtain ⟨h1, h2⟩ := h
  rw [List.pairwise_append] at h2
  obtain ⟨pA, pB, pAB⟩ := h2
  refine ⟨?_, ?_⟩
  · intro m hm
    rcases List.mem_append.1 hm with h | h
    · exact h1 m (List.mem_append_left _ h)
    · rcases List.mem_cons.1 h with e | h
      · rw [e]; exact hn
      · exact h1 m (List.mem_append_right _ h)
  · rw [List.pairwise_append]
    refine ⟨pA, List.pairwise_cons.2 ⟨hB, pB⟩, ?_⟩
    intro a ha b hb
    rcases List.mem_cons.1 hb with e | hb
    · rw [e]; exact hA a ha
    · exact pAB a ha b hb

/-- C19 as stated fails: inserting `[5, 15]` into the ordered tree holding `[10, 20]`
returns 0 (only `range_low` is compared with the nodes) and the two ranges of the
resulting tree overlap. -/
theorem C19_insert_overlapping :
    ranges_ordered (rb_root.node .nil ⟨1, 10, 20, 0⟩ .nil).toList ∧
    (aeon_insert_range_node (.node .nil ⟨1, 10, 20, 0⟩ .nil) ⟨2, 5, 15, 0⟩
      node_type.NODE_BLOCK).1 = 0 ∧
    (aeon_insert_range_node (.node .nil ⟨1, 10, 20, 0⟩ .nil) ⟨2, 5, 15, 0⟩
      node_type.NODE_BLOCK).2.toList = [⟨2, 5, 15, 0⟩, ⟨1, 10, 20, 0⟩] ∧
    ¬ ranges_ordered (aeon_insert_range_node (.node .nil ⟨1, 10, 20, 0⟩ .nil) ⟨2, 5, 15, 0⟩
      node_type.NODE_BLOCK).2.toList := by
  refine ⟨?_, by decide, by decide, ?_⟩
  · unfold ranges_ordered; decide
  · unfold ranges_ordered; decide

/-- C19 (amended): for every block or inode tree whose nodes are ordered and disjoint
and every new node with `range_low <= range_high` whose `range_high` is below the
`range_low` of every node that starts above the new `range_low`, if
`aeon_insert_range_node` returns 0 then the nodes of the resulting tree are again
ordered and disjoint. -/
theorem C19_insert_keeps_order (type : node_type) (tree : rb_root) (new_node : aeon_range_node)
    (ht : type ≠ node_type.NODE_DIR)
    (hord : ranges_ordered tree.toList)
    (hn : new_node.range_low ≤ new_node.range_high)
    (hfree : ∀ n ∈ tree.toList, new_node.range_low < n.range_low →
      new_node.range_high < n.range_low)
    (hret : (aeon_insert_range_node tree new_node type).1 = 0) :
    ranges_ordered (aeon_insert_range_node tree new_node type).2.toList := by
  have hord1 : tree_ordered type tree.toList := by
    unfold tree_ordered; rw [if_neg ht]; exact hord
  obtain ⟨A, B, hl, hA, hB⟩ := ordered_split type new_node.range_low tree.toList hord1
  rcases hB with hB | ⟨m, B1, rfl, hm, hB1⟩
  · obtain ⟨t1, h1, h2⟩ := insert_descend_split new_node type tree A B hl hA hB
    unfold aeon_insert_range_node
    rw [h1]
    show ranges_ordered (rb_insert_color t1).toList
    unfold rb_insert_color
    rw [h2]
    apply ranges_ordered_insert A B new_node (hl ▸ hord) hn
    · intro a ha
      exact ((compare_range a _ type ht).2.1.1 (hA a ha)).2
    · intro b hb
      exact hfree b (by rw [hl]; exact List.mem_append_right _ hb)
        ((compare_range b _ type ht).1.1 (hB b hb))
  · exfalso
    have := insert_descend_dup new_node type m tree A B1 hl hA hm hB1
    unfold aeon_insert_range_node at hret
    rw [this] at hret
    simp [EINVAL] at hret

/-- Witness of C19 (amended): inserting `[22, 25]` between `[10, 20]` and `[30, 40]`. -/
theorem C19_insert_keeps_order_witness :
    ranges_ordered (aeon_insert_range_node three_range_tree ⟨9, 22, 25, 0⟩
      node_type.NODE_INODE).2.toList :=
  C19_insert_keeps_order node_type.NODE_INODE three_range_tree ⟨9, 22, 25, 0⟩ (by decide)
    (by unfold ranges_ordered; decide) (by decide) (by decide) (by decide)

theorem covers_free_replacement (i c : aeon_range_node) (internal x : Nat)
    (h1 : i.range_low ≤ internal) (h2 : internal ≤ i.range_high) :
    covers (free_replacement i internal c) x ↔
      (i.range_low ≤ x ∧ x ≤ i.range_high ∧ x ≠ internal) := by
  unfold free_replacement covers
  split_ifs with ha hb hc
  · simp; omega
  · simp; omega
  · simp; omega
  · simp; omega

theorem ranges_ordered_split (pre post : List aeon_range_node) (i : aeon_range_node)
    (h : ranges_ordered (pre ++ i :: post)) :
    (∀ a ∈ pre, a.range_low ≤ a.range_high ∧ a.range_high < i.range_low) ∧
    i.range_low ≤ i.range_high ∧
    (∀ b ∈ post, b.range_low ≤ b.range_high ∧ i.range_high < b.range_low) := by
  obtain ⟨h1, h2⟩ := h
  rw [List.pairwise_append] at h2
  obtain ⟨_, pB, pAB⟩ := h2
  refine ⟨fun a ha => ⟨h1 a (by simp [ha]), pAB a ha i (by simp)⟩, h1 i (by simp),
    fun b hb => ⟨h1 b (by simp [hb]), (List.pairwise_cons.1 pB).1 b hb⟩⟩

theorem tree_ordered_of_ranges (type : node_type) (ht : type ≠ node_type.NODE_DIR)
    (l : List aeon_range_node) (h : ranges_ordered l) : tree_ordered type l := by
  unfold tree_ordered; rw [if_neg ht]; exact h

/-- The lookup of `aeon_search_inodetree` in an ordered tree finds the node that holds
the internal number. -/
theorem search_inodetree_found (sbi : aeon_sb_info) (ino : Nat)
    (i : aeon_range_node) (pre post : List aeon_range_node)
    (htree : (sbi.inode_maps (ino % sbi.cpus)).inode_inuse_tree.toList = pre ++ i :: post)
    (hord : ranges_ordered (sbi.inode_maps (ino % sbi.cpus)).inode_inuse_tree.toList)
    (hlo : i.range_low ≤ ino / sbi.cpus) (hhi : ino / sbi.cpus ≤ i.range_high) :
    aeon_search_inodetree sbi ino = (1, some i) := by
  unfold aeon_search_inodetree
  exact find_ordered_found node_type.NODE_INODE _ _
    (tree_ordered_of_ranges _ (by decide) _ hord) i (by rw [htree]; simp)
    ((compare_range i _ _ (by decide)).2.2.2 ⟨hlo, hhi⟩)

/-- The effect of `aeon_free_inuse_inode` on a number held by node `i` of an ordered
tree: the tree, the counters and the return value. -/
theorem free_inuse_inode_found (sbi : aeon_sb_info) (ino : Nat) (c : aeon_range_node)
    (ret : Int) (i : aeon_range_node) (pre post : List aeon_range_node)
    (htree : (sbi.inode_maps (ino % sbi.cpus)).inode_inuse_tree.toList = pre ++ i :: post)
    (hord : ranges_ordered (sbi.inode_maps (ino % sbi.cpus)).inode_inuse_tree.toList)
    (hnd : (rb_addrs (sbi.inode_maps (ino % sbi.cpus)).inode_inuse_tree).Nodup)
    (hlo : i.range_low ≤ ino / sbi.cpus) (hhi : ino / sbi.cpus ≤ i.range_high)
    (h64 : i.range_high < 2 ^ 64) :
    ((aeon_free_inuse_inode sbi ino (some c) ret).2.inode_maps
        (ino % sbi.cpus)).inode_inuse_tree.toList
      = pre ++ free_replacement i (ino / sbi.cpus) c ++ post ∧
    (aeon_free_inuse_inode sbi ino (some c) ret).2.s_inodes_used_count
      = sbi.s_inodes_used_count - 1 ∧
    (aeon_free_inuse_inode sbi ino (some c) ret).1
      = (if i.range_low < ino / sbi.cpus ∧ ino / sbi.cpus < i.range_high then 0 else ret) ∧
    ((aeon_free_inuse_inode sbi ino (some c) ret).2.inode_maps
        (ino % sbi.cpus)).num_range_node_inode
      = (sbi.inode_maps (ino % sbi.cpus)).num_range_node_inode
        + (free_replacement i (ino / sbi.cpus) c).length - 1 ∧
    (aeon_free_inuse_inode sbi ino (some c) ret).2.cpus = sbi.cpus ∧
    (∀ k, k ≠ ino % sbi.cpus →
      (aeon_free_inuse_inode sbi ino (some c) ret).2.inode_maps k = sbi.inode_maps k) ∧
    ((aeon_free_inuse_inode sbi ino (some c) ret).2.inode_maps
        (ino % sbi.cpus)).first_inode_range
      = (sbi.inode_maps (ino % sbi.cpus)).first_inode_range := by
  have hsearch := search_inodetree_found sbi ino i pre post htree hord hlo hhi
  obtain ⟨hpre, hile, hpost⟩ := ranges_ordered_split pre post i (htree ▸ hord)
  have hinc : (ino / sbi.cpus + 1) % 2 ^ 64 = ino / sbi.cpus + 1 ∨ ino / sbi.cpus = i.range_high := by
    by_cases h : ino / sbi.cpus = i.range_high
    · exact Or.inr h
    · exact Or.inl (Nat.mod_eq_of_lt (by omega))
  unfold aeon_free_inuse_inode
  simp only [hsearch, show ¬ ((1 : Int) = 0) by decide, if_false]
  by_cases hA : ino / sbi.cpus = i.range_low ∧ ino / sbi.cpus = i.range_high
  · rw [if_pos hA]
    have hrep : free_replacement i (ino / sbi.cpus) c = [] := by
      unfold free_replacement; rw [if_pos hA]
    rw [hrep]
    simp only [free_block_found, set_inode_tree, Function.update_same, Function.update_idem]
    refine ⟨?_, trivial, ?_, ?_, trivial, ?_, trivial⟩
    · rw [toList_rb_erase_split _ pre post i htree hnd]; simp
    · rw [if_neg (by omega)]
    · simp
    · intro k hk; exact Function.update_noteq hk _ _
  · rw [if_neg hA]
    have hdec : u64_dec (ino / sbi.cpus) = ino / sbi.cpus - 1 ∨ ino / sbi.cpus = i.range_low := by
      by_cases h : ino / sbi.cpus = i.range_low
      · exact Or.inr h
      · exact Or.inl (u64_dec_eq _ (by omega) (by omega))
    by_cases hB : ino / sbi.cpus = i.range_low ∧ ino / sbi.cpus < i.range_high
    · rw [if_pos hB]
      have hrep : free_replacement i (ino / sbi.cpus) c
          = [{ i with range_low := ino / sbi.cpus + 1 }] := by
        unfold free_replacement; rw [if_neg hA, if_pos hB.1]
      have hi1 : (ino / sbi.cpus + 1) % 2 ^ 64 = ino / sbi.cpus + 1 := by
        rcases hinc with h | h
        · exact h
        · omega
      rw [hrep]
      simp only [free_block_found, set_inode_tree, Function.update_same, Function.update_idem]
      refine ⟨?_, trivial, ?_, ?_, trivial, ?_, trivial⟩
      · rw [toList_rb_store_split _ pre post i _ htree hnd, hi1]; simp
      · rw [if_neg (by omega)]
      · simp
      · intro k hk; exact Function.update_noteq hk _ _
    · rw [if_neg hB]
      by_cases hC : ino / sbi.cpus > i.range_low ∧ ino / sbi.cpus = i.range_high
      · rw [if_pos hC]
        have hrep : free_replacement i (ino / sbi.cpus) c
            = [{ i with range_high := ino / sbi.cpus - 1 }] := by
          unfold free_replacement
          rw [if_neg hA, if_neg (by omega), if_pos hC.2]
        have hd1 : u64_dec (ino / sbi.cpus) = ino / sbi.cpus - 1 := by
          rcases hdec with h | h
          · exact h
          · omega
        rw [hrep]
        simp only [free_block_found, set_inode_tree, Function.update_same, Function.update_idem]
        refine ⟨?_, trivial, ?_, ?_, trivial, ?_, trivial⟩
        · rw [toList_rb_store_split _ pre post i _ htree hnd, hd1]; simp
        · rw [if_neg (by omega)]
        · simp
        · intro k hk; exact Function.update_noteq hk _ _
      · rw [if_neg hC]
        have hD : ino / sbi.cpus > i.range_low ∧ ino / sbi.cpus < i.range_high := by omega
        rw [if_pos hD]
        have hrep : free_replacement i (ino / sbi.cpus) c
            = [{ i with range_high := ino / sbi.cpus - 1 },
               { c with range_low := ino / sbi.cpus + 1, range_high := i.range_high }] := by
          unfold free_replacement
          rw [if_neg hA, if_neg (by omega), if_neg (by omega)]
        have hd1 : u64_dec (ino / sbi.cpus) = ino / sbi.cpus - 1 := by
          rcases hdec with h | h
          · exact h
          · omega
        have hi1 : (ino / sbi.cpus + 1) % 2 ^ 64 = ino / sbi.cpus + 1 := by
          rcases hinc with h | h
          · exact h
          · omega
        have hst := toList_rb_store_split _ pre post i
          (fun n => { n with range_high := u64_dec (ino / sbi.cpus) }) htree hnd
        rw [hd1] at hst
        have hst2 : (rb_store i.addr (fun n => { n with range_high := ino / sbi.cpus - 1 })
            (sbi.inode_maps (ino % sbi.cpus)).inode_inuse_tree).toList
            = (pre ++ [{ i with range_high := ino / sbi.cpus - 1 }]) ++ post := by
          rw [hst]; simp
        obtain ⟨t1, ht1, hl1⟩ := insert_descend_split
          { c with range_low := ino / sbi.cpus + 1, range_high := i.range_high }
          node_type.NODE_INODE _ _ _ hst2
          (by
            intro a ha
            rw [(compare_range a _ _ (by decide)).2.1]
            rcases List.mem_append.1 ha with h | h
            · have := hpre a h
              simp only []; omega
            · rw [List.mem_singleton] at h
              subst h
              simp only []; omega)
          (by
            intro b hb
            rw [(compare_range b _ _ (by decide)).1]
            have := hpost b hb
            simp only []; omega)
        rw [hrep, hd1, hi1]
        simp only [aeon_insert_inodetree, aeon_insert_range_node, set_inode_tree,
          Function.update_same, Function.update_idem, ht1, free_block_found, rb_insert_color,
          ne_eq, not_true_eq_false, if_false]
        refine ⟨?_, trivial, ?_, ?_, trivial, ?_, trivial⟩
        · rw [hl1]; simp
        · rw [if_pos hD]
        · simp; omega
        · intro k hk; exact Function.update_noteq hk _ _

/-- C9: for an inode shard with disjoint ordered ranges and an external number `ino`
whose internal number `ino / cpus` lies in a node `i` of shard `ino % cpus` (the node
allocation of the split case succeeding with the new node `c`), after
`aeon_free_inuse_inode` the tree holds, in place of `i`, nothing when the number equals
both bounds, `i` with `range_low` raised by 1 when it equals `range_low` only, `i` with
`range_high` lowered by 1 when it equals `range_high` only, and the two nodes
`[i.low, internal - 1]`, `[internal + 1, i.high]` when it is strictly interior; the set
of internal numbers covered by the tree is the previous set minus the number. -/
theorem C9_free_inuse_inode_removes (sbi : aeon_sb_info) (ino : Nat) (c : aeon_range_node)
    (ret : Int) (i : aeon_range_node) (pre post : List aeon_range_node)
    (htree : (sbi.inode_maps (ino % sbi.cpus)).inode_inuse_tree.toList = pre ++ i :: post)
    (hord : ranges_ordered (sbi.inode_maps (ino % sbi.cpus)).inode_inuse_tree.toList)
    (hnd : (rb_addrs (sbi.inode_maps (ino % sbi.cpus)).inode_inuse_tree).Nodup)
    (hlo : i.range_low ≤ ino / sbi.cpus) (hhi : ino / sbi.cpus ≤ i.range_high)
    (h64 : i.range_high < 2 ^ 64) :
    ((aeon_free_inuse_inode sbi ino (some c) ret).2.inode_maps
        (ino % sbi.cpus)).inode_inuse_tree.toList
      = pre ++ free_replacement i (ino / sbi.cpus) c ++ post ∧
    ∀ x, covers ((aeon_free_inuse_inode sbi ino (some c) ret).2.inode_maps
        (ino % sbi.cpus)).inode_inuse_tree.toList x ↔
      (covers (sbi.inode_maps (ino % sbi.cpus)).inode_inuse_tree.toList x ∧
        x ≠ ino / sbi.cpus) := by
  have h := (free_inuse_inode_found sbi ino c ret i pre post htree hord hnd hlo hhi h64).1
  obtain ⟨hpre, _, hpost⟩ := ranges_ordered_split pre post i (htree ▸ hord)
  refine ⟨h, ?_⟩
  intro x
  rw [h, htree]
  simp only [covers_append, covers_cons, covers_free_replacement i c _ x hlo hhi]
  constructor
  · rintro ((hx | hx) | hx)
    · obtain ⟨a, ha, h1, h2⟩ := hx
      have := hpre a ha
      exact ⟨Or.inl ⟨a, ha, h1, h2⟩, by omega⟩
    · exact ⟨Or.inr (Or.inl ⟨hx.1, hx.2.1⟩), hx.2.2⟩
    · obtain ⟨b, hb, h1, h2⟩ := hx
      have := hpost b hb
      exact ⟨Or.inr (Or.inr ⟨b, hb, h1, h2⟩), by omega⟩
  · rintro ⟨hx | hx | hx, hne⟩
    · exact Or.inl (Or.inl hx)
    · exact Or.inl (Or.inr ⟨hx.1, hx.2, hne⟩)
    · exact Or.inr hx

/-- Witness of C9: releasing the number 15 of the tree `[0, 5]`, `[10, 20]`, `[30, 40]`
of a single shard splits the middle node. -/
theorem C9_free_inuse_inode_removes_witness :
    ((aeon_free_inuse_inode
        (uniform_sbi 1 (single_range_shard 0 0) (inode_shard_of three_range_tree 3))
        15 (some ⟨9, 0, 0, 0⟩) 0).2.inode_maps (15 % 1)).inode_inuse_tree.toList
      = [⟨1, 0, 5, 0⟩] ++ free_replacement ⟨2, 10, 20, 0⟩ (15 / 1) ⟨9, 0, 0, 0⟩
          ++ [⟨3, 30, 40, 0⟩] ∧
    ∀ x, covers ((aeon_free_inuse_inode
        (uniform_sbi 1 (single_range_shard 0 0) (inode_shard_of three_range_tree 3))
        15 (some ⟨9, 0, 0, 0⟩) 0).2.inode_maps (15 % 1)).inode_inuse_tree.toList x ↔
      (covers three_range_tree.toList x ∧ x ≠ 15 / 1) :=
  C9_free_inuse_inode_removes
    (uniform_sbi 1 (single_range_shard 0 0) (inode_shard_of three_range_tree 3))
    15 ⟨9, 0, 0, 0⟩ 0 ⟨2, 10, 20, 0⟩ [⟨1, 0, 5, 0⟩] [⟨3, 30, 40, 0⟩] rfl
    (by unfold ranges_ordered; decide) (by decide) (by decide) (by decide) (by decide)

/-- C35: the code at the failing input.  On the tree `[0, 5]`, `[10, 20]`, `[30, 40]` of a
single shard the number 10 is found and released by raising `range_low` (the tree
becomes `[0, 5]`, `[11, 20]`, `[30, 40]`), and the value returned is whatever the
uninitialised local `ret` holds: the call returns `ret`, for every value of it, and
not 0. -/
theorem C35_free_returns_uninitialised (ret : Int) :
    (aeon_free_inuse_inode
        (uniform_sbi 1 (single_range_shard 0 0) (inode_shard_of three_range_tree 3))
        10 (some ⟨9, 0, 0, 0⟩) ret).1 = ret ∧
    ((aeon_free_inuse_inode
        (uniform_sbi 1 (single_range_shard 0 0) (inode_shard_of three_range_tree 3))
        10 (some ⟨9, 0, 0, 0⟩) ret).2.inode_maps 0).inode_inuse_tree.toList
      = [⟨1, 0, 5, 0⟩, ⟨2, 11, 20, 0⟩, ⟨3, 30, 40, 0⟩] := by
  constructor
  · rfl
  · rfl

/-- C13: the code at the failing input.  On shard 0 of 4 shards whose only node is
`[0, 2^30 - 1]`, `aeon_alloc_unused_inode` succeeds (it returns 0 and extends the node to
`[0, 2^30]`) and stores in `*ino` the value 0, while `new * cpus + cpuid` is `2^32`. -/
theorem C13_alloc_stores_zero :
    ∃ r, aeon_alloc_unused_inode
        (uniform_sbi 4 (single_range_shard 0 0)
          (inode_shard_of (.node .nil ⟨1, 0, 1073741823, 0⟩ .nil) 1)) 0 77 0 = some r ∧
      r.ret = 0 ∧ r.ino = 0 ∧ (1073741823 + 1) * 4 + 0 = 4294967296 ∧
      (r.sbi.inode_maps 0).inode_inuse_tree.toList = [⟨1, 0, 1073741824, 0⟩] :=
  ⟨_, rfl, by decide, by decide, by decide, by decide⟩

/-- C12: for `cpus` shards, a shard `cpuid < cpus` and an internal number `n`, the
external number `ino = n * cpus + cpuid` satisfies `ino % cpus = cpuid` and
`ino / cpus = n`; hence `aeon_search_inodetree` looks `n` up in the tree of shard
`cpuid`, and `aeon_free_inuse_inode` applied to `ino` works on shard `cpuid` and the
internal number `n`: when `n` lies in a node of that shard it takes exactly `n` out of
the numbers the shard covers, leaves every other shard as it was and lowers the used
count by one, and when `n` is not found it reports `-EINVAL` without changing the state.
A number that `aeon_alloc_unused_inode` returns for shard `cpuid` without overflow is of
that form, with `n` the successor of the first node's upper bound. -/
theorem C12_external_number_roundtrip (sbi : aeon_sb_info) (cpuid n : Nat)
    (hcpu : cpuid < sbi.cpus) :
    (n * sbi.cpus + cpuid) % sbi.cpus = cpuid ∧
    (n * sbi.cpus + cpuid) / sbi.cpus = n ∧
    aeon_search_inodetree sbi (n * sbi.cpus + cpuid)
      = aeon_find_range_node (sbi.inode_maps cpuid).inode_inuse_tree n node_type.NODE_INODE ∧
    (∀ curr_node ret,
      (aeon_find_range_node (sbi.inode_maps cpuid).inode_inuse_tree n
        node_type.NODE_INODE).1 = 0 →
      aeon_free_inuse_inode sbi (n * sbi.cpus + cpuid) curr_node ret = (-EINVAL, sbi)) ∧
    (∀ (c : aeon_range_node) (ret : Int) (i : aeon_range_node)
        (pre post : List aeon_range_node),
      (sbi.inode_maps cpuid).inode_inuse_tree.toList = pre ++ i :: post →
      ranges_ordered (sbi.inode_maps cpuid).inode_inuse_tree.toList →
      (rb_addrs (sbi.inode_maps cpuid).inode_inuse_tree).Nodup →
      i.range_low ≤ n → n ≤ i.range_high → i.range_high < 2 ^ 64 →
      ((aeon_free_inuse_inode sbi (n * sbi.cpus + cpuid) (some c) ret).2.inode_maps
          cpuid).inode_inuse_tree.toList
        = pre ++ free_replacement i n c ++ post ∧
      (∀ x, covers ((aeon_free_inuse_inode sbi (n * sbi.cpus + cpuid) (some c)
          ret).2.inode_maps cpuid).inode_inuse_tree.toList x ↔
        (covers (sbi.inode_maps cpuid).inode_inuse_tree.toList x ∧ x ≠ n)) ∧
      (∀ k, k ≠ cpuid →
        (aeon_free_inuse_inode sbi (n * sbi.cpus + cpuid) (some c) ret).2.inode_maps k
          = sbi.inode_maps k) ∧
      (aeon_free_inuse_inode sbi (n * sbi.cpus + cpuid) (some c) ret).2.s_inodes_used_count
        = sbi.s_inodes_used_count - 1) ∧
    (∀ (ino0 : Nat) (r : alloc_inode_result) (a : Nat) (i : aeon_range_node),
      aeon_alloc_unused_inode sbi cpuid ino0 cpuid = some r → r.ret = 0 →
      (sbi.inode_maps cpuid).first_inode_range = some a →
      rb_entry (sbi.inode_maps cpuid).inode_inuse_tree a = some i →
      n = (i.range_high + 1) % 2 ^ 32 → n * sbi.cpus + cpuid < 2 ^ 32 →
      r.ino = n * sbi.cpus + cpuid ∧ r.sbi.cpus = sbi.cpus ∧
      r.ino % r.sbi.cpus = cpuid ∧ r.ino / r.sbi.cpus = n ∧
      aeon_search_inodetree r.sbi r.ino
        = aeon_find_range_node (r.sbi.inode_maps cpuid).inode_inuse_tree n
            node_type.NODE_INODE) := by
  have h1 : (n * sbi.cpus + cpuid) % sbi.cpus = cpuid := by
    rw [Nat.add_comm, Nat.add_mul_mod_self_right, Nat.mod_eq_of_lt hcpu]
  have h2 : (n * sbi.cpus + cpuid) / sbi.cpus = n := by
    rw [Nat.add_comm, Nat.add_mul_div_right _ _ (by omega), Nat.div_eq_of_lt hcpu, Nat.zero_add]
  have h3 : aeon_search_inodetree sbi (n * sbi.cpus + cpuid)
      = aeon_find_range_node (sbi.inode_maps cpuid).inode_inuse_tree n
          node_type.NODE_INODE := by
    unfold aeon_search_inodetree
    simp only [h1, h2]
  refine ⟨h1, h2, h3, ?_, ?_, ?_⟩
  · intro curr_node ret hnf
    unfold aeon_free_inuse_inode
    rw [h3]
    cases hf : aeon_find_range_node (sbi.inode_maps cpuid).inode_inuse_tree n
      node_type.NODE_INODE with
    | mk found node =>
      rw [hf] at hnf
      simp only at hnf
      subst hnf
      cases node <;> simp
  · intro c ret i pre post htree hord hnd hlo hhi h64
    have hf := free_inuse_inode_found sbi (n * sbi.cpus + cpuid) c ret i pre post
      (by rw [h1]; exact htree) (by rw [h1]; exact hord) (by rw [h1]; exact hnd)
      (by rw [h2]; exact hlo) (by rw [h2]; exact hhi) h64
    rw [h1, h2] at hf
    obtain ⟨f1, f2, _, _, _, f6, _⟩ := hf
    obtain ⟨hpre, _, hpost⟩ := ranges_ordered_split pre post i (htree ▸ hord)
    refine ⟨f1, ?_, f6, f2⟩
    intro x
    rw [f1, htree]
    simp only [covers_append, covers_cons, covers_free_replacement i c _ x hlo hhi]
    constructor
    · rintro ((hx | hx) | hx)
      · obtain ⟨a, ha, g1, g2⟩ := hx
        have := hpre a ha
        exact ⟨Or.inl ⟨a, ha, g1, g2⟩, by omega⟩
      · exact ⟨Or.inr (Or.inl ⟨hx.1, hx.2.1⟩), hx.2.2⟩
      · obtain ⟨b, hb, g1, g2⟩ := hx
        have := hpost b hb
        exact ⟨Or.inr (Or.inr ⟨b, hb, g1, g2⟩), by omega⟩
    · rintro ⟨hx | hx | hx, hne⟩
      · exact Or.inl (Or.inl hx)
      · exact Or.inl (Or.inr ⟨hx.1, hx.2, hne⟩)
      · exact Or.inr hx
  · intro ino0 r a i hr hret hfirst hentry hn hfit
    have hino : r.ino = n * sbi.cpus + cpuid ∧ r.sbi.cpus = sbi.cpus := by
      unfold aeon_alloc_unused_inode at hr
      simp only [hfirst, hentry] at hr
      split at hr
      · injection hr with hr
        subst hr
        exact absurd hret (show ¬ (-ENOSPC : Int) = 0 by decide)
      · injection hr with hr
        subst hr
        exact ⟨by rw [← hn]; exact Nat.mod_eq_of_lt hfit, rfl⟩
    obtain ⟨e1, e2⟩ := hino
    have e3 : r.ino % r.sbi.cpus = cpuid := by rw [e1, e2]; exact h1
    have e4 : r.ino / r.sbi.cpus = n := by rw [e1, e2]; exact h2
    refine ⟨e1, e2, e3, e4, ?_⟩
    unfold aeon_search_inodetree
    simp only [e3, e4]

/-- Witness of C12: shard 2 of 4 shards whose tree is `[0, 5]`, `[10, 20]`, `[30, 40]`.
The external number `62 = 15 * 4 + 2` is resolved to shard 2 and the internal number 15,
which lies in the node `[10, 20]`: releasing 62 splits that node in shard 2 and takes
exactly 15 out of the numbers it covers, the other shards are as before; and the number
that the allocator returns for shard 2 is `26 = 6 * 4 + 2`, which is resolved to shard 2
and the internal number 6. -/
theorem C12_external_number_roundtrip_witness :
    (15 * 4 + 2) % 4 = 2 ∧ (15 * 4 + 2) / 4 = 15 ∧
    (aeon_search_inodetree
        (uniform_sbi 4 (single_range_shard 0 0) (inode_shard_of three_range_tree 3))
        (15 * 4 + 2)).1 = 1 ∧
    ((aeon_free_inuse_inode
        (uniform_sbi 4 (single_range_shard 0 0) (inode_shard_of three_range_tree 3))
        (15 * 4 + 2) (some ⟨9, 0, 0, 0⟩) 0).2.inode_maps 2).inode_inuse_tree.toList
      = [⟨1, 0, 5, 0⟩] ++ free_replacement ⟨2, 10, 20, 0⟩ 15 ⟨9, 0, 0, 0⟩
          ++ [⟨3, 30, 40, 0⟩] ∧
    (∀ x, covers ((aeon_free_inuse_inode
        (uniform_sbi 4 (single_range_shard 0 0) (inode_shard_of three_range_tree 3))
        (15 * 4 + 2) (some ⟨9, 0, 0, 0⟩) 0).2.inode_maps 2).inode_inuse_tree.toList x ↔
      (covers three_range_tree.toList x ∧ x ≠ 15)) ∧
    (∀ k, k ≠ 2 →
      (aeon_free_inuse_inode
        (uniform_sbi 4 (single_range_shard 0 0) (inode_shard_of three_range_tree 3))
        (15 * 4 + 2) (some ⟨9, 0, 0, 0⟩) 0).2.inode_maps k
        = inode_shard_of three_range_tree 3) ∧
    (∃ r, aeon_alloc_unused_inode
        (uniform_sbi 4 (single_range_shard 0 0) (inode_shard_of three_range_tree 3))
        2 0 2 = some r ∧ r.ret = 0 ∧
      r.ino = 6 * 4 + 2 ∧ r.ino % r.sbi.cpus = 2 ∧ r.ino / r.sbi.cpus = 6) :=
  ⟨(C12_external_number_roundtrip
      (uniform_sbi 4 (single_range_shard 0 0) (inode_shard_of three_range_tree 3)) 2 15
      (by decide)).1,
   (C12_external_number_roundtrip
      (uniform_sbi 4 (single_range_shard 0 0) (inode_shard_of three_range_tree 3)) 2 15
      (by decide)).2.1,
   by decide,
   ((C12_external_number_roundtrip
      (uniform_sbi 4 (single_range_shard 0 0) (inode_shard_of three_range_tree 3)) 2 15
      (by decide)).2.2.2.2.1 ⟨9, 0, 0, 0⟩ 0 ⟨2, 10, 20, 0⟩ [⟨1, 0, 5, 0⟩] [⟨3, 30, 40, 0⟩] rfl
      (by unfold ranges_ordered; decide) (by decide) (by decide) (by decide) (by decide)).1,
   ((C12_external_number_roundtrip
      (uniform_sbi 4 (single_range_shard 0 0) (inode_shard_of three_range_tree 3)) 2 15
      (by decide)).2.2.2.2.1 ⟨9, 0, 0, 0⟩ 0 ⟨2, 10, 20, 0⟩ [⟨1, 0, 5, 0⟩] [⟨3, 30, 40, 0⟩] rfl
      (by unfold ranges_ordered; decide) (by decide) (by decide) (by decide) (by decide)).2.1,
   ((C12_external_number_roundtrip
      (uniform_sbi 4 (single_range_shard 0 0) (inode_shard_of three_range_tree 3)) 2 15
      (by decide)).2.2.2.2.1 ⟨9, 0, 0, 0⟩ 0 ⟨2, 10, 20, 0⟩ [⟨1, 0, 5, 0⟩] [⟨3, 30, 40, 0⟩] rfl
      (by unfold ranges_ordered; decide) (by decide) (by decide) (by decide) (by decide)).2.2.1,
   ⟨_, rfl, rfl,
    ((C12_external_number_roundtrip
      (uniform_sbi 4 (single_range_shard 0 0) (inode_shard_of three_range_tree 3)) 2 6
      (by decide)).2.2.2.2.2 0 _ 1 ⟨1, 0, 5, 0⟩ rfl rfl rfl rfl (by decide) (by decide)).1,
    ((C12_external_number_roundtrip
      (uniform_sbi 4 (single_range_shard 0 0) (inode_shard_of three_range_tree 3)) 2 6
      (by decide)).2.2.2.2.2 0 _ 1 ⟨1, 0, 5, 0⟩ rfl rfl rfl rfl (by decide) (by decide)).2.2.1,
    ((C12_external_number_roundtrip
      (uniform_sbi 4 (single_range_shard 0 0) (inode_shard_of three_range_tree 3)) 2 6
      (by decide)).2.2.2.2.2 0 _ 1 ⟨1, 0, 5, 0⟩ rfl rfl rfl rfl (by decide) (by decide)).2.2.2.1⟩⟩

/-- C11 as stated fails for a single range `[0, h]` with `h + 1 = 2^32`: the 32-bit
`new_ino` is 0, the test `new_ino < MAX_INODE - 1` holds and the call succeeds (it sets
the node to `[0, 0]`), although `h + 1 >= 2^31 - 1`. -/
theorem C11_alloc_single_range_truncated :
    ∃ r, aeon_alloc_unused_inode
        (uniform_sbi 1 (single_range_shard 0 0)
          (inode_shard_of (.node .nil ⟨1, 0, 4294967295, 0⟩ .nil) 1)) 0 0 0 = some r ∧
      r.ret = 0 ∧ r.ret ≠ -ENOSPC ∧ 4294967295 + 1 ≥ 2 ^ 31 - 1 ∧
      (r.sbi.inode_maps 0).inode_inuse_tree.toList = [⟨1, 0, 0, 0⟩] :=
  ⟨_, rfl, by decide, by decide, by decide, by decide⟩

/-- C11 (amended): `aeon_alloc_unused_inode` returns `-ENOSPC` exactly when the 32-bit
value `new = (first.range_high + 1) mod 2^32` is neither equal to `next.range_low - 1`
for an existing next node nor strictly smaller than `next.range_low - 1` (computed in
`unsigned long`), where `next.range_low` is taken as `2^31` when the node has no
successor; on that failure the whole state (tree, `num_range_node_inode`,
`s_inodes_used_count`, region table) and `*ino` are unchanged.  In particular a shard
holding the single range `[lo, h]` with `h + 1 < 2^32` fails iff `h + 1 >= 2^31 - 1`. -/
theorem C11_alloc_unused_inode_enospc (sbi : aeon_sb_info) (cpuid ino : Nat)
    (i : aeon_range_node) (pre post : List aeon_range_node)
    (htree : (sbi.inode_maps cpuid).inode_inuse_tree.toList = pre ++ i :: post)
    (hfirst : (sbi.inode_maps cpuid).first_inode_range = some i.addr)
    (hnd : (rb_addrs (sbi.inode_maps cpuid).inode_inuse_tree).Nodup) :
    ∃ r, aeon_alloc_unused_inode sbi cpuid ino cpuid = some r ∧
      (r.ret = 0 ∨ r.ret = -ENOSPC) ∧
      (r.ret = -ENOSPC ↔
        ¬ ((∃ nx rest, post = nx :: rest ∧ (i.range_high + 1) % 2 ^ 32 = u64_dec nx.range_low) ∨
           (i.range_high + 1) % 2 ^ 32
             < u64_dec (match post.head? with
                        | none => 2 ^ 31
                        | some nx => nx.range_low))) ∧
      (r.ret = -ENOSPC → r.sbi = sbi ∧ r.ino = ino) ∧
      (post = [] → i.range_high + 1 < 2 ^ 32 →
        (r.ret = -ENOSPC ↔ i.range_high + 1 ≥ 2 ^ 31 - 1)) := by
  have hentry := rb_entry_split _ pre post i htree hnd
  have hnx := rb_next_split _ pre post i htree hnd
  have hmax : u64_dec MAX_INODE = 2147483647 := by
    rw [MAX_INODE_eq]; exact u64_dec_eq _ (by norm_num) (by norm_num)
  have hmax2 : u64_dec (2 ^ 31) = 2147483647 := u64_dec_eq _ (by norm_num) (by norm_num)
  have hne : ¬ ((0 : Int) = -ENOSPC) := by decide
  unfold aeon_alloc_unused_inode
  simp only [hfirst, hentry, hnx]
  cases post with
  | nil =>
    simp only [List.head?_nil, hmax]
    by_cases hlt : (i.range_high + 1) % 2 ^ 32 < 2147483647
    · simp only [if_pos hlt]
      have hlt1 : (i.range_high + 1) % 2 ^ 32 < u64_dec (2 ^ 31) := by rw [hmax2]; exact hlt
      refine ⟨_, rfl, Or.inl rfl, ?_, ?_, ?_⟩
      · exact ⟨fun h => absurd h hne, fun h => absurd (Or.inr hlt1) h⟩
      · intro h; exact absurd h hne
      · intro _ h32
        rw [Nat.mod_eq_of_lt h32] at hlt
        exact ⟨fun h => absurd h hne, fun h => by omega⟩
    · simp only [if_neg hlt]
      have hlt1 : ¬ (i.range_high + 1) % 2 ^ 32 < u64_dec (2 ^ 31) := by rw [hmax2]; exact hlt
      refine ⟨_, rfl, Or.inr rfl, ?_, ?_, ?_⟩
      · refine ⟨fun _ h => ?_, fun _ => rfl⟩
        rcases h with ⟨nx, rest, h1, _⟩ | h
        · cases h1
        · exact hlt1 h
      · intro _; exact ⟨rfl, rfl⟩
      · intro _ h32
        rw [Nat.mod_eq_of_lt h32] at hlt
        exact ⟨fun _ => by omega, fun _ => rfl⟩
  | cons nx rest =>
    simp only [List.head?_cons]
    by_cases heq : (i.range_high + 1) % 2 ^ 32 = u64_dec nx.range_low
    · simp only [if_pos heq]
      refine ⟨_, rfl, Or.inl rfl, ?_, ?_, ?_⟩
      · exact ⟨fun h => absurd h hne, fun h => absurd (Or.inl ⟨nx, rest, rfl, heq⟩) h⟩
      · intro h; exact absurd h hne
      · intro h; cases h
    · simp only [if_neg heq]
      by_cases hlt : (i.range_high + 1) % 2 ^ 32 < u64_dec nx.range_low
      · simp only [if_pos hlt]
        refine ⟨_, rfl, Or.inl rfl, ?_, ?_, ?_⟩
        · exact ⟨fun h => absurd h hne, fun h => absurd (Or.inr hlt) h⟩
        · intro h; exact absurd h hne
        · intro h; cases h
      · simp only [if_neg hlt]
        refine ⟨_, rfl, Or.inr rfl, ?_, ?_, ?_⟩
        · refine ⟨fun _ h => ?_, fun _ => rfl⟩
          rcases h with ⟨nx1, rest1, h1, h2⟩ | h
          · simp only [List.cons.injEq] at h1
            rw [← h1.1] at h2
            exact heq h2
          · exact hlt h
        · intro _; exact ⟨rfl, rfl⟩
        · intro h; cases h

/-- Witness of C11 (amended): the single range `[0, 2^31 - 2]` is full. -/
theorem C11_alloc_unused_inode_enospc_witness :
    ∃ r, aeon_alloc_unused_inode
        (uniform_sbi 1 (single_range_shard 0 0)
          (inode_shard_of (.node .nil ⟨1, 0, 2147483646, 0⟩ .nil) 1)) 0 5 0 = some r ∧
      r.ret = -ENOSPC ∧ r.ino = 5 ∧ 2147483646 + 1 ≥ 2 ^ 31 - 1 := by
  obtain ⟨r, h1, _, _, h4, h5⟩ := C11_alloc_unused_inode_enospc
    (uniform_sbi 1 (single_range_shard 0 0)
      (inode_shard_of (.node .nil ⟨1, 0, 2147483646, 0⟩ .nil) 1))
    0 5 ⟨1, 0, 2147483646, 0⟩ [] [] rfl rfl (by decide)
  have h6 : r.ret = -ENOSPC := (h5 rfl (by decide)).2 (by decide)
  exact ⟨r, h1, h6, (h4 h6).2, by decide⟩

theorem rb_prev_split (t : rb_root) (pre post : List aeon_range_node) (i : aeon_range_node)
    (ht : t.toList = pre ++ i :: post) (h : (rb_addrs t).Nodup) :
    rb_prev t i.addr = pre.getLast? := by
  unfold rb_addrs at h
  rw [ht] at h
  unfold rb_prev
  rw [ht]
  have hrev : (pre ++ i :: post).reverse = post.reverse ++ i :: pre.reverse := by simp
  rw [hrev, list_next_split post.reverse pre.reverse i, List.head?_reverse]
  intro hin
  rw [List.map_reverse, List.mem_reverse] at hin
  exact (nodup_split pre post i h).2 hin

theorem nodes_from_split (t : rb_root) (pre post : List aeon_range_node) (i : aeon_range_node)
    (ht : t.toList = pre ++ i :: post) (h : (rb_addrs t).Nodup) :
    nodes_from t i.addr = i :: post := by
  unfold rb_addrs at h
  rw [ht] at h
  have hpre := (nodup_split pre post i h).1
  unfold nodes_from
  rw [ht]
  clear ht h
  induction pre with
  | nil => simp [List.dropWhile_cons]
  | cons m rest ih =>
    simp only [List.map_cons, List.mem_cons, not_or] at hpre
    have hne : ¬ m.addr = i.addr := fun e => hpre.1 e.symm
    simp only [List.cons_append, List.dropWhile_cons, hne, decide_False, Bool.not_false, if_true]
    exact ih hpre.2

theorem alloc_loop_cons (fl : free_list) (btype num_blocks nb : Nat)
    (curr : aeon_range_node) (rest : List aeon_range_node) :
    alloc_loop fl btype num_blocks nb (curr :: rest) =
      if num_blocks ≥ curr_blocks_of curr then
        if btype > 0 ∧ num_blocks > curr_blocks_of curr then
          alloc_loop fl btype num_blocks nb rest
        else alloc_whole_blocknode fl curr
      else alloc_part_blocknode fl curr num_blocks := by
  rfl

theorem alloc_loop_skip (fl : free_list) (btype num_blocks nb : Nat)
    (sk rest : List aeon_range_node)
    (h : ∀ m ∈ sk, btype > 0 ∧ num_blocks > curr_blocks_of m) :
    alloc_loop fl btype num_blocks nb (sk ++ rest) = alloc_loop fl btype num_blocks nb rest := by
  induction sk with
  | nil => rfl
  | cons m sk1 ih =>
    have hm := h m (List.mem_cons_self _ _)
    rw [List.cons_append, alloc_loop_cons, if_pos (by omega), if_pos hm]
    exact ih (fun x hx => h x (List.mem_cons_of_mem _ hx))

theorem alloc_loop_stop (fl : free_list) (btype num_blocks nb : Nat)
    (n : aeon_range_node) (rest : List aeon_range_node)
    (h : ¬ (btype > 0 ∧ num_blocks > curr_blocks_of n)) :
    alloc_loop fl btype num_blocks nb (n :: rest) =
      if num_blocks ≥ curr_blocks_of n then alloc_whole_blocknode fl n
      else alloc_part_blocknode fl n num_blocks := by
  rw [alloc_loop_cons]
  by_cases h1 : num_blocks ≥ curr_blocks_of n
  · simp only [if_pos h1, if_neg h]
  · simp only [if_neg h1]

/-- The state after the branch "allocate the whole blocknode" for a node of the tree. -/
theorem alloc_whole_blocknode_spec (fl : free_list) (n : aeon_range_node)
    (pre post : List aeon_range_node)
    (htree : fl.block_free_tree.toList = pre ++ n :: post)
    (hnd : (rb_addrs fl.block_free_tree).Nodup) :
    (alloc_whole_blocknode fl n).free_list.block_free_tree.toList = pre ++ post ∧
    (alloc_whole_blocknode fl n).free_list.num_blocknode = u64_dec fl.num_blocknode ∧
    (alloc_whole_blocknode fl n).free_list.num_free_blocks = fl.num_free_blocks ∧
    (alloc_whole_blocknode fl n).free_list.first_node
      = (if some n.addr = fl.first_node then post.head?.map aeon_range_node.addr
         else fl.first_node) ∧
    (alloc_whole_blocknode fl n).free_list.last_node
      = (if some n.addr = fl.last_node then pre.getLast?.map aeon_range_node.addr
         else fl.last_node) ∧
    (alloc_whole_blocknode fl n).num_blocks = curr_blocks_of n ∧
    (alloc_whole_blocknode fl n).new_blocknr = n.range_low ∧
    (alloc_whole_blocknode fl n).found = true := by
  have he := toList_rb_erase_split _ pre post n htree hnd
  have hnx := rb_next_split _ pre post n htree hnd
  have hpv := rb_prev_split _ pre post n htree hnd
  unfold alloc_whole_blocknode
  simp only [hnx, hpv]
  refine ⟨he, ?_, ?_, ?_, ?_, trivial, trivial, trivial⟩
  · split_ifs <;> rfl
  · split_ifs <;> rfl
  · split_ifs <;> rfl
  · split_ifs <;> rfl

theorem to_long_of_ge (x : Nat) (h1 : 2 ^ 63 ≤ x) (h2 : x < 2 ^ 64) :
    to_long x = (x : Int) - 2 ^ 64 := by
  unfold to_long
  have e : x % 2 ^ 64 = x := Nat.mod_eq_of_lt h2
  rw [e, if_neg (by omega)]

/-- C15 as stated fails when the size of the node does not fit the return type `long`:
on the shard holding the single range `[0, 2^63 - 1]` a request of `2^63` ordinary blocks
removes the node and returns `-2^63`, not the size `2^63`. -/
theorem C15_alloc_whole_node_negative :
    ∃ r, aeon_alloc_blocks_in_free_list (single_range_shard 0 9223372036854775807) 0
        9223372036854775808 0 = some r ∧
      r.ret = -9223372036854775808 ∧
      r.free_list.block_free_tree.toList = [] ∧
      node_blocks ⟨1, 0, 9223372036854775807, 0⟩ = 9223372036854775808 :=
  ⟨_, rfl, by decide, by decide, by decide⟩

/-- C15 (amended): for an ordinary block type (`btype = 0`), a shard satisfying the
free-count invariant, and a request `n >= s` where `s < 2^63` is the size of the node
`[lo, hi]` designated by `first_node`: `aeon_alloc_blocks_in_free_list` returns `s` with
`*new_blocknr = lo`, removes exactly that node from the tree, decrements `num_blocknode`
by 1 and `num_free_blocks` by `s`, sets `first_node` to the node's in-order successor
(none if there is none) and, if `last_node` designated the node, sets it to the node's
in-order predecessor (none when the node is the lowest one), leaving every other node
unchanged. -/
theorem C15_alloc_whole_node (fl : free_list) (n new_blocknr : Nat)
    (first : aeon_range_node) (pre post : List aeon_range_node)
    (htree : fl.block_free_tree.toList = pre ++ first :: post)
    (hfirst : fl.first_node = some first.addr)
    (hnd : (rb_addrs fl.block_free_tree).Nodup)
    (hle : first.range_low ≤ first.range_high)
    (hsum : fl.num_free_blocks = sum_blocks fl.block_free_tree.toList)
    (hcnt : 1 ≤ fl.num_blocknode ∧ fl.num_blocknode ≤ 2 ^ 64)
    (hn : node_blocks first ≤ n) (hfit : node_blocks first < 2 ^ 63) :
    ∃ r, aeon_alloc_blocks_in_free_list fl 0 n new_blocknr = some r ∧
      r.ret = (node_blocks first : Int) ∧ r.new_blocknr = first.range_low ∧
      r.free_list.block_free_tree.toList = pre ++ post ∧
      r.free_list.num_blocknode = fl.num_blocknode - 1 ∧
      r.free_list.num_free_blocks + node_blocks first = fl.num_free_blocks ∧
      r.free_list.first_node = post.head?.map aeon_range_node.addr ∧
      r.free_list.last_node
        = (if fl.last_node = some first.addr then pre.getLast?.map aeon_range_node.addr
           else fl.last_node) := by
  unfold node_blocks at hn hfit ⊢
  have hsz : first.range_high - first.range_low + 1 ≤ fl.num_free_blocks := by
    rw [hsum]; exact le_sum_blocks _ _ (by rw [htree]; simp)
  have hcb : curr_blocks_of first = first.range_high - first.range_low + 1 :=
    curr_blocks_of_eq first hle (by omega)
  have hentry := rb_entry_split _ pre post first htree hnd
  have hfrom := nodes_from_split _ pre post first htree hnd
  have h0 : fl.num_free_blocks ≠ 0 := by omega
  obtain ⟨w1, w2, w3, w4, w5, w6, w7, w8⟩ := alloc_whole_blocknode_spec fl first pre post htree hnd
  have hloop : alloc_loop fl 0 n new_blocknr (first :: post) = alloc_whole_blocknode fl first := by
    rw [alloc_loop_stop fl 0 n new_blocknr first post (by omega), if_pos (by omega)]
  unfold aeon_alloc_blocks_in_free_list
  rw [hfirst]
  simp only []
  rw [if_neg h0, hentry]
  simp only []
  rw [hfrom, hloop]
  unfold alloc_finish
  rw [w6, w3, w8, hcb, if_neg (by omega)]
  simp only [if_true]
  refine ⟨_, rfl, ?_, w7, w1, ?_, ?_, ?_, ?_⟩
  · exact to_long_of_lt _ hfit
  · show (alloc_whole_blocknode fl first).free_list.num_blocknode = _
    rw [w2, u64_dec_eq _ hcnt.1 hcnt.2]
  · show fl.num_free_blocks - _ + _ = _
    omega
  · show (alloc_whole_blocknode fl first).free_list.first_node = _
    rw [w4, hfirst, if_pos rfl]
  · show (alloc_whole_blocknode fl first).free_list.last_node = _
    rw [w5]
    by_cases hl : fl.last_node = some first.addr
    · rw [if_pos hl.symm, if_pos hl]
    · rw [if_neg (fun e => hl e.symm), if_neg hl]

/-- Witness of C15 (amended): 1000 blocks are requested from the shard holding the
single range `[5, 9]`. -/
theorem C15_alloc_whole_node_witness :
    ∃ r, aeon_alloc_blocks_in_free_list (single_range_shard 5 9) 0 1000 0 = some r ∧
      r.ret = (node_blocks ⟨1, 5, 9, 0⟩ : Int) ∧ r.new_blocknr = 5 ∧
      r.free_list.block_free_tree.toList = [] ++ [] ∧
      r.free_list.num_blocknode = 1 - 1 ∧
      r.free_list.num_free_blocks + node_blocks ⟨1, 5, 9, 0⟩ = 5 ∧
      r.free_list.first_node = none ∧
      r.free_list.last_node = none :=
  C15_alloc_whole_node (single_range_shard 5 9) 1000 0 ⟨1, 5, 9, 0⟩ [] [] rfl rfl
    (by decide) (by decide) (by decide) (by decide) (by decide) (by decide)

theorem skip_split (btype num_blocks : Nat) :
    ∀ ns : List aeon_range_node,
      (∀ m ∈ ns, btype > 0 ∧ num_blocks > curr_blocks_of m) ∨
      ∃ sk n rest, ns = sk ++ n :: rest ∧
        (∀ m ∈ sk, btype > 0 ∧ num_blocks > curr_blocks_of m) ∧
        ¬ (btype > 0 ∧ num_blocks > curr_blocks_of n) := by
  intro ns
  induction ns with
  | nil => exact Or.inl (by simp)
  | cons c rest ih =>
    by_cases hc : btype > 0 ∧ num_blocks > curr_blocks_of c
    · rcases ih with h | ⟨sk, n, r, h1, h2, h3⟩
      · left
        intro m hm
        rcases List.mem_cons.1 hm with e | hm
        · rw [e]; exact hc
        · exact h m hm
      · right
        refine ⟨c :: sk, n, r, by rw [h1]; rfl, ?_, h3⟩
        intro m hm
        rcases List.mem_cons.1 hm with e | hm
        · rw [e]; exact hc
        · exact h2 m hm
    · exact Or.inr ⟨[], c, rest, rfl, by simp, hc⟩

theorem alloc_loop_all_skipped (fl : free_list) (btype num_blocks nb : Nat)
    (ns : List aeon_range_node)
    (h : ∀ m ∈ ns, btype > 0 ∧ num_blocks > curr_blocks_of m) :
    alloc_loop fl btype num_blocks nb ns = ⟨fl, num_blocks, nb, false⟩ := by
  have := alloc_loop_skip fl btype num_blocks nb ns [] h
  rw [List.append_nil] at this
  rw [this]
  rfl

/-- The state after the branch "allocate partial blocknode" for a node of the tree. -/
theorem alloc_part_blocknode_spec (fl : free_list) (n : aeon_range_node) (num_blocks : Nat)
    (pre post : List aeon_range_node)
    (htree : fl.block_free_tree.toList = pre ++ n :: post)
    (hnd : (rb_addrs fl.block_free_tree).Nodup)
    (hfit : n.range_low + num_blocks < 2 ^ 64) :
    (alloc_part_blocknode fl n num_blocks).free_list.block_free_tree.toList
      = pre ++ { n with range_low := n.range_low + num_blocks } :: post ∧
    (alloc_part_blocknode fl n num_blocks).free_list.num_free_blocks = fl.num_free_blocks ∧
    (alloc_part_blocknode fl n num_blocks).free_list.first_node = fl.first_node ∧
    (alloc_part_blocknode fl n num_blocks).free_list.last_node = fl.last_node ∧
    (alloc_part_blocknode fl n num_blocks).free_list.num_blocknode = fl.num_blocknode ∧
    (alloc_part_blocknode fl n num_blocks).num_blocks = num_blocks ∧
    (alloc_part_blocknode fl n num_blocks).new_blocknr = n.range_low ∧
    (alloc_part_blocknode fl n num_blocks).found = true := by
  have hs := toList_rb_store_split _ pre post n
    (fun m => { m with range_low := (m.range_low + num_blocks) % 2 ^ 64 }) htree hnd
  simp only [] at hs
  rw [Nat.mod_eq_of_lt hfit] at hs
  unfold alloc_part_blocknode
  exact ⟨hs, rfl, rfl, rfl, rfl, rfl, rfl, rfl⟩

theorem nodes_from_suffix (t : rb_root) (a : Nat) :
    ∃ pre, t.toList = pre ++ nodes_from t a :=
  ⟨t.toList.takeWhile (fun n => !decide (n.addr = a)),
    (List.takeWhile_append_dropWhile _ _).symm⟩

/-- The outcomes of `aeon_alloc_blocks_in_free_list` on a well-formed shard: either
nothing is allocated, the shard is unchanged and `-ENOSPC` is returned, or the first
node `n` from `first_node` on that is not skipped is taken whole (its size is at most
the request) or shortened at its low end. -/
theorem alloc_blocks_cases (fl : free_list) (btype num_blocks nb : Nat)
    (hfirst : ∀ a, fl.first_node = some a → a ∈ rb_addrs fl.block_free_tree)
    (hnd : (rb_addrs fl.block_free_tree).Nodup)
    (h64 : fl.num_free_blocks < 2 ^ 64)
    (hhi : ∀ n ∈ fl.block_free_tree.toList, n.range_high < 2 ^ 64)
    (hle : ∀ n ∈ fl.block_free_tree.toList, n.range_low ≤ n.range_high)
    (hsum : fl.num_free_blocks = sum_blocks fl.block_free_tree.toList) :
    ∃ r, aeon_alloc_blocks_in_free_list fl btype num_blocks nb = some r ∧
      ((r.ret = -ENOSPC ∧ r.new_blocknr = nb ∧ r.free_list = fl ∧
          (fl.first_node = none ∨ fl.num_free_blocks = 0 ∨
            ∃ a, fl.first_node = some a ∧
              ∀ m ∈ nodes_from fl.block_free_tree a, btype > 0 ∧ num_blocks > node_blocks m)) ∨
       (∃ a A sk n B, fl.first_node = some a ∧
          fl.block_free_tree.toList = (A ++ sk) ++ n :: B ∧
          nodes_from fl.block_free_tree a = sk ++ n :: B ∧
          (∀ m ∈ sk, btype > 0 ∧ num_blocks > node_blocks m) ∧
          ¬ (btype > 0 ∧ num_blocks > node_blocks n) ∧
          r.new_blocknr = n.range_low ∧
          ((node_blocks n ≤ num_blocks ∧ r.ret = to_long (node_blocks n) ∧
              r.free_list.block_free_tree.toList = (A ++ sk) ++ B ∧
              r.free_list.num_free_blocks + node_blocks n = fl.num_free_blocks) ∨
           (num_blocks < node_blocks n ∧ r.ret = to_long num_blocks ∧
              r.free_list.block_free_tree.toList
                = (A ++ sk) ++ { n with range_low := n.range_low + num_blocks } :: B ∧
              r.free_list.num_free_blocks + num_blocks = fl.num_free_blocks ∧
              r.free_list.first_node = fl.first_node ∧
              r.free_list.last_node = fl.last_node ∧
              r.free_list.num_blocknode = fl.num_blocknode)))) := by
  have hcbe : ∀ m ∈ fl.block_free_tree.toList, curr_blocks_of m = node_blocks m := by
    intro m hm
    have := le_sum_blocks _ _ hm
    exact curr_blocks_of_eq m (hle m hm) (by omega)
  unfold aeon_alloc_blocks_in_free_list
  cases hf : fl.first_node with
  | none => exact ⟨_, rfl, Or.inl ⟨rfl, rfl, rfl, Or.inl rfl⟩⟩
  | some first =>
    simp only []
    by_cases h0 : fl.num_free_blocks = 0
    · rw [if_pos h0]
      exact ⟨_, rfl, Or.inl ⟨rfl, rfl, rfl, Or.inr (Or.inl h0)⟩⟩
    · rw [if_neg h0]
      obtain ⟨n0, hn0⟩ := rb_entry_isSome _ _ (hfirst first hf)
      rw [hn0]
      simp only []
      obtain ⟨A, hA⟩ := nodes_from_suffix fl.block_free_tree first
      have hsub : ∀ m ∈ nodes_from fl.block_free_tree first, m ∈ fl.block_free_tree.toList :=
        fun m hm => mem_nodes_from _ _ _ hm
      rcases skip_split btype num_blocks (nodes_from fl.block_free_tree first) with
        hall | ⟨sk, n, B, hns, hsk, hn⟩
      · rw [alloc_loop_all_skipped fl btype num_blocks nb _ hall]
        unfold alloc_finish
        simp only [Bool.false_eq_true, if_false, ite_self]
        refine ⟨_, rfl, Or.inl ⟨rfl, rfl, rfl, Or.inr (Or.inr ⟨first, rfl, ?_⟩)⟩⟩
        intro m hm
        rw [← hcbe m (hsub m hm)]
        exact hall m hm
      · have hl : fl.block_free_tree.toList = (A ++ sk) ++ n :: B := by
          rw [hA, hns]; simp
        have hnin : n ∈ fl.block_free_tree.toList := by rw [hl]; simp
        have hnsz := le_sum_blocks _ _ hnin
        have hnle := hle n hnin
        have hnhi := hhi n hnin
        have hcn := hcbe n hnin
        rw [hns, alloc_loop_skip fl btype num_blocks nb sk (n :: B) hsk,
          alloc_loop_stop fl btype num_blocks nb n B hn]
        have hsk2 : ∀ m ∈ sk, btype > 0 ∧ num_blocks > node_blocks m := by
          intro m hm
          rw [← hcbe m (hsub m (by rw [hns]; simp [hm]))]
          exact hsk m hm
        rw [hcn] at hn
        by_cases hw : num_blocks ≥ curr_blocks_of n
        · rw [if_pos hw]
          obtain ⟨w1, _, w3, _, _, w6, w7, w8⟩ :=
            alloc_whole_blocknode_spec fl n (A ++ sk) B hl hnd
          unfold alloc_finish
          rw [w6, w3, w8, hcn, if_neg (by unfold node_blocks; omega)]
          simp only [if_true]
          rw [hcn] at hw
          refine ⟨_, rfl, Or.inr ⟨first, A, sk, n, B, rfl, hl, hns, hsk2, hn, w7,
            Or.inl ⟨hw, rfl, w1, ?_⟩⟩⟩
          show fl.num_free_blocks - _ + _ = _
          unfold node_blocks
          omega
        · rw [if_neg hw]
          rw [hcn] at hw
          unfold node_blocks at hw
          obtain ⟨p1, p2, p3, p4, p5, p6, p7, p8⟩ :=
            alloc_part_blocknode_spec fl n num_blocks (A ++ sk) B hl hnd (by omega)
          unfold alloc_finish
          rw [p6, p2, p8, if_neg (by omega)]
          simp only [if_true]
          refine ⟨_, rfl, Or.inr ⟨first, A, sk, n, B, rfl, hl, hns, hsk2, hn, p7,
            Or.inr ⟨by unfold node_blocks; omega, rfl, p1, ?_, p3.trans hf, p4, p5⟩⟩⟩
          show fl.num_free_blocks - _ + _ = _
          omega

/-- C16 as stated fails when the request does not fit the return type `long`: for a
super-sized block type and the single range `[0, 2^63]`, a request of `2^63` blocks is
taken from the low end of the node (which becomes `[2^63, 2^63]`) and the value returned
is `-2^63`, not the request. -/
theorem C16_alloc_super_negative :
    ∃ r, aeon_alloc_blocks_in_free_list (single_range_shard 0 9223372036854775808) 1
        9223372036854775808 0 = some r ∧
      r.ret = -9223372036854775808 ∧ r.new_blocknr = 0 ∧
      r.free_list.block_free_tree.toList
        = [⟨1, 9223372036854775808, 9223372036854775808, 0⟩] :=
  ⟨_, rfl, by decide, by decide, by decide⟩

/-- C16 (amended): for a super-sized block type (`btype > 0`), a request
`num_blocks < 2^63` and a shard satisfying the free-count invariant,
`aeon_alloc_blocks_in_free_list` either returns `-ENOSPC` with the shard unchanged, and
then no node at or after `first_node` has a size `>= num_blocks`; or it returns exactly
`num_blocks`, taken from the low end of the lowest node `n` at or after `first_node`
whose size is `>= num_blocks` (the nodes `sk` before it are smaller), erasing `n` when
its size equals `num_blocks`, and every other node is left unchanged. -/
theorem C16_alloc_super_block (fl : free_list) (btype num_blocks nb : Nat)
    (hb : btype > 0)
    (hfirst : ∀ a, fl.first_node = some a → a ∈ rb_addrs fl.block_free_tree)
    (hnd : (rb_addrs fl.block_free_tree).Nodup)
    (h64 : fl.num_free_blocks < 2 ^ 64)
    (hhi : ∀ n ∈ fl.block_free_tree.toList, n.range_high < 2 ^ 64)
    (hle : ∀ n ∈ fl.block_free_tree.toList, n.range_low ≤ n.range_high)
    (hsum : fl.num_free_blocks = sum_blocks fl.block_free_tree.toList)
    (hfit : num_blocks < 2 ^ 63) :
    ∃ r, aeon_alloc_blocks_in_free_list fl btype num_blocks nb = some r ∧
      ((r.ret = -ENOSPC ∧ r.free_list = fl ∧
          ∀ a, fl.first_node = some a →
            ∀ m ∈ nodes_from fl.block_free_tree a, node_blocks m < num_blocks) ∨
       (∃ a A sk n B, fl.first_node = some a ∧
          fl.block_free_tree.toList = (A ++ sk) ++ n :: B ∧
          nodes_from fl.block_free_tree a = sk ++ n :: B ∧
          (∀ m ∈ sk, node_blocks m < num_blocks) ∧ num_blocks ≤ node_blocks n ∧
          r.ret = (num_blocks : Int) ∧ r.new_blocknr = n.range_low ∧
          r.free_list.block_free_tree.toList
            = (A ++ sk) ++ (if node_blocks n = num_blocks then []
                else [{ n with range_low := n.range_low + num_blocks }]) ++ B)) := by
  obtain ⟨r, hr, hcase⟩ :=
    alloc_blocks_cases fl btype num_blocks nb hfirst hnd h64 hhi hle hsum
  refine ⟨r, hr, ?_⟩
  rcases hcase with ⟨h1, _, h3, h4⟩ | ⟨a, A, sk, n, B, g1, g2, g3, g4, g5, g6, g7⟩
  · left
    refine ⟨h1, h3, ?_⟩
    intro a ha m hm
    rcases h4 with h | h | ⟨a1, h5, h6⟩
    · rw [h] at ha; cases ha
    · exfalso
      have hin := mem_nodes_from _ _ _ hm
      have := le_sum_blocks _ _ hin
      omega
    · rw [h5] at ha
      cases ha
      exact (h6 m hm).2
  · right
    have hge : num_blocks ≤ node_blocks n := by omega
    refine ⟨a, A, sk, n, B, g1, g2, g3, fun m hm => (g4 m hm).2, hge, ?_, g6, ?_⟩
    · rcases g7 with ⟨w1, w2, _, _⟩ | ⟨p1, p2, _⟩
      · have : node_blocks n = num_blocks := by omega
        rw [w2, this, to_long_of_lt _ hfit]
      · rw [p2, to_long_of_lt _ hfit]
    · rcases g7 with ⟨w1, _, w3, _⟩ | ⟨p1, _, p3, _⟩
      · have : node_blocks n = num_blocks := by omega
        rw [w3, if_pos this]; simp
      · rw [p3, if_neg (by omega)]; simp

/-- Witness of C16 (amended): 7 super-sized blocks from the tree `[0, 5]`, `[10, 20]`,
`[30, 40]`, starting at its lowest node. -/
theorem C16_alloc_super_block_witness :
    ∃ r, aeon_alloc_blocks_in_free_list
        { single_range_shard 0 0 with block_free_tree := three_range_tree,
                                      num_free_blocks := 28 } 1 7 0 = some r ∧
      r.ret = 7 ∧ r.new_blocknr = 10 ∧
      r.free_list.block_free_tree.toList
        = [⟨1, 0, 5, 0⟩, ⟨2, 17, 20, 0⟩, ⟨3, 30, 40, 0⟩] := by
  obtain ⟨r, hr, hcase⟩ := C16_alloc_super_block
    { single_range_shard 0 0 with block_free_tree := three_range_tree,
                                  num_free_blocks := 28 } 1 7 0
    (by decide) (by intro a h; cases h; decide) (by decide) (by decide) (by decide)
    (by decide) (by decide) (by decide)
  refine ⟨r, hr, ?_⟩
  have hv : aeon_alloc_blocks_in_free_list
      { single_range_shard 0 0 with block_free_tree := three_range_tree,
                                    num_free_blocks := 28 } 1 7 0
      = some ⟨7, 10, { single_range_shard 0 0 with
          block_free_tree := rb_store 2 (fun n => { n with range_low := (n.range_low + 7) % 2 ^ 64 })
            three_range_tree,
          num_free_blocks := 21 }⟩ := by decide
  rw [hv] at hr
  cases hr
  exact ⟨rfl, rfl, by decide⟩

/-- C36 as stated fails in two ways.  On a shard whose two nodes `[0, 10]` and `[5, 15]`
overlap (each has `range_low <= range_high`, and `num_free_blocks` is the sum 22), a
request of 11 ordinary blocks returns 11 with block number 0 and removes the first node,
yet block 5 is still covered by the remaining node.  And on the shard holding the single
range `[0, 2^64 - 29]` a request of its `2^64 - 28` blocks removes the node and returns
`-28`, which is `-ENOSPC`, although the tree has changed. -/
theorem C36_alloc_blocks_exceptions :
    (∃ r, aeon_alloc_blocks_in_free_list
        { single_range_shard 0 0 with
            block_free_tree := .node .nil ⟨1, 0, 10, 0⟩ (.node .nil ⟨2, 5, 15, 0⟩ .nil),
            num_free_blocks := 22 } 0 11 0 = some r ∧
      r.ret = 11 ∧ r.new_blocknr = 0 ∧
      r.free_list.block_free_tree.toList = [⟨2, 5, 15, 0⟩] ∧
      covers r.free_list.block_free_tree.toList 5) ∧
    (∃ r, aeon_alloc_blocks_in_free_list (single_range_shard 0 18446744073709551587) 0
        18446744073709551588 0 = some r ∧
      r.ret = -ENOSPC ∧ r.free_list.block_free_tree.toList = [] ∧
      (single_range_shard 0 18446744073709551587).block_free_tree.toList
        = [⟨1, 0, 18446744073709551587, 0⟩]) := by
  refine ⟨⟨_, rfl, by decide, by decide, by decide, ?_⟩, ⟨_, rfl, by decide, by decide, by decide⟩⟩
  exact ⟨⟨2, 5, 15, 0⟩, by decide, by decide, by decide⟩

/-- C36 (amended): for every block shard with ordered, disjoint ranges satisfying
`num_free_blocks = sum of (high - low + 1)` with `num_free_blocks < 2^63`, and every
`btype` and `num_blocks`: if `aeon_alloc_blocks_in_free_list` returns `-ENOSPC` then the
shard (tree, `first_node`, `last_node`, `num_blocknode`, `num_free_blocks`) is
unchanged; and if it returns a count `c >= 0` then `c <= num_blocks`, `c` is at most the
previous `num_free_blocks`, and the blocks `[*new_blocknr, *new_blocknr + c - 1]` were
all free before the call and none of them is free after it. -/
theorem C36_alloc_blocks_outcome (fl : free_list) (btype num_blocks nb : Nat)
    (hfirst : ∀ a, fl.first_node = some a → a ∈ rb_addrs fl.block_free_tree)
    (hnd : (rb_addrs fl.block_free_tree).Nodup)
    (h63 : fl.num_free_blocks < 2 ^ 63)
    (hhi : ∀ n ∈ fl.block_free_tree.toList, n.range_high < 2 ^ 64)
    (hord : ranges_ordered fl.block_free_tree.toList)
    (hsum : fl.num_free_blocks = sum_blocks fl.block_free_tree.toList) :
    ∃ r, aeon_alloc_blocks_in_free_list fl btype num_blocks nb = some r ∧
      (r.ret = -ENOSPC → r.free_list = fl) ∧
      (0 ≤ r.ret → r.ret ≤ (num_blocks : Int) ∧ r.ret ≤ (fl.num_free_blocks : Int) ∧
        ∀ b : Nat, r.new_blocknr ≤ b → (b : Int) < r.new_blocknr + r.ret →
          covers fl.block_free_tree.toList b ∧ ¬ covers r.free_list.block_free_tree.toList b) := by
  obtain ⟨r, hr, hcase⟩ :=
    alloc_blocks_cases fl btype num_blocks nb hfirst hnd (by omega) hhi hord.1 hsum
  refine ⟨r, hr, ?_⟩
  rcases hcase with ⟨h1, _, h3, _⟩ | ⟨a, A, sk, n, B, g1, g2, g3, g4, g5, g6, g7⟩
  · refine ⟨fun _ => h3, fun h => ?_⟩
    rw [h1] at h
    exact absurd h (by decide)
  · obtain ⟨hpre, hnle, hpost⟩ := ranges_ordered_split (A ++ sk) B n (g2 ▸ hord)
    have hnin : n ∈ fl.block_free_tree.toList := by rw [g2]; simp
    have hnsz := le_sum_blocks _ n hnin
    rw [← hsum] at hnsz
    rcases g7 with ⟨w1, w2, w3, w4⟩ | ⟨p1, p2, p3, p4, _⟩
    · unfold node_blocks at w1 w2 w4
      have hret : r.ret = ((n.range_high - n.range_low + 1 : Nat) : Int) := by
        rw [w2, to_long_of_lt _ (by omega)]
      refine ⟨fun h => ?_, fun _ => ⟨by omega, by omega, ?_⟩⟩
      · rw [hret, ENOSPC] at h; omega
      · intro b hb1 hb2
        rw [g6] at hb1
        rw [g6, hret] at hb2
        refine ⟨?_, ?_⟩
        · rw [g2]
          exact ⟨n, by simp, hb1, by omega⟩
        · rw [w3, covers_append]
          rintro (⟨m, hm, h1, h2⟩ | ⟨m, hm, h1, h2⟩)
          · have := hpre m hm; omega
          · have := hpost m hm; omega
    · unfold node_blocks at p1
      have hret : r.ret = (num_blocks : Int) := by
        rw [p2, to_long_of_lt _ (by omega)]
      refine ⟨fun h => ?_, fun _ => ⟨by omega, by omega, ?_⟩⟩
      · rw [hret, ENOSPC] at h; omega
      · intro b hb1 hb2
        rw [g6] at hb1
        rw [g6, hret] at hb2
        refine ⟨?_, ?_⟩
        · rw [g2]
          exact ⟨n, by simp, hb1, by omega⟩
        · rw [p3, covers_append, covers_cons]
          rintro (⟨m, hm, h1, h2⟩ | ⟨h1, h2⟩ | ⟨m, hm, h1, h2⟩)
          · have := hpre m hm; omega
          · simp only [] at h1; omega
          · have := hpost m hm; omega

/-- Witness of C36 (amended): 10 ordinary blocks from the shard holding `[0, 999]`. -/
theorem C36_alloc_blocks_outcome_witness :
    ∃ r, aeon_alloc_blocks_in_free_list (single_range_shard 0 999) 0 10 0 = some r ∧
      (r.ret = -ENOSPC → r.free_list = single_range_shard 0 999) ∧
      (0 ≤ r.ret → r.ret ≤ ((10 : Nat) : Int) ∧
        r.ret ≤ (((single_range_shard 0 999).num_free_blocks : Nat) : Int) ∧
        ∀ b : Nat, r.new_blocknr ≤ b → (b : Int) < r.new_blocknr + r.ret →
          covers (single_range_shard 0 999).block_free_tree.toList b ∧
          ¬ covers r.free_list.block_free_tree.toList b) :=
  C36_alloc_blocks_outcome (single_range_shard 0 999) 0 10 0
    (by intro a h; cases h; decide) (by decide) (by decide) (by decide)
    (by unfold ranges_ordered; decide) (by decide)

theorem to_ulong_of_nat (x : Nat) (h : x < 2 ^ 64) : to_ulong (x : Int) = x := by
  unfold to_ulong
  omega

/-- One iteration of the loop of `aeon_init_blockmap` on a shard whose tree is empty. -/
theorem init_blockmap_step (sbi : aeon_sb_info) (i p : Nat) (n : aeon_range_node)
    (hp : sbi.num_blocks / sbi.cpus = p) (hp1 : 1 ≤ p) (hb : p * (i + 1) < 2 ^ 64)
    (hnil : (sbi.free_lists i).block_free_tree = .nil) :
    init_blockmap_shard sbi i n = (0, init_shard_spec (sbi.free_lists i) i p n) := by
  have hmul : p * (i + 1) = p * i + p := by ring
  have h1 : (p * i) % 2 ^ 64 = i * p := by
    rw [Nat.mod_eq_of_lt (by omega), Nat.mul_comm]
  have h2 : (i * p + p) % 2 ^ 64 = i * p + p := by
    rw [Nat.mod_eq_of_lt (by rw [Nat.mul_comm i p]; omega)]
  have h3 : u64_dec (i * p + p) = (i + 1) * p - 1 := by
    rw [u64_dec_eq _ (by omega) (by rw [Nat.mul_comm i p]; omega)]
    congr 1
    ring
  have h4 : to_ulong ((((i + 1) * p - 1 : Nat) : Int) - ((i * p : Nat) : Int) + 1) = p := by
    have e : (i + 1) * p = i * p + p := by ring
    have : (((i + 1) * p - 1 : Nat) : Int) - ((i * p : Nat) : Int) + 1 = (p : Int) := by
      rw [e]; omega
    rw [this]
    exact to_ulong_of_nat p (by nlinarith)
  unfold init_blockmap_shard aeon_init_free_list init_shard_spec
  simp only [hp, h1, h2, h3, h4, hnil, aeon_insert_blocktree, aeon_insert_range_node,
    insert_descend, rb_link_node, rb_insert_color, ne_eq, not_true_eq_false, if_false]

theorem init_blockmap_loop_spec (nodes : Nat → Option aeon_range_node) (p : Nat)
    (hp1 : 1 ≤ p) :
    ∀ (k i : Nat) (sbi : aeon_sb_info),
      sbi.num_blocks / sbi.cpus = p → p * (i + k) < 2 ^ 64 →
      (∀ j, i ≤ j → j < i + k →
        (sbi.free_lists j).block_free_tree = .nil ∧ ∃ n, nodes j = some n) →
      ∃ s, init_blockmap_loop nodes k i sbi = some s ∧
        (∀ j n, i ≤ j → j < i + k → nodes j = some n →
          s.free_lists j = init_shard_spec (sbi.free_lists j) j p n) ∧
        (∀ j, (j < i ∨ i + k ≤ j) → s.free_lists j = sbi.free_lists j) := by
  intro k
  induction k with
  | zero =>
    intro i sbi _ _ _
    exact ⟨sbi, rfl, fun j n h1 h2 => by omega, fun _ _ => rfl⟩
  | succ k ih =>
    intro i sbi hp hb hsh
    obtain ⟨hnil, n, hn⟩ := hsh i (le_refl _) (by omega)
    have hstep := init_blockmap_step sbi i p n hp hp1
      (by have : p * (i + 1) ≤ p * (i + (k + 1)) := Nat.mul_le_mul_left _ (by omega)
          omega) hnil
    unfold init_blockmap_loop
    simp only [hn, hstep, ne_eq, not_true_eq_false, if_false]
    obtain ⟨s, hs, hs1, hs2⟩ := ih (i + 1)
      { sbi with free_lists :=
          Function.update sbi.free_lists i (init_shard_spec (sbi.free_lists i) i p n) }
      hp (by rw [show i + 1 + k = i + (k + 1) by omega]; exact hb)
      (by
        intro j h1 h2
        have hne : j ≠ i := by omega
        simp only [Function.update_noteq hne]
        exact hsh j (by omega) (by omega))
    refine ⟨s, hs, ?_, ?_⟩
    · intro j m h1 h2 hm
      by_cases hji : j = i
      · subst hji
        rw [hs2 j (Or.inl (by omega))]
        rw [hn] at hm
        cases hm
        simp only [Function.update_same]
      · rw [hs1 j m (by omega) (by omega) hm]
        simp only [Function.update_noteq hji]
    · intro j hj
      have hne : j ≠ i := by omega
      rw [hs2 j (by omega)]
      simp only [Function.update_noteq hne]

/-- C17: for `cpus >= 1` and `num_blocks >= cpus` (an `unsigned long`), on shards whose
trees are empty and with every node allocation succeeding, after `aeon_init_blockmap`
each shard `i < cpus` holds exactly one free node `[i * p, (i + 1) * p - 1]` with
`p = num_blocks / cpus`, has `num_free_blocks = p`, `num_blocknode = 1` and
`first_node = last_node =` that node; the ranges of distinct shards are disjoint and lie
inside `[0, num_blocks - 1]`; and every shard satisfies
`num_free_blocks = sum of (high - low + 1)`. -/
theorem C17_init_blockmap (sbi : aeon_sb_info) (nodes : Nat → Option aeon_range_node)
    (hcpus : 1 ≤ sbi.cpus) (hnb : sbi.cpus ≤ sbi.num_blocks) (h64 : sbi.num_blocks < 2 ^ 64)
    (hempty : ∀ i, i < sbi.cpus → (sbi.free_lists i).block_free_tree = .nil)
    (hnodes : ∀ i, i < sbi.cpus → ∃ n, nodes i = some n) :
    ∃ s, aeon_init_blockmap sbi nodes = some s ∧
      ∀ i n, i < sbi.cpus → nodes i = some n →
        (s.free_lists i).block_free_tree.toList
          = [{ n with range_low := i * (sbi.num_blocks / sbi.cpus),
                      range_high := (i + 1) * (sbi.num_blocks / sbi.cpus) - 1 }] ∧
        (s.free_lists i).num_free_blocks = sbi.num_blocks / sbi.cpus ∧
        (s.free_lists i).num_blocknode = 1 ∧
        (s.free_lists i).first_node = some n.addr ∧
        (s.free_lists i).last_node = some n.addr ∧
        (s.free_lists i).num_free_blocks = sum_blocks (s.free_lists i).block_free_tree.toList ∧
        i * (sbi.num_blocks / sbi.cpus) ≤ (i + 1) * (sbi.num_blocks / sbi.cpus) - 1 ∧
        (i + 1) * (sbi.num_blocks / sbi.cpus) - 1 ≤ sbi.num_blocks - 1 ∧
        ∀ j, i < j →
          (i + 1) * (sbi.num_blocks / sbi.cpus) - 1 < j * (sbi.num_blocks / sbi.cpus) := by
  have hp1 : 1 ≤ sbi.num_blocks / sbi.cpus :=
    (Nat.one_le_div_iff (by omega)).2 hnb
  have hpc : sbi.num_blocks / sbi.cpus * sbi.cpus ≤ sbi.num_blocks := Nat.div_mul_le_self _ _
  obtain ⟨s, hs, hs1, _⟩ := init_blockmap_loop_spec nodes (sbi.num_blocks / sbi.cpus) hp1
    sbi.cpus 0 { sbi with per_list_blocks := sbi.num_blocks / sbi.cpus } rfl
    (by rw [Nat.zero_add]; omega)
    (by
      intro j _ h2
      rw [Nat.zero_add] at h2
      exact ⟨hempty j h2, hnodes j h2⟩)
  refine ⟨s, hs, ?_⟩
  intro i n hi hn
  have hsi := hs1 i n (Nat.zero_le _) (by rw [Nat.zero_add]; exact hi) hn
  have hle1 : (i + 1) * (sbi.num_blocks / sbi.cpus) ≤ sbi.num_blocks := by
    have : (i + 1) * (sbi.num_blocks / sbi.cpus) ≤ sbi.cpus * (sbi.num_blocks / sbi.cpus) :=
      Nat.mul_le_mul_right _ (by omega)
    rw [Nat.mul_comm sbi.cpus] at this
    omega
  have hexp : (i + 1) * (sbi.num_blocks / sbi.cpus)
      = i * (sbi.num_blocks / sbi.cpus) + sbi.num_blocks / sbi.cpus := by ring
  rw [hsi]
  unfold init_shard_spec
  simp only [rb_root.toList, List.nil_append, sum_blocks, List.map_cons, List.map_nil,
    List.sum_cons, List.sum_nil]
  refine ⟨trivial, trivial, trivial, trivial, trivial, by omega, by omega, by omega, ?_⟩
  intro j hj
  have : (i + 1) * (sbi.num_blocks / sbi.cpus) ≤ j * (sbi.num_blocks / sbi.cpus) :=
    Nat.mul_le_mul_right _ (by omega)
  omega

/-- Witness of C17: 4 shards and 1003 blocks, 250 blocks per shard. -/
theorem C17_init_blockmap_witness :
    ∃ s, aeon_init_blockmap
        { uniform_sbi 4 { single_range_shard 0 0 with block_free_tree := .nil }
            (inode_shard_of .nil 0) with num_blocks := 1003 }
        (fun i => some ⟨i + 1, 0, 0, 0⟩) = some s ∧
      ∀ i n, i < 4 → (fun i => some (⟨i + 1, 0, 0, 0⟩ : aeon_range_node)) i = some n →
        (s.free_lists i).block_free_tree.toList
          = [{ n with range_low := i * (1003 / 4), range_high := (i + 1) * (1003 / 4) - 1 }] ∧
        (s.free_lists i).num_free_blocks = 1003 / 4 ∧
        (s.free_lists i).num_blocknode = 1 ∧
        (s.free_lists i).first_node = some n.addr ∧
        (s.free_lists i).last_node = some n.addr ∧
        (s.free_lists i).num_free_blocks = sum_blocks (s.free_lists i).block_free_tree.toList ∧
        i * (1003 / 4) ≤ (i + 1) * (1003 / 4) - 1 ∧
        (i + 1) * (1003 / 4) - 1 ≤ 1003 - 1 ∧
        ∀ j, i < j → (i + 1) * (1003 / 4) - 1 < j * (1003 / 4) :=
  C17_init_blockmap
    { uniform_sbi 4 { single_range_shard 0 0 with block_free_tree := .nil }
        (inode_shard_of .nil 0) with num_blocks := 1003 }
    (fun i => some ⟨i + 1, 0, 0, 0⟩) (by decide) (by decide) (by decide)
    (fun _ _ => rfl) (fun i _ => ⟨_, rfl⟩)

theorem hashes_ordered_tree (l : List aeon_range_node) (h : hashes_ordered l) :
    tree_ordered node_type.NODE_DIR l := by
  unfold tree_ordered; rw [if_pos rfl]; exact h

/-- In an ordered directory tree the lookup of a name depends on the in-order sequence
of the nodes only: it returns the entry of the node with the hash of the name. -/
theorem find_dentry_ordered (t : rb_root) (name : List Int) (namelen : Nat)
    (hord : hashes_ordered t.toList) :
    aeon_find_dentry t name namelen
      = (t.toList.find? (fun n => decide (n.hash = BKDRHash name (to_int namelen)))).map
          aeon_range_node.direntry := by
  obtain ⟨A, B, hl, hA, hB⟩ := ordered_split node_type.NODE_DIR (BKDRHash name (to_int namelen))
    t.toList (hashes_ordered_tree _ hord)
  have hfA : ∀ l2 : List aeon_range_node,
      (A ++ l2).find? (fun n => decide (n.hash = BKDRHash name (to_int namelen)))
        = l2.find? (fun n => decide (n.hash = BKDRHash name (to_int namelen))) := by
    intro l2
    rw [List.find?_append]
    have : A.find? (fun n => decide (n.hash = BKDRHash name (to_int namelen))) = none := by
      rw [List.find?_eq_none]
      intro a ha
      have := (compare_dir a _).2.1.1 (hA a ha)
      simp; omega
    rw [this]; rfl
  rcases hB with hB | ⟨m, B1, rfl, hm, hB1⟩
  · have h0 : (aeon_find_range_node t (BKDRHash name (to_int namelen)) node_type.NODE_DIR).1 = 0 :=
      find_descend_not_found _ _ t A B none hl hA hB
    have hnone : B.find? (fun n => decide (n.hash = BKDRHash name (to_int namelen))) = none := by
      rw [List.find?_eq_none]
      intro b hb
      have := (compare_dir b _).1.1 (hB b hb)
      simp; omega
    rw [hl, hfA, hnone]
    cases hf : aeon_find_range_node t (BKDRHash name (to_int namelen)) node_type.NODE_DIR with
    | mk found node =>
      rw [hf] at h0
      simp only at h0
      subst h0
      cases node <;> simp [aeon_find_dentry, hf]
  · have h1 : aeon_find_range_node t (BKDRHash name (to_int namelen)) node_type.NODE_DIR
        = (1, some m) := find_descend_found _ _ m t A B1 none hl hA hm hB1
    have hmh := (compare_dir m _).2.2.1 hm
    rw [hl, hfA]
    rw [hmh] at h1
    simp [aeon_find_dentry, h1, List.find?_cons, hmh]

/-- A successful insertion into an ordered directory tree links the node, with its hash
and entry set, between the nodes of lower and of higher hash. -/
theorem insert_dir_tree_ok (t t1 : rb_root) (name : List Int) (namelen : Int) (e : Nat)
    (node : aeon_range_node) (hord : hashes_ordered t.toList)
    (hins : aeon_insert_dir_tree t name namelen e (some node) = (0, t1)) :
    ∃ A B, t.toList = A ++ B ∧
      t1.toList = A ++ { node with range_low := BKDRHash name namelen, direntry := e } :: B ∧
      (∀ a ∈ A, a.hash < BKDRHash name namelen) ∧
      (∀ b ∈ B, BKDRHash name namelen < b.hash) ∧
      hashes_ordered t1.toList := by
  obtain ⟨A, B, hl, hA, hB⟩ := ordered_split node_type.NODE_DIR (BKDRHash name namelen)
    t.toList (hashes_ordered_tree _ hord)
  have hA1 : ∀ a ∈ A, a.hash < BKDRHash name namelen :=
    fun a ha => (compare_dir a _).2.1.1 (hA a ha)
  simp only [aeon_insert_dir_tree, aeon_insert_range_node] at hins
  rcases hB with hB | ⟨m, B1, rfl, hm, hB1⟩
  · have hB1 : ∀ b ∈ B, BKDRHash name namelen < b.hash :=
      fun b hb => (compare_dir b _).1.1 (hB b hb)
    obtain ⟨t2, h2, h2l⟩ := insert_descend_split
      { node with range_low := BKDRHash name namelen, direntry := e } node_type.NODE_DIR
      t A B hl hA hB
    rw [h2] at hins
    simp only [rb_insert_color, Prod.mk.injEq, true_and] at hins
    subst hins
    refine ⟨A, B, hl, h2l, hA1, hB1, ?_⟩
    rw [h2l]
    unfold hashes_ordered at hord ⊢
    rw [hl, List.pairwise_append] at hord
    rw [List.pairwise_append, List.pairwise_cons]
    refine ⟨hord.1, ⟨fun b hb => hB1 b hb, hord.2.1⟩, ?_⟩
    intro a ha b hb
    rcases List.mem_cons.1 hb with rfl | hb
    · exact hA1 a ha
    · exact hord.2.2 a ha b hb
  · have h2 := insert_descend_dup
      { node with range_low := BKDRHash name namelen, direntry := e } node_type.NODE_DIR m
      t A B1 hl hA hm hB1
    rw [h2] at hins
    simp [EINVAL] at hins

/-- An insertion of a name whose hash is already in an ordered directory tree fails with
`-EINVAL` and returns the tree as it was. -/
theorem insert_dir_tree_dup (t : rb_root) (name : List Int) (namelen : Int) (e : Nat)
    (node : aeon_range_node) (hord : hashes_ordered t.toList) (m : aeon_range_node)
    (hm : m ∈ t.toList) (hh : m.hash = BKDRHash name namelen) :
    aeon_insert_dir_tree t name namelen e (some node) = (-EINVAL, t) := by
  obtain ⟨A, B, hl, hA, hB⟩ := ordered_split node_type.NODE_DIR (BKDRHash name namelen)
    t.toList (hashes_ordered_tree _ hord)
  simp only [aeon_insert_dir_tree, aeon_insert_range_node]
  rcases hB with hB | ⟨m1, B1, rfl, hm1, hB1⟩
  · exfalso
    rw [hl, List.mem_append] at hm
    rcases hm with hm | hm
    · have := (compare_dir m _).2.1.1 (hA m hm); omega
    · have := (compare_dir m _).1.1 (hB m hm); omega
  · have h2 := insert_descend_dup
      { node with range_low := BKDRHash name namelen, direntry := e } node_type.NODE_DIR m1
      t A B1 hl hA hm1 hB1
    rw [h2]

/-- C5: for every ordered directory index, every name (of a length that fits an `int`)
and entry handle `e` and every freshly allocated node: if `aeon_insert_dir_tree(name, e)`
succeeds, then `aeon_find_dentry(name)` returns exactly `e`; the following
`aeon_remove_dir_tree(name)` succeeds, after it `aeon_find_dentry(name)` returns no entry,
and the lookup of every name is then what it was before the insertion; the lookup of
every name that was indexed before the insertion is unaffected by the insertion as well. -/
theorem C5_dir_tree_roundtrip (t t1 : rb_root) (name : List Int) (namelen e : Nat)
    (node : aeon_range_node) (hlen : namelen < 2 ^ 31)
    (hord : hashes_ordered t.toList) (hnodup : (rb_addrs t).Nodup)
    (hfresh : node.addr ∉ rb_addrs t)
    (hins : aeon_insert_dir_tree t name namelen e (some node) = (0, t1)) :
    aeon_find_dentry t1 name namelen = some e ∧
    (∀ name1 len1, aeon_find_dentry t name1 len1 ≠ none →
      aeon_find_dentry t1 name1 len1 = aeon_find_dentry t name1 len1) ∧
    ∃ t2, aeon_remove_dir_tree t1 name namelen = (0, t2) ∧
      aeon_find_dentry t2 name namelen = none ∧
      ∀ name1 len1, aeon_find_dentry t2 name1 len1 = aeon_find_dentry t name1 len1 := by
  have hto : to_int (namelen : Int) = (namelen : Int) := to_int_of_lt namelen hlen
  obtain ⟨A, B, hl, hl1, hA, hB, hord1⟩ := insert_dir_tree_ok t t1 name namelen e node hord hins
  have hnoA : ∀ key, key ≠ BKDRHash name namelen →
      (A ++ { node with range_low := BKDRHash name namelen, direntry := e } :: B).find?
          (fun n => decide (n.hash = key))
        = (A ++ B).find? (fun n => decide (n.hash = key)) := by
    intro key hkey
    rw [List.find?_append, List.find?_append, List.find?_cons]
    have : decide (aeon_range_node.hash
        { node with range_low := BKDRHash name namelen, direntry := e } = key) = false := by
      simp [aeon_range_node.hash]; omega
    rw [this]
  have hnone : (A ++ B).find? (fun n => decide (n.hash = BKDRHash name namelen)) = none := by
    rw [List.find?_eq_none]
    intro x hx
    rcases List.mem_append.1 hx with hx | hx
    · have := hA x hx; simp; omega
    · have := hB x hx; simp; omega
  have hfind1 : aeon_find_range_node t1 (BKDRHash name namelen) node_type.NODE_DIR
      = (1, some { node with range_low := BKDRHash name namelen, direntry := e }) := by
    apply find_descend_found _ _ _ t1 A B none hl1
    · intro a ha; exact (compare_dir a _).2.1.2 (hA a ha)
    · exact (compare_dir _ _).2.2.2 rfl
    · intro b hb; exact (compare_dir b _).1.2 (hB b hb)
  have hnd1 : (rb_addrs t1).Nodup := by
    unfold rb_addrs at hnodup hfresh ⊢
    rw [hl] at hnodup hfresh
    rw [hl1]
    simp only [List.map_append, List.map_cons, List.mem_append, not_or] at hnodup hfresh ⊢
    rw [List.nodup_append] at hnodup ⊢
    refine ⟨hnodup.1, List.nodup_cons.2 ⟨hfresh.2, hnodup.2.1⟩, ?_⟩
    intro a ha hb
    rcases List.mem_cons.1 hb with rfl | hb
    · exact hfresh.1 ha
    · exact hnodup.2.2 ha hb
  have hl2 : (rb_erase node.addr t1).toList = t.toList := by
    rw [hl]
    exact toList_rb_erase_split t1 A B
      { node with range_low := BKDRHash name namelen, direntry := e } hl1 hnd1
  have hord2 : hashes_ordered (rb_erase node.addr t1).toList := by rw [hl2]; exact hord
  refine ⟨?_, ?_, rb_erase node.addr t1, ?_, ?_, ?_⟩
  · simp [aeon_find_dentry, hto, hfind1, aeon_range_node.hash]
  · intro name1 len1 hne
    rw [find_dentry_ordered t1 name1 len1 hord1, find_dentry_ordered t name1 len1 hord] at *
    rw [hl1, hl]
    by_cases hk : BKDRHash name1 (to_int len1) = BKDRHash name namelen
    · exfalso
      apply hne
      rw [hl, hk, hnone]; rfl
    · rw [hnoA _ hk]
  · simp [aeon_remove_dir_tree, hfind1, aeon_range_node.hash]
  · rw [find_dentry_ordered _ name namelen hord2, hl2, hl, hto, hnone]; rfl
  · intro name1 len1
    rw [find_dentry_ordered _ name1 len1 hord2, find_dentry_ordered t name1 len1 hord, hl2]

/-- Witness of C5: the name "b" with entry 42 inserted into the index of "a". -/
theorem C5_dir_tree_roundtrip_witness :
    aeon_find_dentry
        (.node .nil ⟨1, 97, 0, 7⟩ (.node .nil ⟨2, 98, 0, 42⟩ .nil)) [98] 1 = some 42 ∧
    (∀ name1 len1, aeon_find_dentry (.node .nil ⟨1, 97, 0, 7⟩ .nil) name1 len1 ≠ none →
      aeon_find_dentry (.node .nil ⟨1, 97, 0, 7⟩ (.node .nil ⟨2, 98, 0, 42⟩ .nil)) name1 len1
        = aeon_find_dentry (.node .nil ⟨1, 97, 0, 7⟩ .nil) name1 len1) ∧
    ∃ t2, aeon_remove_dir_tree
        (.node .nil ⟨1, 97, 0, 7⟩ (.node .nil ⟨2, 98, 0, 42⟩ .nil)) [98] (1 : Nat) = (0, t2) ∧
      aeon_find_dentry t2 [98] 1 = none ∧
      ∀ name1 len1, aeon_find_dentry t2 name1 len1
        = aeon_find_dentry (.node .nil ⟨1, 97, 0, 7⟩ .nil) name1 len1 :=
  C5_dir_tree_roundtrip (.node .nil ⟨1, 97, 0, 7⟩ .nil)
    (.node .nil ⟨1, 97, 0, 7⟩ (.node .nil ⟨2, 98, 0, 42⟩ .nil)) [98] 1 42 ⟨2, 0, 0, 0⟩
    (by norm_num) (by simp [hashes_ordered, rb_root.toList])
    (by simp [rb_addrs, rb_root.toList]) (by simp [rb_addrs, rb_root.toList]) (by decide)

theorem to_ulong_cast (x : Int) : ((to_ulong x : Nat) : Int) = x % 2 ^ 64 := by
  unfold to_ulong
  exact Int.toNat_of_nonneg (Int.emod_nonneg _ (by norm_num))

theorem BKDRHash_full (s : List Int) :
    BKDRHash s (s.length : Nat) = s.foldl (fun hash c => to_ulong ((hash : Int) * 131 + c)) 0 := by
  unfold BKDRHash
  rw [Int.toNat_ofNat, List.take_length]

theorem bkdr_poly_snoc (s : List Int) (c : Int) :
    bkdr_poly (s ++ [c]) = bkdr_poly s * 131 + c := by
  unfold bkdr_poly
  rw [List.length_append, List.length_singleton, List.range_succ, List.map_append,
    List.sum_append, ← List.sum_map_mul_right]
  congr 1
  · congr 1
    apply List.map_congr_left
    intro i hi
    rw [List.mem_range] at hi
    rw [List.getD_append _ _ _ _ hi]
    have : s.length + 1 - 1 - i = (s.length - 1 - i) + 1 := by omega
    rw [this, pow_succ]
    ring
  · simp [List.getD_append_right]

/-- C30: `BKDRHash` of no characters is 0; it reads the first `length` characters only;
appending a character `c` to a string `s` gives `(BKDRHash(s) * 131 + c) mod 2 ^ 64`; and
the value is the sum of `s[i] * 131 ^ (n - 1 - i)` modulo `2 ^ 64`, where the characters
are their values as C `char`. -/
theorem C30_BKDRHash_recurrence (s rest : List Int) (c : Int) :
    BKDRHash s 0 = 0 ∧
    BKDRHash (s ++ rest) (s.length : Nat) = BKDRHash s (s.length : Nat) ∧
    ((BKDRHash (s ++ [c]) ((s.length + 1 : Nat) : Int) : Nat) : Int)
      = ((BKDRHash s (s.length : Nat) : Nat) * 131 + c) % 2 ^ 64 ∧
    ((BKDRHash s (s.length : Nat) : Nat) : Int) = bkdr_poly s % 2 ^ 64 := by
  refine ⟨by simp [BKDRHash], ?_, ?_, ?_⟩
  · unfold BKDRHash
    rw [Int.toNat_ofNat, List.take_left, List.take_length]
  · have h := BKDRHash_full (s ++ [c])
    rw [List.length_append, List.length_singleton] at h
    rw [h, BKDRHash_full, List.foldl_append, List.foldl_cons, List.foldl_nil, to_ulong_cast]
  · induction s using List.reverseRecOn with
    | nil => simp [BKDRHash, bkdr_poly]
    | append_singleton s1 c1 ih =>
      rw [BKDRHash_full] at ih ⊢
      rw [List.foldl_append, List.foldl_cons, List.foldl_nil, to_ulong_cast, ih,
        bkdr_poly_snoc]
      rw [Int.add_emod, Int.mul_emod, Int.emod_emod_of_dvd _ (dvd_refl _), ← Int.mul_emod,
        ← Int.add_emod]

/-- C21: the names `\x01d` and `\x02\xe1` (signed `char`), and the names `\x01\x84` and
`\x02\x01` (unsigned `char`), are distinct names with the same `BKDRHash` value; and for
every ordered directory index and every two names `a`, `b` with
`BKDRHash(a) = BKDRHash(b)`: after `aeon_insert_dir_tree(a, e)` succeeds,
`aeon_find_dentry(b)` returns `e`, the entry of `a`, and `aeon_insert_dir_tree(b, e2)`
fails with `-EINVAL` and leaves the index unchanged. -/
theorem C21_hash_collision (t t1 : rb_root) (a b : List Int) (la lb e e2 : Nat)
    (node node2 : aeon_range_node) (hlb : lb < 2 ^ 31)
    (hord : hashes_ordered t.toList)
    (hcol : BKDRHash a la = BKDRHash b lb)
    (hins : aeon_insert_dir_tree t a la e (some node) = (0, t1)) :
    (([1, 100] : List Int) ≠ [2, -31] ∧ BKDRHash [1, 100] 2 = BKDRHash [2, -31] 2) ∧
    (([1, 132] : List Int) ≠ [2, 1] ∧ BKDRHash [1, 132] 2 = BKDRHash [2, 1] 2) ∧
    aeon_find_dentry t1 b lb = some e ∧
    aeon_insert_dir_tree t1 b lb e2 (some node2) = (-EINVAL, t1) := by
  have hto : to_int (lb : Int) = (lb : Int) := to_int_of_lt lb hlb
  obtain ⟨A, B, _, hl1, hA, _, hord1⟩ := insert_dir_tree_ok t t1 a la e node hord hins
  refine ⟨⟨by decide, by decide⟩, ⟨by decide, by decide⟩, ?_, ?_⟩
  · rw [find_dentry_ordered t1 b lb hord1, hl1, hto, ← hcol, List.find?_append]
    have : A.find? (fun n => decide (n.hash = BKDRHash a la)) = none := by
      rw [List.find?_eq_none]
      intro x hx
      have := hA x hx
      simp; omega
    rw [this]
    simp [List.find?_cons, aeon_range_node.hash]
  · apply insert_dir_tree_dup t1 b lb e2 node2 hord1
      { node with range_low := BKDRHash a la, direntry := e }
    · rw [hl1]; simp
    · rw [← hcol]; rfl

/-- Witness of C21: the name `\x02\xe1` after the insertion of `\x01d` with entry 42. -/
theorem C21_hash_collision_witness :
    (([1, 100] : List Int) ≠ [2, -31] ∧ BKDRHash [1, 100] 2 = BKDRHash [2, -31] 2) ∧
    (([1, 132] : List Int) ≠ [2, 1] ∧ BKDRHash [1, 132] 2 = BKDRHash [2, 1] 2) ∧
    aeon_find_dentry (.node .nil ⟨1, 231, 0, 42⟩ .nil) [2, -31] 2 = some 42 ∧
    aeon_insert_dir_tree (.node .nil ⟨1, 231, 0, 42⟩ .nil) [2, -31] (2 : Nat) 43
        (some ⟨2, 0, 0, 0⟩)
      = (-EINVAL, .node .nil ⟨1, 231, 0, 42⟩ .nil) :=
  C21_hash_collision .nil (.node .nil ⟨1, 231, 0, 42⟩ .nil) [1, 100] [2, -31] 2 2 42 43
    ⟨1, 0, 0, 0⟩ ⟨2, 0, 0, 0⟩ (by norm_num) (by simp [hashes_ordered, rb_root.toList])
    (by decide) (by decide)

/-- C28 (refuted as stated): with names of up to 255 characters, as the spec describes
them, the members of the packed `struct aeon_dentry` sum to 383 bytes, not to 128. -/
theorem C28_dentry_size_255 : sizeof_aeon_dentry 255 = 383 ∧ sizeof_aeon_dentry 255 ≠ 128 := by
  decide

/-- C28 (amended): the members of the packed `struct aeon_dentry` sum to
`AEON_NAME_LEN + 128` bytes, which is 128 only for `AEON_NAME_LEN = 0`; and whenever
`aeon_add_dentry` does not reject a name (of a length that is not negative) with
`-EINVAL`, `AEON_NAME_LEN` is at least 2
and the record has at least 130 bytes. -/
theorem C28_dentry_size (cfg : aeon_consts) (st : dir_state) (am : aeon_mdata)
    (name : List Int) (namelen : Int) (de_info adi : Bool) (node : Option aeon_range_node)
    (r : Int × dir_state) (hlen : 0 ≤ namelen)
    (hr : aeon_add_dentry cfg st am name namelen de_info adi node = some r)
    (hne : r.1 ≠ -EINVAL) :
    sizeof_aeon_dentry cfg.AEON_NAME_LEN = cfg.AEON_NAME_LEN + 128 ∧
    (sizeof_aeon_dentry cfg.AEON_NAME_LEN = 128 ↔ cfg.AEON_NAME_LEN = 0) ∧
    2 ≤ cfg.AEON_NAME_LEN ∧ 130 ≤ sizeof_aeon_dentry cfg.AEON_NAME_LEN := by
  have hsz : sizeof_aeon_dentry cfg.AEON_NAME_LEN = cfg.AEON_NAME_LEN + 128 := by
    unfold sizeof_aeon_dentry; omega
  have h2 : 2 ≤ cfg.AEON_NAME_LEN := by
    by_contra hlt
    unfold aeon_add_dentry at hr
    by_cases hc : namelen = 0 ∨ namelen ≥ (cfg.AEON_NAME_LEN : Int)
    · rw [if_pos hc] at hr
      simp only [Option.some.injEq] at hr
      rw [← hr] at hne
      exact hne rfl
    · apply hc
      omega
  refine ⟨hsz, ?_, h2, ?_⟩ <;> omega

/-- Witness of C28: a name of one character offered to a directory whose list of blocks
is full is rejected with `-EMLINK`, not with `-EINVAL`. -/
theorem C28_dentry_size_witness :
    sizeof_aeon_dentry example_consts.AEON_NAME_LEN = example_consts.AEON_NAME_LEN + 128 ∧
    (sizeof_aeon_dentry example_consts.AEON_NAME_LEN = 128 ↔
      example_consts.AEON_NAME_LEN = 0) ∧
    2 ≤ example_consts.AEON_NAME_LEN ∧
    130 ≤ sizeof_aeon_dentry example_consts.AEON_NAME_LEN :=
  C28_dentry_size example_consts
    { example_new_dir with
      pidir := { example_pidir with i_new := 0 },
      de_map := { block_dentry := fun _ => 0, next_map := 0, num_dentries := 50,
                  num_latest_dentry := 3, num_internal_dentries := 16 } }
    ⟨7, 0, 0, 0, 0⟩ [97] 1 true true none
    (add_dentry_entry example_consts
      { example_new_dir with
        pidir := { example_pidir with i_new := 0 },
        de_map := { block_dentry := fun _ => 0, next_map := 0, num_dentries := 50,
                    num_latest_dentry := 3, num_internal_dentries := 16 } }
      ⟨7, 0, 0, 0, 0⟩ [97] 1 none)
    (by decide) (by simp [aeon_add_dentry, example_consts, example_pidir])
    (by decide)

theorem to_u32_pred (n : Nat) (h1 : 1 ≤ n) (h2 : n ≤ 2 ^ 32) :
    to_u32 ((n : Int) - 1) = n - 1 := by
  unfold to_u32
  have h : ((n : Int) - 1) % 2 ^ 32 = (n : Int) - 1 :=
    Int.emod_eq_of_lt (by omega) (by omega)
  rw [h]
  omega

theorem isInvalidSpace_eq (st : dir_state) :
    isInvalidSpace st = 0 ↔ st.invalid_list = [] := by
  unfold isInvalidSpace
  cases st.invalid_list <;> simp

/-- The outcome of `aeon_get_dentry_space` in each of its branches. -/
theorem get_dentry_space_cases (cfg : aeon_consts) (st : dir_state) :
    (st.invalid_list = [] ∧ st.de_map.num_internal_dentries = cfg.AEON_INTERNAL_ENTRY ∧
      st.de_map.num_latest_dentry ≥ to_u32 ((cfg.MAX_ENTRY : Int) - 1) ∧
      aeon_get_dentry_space cfg st = (-EMLINK, 0, st)) ∨
    (st.invalid_list = [] ∧ st.de_map.num_internal_dentries = cfg.AEON_INTERNAL_ENTRY ∧
      st.de_map.num_latest_dentry < to_u32 ((cfg.MAX_ENTRY : Int) - 1) ∧
      IS_ERR (aeon_alloc_new_dentry_block st).1 = true ∧
      aeon_get_dentry_space cfg st
        = (-ENOSPC, (aeon_alloc_new_dentry_block st).1, (aeon_alloc_new_dentry_block st).2.2)) ∨
    (st.invalid_list = [] ∧ st.de_map.num_internal_dentries = cfg.AEON_INTERNAL_ENTRY ∧
      st.de_map.num_latest_dentry < to_u32 ((cfg.MAX_ENTRY : Int) - 1) ∧
      IS_ERR (aeon_alloc_new_dentry_block st).1 = false ∧
      aeon_get_dentry_space cfg st
        = get_dentry_space_done
            (aeon_register_dentry_to_map cfg (aeon_alloc_new_dentry_block st).2.2
              (aeon_alloc_new_dentry_block st).2.1)
            (aeon_alloc_new_dentry_block st).1) ∨
    (st.invalid_list = [] ∧ st.de_map.num_internal_dentries ≠ cfg.AEON_INTERNAL_ENTRY ∧
      aeon_get_dentry_space cfg st
        = get_dentry_space_done
            { st with de_map := { st.de_map with
                num_internal_dentries := (st.de_map.num_internal_dentries + 1) % 2 ^ 32 } }
            (aeon_get_internal_dentry cfg st.de_map)) ∨
    (∃ d rest, st.invalid_list = d :: rest ∧
      aeon_get_dentry_space cfg st
        = get_dentry_space_done { st with invalid_list := rest } d) := by
  unfold aeon_get_dentry_space
  cases hl : st.invalid_list with
  | cons d rest =>
    right; right; right; right
    refine ⟨d, rest, rfl, ?_⟩
    have h0 : ¬ isInvalidSpace st = 0 := by rw [isInvalidSpace_eq, hl]; simp
    rw [if_neg h0]
    simp [aeon_reuse_space_for_dentry, hl]
  | nil =>
    have h0 : isInvalidSpace st = 0 := by rw [isInvalidSpace_eq, hl]
    rw [if_pos h0]
    by_cases hi : st.de_map.num_internal_dentries = cfg.AEON_INTERNAL_ENTRY
    · rw [if_pos hi]
      by_cases hm : st.de_map.num_latest_dentry ≥ to_u32 ((cfg.MAX_ENTRY : Int) - 1)
      · rw [if_pos hm]
        exact Or.inl ⟨rfl, hi, hm, rfl⟩
      · rw [if_neg hm]
        cases he : IS_ERR (aeon_alloc_new_dentry_block st).1 with
        | true =>
          right; left
          refine ⟨rfl, hi, by omega, rfl, ?_⟩
          simp [he]
        | false =>
          right; right; left
          refine ⟨rfl, hi, by omega, rfl, ?_⟩
          simp [he]
    · rw [if_neg hi]
      right; right; right; left
      exact ⟨rfl, hi, rfl⟩

/-- C8: with `MAX_ENTRY` a positive constant, `aeon_get_dentry_space` returns `-EMLINK`
exactly when the list of invalidated slots is empty, `num_internal_dentries` equals
`AEON_INTERNAL_ENTRY` and `num_latest_dentry >= MAX_ENTRY - 1`; in that case the state is
unchanged: no block is requested from the allocator and the dentry map is as before. -/
theorem C8_get_dentry_space_emlink (cfg : aeon_consts) (st : dir_state)
    (hmax1 : 1 ≤ cfg.MAX_ENTRY) (hmax2 : cfg.MAX_ENTRY ≤ 2 ^ 32) :
    ((aeon_get_dentry_space cfg st).1 = -EMLINK ↔
      (st.invalid_list = [] ∧ st.de_map.num_internal_dentries = cfg.AEON_INTERNAL_ENTRY ∧
        st.de_map.num_latest_dentry ≥ cfg.MAX_ENTRY - 1)) ∧
    ((aeon_get_dentry_space cfg st).1 = -EMLINK →
      (aeon_get_dentry_space cfg st).2.2 = st) := by
  have hm := to_u32_pred cfg.MAX_ENTRY hmax1 hmax2
  rcases get_dentry_space_cases cfg st with ⟨h1, h2, h3, h4⟩ | ⟨h1, h2, h3, _, h4⟩ |
    ⟨h1, h2, h3, _, h4⟩ | ⟨h1, h2, h4⟩ | ⟨d, rest, h1, h4⟩
  · rw [h4]
    rw [hm] at h3
    exact ⟨⟨fun _ => ⟨h1, h2, h3⟩, fun _ => rfl⟩, fun _ => rfl⟩
  · rw [h4]
    rw [hm] at h3
    simp only [ENOSPC, EMLINK]
    refine ⟨⟨fun h => absurd h (by decide), fun h => ?_⟩, fun h => absurd h (by decide)⟩
    omega
  · rw [h4]
    rw [hm] at h3
    simp only [get_dentry_space_done, EMLINK]
    refine ⟨⟨fun h => absurd h (by decide), fun h => ?_⟩, fun h => absurd h (by decide)⟩
    omega
  · rw [h4]
    simp only [get_dentry_space_done, EMLINK]
    refine ⟨⟨fun h => absurd h (by decide), fun h => ?_⟩, fun h => absurd h (by decide)⟩
    exact absurd h.2.1 h2
  · rw [h4]
    simp only [get_dentry_space_done, EMLINK]
    refine ⟨⟨fun h => absurd h (by decide), fun h => ?_⟩, fun h => absurd h (by decide)⟩
    rw [h1] at h
    exact absurd h.1 (by simp)

/-- Witness of C8: a directory whose 4 blocks (of 4 at most) are all in use and whose
latest block has handed out its 16 slots, with no slot waiting for reuse: the three
conditions hold, `aeon_get_dentry_space` returns `-EMLINK`, and the state after the call,
allocator answers included, is the state before it. -/
theorem C8_get_dentry_space_emlink_witness :
    (example_dir_limit.invalid_list = [] ∧
      example_dir_limit.de_map.num_internal_dentries = example_consts.AEON_INTERNAL_ENTRY ∧
      example_dir_limit.de_map.num_latest_dentry ≥ example_consts.MAX_ENTRY - 1) ∧
    (aeon_get_dentry_space example_consts example_dir_limit).1 = -EMLINK ∧
    (aeon_get_dentry_space example_consts example_dir_limit).2.2 = example_dir_limit ∧
    (aeon_get_dentry_space example_consts example_dir_limit).2.2.new_dentry_blocks
      = [(16, 1048576 + 16 * 4096), (17, 1048576 + 17 * 4096)] ∧
    ¬ (aeon_get_dentry_space example_consts example_dir).1 = -EMLINK :=
  ⟨⟨rfl, rfl, by decide⟩,
   (C8_get_dentry_space_emlink example_consts example_dir_limit (by decide)
      (by decide)).1.2 ⟨rfl, rfl, by decide⟩,
   (C8_get_dentry_space_emlink example_consts example_dir_limit (by decide)
      (by decide)).2
     ((C8_get_dentry_space_emlink example_consts example_dir_limit (by decide)
        (by decide)).1.2 ⟨rfl, rfl, by decide⟩),
   by
     rw [(C8_get_dentry_space_emlink example_consts example_dir_limit (by decide)
       (by decide)).2
       ((C8_get_dentry_space_emlink example_consts example_dir_limit (by decide)
         (by decide)).1.2 ⟨rfl, rfl, by decide⟩)]
     rfl,
   fun h =>
     absurd
       ((C8_get_dentry_space_emlink example_consts example_dir (by decide)
         (by decide)).1.1 h).2.1
       (by decide)⟩

/-- The outcome of `aeon_remove_dentry`: an error with the state unchanged, or 0 with
the name erased from the index and the record invalidated. -/
theorem remove_dentry_cases (cfg : aeon_consts) (st : dir_state) (name : List Int)
    (len de : Nat) (adi : Bool) :
    ((aeon_remove_dentry cfg st name len de adi).1 ≠ 0 ∧
      (aeon_remove_dentry cfg st name len de adi).2 = st) ∨
    (len % 2 ^ 32 ≠ 0 ∧ adi = true ∧
      (aeon_remove_dir_tree st.rb_tree name (to_int (len % 2 ^ 32 : Nat))).1 = 0 ∧
      aeon_remove_dentry cfg st name len de adi
        = (0, { st with
            rb_tree := (aeon_remove_dir_tree st.rb_tree name (to_int (len % 2 ^ 32 : Nat))).2,
            invalid_list := de :: st.invalid_list,
            de_map := { st.de_map with num_dentries := u64_dec st.de_map.num_dentries },
            pmem := aeon_update_dentry_csum cfg
              (memset (store8 st.pmem (de + offsetof_valid) 0) (de + offsetof_name) 0
                (load8 (store8 st.pmem (de + offsetof_valid) 0) (de + offsetof_name_len) + 1))
              de,
            pidir := { st.pidir with i_links_count := st.pidir.i_links_count - 1 } })) := by
  unfold aeon_remove_dentry
  by_cases hlen : len % 2 ^ 32 = 0
  · rw [if_pos hlen]
    exact Or.inl ⟨by simp [EINVAL], rfl⟩
  · rw [if_neg hlen]
    cases adi with
    | false => exact Or.inl ⟨by simp [ENOMEM], rfl⟩
    | true =>
      simp only [Bool.not_true, Bool.false_eq_true, if_false]
      cases hr : aeon_remove_dir_tree st.rb_tree name (to_int (len % 2 ^ 32 : Nat)) with
      | mk err tree =>
        by_cases he : err = 0
        · subst he
          right
          simp only [ne_eq, not_true_eq_false, if_false]
          exact ⟨hlen, trivial, trivial, trivial⟩
        · left
          simp only [ne_eq, he, not_false_eq_true, if_true]
          exact ⟨trivial, trivial⟩

theorem remove_dentries_invalid_list (cfg : aeon_consts) :
    ∀ (ops : List (List Int × Nat × Nat)) (st : dir_state),
      (∀ r ∈ (remove_dentries cfg st ops).1, r = 0) →
      (remove_dentries cfg st ops).2.invalid_list
        = (ops.map (fun o => o.2.2)).reverse ++ st.invalid_list := by
  intro ops
  induction ops with
  | nil => intro st _; simp [remove_dentries]
  | cons o rest ih =>
    intro st hok
    obtain ⟨name, len, de⟩ := o
    simp only [remove_dentries, List.mem_cons, forall_eq_or_imp] at hok ⊢
    rw [ih _ hok.2]
    rcases remove_dentry_cases cfg st name len de true with ⟨h1, _⟩ | ⟨_, _, _, h2⟩
    · exact absurd hok.1 h1
    · rw [h2]
      simp

theorem get_dentry_spaces_reuse (cfg : aeon_consts) :
    ∀ (k : Nat) (st : dir_state), k ≤ st.invalid_list.length →
      (get_dentry_spaces cfg st k).1 = (st.invalid_list.take k).map (fun d => ((0 : Int), d)) ∧
      (get_dentry_spaces cfg st k).2.invalid_list = st.invalid_list.drop k ∧
      (get_dentry_spaces cfg st k).2.de_map.num_latest_dentry = st.de_map.num_latest_dentry ∧
      (get_dentry_spaces cfg st k).2.de_map.num_internal_dentries
        = st.de_map.num_internal_dentries ∧
      (get_dentry_spaces cfg st k).2.de_map.block_dentry = st.de_map.block_dentry ∧
      (get_dentry_spaces cfg st k).2.new_dentry_blocks = st.new_dentry_blocks := by
  intro k
  induction k with
  | zero => intro st _; simp [get_dentry_spaces]
  | succ k ih =>
    intro st hk
    rcases get_dentry_space_cases cfg st with ⟨h1, _⟩ | ⟨h1, _⟩ | ⟨h1, _⟩ | ⟨h1, _⟩ |
      ⟨d, rest, h1, h4⟩
    · rw [h1] at hk; simp at hk
    · rw [h1] at hk; simp at hk
    · rw [h1] at hk; simp at hk
    · rw [h1] at hk; simp at hk
    · rw [h1] at hk
      simp only [List.length_cons] at hk
      simp only [get_dentry_spaces, h4, get_dentry_space_done]
      have := ih { st with
        invalid_list := rest,
        pmem := store8 st.pmem (d + offsetof_valid) 1,
        de_map := { st.de_map with num_dentries := (st.de_map.num_dentries + 1) % 2 ^ 64 } }
        (by simp only; omega)
      simp only at this
      obtain ⟨t1, t2, t3, t4, t5, t6⟩ := this
      rw [t1, t2, t3, t4, t5, t6, h1]
      simp

/-- C6: for every directory state, after `aeon_remove_dentry` has invalidated the
records at the addresses `a1, ..., ak` in that order (each call returning 0), the next
`k` calls of `aeon_get_dentry_space` return 0 with the slots `ak, ..., a1`, and after any
number `j <= k` of these calls `num_latest_dentry`, `num_internal_dentries` and
`block_dentry` are what they were and no block has been requested from the allocator. -/
theorem C6_tombstoned_slots_reused (cfg : aeon_consts) (st : dir_state)
    (ops : List (List Int × Nat × Nat))
    (hok : ∀ r ∈ (remove_dentries cfg st ops).1, r = 0) :
    (get_dentry_spaces cfg (remove_dentries cfg st ops).2 ops.length).1
      = (ops.map (fun o => ((0 : Int), o.2.2))).reverse ∧
    ∀ j, j ≤ ops.length →
      (get_dentry_spaces cfg (remove_dentries cfg st ops).2 j).2.de_map.num_latest_dentry
        = (remove_dentries cfg st ops).2.de_map.num_latest_dentry ∧
      (get_dentry_spaces cfg (remove_dentries cfg st ops).2 j).2.de_map.num_internal_dentries
        = (remove_dentries cfg st ops).2.de_map.num_internal_dentries ∧
      (get_dentry_spaces cfg (remove_dentries cfg st ops).2 j).2.de_map.block_dentry
        = (remove_dentries cfg st ops).2.de_map.block_dentry ∧
      (get_dentry_spaces cfg (remove_dentries cfg st ops).2 j).2.new_dentry_blocks
        = (remove_dentries cfg st ops).2.new_dentry_blocks := by
  have hl := remove_dentries_invalid_list cfg ops st hok
  have hlen : ops.length ≤ (remove_dentries cfg st ops).2.invalid_list.length := by
    rw [hl]; simp
  constructor
  · rw [(get_dentry_spaces_reuse cfg ops.length _ hlen).1, hl]
    have : ops.length = (ops.map (fun o => o.2.2)).reverse.length := by simp
    rw [this, List.take_left]
    simp [List.map_reverse]
  · intro j hj
    have := get_dentry_spaces_reuse cfg j (remove_dentries cfg st ops).2 (by omega)
    exact ⟨this.2.2.1, this.2.2.2.1, this.2.2.2.2.1, this.2.2.2.2.2⟩

/-- Witness of C6: the names "a" and "b" of the example directory removed, then two
slots requested. -/
theorem C6_tombstoned_slots_reused_witness :
    (get_dentry_spaces example_consts
        (remove_dentries example_consts example_dir_ab
          [([97], 1, 1114624), ([98], 1, 1114880)]).2 2).1
      = [(0, 1114880), (0, 1114624)] ∧
    ∀ j, j ≤ 2 →
      (get_dentry_spaces example_consts
          (remove_dentries example_consts example_dir_ab
            [([97], 1, 1114624), ([98], 1, 1114880)]).2 j).2.de_map.num_latest_dentry
        = (remove_dentries example_consts example_dir_ab
            [([97], 1, 1114624), ([98], 1, 1114880)]).2.de_map.num_latest_dentry ∧
      (get_dentry_spaces example_consts
          (remove_dentries example_consts example_dir_ab
            [([97], 1, 1114624), ([98], 1, 1114880)]).2 j).2.de_map.num_internal_dentries
        = (remove_dentries example_consts example_dir_ab
            [([97], 1, 1114624), ([98], 1, 1114880)]).2.de_map.num_internal_dentries ∧
      (get_dentry_spaces example_consts
          (remove_dentries example_consts example_dir_ab
            [([97], 1, 1114624), ([98], 1, 1114880)]).2 j).2.de_map.block_dentry
        = (remove_dentries example_consts example_dir_ab
            [([97], 1, 1114624), ([98], 1, 1114880)]).2.de_map.block_dentry ∧
      (get_dentry_spaces example_consts
          (remove_dentries example_consts example_dir_ab
            [([97], 1, 1114624), ([98], 1, 1114880)]).2 j).2.new_dentry_blocks
        = (remove_dentries example_consts example_dir_ab
            [([97], 1, 1114624), ([98], 1, 1114880)]).2.new_dentry_blocks :=
  C6_tombstoned_slots_reused example_consts example_dir_ab
    [([97], 1, 1114624), ([98], 1, 1114880)] (by decide)

/-- The example directory: the two names are indexed with the records that
`aeon_get_dentry_space` handed out. -/
theorem example_dir_ab_index :
    example_dir_ab.rb_tree.toList = [⟨1, 97, 0, 1114624⟩, ⟨2, 98, 0, 1114880⟩] ∧
    example_dir_ab.de_map.num_dentries = 4 ∧
    example_dir_ab.de_map.num_internal_dentries = 4 ∧
    example_dir_ab.de_map.num_latest_dentry = 0 ∧
    example_dir_ab.de_map.block_dentry 0 = 16 := by
  decide

theorem find_descend_no_hash (key : Nat) :
    ∀ (t : rb_root) (prev : Option aeon_range_node),
      (∀ n ∈ t.toList, n.hash ≠ key) →
      (find_descend t key node_type.NODE_DIR prev).1 = 0 := by
  intro t
  induction t with
  | nil => intro prev _; rfl
  | node l c r ihl ihr =>
    intro prev h
    simp only [rb_root.toList, List.mem_append, List.mem_cons] at h
    unfold find_descend
    simp only
    by_cases h1 : aeon_rbtree_compare_rangenode c key node_type.NODE_DIR = -1
    · rw [if_pos h1]
      exact ihl _ (fun n hn => h n (Or.inl hn))
    · rw [if_neg h1]
      by_cases h2 : aeon_rbtree_compare_rangenode c key node_type.NODE_DIR = 1
      · rw [if_pos h2]
        exact ihr _ (fun n hn => h n (Or.inr (Or.inr hn)))
      · exfalso
        have hc := h c (Or.inr (Or.inl rfl))
        have := compare_dir c key
        rcases compare_cases c key node_type.NODE_DIR with h3 | h3 | h3
        all_goals first | exact h1 h3 | exact h2 h3 | exact hc (this.2.2.1 h3).symm

/-- C31: for every directory and every non-empty name whose hash is not in the directory
index, `aeon_remove_dentry` returns `-EINVAL` (`-ENOMEM` if its allocation fails) and
leaves the whole state unchanged: the index, the dentry map with `num_dentries`, the list
of invalidated slots and the memory of the record passed as `de`. -/
theorem C31_remove_absent_name (cfg : aeon_consts) (st : dir_state) (name : List Int)
    (len de : Nat) (adi : Bool) (hlen0 : len ≠ 0) (hlen : len < 2 ^ 32)
    (hno : ∀ n ∈ st.rb_tree.toList, n.hash ≠ BKDRHash name (to_int len)) :
    (aeon_remove_dentry cfg st name len de adi).1 = (if adi then -EINVAL else -ENOMEM) ∧
    (aeon_remove_dentry cfg st name len de adi).2 = st := by
  have hmod : len % 2 ^ 32 = len := Nat.mod_eq_of_lt hlen
  have hfind := find_descend_no_hash (BKDRHash name (to_int len)) st.rb_tree none hno
  have hrm : aeon_remove_dir_tree st.rb_tree name (to_int len) = (-EINVAL, st.rb_tree) := by
    unfold aeon_remove_dir_tree aeon_find_range_node
    cases hf : find_descend st.rb_tree (BKDRHash name (to_int len)) node_type.NODE_DIR none with
    | mk found node =>
      rw [hf] at hfind
      simp only at hfind
      subst hfind
      cases node <;> simp [hf]
  unfold aeon_remove_dentry
  rw [hmod, if_neg hlen0]
  cases adi with
  | false => simp
  | true => simp [hrm, EINVAL]

/-- Witness of C31: the name "c" is not in the example directory of "a" and "b". -/
theorem C31_remove_absent_name_witness :
    (aeon_remove_dentry example_consts example_dir_ab [99] 1 1114624 true).1
      = (if true then -EINVAL else -ENOMEM) ∧
    (aeon_remove_dentry example_consts example_dir_ab [99] 1 1114624 true).2
      = example_dir_ab :=
  C31_remove_absent_name example_consts example_dir_ab [99] 1 1114624 true (by decide)
    (by decide) (by decide)

theorem get_new_dentry_block_frame (st : dir_state) (a : Nat) :
    (aeon_get_new_dentry_block st a).2.2.de_map = st.de_map ∧
    (aeon_get_new_dentry_block st a).2.2.invalid_list = st.invalid_list ∧
    (aeon_get_new_dentry_block st a).2.2.rb_tree = st.rb_tree ∧
    (aeon_get_new_dentry_block st a).2.2.pmem = st.pmem ∧
    (aeon_get_new_dentry_block st a).2.2.pidir = st.pidir := by
  unfold aeon_get_new_dentry_block
  cases st.new_dentry_blocks with
  | nil => exact ⟨rfl, rfl, rfl, rfl, rfl⟩
  | cons b rest => obtain ⟨x, y⟩ := b; exact ⟨rfl, rfl, rfl, rfl, rfl⟩

theorem alloc_new_dentry_block_frame (st : dir_state) :
    (aeon_alloc_new_dentry_block st).2.2.de_map = st.de_map ∧
    (aeon_alloc_new_dentry_block st).2.2.invalid_list = st.invalid_list ∧
    (aeon_alloc_new_dentry_block st).2.2.rb_tree = st.rb_tree ∧
    (aeon_alloc_new_dentry_block st).2.2.pmem = st.pmem ∧
    (aeon_alloc_new_dentry_block st).2.2.pidir = st.pidir := by
  have h := get_new_dentry_block_frame st 0
  unfold aeon_alloc_new_dentry_block
  cases hg : aeon_get_new_dentry_block st 0 with
  | mk b r =>
    obtain ⟨a, st1⟩ := r
    rw [hg] at h
    simp only at h ⊢
    split_ifs <;> exact h

theorem init_dentry_map_ok (cfg : aeon_consts) (st : dir_state) (de_info adi : Bool)
    (h : (aeon_init_dentry_map cfg st de_info adi).1 = 0) :
    (aeon_init_dentry_map cfg st de_info adi).2.de_map.num_latest_dentry = 0 ∧
    (aeon_init_dentry_map cfg st de_info adi).2.de_map.num_dentries = 0 ∧
    (aeon_init_dentry_map cfg st de_info adi).2.de_map.num_internal_dentries
      = cfg.AEON_INTERNAL_ENTRY % 2 ^ 32 ∧
    (aeon_init_dentry_map cfg st de_info adi).2.invalid_list = [] ∧
    (aeon_init_dentry_map cfg st de_info adi).2.pidir.i_new = 0 ∧
    (aeon_init_dentry_map cfg st de_info adi).2.pmem = st.pmem ∧
    (aeon_init_dentry_map cfg st de_info adi).2.rb_tree = st.rb_tree := by
  unfold aeon_init_dentry_map at h ⊢
  cases de_info <;> cases adi <;> simp [ENOMEM] at h ⊢

theorem init_dentry_ok (cfg : aeon_consts) (st : dir_state)
    (h : (aeon_init_dentry cfg st).1 = 0) :
    (aeon_init_dentry cfg st).2.de_map.num_latest_dentry = st.de_map.num_latest_dentry ∧
    (aeon_init_dentry cfg st).2.de_map.num_dentries = 2 ∧
    (aeon_init_dentry cfg st).2.de_map.num_internal_dentries = 2 ∧
    (aeon_init_dentry cfg st).2.invalid_list = st.invalid_list ∧
    (aeon_init_dentry cfg st).2.rb_tree = st.rb_tree ∧
    (aeon_init_dentry cfg st).2.de_map.block_dentry
      = Function.update st.de_map.block_dentry 0 (aeon_get_new_dentry_block st 0).1 ∧
    (aeon_get_new_dentry_block st 0).1 ≠ 0 := by
  have hf := get_new_dentry_block_frame st 0
  unfold aeon_init_dentry at h ⊢
  cases hg : aeon_get_new_dentry_block st 0 with
  | mk b r =>
    obtain ⟨a, st1⟩ := r
    rw [hg] at h hf
    simp only at h hf ⊢
    by_cases hb : b = 0
    · rw [if_pos hb] at h
      simp [ENOSPC] at h
    · rw [if_neg hb]
      simp only
      rw [hf.1, hf.2.1, hf.2.2.1]
      refine ⟨?_, ?_, ?_, ?_, ?_, ?_, hb⟩ <;> first | rfl | trivial

/-- The dentry map after `aeon_get_dentry_space`: the counters are unchanged on an error
and when a slot is reused; a new block raises `num_latest_dentry` by 1 and sets
`num_internal_dentries` to 1; a slot of the latest block raises
`num_internal_dentries` by 1. -/
theorem get_dentry_space_counters (cfg : aeon_consts) (st : dir_state) :
    ((aeon_get_dentry_space cfg st).2.2.de_map.num_latest_dentry = st.de_map.num_latest_dentry ∧
      (aeon_get_dentry_space cfg st).2.2.de_map.num_internal_dentries
        = st.de_map.num_internal_dentries) ∨
    (st.invalid_list = [] ∧ st.de_map.num_internal_dentries = cfg.AEON_INTERNAL_ENTRY ∧
      st.de_map.num_latest_dentry < to_u32 ((cfg.MAX_ENTRY : Int) - 1) ∧
      (aeon_get_dentry_space cfg st).2.2.de_map.num_latest_dentry
        = (st.de_map.num_latest_dentry + 1) % 2 ^ 32 ∧
      (aeon_get_dentry_space cfg st).2.2.de_map.num_internal_dentries = 1) ∨
    (st.invalid_list = [] ∧ st.de_map.num_internal_dentries ≠ cfg.AEON_INTERNAL_ENTRY ∧
      (aeon_get_dentry_space cfg st).2.2.de_map.num_latest_dentry
        = st.de_map.num_latest_dentry ∧
      (aeon_get_dentry_space cfg st).2.2.de_map.num_internal_dentries
        = (st.de_map.num_internal_dentries + 1) % 2 ^ 32) := by
  have hf := alloc_new_dentry_block_frame st
  rcases get_dentry_space_cases cfg st with ⟨_, _, _, h4⟩ | ⟨_, _, _, _, h4⟩ |
    ⟨h1, h2, h3, _, h4⟩ | ⟨h1, h2, h4⟩ | ⟨d, rest, _, h4⟩
  · rw [h4]; exact Or.inl ⟨rfl, rfl⟩
  · rw [h4]; simp only; rw [hf.1]; left; constructor <;> rfl
  · rw [h4]
    right; left
    simp only [get_dentry_space_done, aeon_register_dentry_to_map]
    rw [hf.1]
    refine ⟨h1, h2, h3, ?_, ?_⟩ <;> first | rfl | trivial
  · rw [h4]
    right; right
    exact ⟨h1, h2, rfl, rfl⟩
  · rw [h4]; exact Or.inl ⟨rfl, rfl⟩

theorem remove_dentry_counters (cfg : aeon_consts) (st : dir_state) (name : List Int)
    (len de : Nat) (adi : Bool) :
    (aeon_remove_dentry cfg st name len de adi).2.de_map.num_latest_dentry
      = st.de_map.num_latest_dentry ∧
    (aeon_remove_dentry cfg st name len de adi).2.de_map.num_internal_dentries
      = st.de_map.num_internal_dentries ∧
    (aeon_remove_dentry cfg st name len de adi).2.de_map.block_dentry
      = st.de_map.block_dentry := by
  rcases remove_dentry_cases cfg st name len de adi with ⟨_, h⟩ | ⟨_, _, _, h⟩
  · rw [h]; exact ⟨rfl, rfl, rfl⟩
  · rw [h]; exact ⟨rfl, rfl, rfl⟩

/-- C37: with `2 <= AEON_INTERNAL_ENTRY` and `1 <= MAX_ENTRY` (constants that fit an
`unsigned int`), in every dentry-map state reached from `aeon_init_dentry_map` followed
by a successful `aeon_init_dentry` through calls of `aeon_get_dentry_space` and
`aeon_remove_dentry`: `num_latest_dentry <= MAX_ENTRY - 1` and
`1 <= num_internal_dentries <= AEON_INTERNAL_ENTRY`; hence the indices that the next
`aeon_get_internal_dentry` computes (`latest_entry` into `block_dentry`, `internal_entry`
within the block) and the indices `global` and `global + 1` into `block_dentry` of the next
`aeon_register_dentry_to_map` are in range. -/
theorem C37_dentry_map_bounds (cfg : aeon_consts) (st : dir_state)
    (hi2 : 2 ≤ cfg.AEON_INTERNAL_ENTRY) (hi : cfg.AEON_INTERNAL_ENTRY < 2 ^ 32)
    (hm1 : 1 ≤ cfg.MAX_ENTRY) (hm2 : cfg.MAX_ENTRY ≤ 2 ^ 32)
    (h : dentry_reachable cfg st) :
    (st.de_map.num_latest_dentry ≤ cfg.MAX_ENTRY - 1 ∧
      1 ≤ st.de_map.num_internal_dentries ∧
      st.de_map.num_internal_dentries ≤ cfg.AEON_INTERNAL_ENTRY) ∧
    (st.invalid_list = [] → st.de_map.num_internal_dentries ≠ cfg.AEON_INTERNAL_ENTRY →
      st.de_map.num_latest_dentry % 2 ^ 32 < cfg.MAX_ENTRY ∧
      st.de_map.num_internal_dentries % 2 ^ 32 < cfg.AEON_INTERNAL_ENTRY) ∧
    (st.invalid_list = [] → st.de_map.num_internal_dentries = cfg.AEON_INTERNAL_ENTRY →
      st.de_map.num_latest_dentry < to_u32 ((cfg.MAX_ENTRY : Int) - 1) →
      st.de_map.num_latest_dentry < cfg.MAX_ENTRY ∧
      (st.de_map.num_latest_dentry + 1) % 2 ^ 32 < cfg.MAX_ENTRY) := by
  have hm := to_u32_pred cfg.MAX_ENTRY hm1 hm2
  have hinv : st.de_map.num_latest_dentry ≤ cfg.MAX_ENTRY - 1 ∧
      1 ≤ st.de_map.num_internal_dentries ∧
      st.de_map.num_internal_dentries ≤ cfg.AEON_INTERNAL_ENTRY := by
    induction h with
    | init st0 de_info adi h1 h2 =>
      have a := init_dentry_map_ok cfg st0 de_info adi h1
      have b := init_dentry_ok cfg _ h2
      rw [b.1, b.2.2.1, a.1]
      omega
    | get_space st0 _ ih =>
      rcases get_dentry_space_counters cfg st0 with ⟨e1, e2⟩ | ⟨_, _, e0, e1, e2⟩ |
        ⟨_, e0, e1, e2⟩
      · rw [e1, e2]; exact ih
      · rw [e1, e2]
        rw [hm] at e0
        have : (st0.de_map.num_latest_dentry + 1) % 2 ^ 32 = st0.de_map.num_latest_dentry + 1 :=
          Nat.mod_eq_of_lt (by omega)
        rw [this]
        omega
      · rw [e1, e2]
        have : (st0.de_map.num_internal_dentries + 1) % 2 ^ 32
            = st0.de_map.num_internal_dentries + 1 := Nat.mod_eq_of_lt (by omega)
        rw [this]
        omega
    | remove st0 name len de adi _ ih =>
      have e := remove_dentry_counters cfg st0 name len de adi
      rw [e.1, e.2.1]
      exact ih
  refine ⟨hinv, ?_, ?_⟩
  · intro _ hne
    have h1 : st.de_map.num_latest_dentry % 2 ^ 32 = st.de_map.num_latest_dentry :=
      Nat.mod_eq_of_lt (by omega)
    have h2 : st.de_map.num_internal_dentries % 2 ^ 32 = st.de_map.num_internal_dentries :=
      Nat.mod_eq_of_lt (by omega)
    rw [h1, h2]
    omega
  · intro _ _ hlt
    rw [hm] at hlt
    have h1 : (st.de_map.num_latest_dentry + 1) % 2 ^ 32 = st.de_map.num_latest_dentry + 1 :=
      Nat.mod_eq_of_lt (by omega)
    rw [h1]
    omega

/-- Witness of C37: the bootstrapped example directory after a slot was requested. -/
theorem C37_dentry_map_bounds_witness :
    ((aeon_get_dentry_space example_consts example_dir).2.2.de_map.num_latest_dentry
        ≤ example_consts.MAX_ENTRY - 1 ∧
      1 ≤ (aeon_get_dentry_space example_consts example_dir).2.2.de_map.num_internal_dentries ∧
      (aeon_get_dentry_space example_consts example_dir).2.2.de_map.num_internal_dentries
        ≤ example_consts.AEON_INTERNAL_ENTRY) ∧
    ((aeon_get_dentry_space example_consts example_dir).2.2.invalid_list = [] →
      (aeon_get_dentry_space example_consts example_dir).2.2.de_map.num_internal_dentries
        ≠ example_consts.AEON_INTERNAL_ENTRY →
      (aeon_get_dentry_space example_consts example_dir).2.2.de_map.num_latest_dentry % 2 ^ 32
        < example_consts.MAX_ENTRY ∧
      (aeon_get_dentry_space example_consts example_dir).2.2.de_map.num_internal_dentries
        % 2 ^ 32 < example_consts.AEON_INTERNAL_ENTRY) ∧
    ((aeon_get_dentry_space example_consts example_dir).2.2.invalid_list = [] →
      (aeon_get_dentry_space example_consts example_dir).2.2.de_map.num_internal_dentries
        = example_consts.AEON_INTERNAL_ENTRY →
      (aeon_get_dentry_space example_consts example_dir).2.2.de_map.num_latest_dentry
        < to_u32 ((example_consts.MAX_ENTRY : Int) - 1) →
      (aeon_get_dentry_space example_consts example_dir).2.2.de_map.num_latest_dentry
        < example_consts.MAX_ENTRY ∧
      ((aeon_get_dentry_space example_consts example_dir).2.2.de_map.num_latest_dentry + 1)
        % 2 ^ 32 < example_consts.MAX_ENTRY) :=
  C37_dentry_map_bounds example_consts _ (by decide) (by decide) (by decide) (by decide)
    (dentry_reachable.get_space _
      (dentry_reachable.init example_new_dir true true (by decide) (by decide)))

/-- C32 (refuted): `aeon_add_dentry` of the name "a" on the new example directory
(`i_new` set) when the allocator has no block for the bootstrap: `aeon_init_dentry`
returns `-ENOSPC`, the function jumps to `out1` and calls `aeon_release_dentry_block`
with `new_direntry`, which is still `NULL`; the store through `NULL` has no defined
behaviour, so the call does not return `-ENOSPC` with the records untouched. -/
theorem C32_add_dentry_null_release :
    (aeon_init_dentry example_consts
      (aeon_init_dentry_map example_consts
        { example_new_dir with new_dentry_blocks := [] } true true).2).1 = -ENOSPC ∧
    aeon_add_dentry example_consts { example_new_dir with new_dentry_blocks := [] }
      ⟨7, 1048576 + 12288, 0, 0, 0⟩ [97] 1 true true (some ⟨1, 0, 0, 0⟩) = none := by
  constructor
  · decide
  · rfl

/-- C29 (refuted): in the example directory that holds the name `\x01d`,
`aeon_add_dentry` of the name `\x02\xe1` (of the same hash) returns `-EINVAL` from
`aeon_insert_dir_tree` after `aeon_get_dentry_space` and `aeon_fill_dentry_data` have run:
the slot at 1114880 is left valid and persisted without an index node, and
`num_dentries` is 4 while the index has one node (3 with the two bootstrap entries). -/
theorem C29_add_dentry_leaves_unindexed :
    ∃ r, aeon_add_dentry example_consts example_dir_one ⟨8, 1048576 + 12544, 0, 0, 0⟩
        [2, -31] 2 true true (some ⟨2, 0, 0, 0⟩) = some r ∧
      r.1 = -EINVAL ∧
      r.2.de_map.num_dentries = 4 ∧
      r.2.rb_tree.toList = [⟨1, 231, 0, 1114624⟩] ∧
      load8 r.2.pmem (1114880 + offsetof_valid) = 1 ∧
      load8 r.2.pmem (1114880 + offsetof_persisted) = 1 ∧
      1114880 ∉ r.2.invalid_list ∧
      ∀ n ∈ r.2.rb_tree.toList, n.direntry ≠ 1114880 :=
  ⟨add_dentry_entry example_consts example_dir_one ⟨8, 1048576 + 12544, 0, 0, 0⟩
      [2, -31] 2 (some ⟨2, 0, 0, 0⟩),
    rfl, by decide, by decide, by decide, by decide, by decide, by decide, by decide⟩

theorem crc32_bit_lt (x : Nat) (h : x < 2 ^ 32) : crc32_bit x < 2 ^ 32 := by
  unfold crc32_bit
  apply Nat.xor_lt_two_pow
  · omega
  · split_ifs <;> norm_num

theorem crc32_bit_inj (x y : Nat) (hx : x < 2 ^ 32) (hy : y < 2 ^ 32)
    (h : crc32_bit x = crc32_bit y) : x = y := by
  unfold crc32_bit at h
  have hx2 : (x / 2).testBit 31 = false := Nat.testBit_lt_two_pow (by omega)
  have hy2 : (y / 2).testBit 31 = false := Nat.testBit_lt_two_pow (by omega)
  have hP : (0xedb88320 : Nat).testBit 31 = true := by decide
  have h0 : (0 : Nat).testBit 31 = false := by simp
  have hb := congrArg (fun z => Nat.testBit z 31) h
  simp only [Nat.testBit_xor] at hb
  by_cases px : x % 2 = 1 <;> by_cases py : y % 2 = 1
  · rw [if_pos px, if_pos py] at h
    have := Nat.xor_left_inj.1 h
    omega
  · rw [if_pos px, if_neg py] at hb
    rw [hx2, hy2, hP, h0] at hb
    simp at hb
  · rw [if_neg px, if_pos py] at hb
    rw [hx2, hy2, hP, h0] at hb
    simp at hb
  · rw [if_neg px, if_neg py] at h
    have := Nat.xor_left_inj.1 h
    omega

theorem crc32_byte_lt (x b : Nat) (hx : x < 2 ^ 32) (hb : b < 2 ^ 32) :
    crc32_byte x b < 2 ^ 32 := by
  unfold crc32_byte
  have h0 := Nat.xor_lt_two_pow hx hb
  exact crc32_bit_lt _ (crc32_bit_lt _ (crc32_bit_lt _ (crc32_bit_lt _ (crc32_bit_lt _
    (crc32_bit_lt _ (crc32_bit_lt _ (crc32_bit_lt _ h0)))))))

theorem crc32_byte_inj (x y b c : Nat) (hx : x < 2 ^ 32) (hy : y < 2 ^ 32)
    (hb : b < 2 ^ 32) (hc : c < 2 ^ 32) (h : crc32_byte x b = crc32_byte y c) :
    x ^^^ b = y ^^^ c := by
  unfold crc32_byte at h
  have h0 := Nat.xor_lt_two_pow hx hb
  have h1 := Nat.xor_lt_two_pow hy hc
  have a1 := crc32_bit_lt _ h0
  have b1 := crc32_bit_lt _ h1
  have a2 := crc32_bit_lt _ a1
  have b2 := crc32_bit_lt _ b1
  have a3 := crc32_bit_lt _ a2
  have b3 := crc32_bit_lt _ b2
  have a4 := crc32_bit_lt _ a3
  have b4 := crc32_bit_lt _ b3
  have a5 := crc32_bit_lt _ a4
  have b5 := crc32_bit_lt _ b4
  have a6 := crc32_bit_lt _ a5
  have b6 := crc32_bit_lt _ b5
  have a7 := crc32_bit_lt _ a6
  have b7 := crc32_bit_lt _ b6
  exact crc32_bit_inj _ _ h0 h1 (crc32_bit_inj _ _ a1 b1 (crc32_bit_inj _ _ a2 b2
    (crc32_bit_inj _ _ a3 b3 (crc32_bit_inj _ _ a4 b4 (crc32_bit_inj _ _ a5 b5
      (crc32_bit_inj _ _ a6 b6 (crc32_bit_inj _ _ a7 b7 h)))))))

theorem crc32_fold_lt (f : Nat → Nat) (hf : ∀ k, f k < 256) (c : Nat) (hc : c < 2 ^ 32) :
    ∀ n, ((List.range n).map f).foldl crc32_byte c < 2 ^ 32 := by
  intro n
  induction n with
  | zero => simpa using hc
  | succ n ih =>
    rw [List.range_succ, List.map_append, List.foldl_append]
    simp only [List.map_cons, List.map_nil, List.foldl_cons, List.foldl_nil]
    exact crc32_byte_lt _ _ ih (by have := hf n; omega)

theorem crc32_fold_congr (f g : Nat → Nat) (c : Nat) :
    ∀ n, (∀ k, k < n → f k = g k) →
      ((List.range n).map f).foldl crc32_byte c = ((List.range n).map g).foldl crc32_byte c := by
  intro n h
  have : (List.range n).map f = (List.range n).map g := by
    apply List.map_congr_left
    intro k hk
    exact h k (List.mem_range.1 hk)
  rw [this]

theorem crc32_fold_diff (f g : Nat → Nat) (hf : ∀ k, f k < 256) (hg : ∀ k, g k < 256)
    (c : Nat) (hc : c < 2 ^ 32) (i : Nat) (hne : f i ≠ g i) :
    ∀ n, i < n → (∀ k, k < n → k ≠ i → f k = g k) →
      ((List.range n).map f).foldl crc32_byte c ≠ ((List.range n).map g).foldl crc32_byte c := by
  intro n
  induction n with
  | zero => intro h; omega
  | succ n ih =>
    intro hi heq
    rw [List.range_succ, List.map_append, List.map_append, List.foldl_append, List.foldl_append]
    simp only [List.map_cons, List.map_nil, List.foldl_cons, List.foldl_nil]
    intro h
    have hfl := crc32_fold_lt f hf c hc n
    have hgl := crc32_fold_lt g hg c hc n
    have hx := crc32_byte_inj _ _ _ _ hfl hgl (by have := hf n; omega) (by have := hg n; omega) h
    by_cases hin : i = n
    · subst hin
      rw [crc32_fold_congr f g c i (fun k hk => heq k (by omega) (by omega))] at hx
      exact hne (Nat.xor_right_inj.1 hx)
    · rw [heq n (by omega) (fun h => hin h.symm)] at hx
      exact ih (by omega) (fun k hk hki => heq k (by omega) hki) (Nat.xor_left_inj.1 hx)

theorem load8_lt (m : Nat → Nat) (a : Nat) : load8 m a < 256 := by
  unfold load8; omega

theorem crc32_le_lt (c : Nat) (f : Nat → Nat) (hf : ∀ k, f k < 256) (n : Nat) :
    crc32_le c ((List.range n).map f) < 2 ^ 32 := by
  unfold crc32_le
  exact crc32_fold_lt f hf _ (Nat.mod_lt _ (by norm_num)) n

theorem dentry_crc_lt (cfg : aeon_consts) (m : Nat → Nat) (de : Nat) :
    dentry_crc cfg m de < 2 ^ 32 := by
  unfold dentry_crc load_bytes
  exact crc32_le_lt _ _ (fun k => load8_lt m (de + k)) _

/-- The checksum of a record depends on the bytes of its checksummed range only. -/
theorem dentry_crc_congr (cfg : aeon_consts) (m m1 : Nat → Nat) (de : Nat)
    (h : ∀ k, k < cfg.AEON_DENTRY_CSIZE → load8 m1 (de + k) = load8 m (de + k)) :
    dentry_crc cfg m1 de = dentry_crc cfg m de := by
  unfold dentry_crc load_bytes crc32_le
  exact crc32_fold_congr _ _ _ _ h

/-- The checksum of a record changes when one byte of its checksummed range does. -/
theorem dentry_crc_diff (cfg : aeon_consts) (m m1 : Nat → Nat) (de i : Nat)
    (hi : i < cfg.AEON_DENTRY_CSIZE)
    (hne : load8 m1 (de + i) ≠ load8 m (de + i))
    (h : ∀ k, k < cfg.AEON_DENTRY_CSIZE → k ≠ i → load8 m1 (de + k) = load8 m (de + k)) :
    dentry_crc cfg m1 de ≠ dentry_crc cfg m de := by
  unfold dentry_crc load_bytes crc32_le
  exact crc32_fold_diff _ _ (fun k => load8_lt m1 (de + k)) (fun k => load8_lt m (de + k)) _
    (Nat.mod_lt _ (by norm_num)) i hne _ hi h

theorem load8_store8 (m : Nat → Nat) (a v x : Nat) :
    load8 (store8 m a v) x = if x = a then v % 256 else load8 m x := by
  unfold load8 store8
  split_ifs
  · exact Nat.mod_mod _ _
  · rfl

theorem load8_store_le (w : Nat) :
    ∀ (m : Nat → Nat) (a v x : Nat),
      load8 (store_le w m a v) x
        = if a ≤ x ∧ x < a + w then (v / 256 ^ (x - a)) % 256 else load8 m x := by
  induction w with
  | zero => intro m a v x; rw [store_le, if_neg (by omega)]
  | succ w ih =>
    intro m a v x
    rw [store_le, ih, load8_store8]
    by_cases h1 : a + 1 ≤ x ∧ x < a + 1 + w
    · rw [if_pos h1, if_pos (by omega)]
      have : x - a = (x - (a + 1)) + 1 := by omega
      rw [this, pow_succ, Nat.mul_comm, Nat.div_div_eq_div_mul]
    · rw [if_neg h1]
      by_cases h2 : x = a
      · subst h2
        rw [if_pos rfl, if_pos (by omega)]
        simp
      · rw [if_neg h2, if_neg (by omega)]

theorem load_le_congr (w : Nat) :
    ∀ (m m1 : Nat → Nat) (a : Nat), (∀ k, k < w → load8 m1 (a + k) = load8 m (a + k)) →
      load_le w m1 a = load_le w m a := by
  induction w with
  | zero => intro m m1 a _; rfl
  | succ w ih =>
    intro m m1 a h
    rw [load_le, load_le, ih m m1 (a + 1) (fun k hk => by
      have := h (k + 1) (by omega)
      rwa [show a + (k + 1) = a + 1 + k by omega] at this)]
    have := h 0 (by omega)
    rw [Nat.add_zero] at this
    rw [this]

theorem load_le_4 (m : Nat → Nat) (a : Nat) :
    load_le 4 m a = load8 m a + 256 * (load8 m (a + 1) + 256 * (load8 m (a + 2)
      + 256 * load8 m (a + 3))) := by
  simp [load_le]

theorem load_le_store_le_4 (m : Nat → Nat) (a v : Nat) (hv : v < 2 ^ 32) :
    load_le 4 (store_le 4 m a v) a = v := by
  rw [load_le_4]
  simp only [load8_store_le]
  rw [if_pos (by omega), if_pos (by omega), if_pos (by omega), if_pos (by omega)]
  have e0 : a - a = 0 := by omega
  have e1 : a + 1 - a = 1 := by omega
  have e2 : a + 2 - a = 2 := by omega
  have e3 : a + 3 - a = 3 := by omega
  rw [e0, e1, e2, e3]
  norm_num
  omega

theorem load_le_4_store8_ne (m : Nat → Nat) (a j v : Nat) (hj : j < 4)
    (hv : v % 256 ≠ load8 m (a + j)) :
    load_le 4 (store8 m (a + j) v) a ≠ load_le 4 m a := by
  rw [load_le_4, load_le_4]
  simp only [load8_store8]
  have b0 := load8_lt m a
  have b1 := load8_lt m (a + 1)
  have b2 := load8_lt m (a + 2)
  have b3 := load8_lt m (a + 3)
  have hvl : v % 256 < 256 := Nat.mod_lt _ (by norm_num)
  have hcases : j = 0 ∨ j = 1 ∨ j = 2 ∨ j = 3 := by omega
  rcases hcases with rfl | rfl | rfl | rfl
  · rw [Nat.add_zero] at hv ⊢
    have c1 : ¬ a + 1 = a := by omega
    have c2 : ¬ a + 2 = a := by omega
    have c3 : ¬ a + 3 = a := by omega
    rw [if_pos rfl, if_neg c1, if_neg c2, if_neg c3]
    omega
  · have c0 : ¬ a = a + 1 := by omega
    have c2 : ¬ a + 2 = a + 1 := by omega
    have c3 : ¬ a + 3 = a + 1 := by omega
    rw [if_neg c0, if_pos rfl, if_neg c2, if_neg c3]
    omega
  · have c0 : ¬ a = a + 2 := by omega
    have c1 : ¬ a + 1 = a + 2 := by omega
    have c3 : ¬ a + 3 = a + 2 := by omega
    rw [if_neg c0, if_neg c1, if_pos rfl, if_neg c3]
    omega
  · have c0 : ¬ a = a + 3 := by omega
    have c1 : ¬ a + 1 = a + 3 := by omega
    have c2 : ¬ a + 2 = a + 3 := by omega
    rw [if_neg c0, if_neg c1, if_neg c2, if_pos rfl]
    omega

/-- The check of a record depends on the bytes of memory only. -/
theorem is_persisted_congr (cfg : aeon_consts) (m m1 : Nat → Nat) (de : Nat)
    (h : ∀ x, load8 m1 x = load8 m x) :
    is_persisted_dentry cfg m1 de = is_persisted_dentry cfg m de := by
  unfold is_persisted_dentry
  rw [dentry_crc_congr cfg m m1 de (fun k _ => h _),
    load_le_congr 4 m m1 _ (fun k _ => h _)]

/-- After `aeon_update_dentry_csum` the record passes `is_persisted_dentry`, provided the
checksummed range ends before the member `csum`. -/
theorem update_csum_persisted (cfg : aeon_consts) (m : Nat → Nat) (de : Nat)
    (hcs : cfg.AEON_DENTRY_CSIZE ≤ offsetof_csum cfg.AEON_NAME_LEN) :
    is_persisted_dentry cfg (aeon_update_dentry_csum cfg m de) de = 1 := by
  have hcrc : dentry_crc cfg (aeon_update_dentry_csum cfg m de) de = dentry_crc cfg m de := by
    apply dentry_crc_congr
    intro k hk
    unfold aeon_update_dentry_csum
    rw [load8_store_le, if_neg (by omega)]
  unfold is_persisted_dentry
  simp only
  rw [hcrc]
  unfold aeon_update_dentry_csum
  rw [load_le_store_le_4 _ _ _ (dentry_crc_lt cfg m de)]
  simp

/-- C7: with the checksummed range `AEON_DENTRY_CSIZE` ending at the member `csum`, for
every record: after `aeon_update_dentry_csum`, `is_persisted_dentry` returns 1; if then
any single byte of the record is changed to a different value, it returns 0; and when the
byte is restored it returns 1 again. -/
theorem C7_checksum_detects_byte (cfg : aeon_consts) (m : Nat → Nat) (de i v : Nat)
    (hcs : cfg.AEON_DENTRY_CSIZE = offsetof_csum cfg.AEON_NAME_LEN)
    (hi : i < sizeof_aeon_dentry cfg.AEON_NAME_LEN)
    (hv : v % 256 ≠ load8 (aeon_update_dentry_csum cfg m de) (de + i)) :
    is_persisted_dentry cfg (aeon_update_dentry_csum cfg m de) de = 1 ∧
    is_persisted_dentry cfg (store8 (aeon_update_dentry_csum cfg m de) (de + i) v) de = 0 ∧
    is_persisted_dentry cfg
      (store8 (store8 (aeon_update_dentry_csum cfg m de) (de + i) v) (de + i)
        (load8 (aeon_update_dentry_csum cfg m de) (de + i))) de = 1 := by
  have h1 := update_csum_persisted cfg m de (le_of_eq hcs)
  refine ⟨h1, ?_, ?_⟩
  · have hstored : load_le 4 (aeon_update_dentry_csum cfg m de)
        (de + offsetof_csum cfg.AEON_NAME_LEN)
        = dentry_crc cfg (aeon_update_dentry_csum cfg m de) de := by
      unfold is_persisted_dentry at h1
      simp only at h1
      by_contra hne
      rw [if_pos (fun h => hne h.symm)] at h1
      exact absurd h1 (by decide)
    unfold is_persisted_dentry
    simp only
    by_cases hin : i < cfg.AEON_DENTRY_CSIZE
    · have hd := dentry_crc_diff cfg (aeon_update_dentry_csum cfg m de)
        (store8 (aeon_update_dentry_csum cfg m de) (de + i) v) de i hin
        (by rw [load8_store8, if_pos rfl]; exact hv)
        (fun k _ hk => by rw [load8_store8, if_neg (by omega)])
      have hs : load_le 4 (store8 (aeon_update_dentry_csum cfg m de) (de + i) v)
          (de + offsetof_csum cfg.AEON_NAME_LEN)
          = load_le 4 (aeon_update_dentry_csum cfg m de)
            (de + offsetof_csum cfg.AEON_NAME_LEN) := by
        apply load_le_congr
        intro k _
        rw [load8_store8, if_neg (by omega)]
      rw [hs, hstored, if_pos hd]
    · have hc : dentry_crc cfg (store8 (aeon_update_dentry_csum cfg m de) (de + i) v) de
          = dentry_crc cfg (aeon_update_dentry_csum cfg m de) de := by
        apply dentry_crc_congr
        intro k hk
        rw [load8_store8, if_neg (by omega)]
      have hsz : sizeof_aeon_dentry cfg.AEON_NAME_LEN
          = offsetof_csum cfg.AEON_NAME_LEN + 4 := by
        unfold sizeof_aeon_dentry offsetof_csum; omega
      have hij : de + i = de + offsetof_csum cfg.AEON_NAME_LEN
          + (i - offsetof_csum cfg.AEON_NAME_LEN) := by omega
      rw [hij] at hv hc ⊢
      have hne := load_le_4_store8_ne (aeon_update_dentry_csum cfg m de)
        (de + offsetof_csum cfg.AEON_NAME_LEN) (i - offsetof_csum cfg.AEON_NAME_LEN) v
        (by omega) hv
      rw [hc, ← hstored, if_pos (fun h => hne h.symm)]
  · rw [is_persisted_congr cfg (aeon_update_dentry_csum cfg m de) _ de ?_]
    · exact h1
    · intro x
      rw [load8_store8, load8_store8]
      by_cases hx : x = de + i
      · rw [if_pos hx, hx]
        exact Nat.mod_eq_of_lt (load8_lt _ _)
      · rw [if_neg hx, if_neg hx]

/-- Witness of C7: the zeroed record at address 4096 of the example configuration, whose
byte 5 is changed to 1. -/
theorem C7_checksum_detects_byte_witness :
    is_persisted_dentry example_consts
      (aeon_update_dentry_csum example_consts (fun _ => 0) 4096) 4096 = 1 ∧
    is_persisted_dentry example_consts
      (store8 (aeon_update_dentry_csum example_consts (fun _ => 0) 4096) (4096 + 5) 1)
      4096 = 0 ∧
    is_persisted_dentry example_consts
      (store8 (store8 (aeon_update_dentry_csum example_consts (fun _ => 0) 4096) (4096 + 5) 1)
        (4096 + 5) (load8 (aeon_update_dentry_csum example_consts (fun _ => 0) 4096)
          (4096 + 5))) 4096 = 1 :=
  C7_checksum_detects_byte example_consts (fun _ => 0) 4096 5 1 (by decide) (by decide)
    (by decide)

theorem load8_memset (m : Nat → Nat) (s c n x : Nat) :
    load8 (memset m s c n) x = if s ≤ x ∧ x < s + n then c % 256 else load8 m x := by
  unfold load8 memset
  split_ifs
  · exact Nat.mod_mod _ _
  · rfl

/-- C22: for every directory, after a successful `aeon_remove_dentry` on the record `de`
(with the checksummed range ending at or before the member `csum`, and `num_dentries`
positive): `de.valid` is 0, the `name_len + 1` bytes of the name of `de` (as far as they
lie in the member `name`) are zero, `is_persisted_dentry(de)` returns 1, the address of
`de` is at the head of the list of invalidated slots, and `num_dentries` is one less
than before. -/
theorem C22_remove_dentry_tombstones (cfg : aeon_consts) (st : dir_state) (name : List Int)
    (len de : Nat) (adi : Bool)
    (hcs : cfg.AEON_DENTRY_CSIZE ≤ offsetof_csum cfg.AEON_NAME_LEN)
    (hnum : 0 < st.de_map.num_dentries) (hnum2 : st.de_map.num_dentries < 2 ^ 64)
    (hret : (aeon_remove_dentry cfg st name len de adi).1 = 0) :
    load8 (aeon_remove_dentry cfg st name len de adi).2.pmem (de + offsetof_valid) = 0 ∧
    (∀ k, k ≤ load8 st.pmem (de + offsetof_name_len) → k ≤ cfg.AEON_NAME_LEN →
      load8 (aeon_remove_dentry cfg st name len de adi).2.pmem (de + offsetof_name + k) = 0) ∧
    is_persisted_dentry cfg (aeon_remove_dentry cfg st name len de adi).2.pmem de = 1 ∧
    (aeon_remove_dentry cfg st name len de adi).2.invalid_list = de :: st.invalid_list ∧
    (aeon_remove_dentry cfg st name len de adi).2.de_map.num_dentries
      = st.de_map.num_dentries - 1 := by
  rcases remove_dentry_cases cfg st name len de adi with ⟨h, _⟩ | ⟨_, _, _, h⟩
  · exact absurd hret h
  · rw [h]
    simp only
    refine ⟨?_, ?_, update_csum_persisted cfg _ de hcs, trivial, ?_⟩
    · unfold aeon_update_dentry_csum
      rw [load8_store_le, if_neg (by unfold offsetof_csum offsetof_valid; omega),
        load8_memset, if_neg (by unfold offsetof_name offsetof_valid; omega),
        load8_store8, if_pos rfl]
    · intro k hk hk2
      have hnl : load8 (store8 st.pmem (de + offsetof_valid) 0) (de + offsetof_name_len)
          = load8 st.pmem (de + offsetof_name_len) := by
        rw [load8_store8, if_neg (by unfold offsetof_name_len offsetof_valid; omega)]
      unfold aeon_update_dentry_csum
      rw [load8_store_le, if_neg (by unfold offsetof_csum offsetof_name; omega),
        load8_memset, hnl, if_pos (by omega)]
    · exact u64_dec_eq _ hnum (le_of_lt hnum2)

/-- Witness of C22: the name "a" removed from the example directory of "a" and "b". -/
theorem C22_remove_dentry_tombstones_witness :
    load8 (aeon_remove_dentry example_consts example_dir_ab [97] 1 1114624 true).2.pmem
      (1114624 + offsetof_valid) = 0 ∧
    (∀ k, k ≤ load8 example_dir_ab.pmem (1114624 + offsetof_name_len) →
      k ≤ example_consts.AEON_NAME_LEN →
      load8 (aeon_remove_dentry example_consts example_dir_ab [97] 1 1114624 true).2.pmem
        (1114624 + offsetof_name + k) = 0) ∧
    is_persisted_dentry example_consts
      (aeon_remove_dentry example_consts example_dir_ab [97] 1 1114624 true).2.pmem
      1114624 = 1 ∧
    (aeon_remove_dentry example_consts example_dir_ab [97] 1 1114624 true).2.invalid_list
      = 1114624 :: example_dir_ab.invalid_list ∧
    (aeon_remove_dentry example_consts example_dir_ab [97] 1 1114624 true).2.de_map.num_dentries
      = example_dir_ab.de_map.num_dentries - 1 :=
  C22_remove_dentry_tombstones example_consts example_dir_ab [97] 1 1114624 true
    (by decide) (by decide) (by decide) (by decide)

theorem load8_store_bytes (l : List Nat) :
    ∀ (m : Nat → Nat) (a x : Nat), x < a ∨ a + l.length ≤ x →
      load8 (store_bytes m a l) x = load8 m x := by
  induction l with
  | nil => intro m a x _; rfl
  | cons b rest ih =>
    intro m a x h
    simp only [List.length_cons] at h
    rw [store_bytes, ih _ _ _ (by omega), load8_store8, if_neg (by omega)]

/-- The memory after the part of `aeon_add_dentry` that follows the bootstrap, when a
slot was obtained: that of `aeon_fill_dentry_data` on the slot. -/
theorem add_dentry_entry_pmem (cfg : aeon_consts) (st : dir_state) (am : aeon_mdata)
    (name : List Int) (namelen : Int) (node : Option aeon_range_node)
    (h : (aeon_get_dentry_space cfg st).1 = 0) :
    (add_dentry_entry cfg st am name namelen node).2.pmem
      = (aeon_fill_dentry_data cfg (aeon_get_dentry_space cfg st).2.2
          (aeon_get_dentry_space cfg st).2.1 am name namelen).pmem := by
  unfold add_dentry_entry
  cases hg : aeon_get_dentry_space cfg st with
  | mk err r =>
    obtain ⟨de, st1⟩ := r
    rw [hg] at h
    simp only at h
    subst h
    simp only [ne_eq, not_true_eq_false, if_false]
    cases hi : aeon_insert_dir_tree (aeon_fill_dentry_data cfg st1 de am name namelen).rb_tree
        name namelen de node with
    | mk err1 tree =>
      simp only
      split_ifs <;> rfl

/-- The memory after `aeon_add_dentry` grew the full example directory, on the bytes of
the first record of block 16: only the low byte of `d_next_dentry_block` changed. -/
theorem example_dir_full_grown (x : Nat) (h1 : 1114112 ≤ x) (h2 : x < 1114112 + 255) :
    load8 (add_dentry_entry example_consts example_dir_full ⟨7, 1048576 + 12288, 0, 0, 0⟩
        [97] 1 (some ⟨1, 0, 0, 0⟩)).2.pmem x
      = if x = 1114112 + 160 then 17 else load8 example_dir_full.pmem x := by
  have ha : aeon_alloc_new_dentry_block example_dir_full
      = (1118208, 17, { example_dir_full with new_dentry_blocks := [] }) := rfl
  have hg : aeon_get_dentry_space example_consts example_dir_full
      = get_dentry_space_done
          (aeon_register_dentry_to_map example_consts
            { example_dir_full with new_dentry_blocks := [] } 17) 1118208 := by
    rcases get_dentry_space_cases example_consts example_dir_full with ⟨_, _, h3, _⟩ |
      ⟨_, _, _, h3, _⟩ | ⟨_, _, _, _, h4⟩ | ⟨_, h3, _⟩ | ⟨d, rest, h3, _⟩
    · exact absurd h3 (by decide)
    · rw [ha] at h3; exact absurd h3 (by decide)
    · rw [ha] at h4; exact h4
    · exact absurd rfl h3
    · exact absurd h3 (by simp [example_dir_full])
  rw [add_dentry_entry_pmem _ _ _ _ _ _ (by rw [hg]; rfl), hg]
  simp only [aeon_fill_dentry_data, get_dentry_space_done, aeon_register_dentry_to_map,
    aeon_update_dentry_csum]
  have e1 : example_dir_full.de_map.block_dentry example_dir_full.de_map.num_latest_dentry
      = 16 := rfl
  have e2 : example_consts.AEON_HEAD = 1048576 := rfl
  have e3 : example_consts.AEON_SHIFT = 12 := rfl
  have e4 : example_consts.AEON_NAME_LEN = 127 := rfl
  have e5 : example_consts.d_next_dentry_block = 160 := rfl
  have e6 : example_consts.d_prev_dentry_block = 168 := rfl
  have e7 : example_consts.d_this_dentry_block = 176 := rfl
  have e8 : example_consts.d_mode = 184 := rfl
  have e9 : example_consts.d_size = 186 := rfl
  have e10 : example_consts.rdev = 188 := rfl
  simp only [e1, e2, e3, e4, e5, e6, e7, e8, e9, e10, offsetof_csum, offsetof_valid,
    offsetof_persisted, offsetof_name, offsetof_name_len, offsetof_ino,
    offsetof_d_pinode_addr, offsetof_d_inode_addr, offsetof_d_dentry_addr,
    Nat.shiftLeft_eq]
  norm_num
  rw [load8_store_le, if_neg (by omega), load8_store8, if_neg (by omega),
    load8_store8, if_neg (by omega), load8_store_le, if_neg (by omega),
    load8_store_le, if_neg (by omega), load8_store_le, if_neg (by omega),
    load8_store_le, if_neg (by omega), load8_store_bytes _ _ _ _ (Or.inl (by omega)),
    load8_store_le, if_neg (by omega), load8_store_le, if_neg (by omega),
    load8_store_le, if_neg (by omega), load8_store_le, if_neg (by omega),
    load8_store8, if_neg (by omega), load8_store8, if_neg (by omega),
    load8_store_le, if_neg (by omega), load8_store_le]
  by_cases hx : 1114272 ≤ x ∧ x < 1114272 + 8
  · rw [if_pos hx]
    have hc : x = 1114272 ∨ x = 1114273 ∨ x = 1114274 ∨ x = 1114275 ∨ x = 1114276 ∨
        x = 1114277 ∨ x = 1114278 ∨ x = 1114279 := by omega
    rcases hc with rfl | rfl | rfl | rfl | rfl | rfl | rfl | rfl <;> decide
  · rw [if_neg hx, if_neg (by omega)]

/-- C23 (refuted): `aeon_add_dentry` of the name "a" on the example directory whose block
16 is full succeeds and grows the directory by block 17;
`aeon_register_dentry_to_map` stores the new block number in the member
`d_next_dentry_block` of the first record of block 16 (at 1114112, with
`persisted = 1`) and no checksum is recomputed for that record: it passed
`is_persisted_dentry` before the call and fails it after. -/
theorem C23_register_leaves_stale_csum :
    ∃ r, aeon_add_dentry example_consts example_dir_full ⟨7, 1048576 + 12288, 0, 0, 0⟩
        [97] 1 true true (some ⟨1, 0, 0, 0⟩) = some r ∧
      r.1 = 0 ∧
      r.2.de_map.num_latest_dentry = 1 ∧
      r.2.de_map.block_dentry 1 = 17 ∧
      load8 example_dir_full.pmem (1114112 + offsetof_persisted) = 1 ∧
      is_persisted_dentry example_consts example_dir_full.pmem 1114112 = 1 ∧
      load8 r.2.pmem (1114112 + offsetof_persisted) = 1 ∧
      is_persisted_dentry example_consts r.2.pmem 1114112 = 0 := by
  have hbefore : is_persisted_dentry example_consts example_dir_full.pmem 1114112 = 1 :=
    update_csum_persisted example_consts _ 1114112 (by decide)
  have hstored : load_le 4 example_dir_full.pmem (1114112 + offsetof_csum 127)
      = dentry_crc example_consts example_dir_full.pmem 1114112 := by
    have h := hbefore
    unfold is_persisted_dentry at h
    simp only at h
    by_contra hne
    rw [if_pos (fun e => hne e.symm)] at h
    exact absurd h (by decide)
  refine ⟨add_dentry_entry example_consts example_dir_full ⟨7, 1048576 + 12288, 0, 0, 0⟩
      [97] 1 (some ⟨1, 0, 0, 0⟩), rfl, by decide, by decide, by decide, by decide,
    hbefore, ?_, ?_⟩
  · rw [example_dir_full_grown _ (by decide) (by decide)]
    decide
  · have hcrc := dentry_crc_diff example_consts example_dir_full.pmem
      (add_dentry_entry example_consts example_dir_full ⟨7, 1048576 + 12288, 0, 0, 0⟩
        [97] 1 (some ⟨1, 0, 0, 0⟩)).2.pmem 1114112 160 (by decide)
      (by rw [example_dir_full_grown _ (by decide) (by decide)]; decide)
      (fun k hk hne => by
        have hk1 : k < 251 := hk
        rw [example_dir_full_grown _ (by omega) (by omega), if_neg (by omega)])
    have hsame : load_le 4 (add_dentry_entry example_consts example_dir_full
          ⟨7, 1048576 + 12288, 0, 0, 0⟩ [97] 1 (some ⟨1, 0, 0, 0⟩)).2.pmem
          (1114112 + offsetof_csum 127)
        = load_le 4 example_dir_full.pmem (1114112 + offsetof_csum 127) := by
      apply load_le_congr
      intro k hk
      have : offsetof_csum 127 = 251 := rfl
      rw [this, example_dir_full_grown _ (by omega) (by omega), if_neg (by omega)]
    unfold is_persisted_dentry
    simp only
    have hn : example_consts.AEON_NAME_LEN = 127 := rfl
    rw [hn, hsame, hstored, if_pos hcrc]

theorem free_cached_loop_de_map (cfg : aeon_consts) (free_err : Nat → Int) :
    ∀ (l : List Nat) (st : dir_state),
      (free_cached_loop cfg free_err l st).2.de_map = st.de_map := by
  intro l
  induction l with
  | nil => intro st; rfl
  | cons g rest ih =>
    intro st
    unfold free_cached_loop
    simp only [aeon_insert_blocks_into_free_list]
    split_ifs
    · rfl
    · rw [ih]
    · rw [ih]

/-- C24 (refuted): `aeon_free_cached_dentry_blocks` never writes the dentry map, so no
block is unlinked from it; in the example directory, whose block 17 holds no valid record,
the call returns 0 and passes block 17 to the block allocator, and block 17 is still
listed in `block_dentry[0 .. num_latest_dentry]` afterwards. -/
theorem C24_freed_block_still_listed :
    (∀ (cfg : aeon_consts) (st : dir_state) (free_err : Nat → Int),
      (aeon_free_cached_dentry_blocks cfg st free_err).2.de_map = st.de_map) ∧
    dentry_block_free example_consts example_dir_emptied.pmem 17 = true ∧
    (aeon_free_cached_dentry_blocks example_consts example_dir_emptied (fun _ => 0)).1 = 0 ∧
    (aeon_free_cached_dentry_blocks example_consts example_dir_emptied
      (fun _ => 0)).2.freed_blocks = [(17, 1)] ∧
    listed_blocks (aeon_free_cached_dentry_blocks example_consts example_dir_emptied
      (fun _ => 0)).2.de_map = [16, 17] := by
  refine ⟨fun cfg st free_err => free_cached_loop_de_map cfg free_err _ st, ?_, ?_, ?_, ?_⟩
  · decide
  · decide
  · decide
  · decide

theorem readdir_loop_stuck (cfg : aeon_consts) (virt_addr cpus : Nat) (m : Nat → Nat)
    (tree : rb_root) (dir_emit : Nat → Bool) (curr : aeon_range_node)
    (h : load_le 4 m (curr.direntry + offsetof_ino) = 0) :
    ∀ (fuel : Nat) (emitted : List Nat),
      readdir_loop cfg virt_addr cpus m tree dir_emit fuel (some curr) emitted = none := by
  intro fuel
  induction fuel with
  | zero => intro emitted; rfl
  | succ fuel ih =>
    intro emitted
    unfold readdir_loop
    simp only [h, if_true]
    exact ih emitted

/-- C26 (refuted): in the example directory whose only indexed record has `ino = 0`,
`aeon_readdir` from the start position does not terminate: the loop executes `continue`
without advancing `temp`, so that for every number of passes the loop has not ended. -/
theorem C26_readdir_loops_on_ino_zero :
    example_dir_ino0.rb_tree.toList = [⟨1, 97, 0, 1114624⟩] ∧
    load_le 4 example_dir_ino0.pmem (1114624 + offsetof_ino) = 0 ∧
    ∀ fuel, aeon_readdir example_consts 1048576 4 example_dir_ino0.pmem
      example_dir_ino0.rb_tree true (fun _ => true) fuel 0 = none := by
  have h1 : example_dir_ino0.rb_tree.toList = [⟨1, 97, 0, 1114624⟩] := by decide
  have h2 : load_le 4 example_dir_ino0.pmem (1114624 + offsetof_ino) = 0 := by decide
  refine ⟨h1, h2, fun fuel => ?_⟩
  have hs : readdir_start example_dir_ino0.rb_tree 0 = some ⟨1, 97, 0, 1114624⟩ := by
    unfold readdir_start rb_first
    rw [if_pos rfl, h1]
    rfl
  unfold aeon_readdir
  rw [if_neg (by decide), hs]
  exact readdir_loop_stuck _ _ _ _ _ _ _ h2 fuel []

/-- The loop of `aeon_readdir` from a node on, over listable records: it ends after one
pass for each remaining node, having emitted their entries in order. -/
theorem readdir_loop_visits (cfg : aeon_consts) (virt_addr cpus : Nat) (m : Nat → Nat)
    (tree : rb_root) (dir_emit : Nat → Bool) (hnd : (rb_addrs tree).Nodup) :
    ∀ (post pre : List aeon_range_node) (s : aeon_range_node) (fuel : Nat)
      (emitted : List Nat),
      tree.toList = pre ++ s :: post →
      (∀ n ∈ s :: post, record_listable cfg virt_addr cpus m dir_emit n.direntry) →
      post.length + 1 ≤ fuel →
      readdir_loop cfg virt_addr cpus m tree dir_emit fuel (some s) emitted
        = some (0, cfg.READDIR_END,
            emitted ++ (s :: post).map aeon_range_node.direntry) := by
  intro post
  induction post with
  | nil =>
    intro pre s fuel emitted ht hgood hfuel
    obtain ⟨f, rfl⟩ : ∃ f, fuel = f + 1 := ⟨fuel - 1, by simp at hfuel; omega⟩
    obtain ⟨h1, ⟨a, h2⟩, h3⟩ := hgood s (List.mem_cons_self _ _)
    have hn := rb_next_split tree pre [] s ht hnd
    unfold readdir_loop
    simp only [h1, if_false, h2, h3, hn, List.head?_nil, ne_eq, not_true_eq_false,
      Bool.not_true, Bool.false_eq_true, List.map_cons, List.map_nil]
    cases f <;> simp [readdir_loop]
  | cons p rest ih =>
    intro pre s fuel emitted ht hgood hfuel
    obtain ⟨f, rfl⟩ : ∃ f, fuel = f + 1 := ⟨fuel - 1, by simp at hfuel; omega⟩
    obtain ⟨h1, ⟨a, h2⟩, h3⟩ := hgood s (List.mem_cons_self _ _)
    have hn := rb_next_split tree pre (p :: rest) s ht hnd
    unfold readdir_loop
    simp only [h1, if_false, h2, h3, hn, List.head?_cons, ne_eq, not_true_eq_false,
      Bool.not_true, Bool.false_eq_true]
    rw [ih (pre ++ [s]) p f _ (by rw [ht]; simp)
      (fun n hn => hgood n (List.mem_cons_of_mem _ hn))
      (by simp only [List.length_cons] at hfuel; omega)]
    simp

/-- The node at which `aeon_readdir` starts in an ordered index, for a position other
than 0: the node whose hash is the position, if there is one. -/
theorem readdir_start_ordered (tree : rb_root) (k : Nat) (hk0 : k ≠ 0)
    (hord : hashes_ordered tree.toList) :
    (∃ pre s post, tree.toList = pre ++ s :: post ∧ s.hash = k ∧
      readdir_start tree k = some s ∧
      tree.toList.dropWhile (fun n => decide (n.hash ≠ k)) = s :: post) ∨
    ((∀ n ∈ tree.toList, n.hash ≠ k) ∧ readdir_start tree k = none ∧
      tree.toList.dropWhile (fun n => decide (n.hash ≠ k)) = []) := by
  obtain ⟨A, B, hl, hA, hB⟩ := ordered_split node_type.NODE_DIR k tree.toList
    (hashes_ordered_tree _ hord)
  have hdA : ∀ l2 : List aeon_range_node,
      (A ++ l2).dropWhile (fun n => decide (n.hash ≠ k))
        = l2.dropWhile (fun n => decide (n.hash ≠ k)) := by
    intro l2
    apply List.dropWhile_append_of_pos
    intro a ha
    have := (compare_dir a k).2.1.1 (hA a ha)
    simp; omega
  unfold readdir_start
  rw [if_neg hk0]
  rcases hB with hB | ⟨s, B1, rfl, hs, hB1⟩
  · right
    have h0 : (aeon_find_range_node tree k node_type.NODE_DIR).1 = 0 :=
      find_descend_not_found _ _ tree A B none hl hA hB
    refine ⟨?_, ?_, ?_⟩
    · intro n hn
      rw [hl, List.mem_append] at hn
      rcases hn with hn | hn
      · have := (compare_dir n k).2.1.1 (hA n hn); omega
      · have := (compare_dir n k).1.1 (hB n hn); omega
    · cases hf : aeon_find_range_node tree k node_type.NODE_DIR with
      | mk found node =>
        rw [hf] at h0
        simp only at h0
        subst h0
        cases node <;> simp
    · rw [hl, hdA, List.dropWhile_eq_nil_iff]
      intro b hb
      have := (compare_dir b k).1.1 (hB b hb)
      simp; omega
  · left
    have h1 : aeon_find_range_node tree k node_type.NODE_DIR = (1, some s) :=
      find_descend_found _ _ s tree A B1 none hl hA hs hB1
    have hsk := (compare_dir s k).2.2.1 hs
    refine ⟨A, s, B1, hl, hsk.symm, ?_, ?_⟩
    · rw [h1]; simp [hsk]
    · rw [hl, hdA, List.dropWhile_cons]
      simp [hsk]

/-- C25 (refuted as stated): in the index with the hashes 0, 10 and 30, `aeon_readdir`
with the resume position 15 starts at no node: it visits nothing and sets the position to
`READDIR_END`, although the node with hash 30 has a hash of at least 15. -/
theorem C25_readdir_resume_between :
    readdir_start three_range_tree 15 = none ∧
    (∀ (m : Nat → Nat) (fuel : Nat),
      aeon_readdir example_consts 1048576 4 m three_range_tree true (fun _ => true) fuel 15
        = some (0, example_consts.READDIR_END, [])) ∧
    ∃ n ∈ three_range_tree.toList, 15 ≤ n.hash := by
  have h : readdir_start three_range_tree 15 = none := by decide
  refine ⟨h, ?_, ⟨⟨3, 30, 40, 0⟩, by decide, by decide⟩⟩
  intro m fuel
  unfold aeon_readdir
  rw [if_neg (by decide), h]
  cases fuel <;> rfl

/-- C25 (amended): for every ordered directory index of distinct node objects whose
records are listable, `aeon_readdir` with a resume position `k` other than 0 and
`READDIR_END` begins at the node whose hash equals `k` and visits it and the nodes after
it in ascending hash order; if no node has the hash `k` it visits nothing; in both cases
it returns 0 with the position `READDIR_END`.  With `k = 0` it begins at the first node of
the tree and visits all nodes in order. -/
theorem C25_readdir_resume_exact (cfg : aeon_consts) (virt_addr cpus : Nat) (m : Nat → Nat)
    (tree : rb_root) (dir_emit : Nat → Bool) (k : Nat)
    (hord : hashes_ordered tree.toList) (hnd : (rb_addrs tree).Nodup)
    (hgood : ∀ n ∈ tree.toList, record_listable cfg virt_addr cpus m dir_emit n.direntry)
    (hk0 : k ≠ 0) (hkend : k ≠ cfg.READDIR_END) :
    aeon_readdir cfg virt_addr cpus m tree true dir_emit (tree.toList.length + 1) k
      = some (0, cfg.READDIR_END,
          (tree.toList.dropWhile (fun n => decide (n.hash ≠ k))).map
            aeon_range_node.direntry) ∧
    (0 ≠ cfg.READDIR_END →
      aeon_readdir cfg virt_addr cpus m tree true dir_emit (tree.toList.length + 1) 0
        = some (0, cfg.READDIR_END, tree.toList.map aeon_range_node.direntry)) := by
  constructor
  · unfold aeon_readdir
    rw [if_neg (fun h => hkend h.2)]
    simp only [Bool.not_true, Bool.false_eq_true, if_false]
    rcases readdir_start_ordered tree k hk0 hord with ⟨pre, s, post, hl, _, hs, hd⟩ |
      ⟨_, hs, hd⟩
    · rw [hs, hd, readdir_loop_visits cfg virt_addr cpus m tree dir_emit hnd post pre s _ []
        hl (fun n hn => hgood n (by rw [hl]; simp; exact Or.inr (List.mem_cons.1 hn)))
        (by rw [hl]; simp; omega)]
      simp
    · rw [hs, hd]
      simp [readdir_loop]
  · intro _
    unfold aeon_readdir
    rw [if_neg (fun h => h.1 rfl)]
    simp only [Bool.not_true, Bool.false_eq_true, if_false, readdir_start, if_true, rb_first]
    cases hl : tree.toList with
    | nil => simp [readdir_loop]
    | cons s post =>
      rw [List.head?_cons, readdir_loop_visits cfg virt_addr cpus m tree dir_emit hnd post []
        s _ [] (by rw [hl]; rfl) (fun n hn => hgood n (by rw [hl]; exact hn))
        (by simp)]
      simp

/-- Witness of C25: the index of "a" and "b" listed from the position of "b". -/
theorem C25_readdir_resume_exact_witness :
    aeon_readdir example_consts 4096 4 example_listing_mem example_listing_tree true
        (fun _ => true) (example_listing_tree.toList.length + 1) 98
      = some (0, example_consts.READDIR_END,
          (example_listing_tree.toList.dropWhile (fun n => decide (n.hash ≠ 98))).map
            aeon_range_node.direntry) ∧
    (0 ≠ example_consts.READDIR_END →
      aeon_readdir example_consts 4096 4 example_listing_mem example_listing_tree true
          (fun _ => true) (example_listing_tree.toList.length + 1) 0
        = some (0, example_consts.READDIR_END,
            example_listing_tree.toList.map aeon_range_node.direntry)) :=
  C25_readdir_resume_exact example_consts 4096 4 example_listing_mem example_listing_tree
    (fun _ => true) 98
    (by simp [hashes_ordered, example_listing_tree, rb_root.toList, aeon_range_node.hash])
    (by decide)
    (by
      intro n hn
      have hl : example_listing_tree.toList = [⟨1, 97, 0, 1000⟩, ⟨2, 98, 0, 2000⟩] := rfl
      rw [hl] at hn
      simp only [List.mem_cons, List.mem_singleton, List.not_mem_nil, or_false] at hn
      rcases hn with rfl | rfl
      · exact ⟨by decide, ⟨4352, by decide⟩, rfl⟩
      · exact ⟨by decide, ⟨4608, by decide⟩, rfl⟩)
    (by decide) (by decide)

/-- The lock events of `aeon_new_blocks` keep the discipline on every path: at most one
shard lock is held, a lock is released only while it is held, and none is held at the
end. -/
theorem new_blocks_locks_balanced (sbi : aeon_sb_info) (num_blocks : Nat) :
    ∀ (k cpuid : Nat),
      locks_held [] (new_blocks_retry_locks sbi num_blocks k cpuid
        ++ [.unlock (new_blocks_retry sbi num_blocks k cpuid)]) = some [] := by
  intro k
  induction k with
  | zero => intro cpuid; simp [new_blocks_retry_locks, new_blocks_retry, locks_held]
  | succ k ih =>
    intro cpuid
    unfold new_blocks_retry_locks new_blocks_retry
    split_ifs
    · have := ih (aeon_get_candidate_free_list sbi)
      simpa [locks_held] using this
    · simp [locks_held]

/-- C27 (refuted): `aeon_new_blocks` keeps the lock discipline on every path, but
`aeon_new_aeon_inode` does not: on one shard holding the range `[0, 0]`, when the inode
number is allocated and `aeon_get_new_inode_block` then returns 0, the function returns 0
after releasing the shard's `inode_table_mutex` a second time, while it is not held. -/
theorem C27_new_inode_double_unlock :
    (∀ (sbi : aeon_sb_info) (num : Nat) (cpuid : Option Nat) (numblocks this_cpu : Nat),
      locks_held [] (aeon_new_blocks_locks sbi num cpuid numblocks this_cpu) = some []) ∧
    ∃ r, aeon_new_aeon_inode example_consts
        (aeon_init_inode_inuse_list (fresh_inode_sbi 1 0) (fun _ => some ⟨7, 0, 0, 0⟩)).2
        0 1048576 0 0 0 0 = some r ∧
      r.ino = 0 ∧
      r.locks = [.lock 0, .unlock 0, .unlock 0] ∧
      locks_held [] [.lock 0, .unlock 0] = some [] ∧
      locks_held [] r.locks = none := by
  constructor
  · intro sbi num cpuid numblocks this_cpu
    exact new_blocks_locks_balanced sbi _ 2 _
  · exact ⟨_, rfl, rfl, rfl, rfl, rfl⟩

/-- C33 (refuted): on shard 0 of 4, holding the ordered, disjoint ranges `[0, 0]` and
`[2, 2 ^ 30]` with `first_inode_range` at the lowest node, two successful calls of
`aeon_alloc_unused_inode` with no release in between allocate the internal numbers 1
and `2 ^ 30 + 1` and both store the external inode number 4: the `u32` value
`new_ino * cpus + cpuid` wraps. -/
theorem C33_alloc_same_external_twice :
    ∃ r1 r2, aeon_alloc_unused_inode example_gap_sbi 0 0 0 = some r1 ∧
      aeon_alloc_unused_inode r1.sbi 0 0 0 = some r2 ∧
      r1.ret = 0 ∧ r2.ret = 0 ∧
      (r1.sbi.inode_maps 0).inode_inuse_tree.toList = [⟨1, 0, 1073741824, 0⟩] ∧
      (r2.sbi.inode_maps 0).inode_inuse_tree.toList = [⟨1, 0, 1073741825, 0⟩] ∧
      r1.ino = 4 ∧ r2.ino = 4 := by
  refine ⟨_, _, rfl, rfl, ?_, ?_, ?_, ?_, ?_, ?_⟩ <;> decide

theorem rb_entry_some_split (t : rb_root) (a : Nat) (i : aeon_range_node)
    (h : rb_entry t a = some i) :
    i.addr = a ∧ ∃ pre post, t.toList = pre ++ i :: post := by
  unfold rb_entry at h
  rw [List.find?_eq_some] at h
  obtain ⟨h1, pre, post, h2, _⟩ := h
  exact ⟨by simpa using h1, pre, post, h2⟩

/-- The outcome of `aeon_alloc_unused_inode` on a tree of distinct node objects: either
`-ENOSPC` with the state unchanged, or 0 with the node `i` designated by
`first_inode_range` extended by one number, or merged with its successor when the new
number fills the gap between them. -/
theorem alloc_unused_inode_tree (sbi : aeon_sb_info) (cpuid ino map_id : Nat)
    (r : alloc_inode_result)
    (hnd : (rb_addrs (sbi.inode_maps map_id).inode_inuse_tree).Nodup)
    (hr : aeon_alloc_unused_inode sbi cpuid ino map_id = some r) :
    (r.ret = -ENOSPC ∧ r.sbi = sbi) ∨
    (r.ret = 0 ∧ r.sbi.cpus = sbi.cpus ∧
      r.sbi.s_inodes_used_count = sbi.s_inodes_used_count + 1 ∧
      (∀ k, k ≠ map_id → r.sbi.inode_maps k = sbi.inode_maps k) ∧
      ∃ i pre post, (sbi.inode_maps map_id).inode_inuse_tree.toList = pre ++ i :: post ∧
        ((∃ p rest, post = p :: rest ∧ (i.range_high + 1) % 2 ^ 32 = u64_dec p.range_low ∧
            (r.sbi.inode_maps map_id).inode_inuse_tree.toList
              = pre ++ { i with range_high := p.range_high } :: rest) ∨
         ((i.range_high + 1) % 2 ^ 32
              < u64_dec (match post.head? with
                | none => MAX_INODE
                | some p => p.range_low) ∧
            (r.sbi.inode_maps map_id).inode_inuse_tree.toList
              = pre ++ { i with range_high := (i.range_high + 1) % 2 ^ 32 } :: post))) := by
  unfold aeon_alloc_unused_inode at hr
  simp only at hr
  cases hfirst : (sbi.inode_maps map_id).first_inode_range with
  | none => rw [hfirst] at hr; simp at hr
  | some a =>
    rw [hfirst] at hr
    simp only at hr
    cases hent : rb_entry (sbi.inode_maps map_id).inode_inuse_tree a with
    | none => rw [hent] at hr; simp at hr
    | some i =>
      rw [hent] at hr
      simp only at hr
      obtain ⟨hia, pre, post, hl⟩ := rb_entry_some_split _ _ _ hent
      subst hia
      have hnext := rb_next_split _ pre post i hl hnd
      rw [hnext] at hr
      have hstore : ∀ f : aeon_range_node → aeon_range_node,
          (rb_store i.addr f (sbi.inode_maps map_id).inode_inuse_tree).toList
            = pre ++ f i :: post :=
        fun f => toList_rb_store_split _ pre post i f hl hnd
      cases post with
      | nil =>
        simp only [List.head?_nil] at hr ⊢
        by_cases hlt : (i.range_high + 1) % 2 ^ 32 < u64_dec MAX_INODE
        · rw [if_pos hlt] at hr
          simp only [Option.some.injEq] at hr
          subst hr
          right
          refine ⟨rfl, rfl, rfl, ?_, i, pre, [], hl, Or.inr ⟨hlt, ?_⟩⟩
          · intro k hk
            simp [Function.update, hk]
          · simp only [Function.update_same]
            exact hstore _
        · rw [if_neg hlt] at hr
          simp only [Option.some.injEq] at hr
          subst hr
          exact Or.inl ⟨rfl, rfl⟩
      | cons p rest =>
        simp only [List.head?_cons] at hr ⊢
        by_cases heq : (i.range_high + 1) % 2 ^ 32 = u64_dec p.range_low
        · rw [if_pos heq] at hr
          simp only [Option.some.injEq] at hr
          subst hr
          right
          refine ⟨rfl, rfl, rfl, ?_, i, pre, p :: rest, hl, Or.inl ⟨p, rest, rfl, heq, ?_⟩⟩
          · intro k hk
            simp [Function.update, hk]
          · simp only [Function.update_same]
            have hs := hstore (fun n => { n with range_high := p.range_high })
            have hnd2 : (rb_addrs (rb_store i.addr
                (fun n => { n with range_high := p.range_high })
                (sbi.inode_maps map_id).inode_inuse_tree)).Nodup := by
              unfold rb_addrs at hnd ⊢
              rw [hs]
              rw [hl] at hnd
              simpa using hnd
            have := toList_rb_erase_split _ (pre ++ [{ i with range_high := p.range_high }])
              rest p (by rw [hs]; simp) hnd2
            rw [this]
            simp
        · rw [if_neg heq] at hr
          by_cases hlt : (i.range_high + 1) % 2 ^ 32 < u64_dec p.range_low
          · rw [if_pos hlt] at hr
            simp only [Option.some.injEq] at hr
            subst hr
            right
            refine ⟨rfl, rfl, rfl, ?_, i, pre, p :: rest, hl, Or.inr ⟨hlt, ?_⟩⟩
            · intro k hk
              simp [Function.update, hk]
            · simp only [Function.update_same]
              exact hstore _
          · rw [if_neg hlt] at hr
            simp only [Option.some.injEq] at hr
            subst hr
            exact Or.inl ⟨rfl, rfl⟩

theorem free_inuse_inode_none (sbi : aeon_sb_info) (ino : Nat) (c i : aeon_range_node)
    (ret : Int) (hs : aeon_search_inodetree sbi ino = (1, some i)) :
    (¬ (i.range_low < ino / sbi.cpus ∧ ino / sbi.cpus < i.range_high) →
      aeon_free_inuse_inode sbi ino none ret = aeon_free_inuse_inode sbi ino (some c) ret) ∧
    ((i.range_low < ino / sbi.cpus ∧ ino / sbi.cpus < i.range_high) →
      aeon_free_inuse_inode sbi ino none ret = free_block_found sbi (ino % sbi.cpus) ret) := by
  unfold aeon_free_inuse_inode
  simp only [hs]
  constructor
  · intro h
    split_ifs <;> rfl
  · intro h
    split_ifs <;> first | rfl | omega

/-- The outcome of `aeon_free_inuse_inode` on an ordered tree of distinct node objects:
either no tree changes, or the node that covers the number is replaced as
`free_replacement` describes and the count of used inodes drops by 1. -/
theorem free_inuse_inode_cases (sbi : aeon_sb_info) (ino : Nat)
    (curr_node : Option aeon_range_node) (ret : Int)
    (hord : ranges_ordered (sbi.inode_maps (ino % sbi.cpus)).inode_inuse_tree.toList)
    (hnd : (rb_addrs (sbi.inode_maps (ino % sbi.cpus)).inode_inuse_tree).Nodup)
    (h64 : ∀ n ∈ (sbi.inode_maps (ino % sbi.cpus)).inode_inuse_tree.toList,
      n.range_high < 2 ^ 64) :
    ((aeon_free_inuse_inode sbi ino curr_node ret).2.cpus = sbi.cpus ∧
      ∀ k, ((aeon_free_inuse_inode sbi ino curr_node ret).2.inode_maps k).inode_inuse_tree
        = (sbi.inode_maps k).inode_inuse_tree) ∨
    (∃ i pre post c,
      (sbi.inode_maps (ino % sbi.cpus)).inode_inuse_tree.toList = pre ++ i :: post ∧
      i.range_low ≤ ino / sbi.cpus ∧ ino / sbi.cpus ≤ i.range_high ∧
      ((i.range_low < ino / sbi.cpus ∧ ino / sbi.cpus < i.range_high) → curr_node = some c) ∧
      ((aeon_free_inuse_inode sbi ino curr_node ret).2.inode_maps
          (ino % sbi.cpus)).inode_inuse_tree.toList
        = pre ++ free_replacement i (ino / sbi.cpus) c ++ post ∧
      (aeon_free_inuse_inode sbi ino curr_node ret).2.s_inodes_used_count
        = sbi.s_inodes_used_count - 1 ∧
      (aeon_free_inuse_inode sbi ino curr_node ret).2.cpus = sbi.cpus ∧
      ∀ k, k ≠ ino % sbi.cpus →
        (aeon_free_inuse_inode sbi ino curr_node ret).2.inode_maps k = sbi.inode_maps k) := by
  obtain ⟨A, B, hl, hA, hB⟩ := ordered_split node_type.NODE_INODE (ino / sbi.cpus) _
    (tree_ordered_of_ranges node_type.NODE_INODE (by decide) _ hord)
  rcases hB with hB | ⟨m, B1, rfl, hm, hB1⟩
  · left
    have h0 : (aeon_search_inodetree sbi ino).1 = 0 :=
      find_descend_not_found _ _ _ A B none hl hA hB
    have hres : aeon_free_inuse_inode sbi ino curr_node ret = (-EINVAL, sbi) := by
      unfold aeon_free_inuse_inode
      cases hs : aeon_search_inodetree sbi ino with
      | mk found node =>
        rw [hs] at h0
        simp only at h0
        subst h0
        cases node <;> simp
    rw [hres]
    exact ⟨rfl, fun _ => rfl⟩
  · have hs : aeon_search_inodetree sbi ino = (1, some m) :=
      find_descend_found _ _ m _ A B1 none hl hA hm hB1
    have hr := (compare_range m (ino / sbi.cpus) node_type.NODE_INODE (by decide)).2.2.1 hm
    have hfound := fun c => free_inuse_inode_found sbi ino c ret m A B1 hl hord hnd hr.1 hr.2
      (h64 m (by rw [hl]; simp))
    cases curr_node with
    | some c =>
      right
      obtain ⟨f1, f2, _, _, f5, f6, _⟩ := hfound c
      exact ⟨m, A, B1, c, hl, hr.1, hr.2, fun _ => rfl, f1, f2, f5, f6⟩
    | none =>
      have hn := free_inuse_inode_none sbi ino m m ret hs
      by_cases hsp : m.range_low < ino / sbi.cpus ∧ ino / sbi.cpus < m.range_high
      · left
        rw [hn.2 hsp]
        unfold free_block_found
        refine ⟨rfl, fun k => ?_⟩
        simp only [Function.update]
        split_ifs with hk
        · subst hk; rfl
        · rfl
      · right
        rw [hn.1 hsp]
        obtain ⟨f1, f2, _, _, f5, f6, _⟩ := hfound m
        exact ⟨m, A, B1, m, hl, hr.1, hr.2, fun h => absurd h hsp, f1, f2, f5, f6⟩

theorem ranges_ordered_sublist (l1 l : List aeon_range_node) (hs : l1.Sublist l)
    (h : ranges_ordered l) : ranges_ordered l1 :=
  ⟨fun n hn => h.1 n (hs.subset hn), h.2.sublist hs⟩

theorem u64_dec_MAX_INODE : u64_dec MAX_INODE = 2147483647 := by
  rw [MAX_INODE_eq, u64_dec_eq _ (by norm_num) (by norm_num)]

/-- The invariant of an inode tree after a node `i` was replaced by a node at the same
address, with a `range_low` that is not lower, and some of the later nodes were
removed. -/
theorem inode_tree_inv_replace (pre post post1 : List aeon_range_node)
    (i i1 : aeon_range_node) (h : inode_tree_inv (pre ++ i :: post))
    (hs : post1.Sublist post) (haddr : i1.addr = i.addr) (hlow : i.range_low ≤ i1.range_low)
    (hn : i1.range_low ≤ i1.range_high) (hhigh : i1.range_high < 2 ^ 32 - 1)
    (hB : ∀ b ∈ post1, i1.range_high < b.range_low) :
    inode_tree_inv (pre ++ i1 :: post1) := by
  obtain ⟨hord, hnd, hh⟩ := h
  have hsp := ranges_ordered_split pre post i hord
  have hsub : (pre ++ post1).Sublist (pre ++ i :: post) :=
    List.Sublist.append (List.Sublist.refl pre) (List.Sublist.cons i hs)
  refine ⟨?_, ?_, ?_⟩
  · exact ranges_ordered_insert pre post1 i1 (ranges_ordered_sublist _ _ hsub hord) hn
      (fun a ha => by have := (hsp.1 a ha).2; omega) hB
  · have hsub2 : (pre ++ i1 :: post1).map aeon_range_node.addr
        = ((pre ++ i :: post1).map aeon_range_node.addr) := by simp [haddr]
    rw [hsub2]
    exact hnd.sublist ((List.Sublist.append (List.Sublist.refl pre)
      (List.Sublist.cons₂ i hs)).map _)
  · intro n hn1
    rcases List.mem_append.1 hn1 with hp | hp
    · exact hh n (List.mem_append.2 (Or.inl hp))
    · rcases List.mem_cons.1 hp with rfl | hp
      · exact hhigh
      · exact hh n (List.mem_append.2 (Or.inr (List.mem_cons_of_mem _ (hs.subset hp))))

/-- The invariant of the tree of a shard is kept by `aeon_alloc_unused_inode`. -/
theorem inode_tree_inv_alloc (sbi : aeon_sb_info) (cpuid ino map_id : Nat)
    (r : alloc_inode_result)
    (hinv : inode_tree_inv (sbi.inode_maps map_id).inode_inuse_tree.toList)
    (hr : aeon_alloc_unused_inode sbi cpuid ino map_id = some r) :
    inode_tree_inv (r.sbi.inode_maps map_id).inode_inuse_tree.toList := by
  rcases alloc_unused_inode_tree sbi cpuid ino map_id r hinv.2.1 hr with ⟨_, h⟩ |
    ⟨_, _, _, _, i, pre, post, hl, hc⟩
  · rw [h]; exact hinv
  · rw [hl] at hinv
    have hsp := ranges_ordered_split pre post i hinv.1
    have hi32 : i.range_high < 2 ^ 32 - 1 := hinv.2.2 i (by simp)
    have hmod : (i.range_high + 1) % 2 ^ 32 = i.range_high + 1 :=
      Nat.mod_eq_of_lt (by omega)
    rcases hc with ⟨p, rest, rfl, _, hnew⟩ | ⟨hlt, hnew⟩
    · rw [hnew]
      have hp := hsp.2.2 p (List.mem_cons_self _ _)
      have hp32 : p.range_high < 2 ^ 32 - 1 := hinv.2.2 p (by simp)
      have hsp2 := ranges_ordered_split (pre ++ [i]) rest p (by simpa using hinv.1)
      exact inode_tree_inv_replace pre (p :: rest) rest i _ hinv
        (List.sublist_cons_self _ _) rfl (le_refl _) (by simp only; omega) hp32
        (fun b hb => (hsp2.2.2 b hb).2)
    · rw [hnew, hmod]
      rw [hmod] at hlt
      cases post with
      | nil =>
        simp only [List.head?_nil, u64_dec_MAX_INODE] at hlt
        exact inode_tree_inv_replace pre [] [] i _ hinv (List.Sublist.refl _) rfl (le_refl _)
          (by simp only; omega) (by simp only; omega) (by simp)
      | cons p rest =>
        simp only [List.head?_cons] at hlt
        have hp := hsp.2.2 p (List.mem_cons_self _ _)
        have hp32 : p.range_high < 2 ^ 32 - 1 := hinv.2.2 p (by simp)
        have hdec : u64_dec p.range_low = p.range_low - 1 :=
          u64_dec_eq _ (by omega) (by omega)
        rw [hdec] at hlt
        have hsp2 := ranges_ordered_split (pre ++ [i]) rest p (by simpa using hinv.1)
        exact inode_tree_inv_replace pre (p :: rest) (p :: rest) i _ hinv
          (List.Sublist.refl _) rfl (le_refl _) (by simp only; omega) (by simp only; omega)
          (fun b hb => by
            rcases List.mem_cons.1 hb with rfl | hb
            · simp only; omega
            · have := (hsp2.2.2 b hb).2
              simp only; omega)

/-- The invariant of an inode tree after a new node object was inserted between the
nodes below and the nodes above its range. -/
theorem inode_tree_inv_insert (A B : List aeon_range_node) (n : aeon_range_node)
    (h : inode_tree_inv (A ++ B)) (haddr : n.addr ∉ (A ++ B).map aeon_range_node.addr)
    (hn : n.range_low ≤ n.range_high) (hhigh : n.range_high < 2 ^ 32 - 1)
    (hA : ∀ a ∈ A, a.range_high < n.range_low)
    (hB : ∀ b ∈ B, n.range_high < b.range_low) :
    inode_tree_inv (A ++ n :: B) := by
  obtain ⟨hord, hnd, hh⟩ := h
  refine ⟨ranges_ordered_insert A B n hord hn hA hB, ?_, ?_⟩
  · simp only [List.map_append, List.map_cons, List.mem_append, not_or] at haddr hnd ⊢
    rw [List.nodup_append] at hnd ⊢
    refine ⟨hnd.1, List.nodup_cons.2 ⟨haddr.2, hnd.2.1⟩, ?_⟩
    intro a ha hb
    rcases List.mem_cons.1 hb with rfl | hb
    · exact haddr.1 ha
    · exact hnd.2.2 ha hb
  · intro m hm
    rcases List.mem_append.1 hm with hp | hp
    · exact hh m (List.mem_append.2 (Or.inl hp))
    · rcases List.mem_cons.1 hp with rfl | hp
      · exact hhigh
      · exact hh m (List.mem_append.2 (Or.inr hp))

/-- The invariant of the tree of a shard is kept by `aeon_free_inuse_inode` when the node
it allocates, if any, is a new object. -/
theorem inode_tree_inv_free (sbi : aeon_sb_info) (ino : Nat)
    (curr_node : Option aeon_range_node) (ret : Int)
    (hinv : inode_tree_inv (sbi.inode_maps (ino % sbi.cpus)).inode_inuse_tree.toList)
    (hfresh : ∀ c, curr_node = some c →
      c.addr ∉ rb_addrs (sbi.inode_maps (ino % sbi.cpus)).inode_inuse_tree) :
    inode_tree_inv ((aeon_free_inuse_inode sbi ino curr_node ret).2.inode_maps
      (ino % sbi.cpus)).inode_inuse_tree.toList := by
  rcases free_inuse_inode_cases sbi ino curr_node ret hinv.1 hinv.2.1
      (fun n hn => by have := hinv.2.2 n hn; omega) with ⟨_, h⟩ |
    ⟨i, pre, post, c, hl, hlo, hhi, hc, hnew, _, _, _⟩
  · rw [h]; exact hinv
  · rw [hnew]
    unfold rb_addrs at hfresh
    rw [hl] at hinv hfresh
    have hsp := ranges_ordered_split pre post i hinv.1
    have hi32 : i.range_high < 2 ^ 32 - 1 := hinv.2.2 i (by simp)
    by_cases h1 : ino / sbi.cpus = i.range_low ∧ ino / sbi.cpus = i.range_high
    · have hrep : free_replacement i (ino / sbi.cpus) c = [] := by
        unfold free_replacement; rw [if_pos h1]
      rw [hrep, List.append_nil]
      have hsub : (pre ++ post).Sublist (pre ++ i :: post) :=
        List.Sublist.append (List.Sublist.refl pre) (List.sublist_cons_self _ _)
      exact ⟨ranges_ordered_sublist _ _ hsub hinv.1, hinv.2.1.sublist (hsub.map _),
        fun n hn => hinv.2.2 n (hsub.subset hn)⟩
    · by_cases h2 : ino / sbi.cpus = i.range_low
      · have hrep : free_replacement i (ino / sbi.cpus) c
            = [{ i with range_low := ino / sbi.cpus + 1 }] := by
          unfold free_replacement; rw [if_neg h1, if_pos h2]
        rw [hrep, List.append_assoc, List.singleton_append]
        exact inode_tree_inv_replace pre post post i _ hinv (List.Sublist.refl _) rfl
          (by simp only; omega) (by simp only; omega) (by simp only; omega)
          (fun b hb => by have := (hsp.2.2 b hb).2; simp only; omega)
      · by_cases h3 : ino / sbi.cpus = i.range_high
        · have hrep : free_replacement i (ino / sbi.cpus) c
              = [{ i with range_high := ino / sbi.cpus - 1 }] := by
            unfold free_replacement; rw [if_neg h1, if_neg h2, if_pos h3]
          rw [hrep, List.append_assoc, List.singleton_append]
          exact inode_tree_inv_replace pre post post i _ hinv (List.Sublist.refl _) rfl
            (le_refl _) (by simp only; omega) (by simp only; omega)
            (fun b hb => by have := (hsp.2.2 b hb).2; simp only; omega)
        · have hrep : free_replacement i (ino / sbi.cpus) c
              = [{ i with range_high := ino / sbi.cpus - 1 },
                 { c with range_low := ino / sbi.cpus + 1, range_high := i.range_high }] := by
            unfold free_replacement; rw [if_neg h1, if_neg h2, if_neg h3]
          have hcs := hc (by omega)
          have hcf := hfresh c hcs
          have hstep := inode_tree_inv_replace pre post post i
            { i with range_high := ino / sbi.cpus - 1 } hinv (List.Sublist.refl _) rfl
            (le_refl _) (by simp only; omega) (by simp only; omega)
            (fun b hb => by have := (hsp.2.2 b hb).2; simp only; omega)
          have hstep2 : inode_tree_inv ((pre ++ [{ i with range_high := ino / sbi.cpus - 1 }])
              ++ post) := by simpa using hstep
          have hins := inode_tree_inv_insert
            (pre ++ [{ i with range_high := ino / sbi.cpus - 1 }]) post
            { c with range_low := ino / sbi.cpus + 1, range_high := i.range_high } hstep2
            (by simpa using hcf) (by simp only; omega) (by simp only; omega)
            (fun a ha => by
              rcases List.mem_append.1 ha with ha | ha
              · have := (hsp.1 a ha).2; simp only; omega
              · rw [List.mem_singleton] at ha
                subst ha
                simp only; omega)
            (fun b hb => by have := (hsp.2.2 b hb).2; simp only; omega)
          rw [hrep]
          simpa using hins

theorem inode_tree_inv_nil : inode_tree_inv [] := by
  refine ⟨⟨by simp, List.Pairwise.nil⟩, by simp, by simp⟩

/-- One iteration of `aeon_init_inode_inuse_list` on a shard whose tree is empty: the
tree becomes the single node `[0, i_range_high]`, the other shards are unchanged. -/
theorem init_inode_inuse_shard_spec (sbi : aeon_sb_info) (i : Nat) (n : aeon_range_node)
    (hnil : (sbi.inode_maps i).inode_inuse_tree = .nil) :
    (init_inode_inuse_shard sbi i (some n)).1 = 0 ∧
    ((init_inode_inuse_shard sbi i (some n)).2.inode_maps i).inode_inuse_tree.toList
      = [{ n with range_low := 0,
                  range_high := (sbi.inode_maps i).art.i_range_high % 2 ^ 32 }] ∧
    (init_inode_inuse_shard sbi i (some n)).2.cpus = sbi.cpus ∧
    ∀ j, j ≠ i → (init_inode_inuse_shard sbi i (some n)).2.inode_maps j = sbi.inode_maps j := by
  unfold init_inode_inuse_shard aeon_insert_inodetree aeon_insert_range_node
  simp only [hnil, insert_descend, rb_insert_color, rb_link_node]
  refine ⟨by simp, by simp [rb_root.toList], by simp, ?_⟩
  intro j hj
  simp [Function.update, hj]

theorem init_inode_inuse_loop_inv (nodes : Nat → Option aeon_range_node) :
    ∀ (k i : Nat) (sbi : aeon_sb_info),
      (∀ j, inode_tree_inv (sbi.inode_maps j).inode_inuse_tree.toList) →
      (∀ j, i ≤ j → (sbi.inode_maps j).inode_inuse_tree = .nil) →
      (∀ j, i ≤ j → j < i + k → (sbi.inode_maps j).art.i_range_high % 2 ^ 32 < 2 ^ 32 - 1) →
      (init_inode_inuse_loop nodes k i sbi).1 = 0 →
      ∀ j, inode_tree_inv
        ((init_inode_inuse_loop nodes k i sbi).2.inode_maps j).inode_inuse_tree.toList := by
  intro k
  induction k with
  | zero => intro i sbi hinv _ _ _ j; exact hinv j
  | succ k ih =>
    intro i sbi hinv hnil hhigh hret j
    unfold init_inode_inuse_loop at hret ⊢
    simp only at hret ⊢
    cases hn : nodes i with
    | none =>
      rw [hn] at hret
      simp [init_inode_inuse_shard, ENOMEM] at hret
    | some n =>
      rw [hn] at hret
      obtain ⟨s1, s2, _, s4⟩ := init_inode_inuse_shard_spec sbi i n (hnil i (le_refl _))
      rw [if_neg (by rw [s1]; simp)] at hret ⊢
      apply ih (i + 1) _ _ _ _ hret
      · intro j1
        by_cases hj : j1 = i
        · subst hj
          rw [s2]
          have hb := hhigh j1 (le_refl _) (by omega)
          refine ⟨⟨?_, ?_⟩, ?_, ?_⟩
          · intro m hm
            rw [List.mem_singleton] at hm
            subst hm
            simp
          · exact List.pairwise_singleton _ _
          · simp
          · intro m hm
            rw [List.mem_singleton] at hm
            subst hm
            exact hb
        · rw [s4 j1 hj]; exact hinv j1
      · intro j1 hj1
        rw [s4 j1 (by omega)]
        exact hnil j1 (by omega)
      · intro j1 hj1 hj2
        rw [s4 j1 (by omega)]
        exact hhigh j1 (by omega) (by omega)

/-- The invariant of all shards is kept by `aeon_alloc_unused_inode`. -/
theorem inode_shards_inv_alloc (sbi : aeon_sb_info) (cpuid ino map_id : Nat)
    (r : alloc_inode_result)
    (hinv : ∀ k, inode_tree_inv (sbi.inode_maps k).inode_inuse_tree.toList)
    (hr : aeon_alloc_unused_inode sbi cpuid ino map_id = some r) :
    ∀ k, inode_tree_inv (r.sbi.inode_maps k).inode_inuse_tree.toList := by
  intro k
  by_cases hk : k = map_id
  · subst hk
    exact inode_tree_inv_alloc sbi cpuid ino k r (hinv k) hr
  · rcases alloc_unused_inode_tree sbi cpuid ino map_id r (hinv map_id).2.1 hr with ⟨_, h⟩ |
      ⟨_, _, _, h, _⟩
    · rw [h]; exact hinv k
    · rw [h k hk]; exact hinv k

/-- The invariant of all shards is kept by `aeon_free_inuse_inode`. -/
theorem inode_shards_inv_free (sbi : aeon_sb_info) (ino : Nat)
    (curr_node : Option aeon_range_node) (ret : Int)
    (hinv : ∀ k, inode_tree_inv (sbi.inode_maps k).inode_inuse_tree.toList)
    (hfresh : ∀ c, curr_node = some c →
      c.addr ∉ rb_addrs (sbi.inode_maps (ino % sbi.cpus)).inode_inuse_tree) :
    ∀ k, inode_tree_inv
      ((aeon_free_inuse_inode sbi ino curr_node ret).2.inode_maps k).inode_inuse_tree.toList := by
  intro k
  by_cases hk : k = ino % sbi.cpus
  · subst hk
    exact inode_tree_inv_free sbi ino curr_node ret (hinv _) hfresh
  · rcases free_inuse_inode_cases sbi ino curr_node ret (hinv _).1 (hinv _).2.1
        (fun n hn => by have := (hinv _).2.2 n hn; omega) with ⟨_, h⟩ |
      ⟨_, _, _, _, _, _, _, _, _, _, _, h⟩
    · rw [h]; exact hinv k
    · rw [h k hk]; exact hinv k

/-- C4 (refuted as stated): one shard whose region table has `i_range_high = 2 ^ 32 - 1`:
`aeon_init_inode_inuse_list` builds the range `[0, 2 ^ 32 - 1]`, the release of inode 0
leaves `[1, 2 ^ 32 - 1]`, and the next `aeon_alloc_unused_inode` succeeds with the `u32`
number 0 and stores it as `range_high`: the node is `[1, 0]`, with
`range_low > range_high`. -/
theorem C4_alloc_after_free_inverts_range :
    ∃ r, aeon_alloc_unused_inode
        (aeon_free_inuse_inode
          (aeon_init_inode_inuse_list (fresh_inode_sbi 1 4294967295)
            (fun _ => some ⟨7, 0, 0, 0⟩)).2 0 none 0).2 0 0 0 = some r ∧
      r.ret = 0 ∧
      (r.sbi.inode_maps 0).inode_inuse_tree.toList = [⟨7, 1, 0, 0⟩] ∧
      ¬ ranges_ordered (r.sbi.inode_maps 0).inode_inuse_tree.toList := by
  refine ⟨_, rfl, by decide, by decide, ?_⟩
  intro h
  have := h.1 ⟨7, 1, 0, 0⟩ (by decide)
  simp at this

/-- C4 (amended): starting from the state built by `aeon_init_inode_inuse_list` on empty
trees with region tables whose `i_range_high` is not `2 ^ 32 - 1`, after every finite
sequence of `aeon_alloc_unused_inode` calls (that do not read through a dangling
`first_inode_range`) and `aeon_free_inuse_inode` calls (whose new node, if any, is a new
object), the nodes of every shard's inode tree have `range_low <= range_high`, are
pairwise disjoint and appear in ascending order in the in-order traversal; they are
distinct objects and every `range_high` is below `2 ^ 32 - 1`. -/
theorem C4_inode_ranges_stay_ordered (sbi : aeon_sb_info) (h : inode_reachable sbi) :
    ∀ k, ranges_ordered (sbi.inode_maps k).inode_inuse_tree.toList ∧
      (rb_addrs (sbi.inode_maps k).inode_inuse_tree).Nodup ∧
      ∀ n ∈ (sbi.inode_maps k).inode_inuse_tree.toList, n.range_high < 2 ^ 32 - 1 := by
  have hinv : ∀ k, inode_tree_inv (sbi.inode_maps k).inode_inuse_tree.toList := by
    induction h with
    | init sbi0 nodes hempty hhigh hret =>
      apply init_inode_inuse_loop_inv nodes sbi0.cpus 0 sbi0 _ (fun j _ => hempty j)
        (fun j _ hj => hhigh j (by omega)) hret
      intro j
      rw [hempty j]
      exact inode_tree_inv_nil
    | alloc sbi1 cpuid ino map_id r _ hr ih =>
      exact inode_shards_inv_alloc sbi1 cpuid ino map_id r ih hr
    | free sbi1 ino curr_node ret _ hfresh ih =>
      exact inode_shards_inv_free sbi1 ino curr_node ret ih hfresh
  exact hinv

/-- Witness of C4: one shard built with `i_range_high = 5`, after the release of
inode 2 with the new node at address 8. -/
theorem C4_inode_ranges_stay_ordered_witness :
    ranges_ordered ((aeon_free_inuse_inode
        (aeon_init_inode_inuse_list (fresh_inode_sbi 1 5) (fun _ => some ⟨7, 0, 0, 0⟩)).2
        2 (some ⟨8, 0, 0, 0⟩) 0).2.inode_maps 0).inode_inuse_tree.toList ∧
      (rb_addrs ((aeon_free_inuse_inode
        (aeon_init_inode_inuse_list (fresh_inode_sbi 1 5) (fun _ => some ⟨7, 0, 0, 0⟩)).2
        2 (some ⟨8, 0, 0, 0⟩) 0).2.inode_maps 0).inode_inuse_tree).Nodup ∧
      ∀ n ∈ ((aeon_free_inuse_inode
        (aeon_init_inode_inuse_list (fresh_inode_sbi 1 5) (fun _ => some ⟨7, 0, 0, 0⟩)).2
        2 (some ⟨8, 0, 0, 0⟩) 0).2.inode_maps 0).inode_inuse_tree.toList,
        n.range_high < 2 ^ 32 - 1 :=
  C4_inode_ranges_stay_ordered _
    (inode_reachable.free _ 2 (some ⟨8, 0, 0, 0⟩) 0
      (inode_reachable.init (fresh_inode_sbi 1 5) (fun _ => some ⟨7, 0, 0, 0⟩)
        (fun _ => rfl) (fun _ _ => by show 5 % 2 ^ 32 < 2 ^ 32 - 1; norm_num) (by decide))
      (fun c hc => by
        simp only [Option.some.injEq] at hc
        subst hc
        decide)) 0

theorem sum_blocks_append (a b : List aeon_range_node) :
    sum_blocks (a ++ b) = sum_blocks a + sum_blocks b := by
  simp [sum_blocks]

theorem range_sum_update (f g : Nat → Nat) (c : Nat) (h : ∀ k, k ≠ c → f k = g k) :
    ∀ n, c < n →
      ((List.range n).map f).sum + g c = ((List.range n).map g).sum + f c := by
  intro n
  induction n with
  | zero => intro h0; omega
  | succ n ih =>
    intro hc
    rw [List.range_succ, List.map_append, List.map_append, List.sum_append, List.sum_append]
    simp only [List.map_cons, List.map_nil, List.sum_cons, List.sum_nil, Nat.add_zero]
    by_cases hcn : c = n
    · subst hcn
      have : (List.range c).map f = (List.range c).map g := by
        apply List.map_congr_left
        intro k hk
        exact h k (by have := List.mem_range.1 hk; omega)
      rw [this]
      omega
    · have := ih (by omega)
      rw [h n (fun e => hcn e.symm)]
      omega

/-- The total of the covered numbers when one shard changes. -/
theorem total_covered_update (sbi sbi1 : aeon_sb_info) (c : Nat) (hc : c < sbi.cpus)
    (hcpus : sbi1.cpus = sbi.cpus)
    (h : ∀ k, k ≠ c → sbi1.inode_maps k = sbi.inode_maps k) :
    total_covered sbi1 + sum_blocks (sbi.inode_maps c).inode_inuse_tree.toList
      = total_covered sbi + sum_blocks (sbi1.inode_maps c).inode_inuse_tree.toList := by
  unfold total_covered
  rw [hcpus]
  exact range_sum_update (fun k => sum_blocks (sbi1.inode_maps k).inode_inuse_tree.toList)
    (fun k => sum_blocks (sbi.inode_maps k).inode_inuse_tree.toList) c
    (fun k hk => by show sum_blocks _ = sum_blocks _; rw [h k hk]) _ hc

/-- A successful `aeon_alloc_unused_inode` on a shard that satisfies the invariant raises
the number of covered internal numbers and `s_inodes_used_count` by exactly 1. -/
theorem alloc_unused_inode_count (sbi : aeon_sb_info) (cpuid ino map_id : Nat)
    (r : alloc_inode_result)
    (hinv : inode_tree_inv (sbi.inode_maps map_id).inode_inuse_tree.toList)
    (hmap : map_id < sbi.cpus)
    (hr : aeon_alloc_unused_inode sbi cpuid ino map_id = some r) (hret : r.ret = 0) :
    total_covered r.sbi = total_covered sbi + 1 ∧
    r.sbi.s_inodes_used_count = sbi.s_inodes_used_count + 1 := by
  rcases alloc_unused_inode_tree sbi cpuid ino map_id r hinv.2.1 hr with ⟨h, _⟩ |
    ⟨_, hcpus, hcount, hothers, i, pre, post, hl, hc⟩
  · rw [hret] at h
    simp [ENOSPC] at h
  · refine ⟨?_, hcount⟩
    have ht := total_covered_update sbi r.sbi map_id hmap hcpus hothers
    rw [hl] at hinv ht
    have hsp := ranges_ordered_split pre post i hinv.1
    have hi32 : i.range_high < 2 ^ 32 - 1 := hinv.2.2 i (by simp)
    have hmod : (i.range_high + 1) % 2 ^ 32 = i.range_high + 1 :=
      Nat.mod_eq_of_lt (by omega)
    rcases hc with ⟨p, rest, rfl, heq, hnew⟩ | ⟨_, hnew⟩
    · rw [hnew] at ht
      have hp := hsp.2.2 p (List.mem_cons_self _ _)
      have hp32 : p.range_high < 2 ^ 32 - 1 := hinv.2.2 p (by simp)
      rw [hmod, u64_dec_eq _ (by omega) (by omega)] at heq
      simp only [sum_blocks_append, sum_blocks_cons] at ht
      omega
    · rw [hnew, hmod] at ht
      simp only [sum_blocks_append, sum_blocks_cons] at ht
      omega

theorem sum_blocks_free_replacement (i c : aeon_range_node) (internal : Nat)
    (h1 : i.range_low ≤ internal) (h2 : internal ≤ i.range_high) :
    sum_blocks (free_replacement i internal c) + 1 = i.range_high - i.range_low + 1 := by
  unfold free_replacement
  split_ifs <;> simp [sum_blocks] <;> omega

/-- A call of `aeon_free_inuse_inode` for a number in use, on a shard that satisfies the
invariant and with a new node at hand, lowers the number of covered internal numbers and
`s_inodes_used_count` by exactly 1. -/
theorem free_inuse_inode_count (sbi : aeon_sb_info) (ino : Nat) (c : aeon_range_node)
    (ret : Int)
    (hinv : inode_tree_inv (sbi.inode_maps (ino % sbi.cpus)).inode_inuse_tree.toList)
    (hcpus : 0 < sbi.cpus)
    (hused : covers (sbi.inode_maps (ino % sbi.cpus)).inode_inuse_tree.toList
      (ino / sbi.cpus)) :
    total_covered (aeon_free_inuse_inode sbi ino (some c) ret).2 + 1 = total_covered sbi ∧
    (aeon_free_inuse_inode sbi ino (some c) ret).2.s_inodes_used_count
      = sbi.s_inodes_used_count - 1 := by
  obtain ⟨i, hi, hlo, hhi⟩ := hused
  obtain ⟨pre, post, hl⟩ := List.append_of_mem hi
  obtain ⟨f1, f2, _, _, f5, f6, _⟩ := free_inuse_inode_found sbi ino c ret i pre post hl
    hinv.1 hinv.2.1 hlo hhi (by have := hinv.2.2 i hi; omega)
  refine ⟨?_, f2⟩
  have ht := total_covered_update sbi (aeon_free_inuse_inode sbi ino (some c) ret).2
    (ino % sbi.cpus) (Nat.mod_lt _ hcpus) f5 f6
  rw [f1, hl] at ht
  have hs := sum_blocks_free_replacement i c (ino / sbi.cpus) hlo hhi
  simp only [sum_blocks_append, sum_blocks_cons] at ht
  omega

/-- C14 (refuted as stated): on the shard holding `[0, 2 ^ 32 - 1]`, with
`s_inodes_used_count` equal to the `2 ^ 32` numbers covered, `aeon_alloc_unused_inode`
succeeds with the `u32` number 0 and stores it as `range_high`: the count rises to
`2 ^ 32 + 1` while a single number is covered afterwards. -/
theorem C14_alloc_truncated_loses_coverage :
    example_full_sbi.s_inodes_used_count = total_covered example_full_sbi ∧
    ∃ r, aeon_alloc_unused_inode example_full_sbi 0 0 0 = some r ∧
      r.ret = 0 ∧
      r.sbi.s_inodes_used_count = 4294967297 ∧
      total_covered r.sbi = 1 := by
  refine ⟨by decide, _, rfl, by decide, by decide, by decide⟩

/-- C14 (amended): starting from a state whose shards have ordered, disjoint ranges in
distinct node objects with every `range_high` below `2 ^ 32 - 1`, and in which
`s_inodes_used_count` equals the total number of internal inode numbers covered by the
range nodes of all shards, that equality (and the condition on the shards) still holds
after every finite sequence of successful `aeon_alloc_unused_inode` calls and of
`aeon_free_inuse_inode` calls for numbers in use (with a new node object at hand): each
such allocation raises both by exactly 1 and each such release lowers both by exactly 1. -/
theorem C14_used_count_equals_covered (s sbi : aeon_sb_info)
    (hinv : ∀ k, inode_tree_inv (s.inode_maps k).inode_inuse_tree.toList)
    (heq : s.s_inodes_used_count = total_covered s)
    (hrun : inode_run s sbi) :
    sbi.s_inodes_used_count = total_covered sbi ∧
    (∀ k, inode_tree_inv (sbi.inode_maps k).inode_inuse_tree.toList) ∧
    (∀ (cpuid ino map_id : Nat) (r : alloc_inode_result), map_id < sbi.cpus →
      aeon_alloc_unused_inode sbi cpuid ino map_id = some r → r.ret = 0 →
      total_covered r.sbi = total_covered sbi + 1 ∧
      r.sbi.s_inodes_used_count = sbi.s_inodes_used_count + 1) ∧
    (∀ (ino : Nat) (c : aeon_range_node) (ret : Int), 0 < sbi.cpus →
      covers (sbi.inode_maps (ino % sbi.cpus)).inode_inuse_tree.toList (ino / sbi.cpus) →
      total_covered (aeon_free_inuse_inode sbi ino (some c) ret).2 + 1 = total_covered sbi ∧
      (aeon_free_inuse_inode sbi ino (some c) ret).2.s_inodes_used_count
        = sbi.s_inodes_used_count - 1) := by
  have hmain : sbi.s_inodes_used_count = total_covered sbi ∧
      ∀ k, inode_tree_inv (sbi.inode_maps k).inode_inuse_tree.toList := by
    induction hrun with
    | start => exact ⟨heq, hinv⟩
    | alloc sbi1 cpuid ino map_id r _ hmap hr hret ih =>
      obtain ⟨h1, h2⟩ := alloc_unused_inode_count sbi1 cpuid ino map_id r (ih.2 map_id) hmap
        hr hret
      refine ⟨?_, inode_shards_inv_alloc sbi1 cpuid ino map_id r ih.2 hr⟩
      rw [h2, h1, ih.1]
      push_cast
      ring
    | free sbi1 ino c ret _ hcpus hfresh hused ih =>
      obtain ⟨h1, h2⟩ := free_inuse_inode_count sbi1 ino c ret (ih.2 _) hcpus hused
      refine ⟨?_, inode_shards_inv_free sbi1 ino (some c) ret ih.2
        (fun c1 hc1 => by simp only [Option.some.injEq] at hc1; subst hc1; exact hfresh)⟩
      rw [h2, ih.1, ← h1]
      push_cast
      ring
  refine ⟨hmain.1, hmain.2, ?_, ?_⟩
  · intro cpuid ino map_id r hmap hr hret
    exact alloc_unused_inode_count sbi cpuid ino map_id r (hmain.2 map_id) hmap hr hret
  · intro ino c ret hcpus hused
    exact free_inuse_inode_count sbi ino c ret (hmain.2 _) hcpus hused

/-- Witness of C14: the shard holding `[0, 5]` after the release of inode 2. -/
theorem C14_used_count_equals_covered_witness :
    (aeon_free_inuse_inode example_count_sbi 2 (some ⟨8, 0, 0, 0⟩) 0).2.s_inodes_used_count
      = total_covered (aeon_free_inuse_inode example_count_sbi 2 (some ⟨8, 0, 0, 0⟩) 0).2 ∧
    (∀ k, inode_tree_inv ((aeon_free_inuse_inode example_count_sbi 2 (some ⟨8, 0, 0, 0⟩)
      0).2.inode_maps k).inode_inuse_tree.toList) ∧
    (∀ (cpuid ino map_id : Nat) (r : alloc_inode_result),
      map_id < (aeon_free_inuse_inode example_count_sbi 2 (some ⟨8, 0, 0, 0⟩) 0).2.cpus →
      aeon_alloc_unused_inode (aeon_free_inuse_inode example_count_sbi 2
        (some ⟨8, 0, 0, 0⟩) 0).2 cpuid ino map_id = some r → r.ret = 0 →
      total_covered r.sbi
        = total_covered (aeon_free_inuse_inode example_count_sbi 2
            (some ⟨8, 0, 0, 0⟩) 0).2 + 1 ∧
      r.sbi.s_inodes_used_count
        = (aeon_free_inuse_inode example_count_sbi 2
            (some ⟨8, 0, 0, 0⟩) 0).2.s_inodes_used_count + 1) ∧
    (∀ (ino : Nat) (c : aeon_range_node) (ret : Int),
      0 < (aeon_free_inuse_inode example_count_sbi 2 (some ⟨8, 0, 0, 0⟩) 0).2.cpus →
      covers (((aeon_free_inuse_inode example_count_sbi 2 (some ⟨8, 0, 0, 0⟩) 0).2.inode_maps
          (ino % (aeon_free_inuse_inode example_count_sbi 2
            (some ⟨8, 0, 0, 0⟩) 0).2.cpus)).inode_inuse_tree.toList)
        (ino / (aeon_free_inuse_inode example_count_sbi 2 (some ⟨8, 0, 0, 0⟩) 0).2.cpus) →
      total_covered (aeon_free_inuse_inode
          (aeon_free_inuse_inode example_count_sbi 2 (some ⟨8, 0, 0, 0⟩) 0).2
          ino (some c) ret).2 + 1
        = total_covered (aeon_free_inuse_inode example_count_sbi 2
            (some ⟨8, 0, 0, 0⟩) 0).2 ∧
      (aeon_free_inuse_inode
          (aeon_free_inuse_inode example_count_sbi 2 (some ⟨8, 0, 0, 0⟩) 0).2
          ino (some c) ret).2.s_inodes_used_count
        = (aeon_free_inuse_inode example_count_sbi 2
            (some ⟨8, 0, 0, 0⟩) 0).2.s_inodes_used_count - 1) :=
  C14_used_count_equals_covered example_count_sbi _
    (fun _ => ⟨⟨fun n hn => by
        rw [show n = ⟨1, 0, 5, 0⟩ from List.mem_singleton.1 hn]; decide,
      List.pairwise_singleton _ _⟩, List.nodup_singleton _, fun n hn => by
        rw [show n = ⟨1, 0, 5, 0⟩ from List.mem_singleton.1 hn]; decide⟩)
    (by decide)
    (inode_run.free example_count_sbi 2 ⟨8, 0, 0, 0⟩ 0 inode_run.start (by decide)
      (by decide) ⟨⟨1, 0, 5, 0⟩, List.mem_singleton.2 rfl, by decide, by decide⟩)

theorem slot_addr_eq (cfg : aeon_consts) (B b j : Nat)
    (h1 : cfg.AEON_INTERNAL_ENTRY * 2 ^ cfg.AEON_D_SHIFT ≤ 2 ^ cfg.AEON_SHIFT)
    (h2 : cfg.AEON_HEAD + B * 2 ^ cfg.AEON_SHIFT ≤ 2 ^ 64)
    (h3 : 2 ^ cfg.AEON_SHIFT ≤ 2 ^ 32) (hb : b < B) (hj : j < cfg.AEON_INTERNAL_ENTRY) :
    slot_addr cfg b j
      = cfg.AEON_HEAD + b * 2 ^ cfg.AEON_SHIFT + j * 2 ^ cfg.AEON_D_SHIFT ∧
    j * 2 ^ cfg.AEON_D_SHIFT < 2 ^ cfg.AEON_SHIFT := by
  have hd : 0 < 2 ^ cfg.AEON_D_SHIFT := Nat.two_pow_pos _
  have hy : j * 2 ^ cfg.AEON_D_SHIFT < cfg.AEON_INTERNAL_ENTRY * 2 ^ cfg.AEON_D_SHIFT :=
    Nat.mul_lt_mul_of_pos_right hj hd
  have hx : (b + 1) * 2 ^ cfg.AEON_SHIFT ≤ B * 2 ^ cfg.AEON_SHIFT :=
    Nat.mul_le_mul_right _ hb
  rw [Nat.add_mul, Nat.one_mul] at hx
  unfold slot_addr
  rw [Nat.shiftLeft_eq, Nat.shiftLeft_eq]
  generalize b * 2 ^ cfg.AEON_SHIFT = x at *
  generalize j * 2 ^ cfg.AEON_D_SHIFT = y at *
  generalize B * 2 ^ cfg.AEON_SHIFT = z at *
  generalize cfg.AEON_INTERNAL_ENTRY * 2 ^ cfg.AEON_D_SHIFT = w at *
  generalize 2 ^ cfg.AEON_SHIFT = K at *
  have e1 : x % 2 ^ 64 = x := Nat.mod_eq_of_lt (by omega)
  have e2 : y % 2 ^ 32 = y := Nat.mod_eq_of_lt (by omega)
  rw [e1, e2]
  exact ⟨Nat.mod_eq_of_lt (by omega), by omega⟩

/-- The slots of the blocks below `B` have distinct addresses when the slots of a block
lie within the block and the blocks below `B` lie below `2 ^ 64`. -/
theorem slots_distinct_of_geometry (cfg : aeon_consts) (B : Nat)
    (h1 : cfg.AEON_INTERNAL_ENTRY * 2 ^ cfg.AEON_D_SHIFT ≤ 2 ^ cfg.AEON_SHIFT)
    (h2 : cfg.AEON_HEAD + B * 2 ^ cfg.AEON_SHIFT ≤ 2 ^ 64)
    (h3 : 2 ^ cfg.AEON_SHIFT ≤ 2 ^ 32) : slots_distinct cfg B := by
  intro b b1 j j1 hb hb1 hj hj1 he
  obtain ⟨e1, y1⟩ := slot_addr_eq cfg B b j h1 h2 h3 hb hj
  obtain ⟨e2, y2⟩ := slot_addr_eq cfg B b1 j1 h1 h2 h3 hb1 hj1
  rw [e1, e2] at he
  have hd : 0 < 2 ^ cfg.AEON_D_SHIFT := Nat.two_pow_pos _
  have hbb : b = b1 := by
    rcases Nat.lt_trichotomy b b1 with hlt | heq | hgt
    · exfalso
      have hx : (b + 1) * 2 ^ cfg.AEON_SHIFT ≤ b1 * 2 ^ cfg.AEON_SHIFT :=
        Nat.mul_le_mul_right _ hlt
      rw [Nat.add_mul, Nat.one_mul] at hx
      omega
    · exact heq
    · exfalso
      have hx : (b1 + 1) * 2 ^ cfg.AEON_SHIFT ≤ b * 2 ^ cfg.AEON_SHIFT :=
        Nat.mul_le_mul_right _ hgt
      rw [Nat.add_mul, Nat.one_mul] at hx
      omega
  subst hbb
  exact ⟨rfl, Nat.eq_of_mul_eq_mul_right hd (by omega)⟩

theorem find_descend_mem (key : Nat) (type : node_type) :
    ∀ (t : rb_root) (prev : Option aeon_range_node),
      (find_descend t key type prev).1 ≠ 0 →
      ∃ m ∈ t.toList, (find_descend t key type prev).2 = some m := by
  intro t
  induction t with
  | nil => intro prev h; exact absurd rfl h
  | node l c r ihl ihr =>
    intro prev h
    unfold find_descend at h ⊢
    simp only at h ⊢
    simp only [rb_root.toList, List.mem_append, List.mem_cons]
    split_ifs at h ⊢ with h1 h2
    · obtain ⟨m, hm, e⟩ := ihl _ h
      exact ⟨m, Or.inl hm, e⟩
    · obtain ⟨m, hm, e⟩ := ihr _ h
      exact ⟨m, Or.inr (Or.inr hm), e⟩
    · exact ⟨c, Or.inr (Or.inl rfl), rfl⟩

/-- The index after `aeon_insert_dir_tree`: unchanged on an error, otherwise the node, with
the entry as its payload, was added among the nodes. -/
theorem insert_dir_tree_cases (t : rb_root) (name : List Int) (namelen : Int) (e : Nat)
    (node : Option aeon_range_node) :
    ((aeon_insert_dir_tree t name namelen e node).1 ≠ 0 ∧
      (aeon_insert_dir_tree t name namelen e node).2 = t) ∨
    ((aeon_insert_dir_tree t name namelen e node).1 = 0 ∧
      ∃ n A B, n.direntry = e ∧ t.toList = A ++ B ∧
        (aeon_insert_dir_tree t name namelen e node).2.toList = A ++ n :: B) := by
  unfold aeon_insert_dir_tree aeon_insert_range_node
  cases node with
  | none => left; simp [ENOMEM]
  | some nd =>
    simp only
    rcases insert_descend_find
        { nd with range_low := BKDRHash name namelen, direntry := e } node_type.NODE_DIR t none
      with ⟨_, h⟩ | ⟨_, t1, A, B, h, hl, hl1⟩
    · left; rw [h]; simp [EINVAL]
    · right
      rw [h]
      exact ⟨rfl, _, A, B, rfl, hl, hl1⟩

/-- The index after a successful `aeon_remove_dir_tree`: a node was erased, and
`aeon_find_dentry` returned the payload of that node for the same name. -/
theorem remove_dir_tree_ok (t : rb_root) (name : List Int) (len : Nat) (hlen : len < 2 ^ 32)
    (h : (aeon_remove_dir_tree t name (to_int (len % 2 ^ 32 : Nat))).1 = 0) :
    ∃ m ∈ t.toList, aeon_find_dentry t name len = some m.direntry ∧
      (aeon_remove_dir_tree t name (to_int (len % 2 ^ 32 : Nat))).2 = rb_erase m.addr t := by
  rw [Nat.mod_eq_of_lt hlen] at h ⊢
  unfold aeon_remove_dir_tree at h ⊢
  unfold aeon_find_dentry
  unfold aeon_find_range_node at h ⊢
  have hm := find_descend_mem (BKDRHash name (to_int len)) node_type.NODE_DIR t none
  cases hf : find_descend t (BKDRHash name (to_int len)) node_type.NODE_DIR none with
  | mk found node =>
    simp only [hf] at h hm ⊢
    cases node with
    | none => simp [EINVAL] at h
    | some m =>
      simp only at h ⊢
      by_cases hc : found = 0 ∨ BKDRHash name (to_int len) ≠ m.hash
      · rw [if_pos hc] at h; simp [EINVAL] at h
      · rw [if_neg hc]
        simp only [not_or, not_not] at hc
        obtain ⟨m1, hm1, e⟩ := hm hc.1
        simp only [Option.some.injEq] at e
        subst e
        refine ⟨m, hm1, ?_, rfl⟩
        rw [if_pos ⟨hc.1, hc.2⟩]

theorem handed_out_lt (cfg : aeon_consts) (B : Nat) (st : dir_state) (live : List Nat)
    (hinv : slots_inv cfg B st live) (x : Nat) (hx : handed_out cfg st.de_map x) :
    ∃ g j, g ≤ st.de_map.num_latest_dentry ∧ j < cfg.AEON_INTERNAL_ENTRY ∧
      (g = st.de_map.num_latest_dentry → j < st.de_map.num_internal_dentries) ∧
      ¬ (g = 0 ∧ j < 2) ∧ st.de_map.block_dentry g < B ∧
      x = slot_addr cfg (st.de_map.block_dentry g) j := by
  obtain ⟨g, j, hg, hj, hb, he⟩ := hx
  refine ⟨g, j, hg, ?_, ?_, hb, hinv.blocks_lt g hg, he⟩
  · split_ifs at hj
    · have := hinv.internal_le; omega
    · exact hj
  · intro h
    rw [if_pos h] at hj
    exact hj

/-- The invariant depends on the index, the list of invalidated slots and the counters and
block numbers of the dentry map only. -/
theorem slots_inv_congr (cfg : aeon_consts) (B : Nat) (st st1 : dir_state) (live : List Nat)
    (h : slots_inv cfg B st live) (h1 : st1.invalid_list = st.invalid_list)
    (h2 : st1.rb_tree = st.rb_tree)
    (h3 : st1.de_map.num_latest_dentry = st.de_map.num_latest_dentry)
    (h4 : st1.de_map.num_internal_dentries = st.de_map.num_internal_dentries)
    (h5 : st1.de_map.block_dentry = st.de_map.block_dentry) :
    slots_inv cfg B st1 live := by
  have hh : ∀ x, handed_out cfg st1.de_map x ↔ handed_out cfg st.de_map x := by
    intro x
    unfold handed_out
    rw [h3, h4, h5]
  exact
    { live_nodup := h.live_nodup
      invalid_nodup := by rw [h1]; exact h.invalid_nodup
      invalid_not_live := by rw [h1]; exact h.invalid_not_live
      live_handed := fun x hx => (hh x).2 (h.live_handed x hx)
      invalid_handed := fun x hx => (hh x).2 (h.invalid_handed x (by rw [← h1]; exact hx))
      index_live := by rw [h2]; exact h.index_live
      index_nodup := by rw [h2]; exact h.index_nodup
      blocks_lt := by rw [h3, h5]; exact h.blocks_lt
      blocks_inj := by rw [h3, h5]; exact h.blocks_inj
      latest_lt := by rw [h3]; exact h.latest_lt
      internal_pos := by rw [h4]; exact h.internal_pos
      internal_le := by rw [h4]; exact h.internal_le
      internal_boot := by rw [h3, h4]; exact h.internal_boot }

/-- The invariant after a slot of the list of invalidated slots was handed out again. -/
theorem slots_inv_reuse (cfg : aeon_consts) (B : Nat) (st st1 : dir_state) (live : List Nat)
    (d : Nat) (rest : List Nat)
    (h : slots_inv cfg B st live) (hl : st.invalid_list = d :: rest)
    (h1 : st1.invalid_list = rest) (h2 : st1.rb_tree = st.rb_tree)
    (h3 : st1.de_map.num_latest_dentry = st.de_map.num_latest_dentry)
    (h4 : st1.de_map.num_internal_dentries = st.de_map.num_internal_dentries)
    (h5 : st1.de_map.block_dentry = st.de_map.block_dentry) :
    slots_inv cfg B st1 (d :: live) := by
  have hh : ∀ x, handed_out cfg st1.de_map x ↔ handed_out cfg st.de_map x := by
    intro x
    unfold handed_out
    rw [h3, h4, h5]
  have hnd := h.invalid_nodup
  rw [hl, List.nodup_cons] at hnd
  have hdl : d ∉ live := h.invalid_not_live d (by rw [hl]; simp)
  exact
    { live_nodup := List.nodup_cons.2 ⟨hdl, h.live_nodup⟩
      invalid_nodup := by rw [h1]; exact hnd.2
      invalid_not_live := by
        rw [h1]
        intro x hx hm
        rcases List.mem_cons.1 hm with rfl | hm
        · exact hnd.1 hx
        · exact h.invalid_not_live x (by rw [hl]; exact List.mem_cons_of_mem _ hx) hm
      live_handed := by
        intro x hx
        rcases List.mem_cons.1 hx with rfl | hx
        · exact (hh _).2 (h.invalid_handed _ (by rw [hl]; simp))
        · exact (hh x).2 (h.live_handed x hx)
      invalid_handed := fun x hx =>
        (hh x).2 (h.invalid_handed x (by rw [hl]; exact List.mem_cons_of_mem _ (h1 ▸ hx)))
      index_live := by
        rw [h2]
        exact fun n hn => List.mem_cons_of_mem _ (h.index_live n hn)
      index_nodup := by rw [h2]; exact h.index_nodup
      blocks_lt := by rw [h3, h5]; exact h.blocks_lt
      blocks_inj := by rw [h3, h5]; exact h.blocks_inj
      latest_lt := by rw [h3]; exact h.latest_lt
      internal_pos := by rw [h4]; exact h.internal_pos
      internal_le := by rw [h4]; exact h.internal_le
      internal_boot := by rw [h3, h4]; exact h.internal_boot }

/-- The invariant after the next slot of the latest block was handed out. -/
theorem slots_inv_internal (cfg : aeon_consts) (B : Nat) (st st1 : dir_state)
    (live : List Nat) (hgeo : slots_distinct cfg B)
    (h : slots_inv cfg B st live)
    (hni : st.de_map.num_internal_dentries ≠ cfg.AEON_INTERNAL_ENTRY)
    (h1 : st1.invalid_list = []) (h2 : st1.rb_tree = st.rb_tree)
    (h3 : st1.de_map.num_latest_dentry = st.de_map.num_latest_dentry)
    (h4 : st1.de_map.num_internal_dentries = st.de_map.num_internal_dentries + 1)
    (h5 : st1.de_map.block_dentry = st.de_map.block_dentry) :
    slots_inv cfg B st1
      (slot_addr cfg (st.de_map.block_dentry st.de_map.num_latest_dentry)
        st.de_map.num_internal_dentries :: live) := by
  have hle := h.internal_le
  have hold : ∀ x, handed_out cfg st.de_map x → handed_out cfg st1.de_map x := by
    intro x ⟨g, j, hg, hj, hb, he⟩
    refine ⟨g, j, by rw [h3]; exact hg, ?_, hb, by rw [h5]; exact he⟩
    rw [h3, h4]
    split_ifs at hj ⊢ <;> omega
  have hnew : slot_addr cfg (st.de_map.block_dentry st.de_map.num_latest_dentry)
      st.de_map.num_internal_dentries ∉ live := by
    intro hm
    obtain ⟨g, j, hg, hj, hjl, _, hb, he⟩ := handed_out_lt cfg B st live h _ (h.live_handed _ hm)
    obtain ⟨e1, e2⟩ := hgeo _ _ _ _ (h.blocks_lt _ (le_refl _)) hb (by omega) hj he
    have := h.blocks_inj _ _ (le_refl _) hg e1
    have := hjl this.symm
    omega
  exact
    { live_nodup := List.nodup_cons.2 ⟨hnew, h.live_nodup⟩
      invalid_nodup := by rw [h1]; exact List.nodup_nil
      invalid_not_live := by rw [h1]; simp
      live_handed := by
        intro x hx
        rcases List.mem_cons.1 hx with rfl | hx
        · refine ⟨st.de_map.num_latest_dentry, st.de_map.num_internal_dentries,
            by rw [h3], ?_, ?_, by rw [h5]⟩
          · rw [h3, h4, if_pos rfl]; omega
          · intro hc
            have := h.internal_boot hc.1
            omega
        · exact hold x (h.live_handed x hx)
      invalid_handed := by rw [h1]; simp
      index_live := by
        rw [h2]
        exact fun n hn => List.mem_cons_of_mem _ (h.index_live n hn)
      index_nodup := by rw [h2]; exact h.index_nodup
      blocks_lt := by rw [h3, h5]; exact h.blocks_lt
      blocks_inj := by rw [h3, h5]; exact h.blocks_inj
      latest_lt := by rw [h3]; exact h.latest_lt
      internal_pos := by rw [h4]; omega
      internal_le := by rw [h4]; omega
      internal_boot := by
        rw [h3, h4]
        intro hc
        have := h.internal_boot hc
        omega }

/-- The invariant after a new block was linked and its first slot handed out. -/
theorem slots_inv_grow (cfg : aeon_consts) (B : Nat) (st st1 : dir_state)
    (live : List Nat) (b : Nat) (hgeo : slots_distinct cfg B) (hN : 1 ≤ cfg.AEON_INTERNAL_ENTRY)
    (h : slots_inv cfg B st live)
    (hlat : st.de_map.num_latest_dentry + 1 ≤ cfg.MAX_ENTRY - 1)
    (hb : b < B) (hbn : ∀ g, g ≤ st.de_map.num_latest_dentry → st.de_map.block_dentry g ≠ b)
    (h1 : st1.invalid_list = []) (h2 : st1.rb_tree = st.rb_tree)
    (h3 : st1.de_map.num_latest_dentry = st.de_map.num_latest_dentry + 1)
    (h4 : st1.de_map.num_internal_dentries = 1)
    (h5 : st1.de_map.block_dentry
      = Function.update st.de_map.block_dentry (st.de_map.num_latest_dentry + 1) b) :
    slots_inv cfg B st1 (slot_addr cfg b 0 :: live) := by
  have hblk : ∀ g, g ≤ st.de_map.num_latest_dentry →
      st1.de_map.block_dentry g = st.de_map.block_dentry g := by
    intro g hg
    rw [h5, Function.update_noteq (by omega)]
  have hblk1 : st1.de_map.block_dentry (st.de_map.num_latest_dentry + 1) = b := by
    rw [h5, Function.update_same]
  have hold : ∀ x, handed_out cfg st.de_map x → handed_out cfg st1.de_map x := by
    intro x hx
    obtain ⟨g, j, hg, hj, _, hb0, _, he⟩ := handed_out_lt cfg B st live h x hx
    refine ⟨g, j, by rw [h3]; omega, ?_, hb0, by rw [hblk g hg]; exact he⟩
    rw [h3, if_neg (by omega)]
    exact hj
  have hnew : slot_addr cfg b 0 ∉ live := by
    intro hm
    obtain ⟨g, j, hg, hj, _, _, hbg, he⟩ := handed_out_lt cfg B st live h _ (h.live_handed _ hm)
    obtain ⟨e1, _⟩ := hgeo _ _ _ _ hb hbg (by omega) hj he
    exact hbn g hg e1.symm
  exact
    { live_nodup := List.nodup_cons.2 ⟨hnew, h.live_nodup⟩
      invalid_nodup := by rw [h1]; exact List.nodup_nil
      invalid_not_live := by rw [h1]; simp
      live_handed := by
        intro x hx
        rcases List.mem_cons.1 hx with rfl | hx
        · refine ⟨st.de_map.num_latest_dentry + 1, 0, by rw [h3], ?_, by omega,
            by rw [hblk1]⟩
          rw [h3, h4, if_pos rfl]
          omega
        · exact hold x (h.live_handed x hx)
      invalid_handed := by rw [h1]; simp
      index_live := by
        rw [h2]
        exact fun n hn => List.mem_cons_of_mem _ (h.index_live n hn)
      index_nodup := by rw [h2]; exact h.index_nodup
      blocks_lt := by
        rw [h3]
        intro g hg
        by_cases hgl : g = st.de_map.num_latest_dentry + 1
        · rw [hgl, hblk1]; exact hb
        · rw [hblk g (by omega)]; exact h.blocks_lt g (by omega)
      blocks_inj := by
        rw [h3]
        intro g g1 hg hg1 he
        by_cases hgl : g = st.de_map.num_latest_dentry + 1
        · by_cases hgl1 : g1 = st.de_map.num_latest_dentry + 1
          · omega
          · rw [hgl, hblk1, hblk g1 (by omega)] at he
            exact absurd he.symm (hbn g1 (by omega))
        · by_cases hgl1 : g1 = st.de_map.num_latest_dentry + 1
          · rw [hgl1, hblk1, hblk g (by omega)] at he
            exact absurd he (hbn g (by omega))
          · rw [hblk g (by omega), hblk g1 (by omega)] at he
            exact h.blocks_inj g g1 (by omega) (by omega) he
      latest_lt := by rw [h3]; exact hlat
      internal_pos := by rw [h4]
      internal_le := by rw [h4]; exact hN
      internal_boot := by rw [h3]; intro hc; omega }

theorem alloc_new_dentry_block_answer (st : dir_state)
    (h : IS_ERR (aeon_alloc_new_dentry_block st).1 = false) :
    ∃ b a rest, st.new_dentry_blocks = (b, a) :: rest ∧
      (aeon_alloc_new_dentry_block st).2.1 = b % 2 ^ 64 ∧
      (aeon_alloc_new_dentry_block st).1 = a % 2 ^ 64 := by
  unfold aeon_alloc_new_dentry_block aeon_get_new_dentry_block at h ⊢
  cases hl : st.new_dentry_blocks with
  | nil =>
    rw [hl] at h
    simp only [if_true] at h
    exact absurd h (by decide)
  | cons p rest =>
    obtain ⟨b, a⟩ := p
    rw [hl] at h
    simp only at h ⊢
    by_cases hb : b % 2 ^ 64 = 0
    · rw [if_pos hb] at h
      have he : IS_ERR (ERR_PTR (-ENOSPC)) = true := by decide
      simp only [he] at h
      exact absurd h (by decide)
    · rw [if_neg hb]
      exact ⟨b, a, rest, rfl, rfl, rfl⟩

theorem slot_addr_lt (cfg : aeon_consts) (b j : Nat) : slot_addr cfg b j < 2 ^ 64 := by
  unfold slot_addr
  exact Nat.mod_lt _ (by norm_num)

/-- The invariant is kept by `aeon_get_dentry_space`; a slot that it returns joins the
live slots. -/
theorem slots_inv_get_space (cfg : aeon_consts) (B : Nat) (st : dir_state) (live : List Nat)
    (hN2 : 2 ≤ cfg.AEON_INTERNAL_ENTRY) (hN : cfg.AEON_INTERNAL_ENTRY < 2 ^ 32)
    (hM1 : 1 ≤ cfg.MAX_ENTRY) (hM2 : cfg.MAX_ENTRY ≤ 2 ^ 32) (hB : B ≤ 2 ^ 64)
    (hgeo : slots_distinct cfg B) (hinv : slots_inv cfg B st live)
    (hfresh : fresh_answer cfg B st) :
    slots_inv cfg B (aeon_get_dentry_space cfg st).2.2
      (if (aeon_get_dentry_space cfg st).1 = 0 then (aeon_get_dentry_space cfg st).2.1 :: live
        else live) := by
  have hm := to_u32_pred cfg.MAX_ENTRY hM1 hM2
  have hf := alloc_new_dentry_block_frame st
  have hlat := hinv.latest_lt
  have hile := hinv.internal_le
  rcases get_dentry_space_cases cfg st with ⟨_, _, _, h4⟩ | ⟨_, _, _, _, h4⟩ |
    ⟨h1, h2, h3, herr, h4⟩ | ⟨h1, h2, h4⟩ | ⟨d, rest, h1, h4⟩
  · rw [h4]
    simp only [EMLINK]
    rw [if_neg (by decide)]
    exact hinv
  · rw [h4]
    simp only [ENOSPC]
    rw [if_neg (by decide)]
    exact slots_inv_congr cfg B st _ live hinv hf.2.1 hf.2.2.1 (by rw [hf.1]) (by rw [hf.1])
      (by rw [hf.1])
  · obtain ⟨b, a, rest, hl, hb, ha⟩ := alloc_new_dentry_block_answer st herr
    obtain ⟨hbB, haa, hbn⟩ := hfresh b a rest hl
    rw [hm] at h3
    have hbm : b % 2 ^ 64 = b := Nat.mod_eq_of_lt (by omega)
    have ham : a % 2 ^ 64 = a := by rw [haa]; exact Nat.mod_eq_of_lt (slot_addr_lt cfg b 0)
    have hl1 : (st.de_map.num_latest_dentry + 1) % 2 ^ 32 = st.de_map.num_latest_dentry + 1 :=
      Nat.mod_eq_of_lt (by omega)
    rw [h4]
    simp only [get_dentry_space_done, if_true]
    rw [ha, ham, haa]
    apply slots_inv_grow cfg B st _ live b hgeo (by omega) hinv (by omega) hbB hbn
    · simp only [aeon_register_dentry_to_map]; rw [hf.2.1, h1]
    · simp only [aeon_register_dentry_to_map]; rw [hf.2.2.1]
    · simp only [aeon_register_dentry_to_map]; rw [hf.1, hl1]
    · simp only [aeon_register_dentry_to_map]
    · simp only [aeon_register_dentry_to_map]; rw [hf.1, hl1, hb, hbm]
  · have hl1 : (st.de_map.num_internal_dentries + 1) % 2 ^ 32
        = st.de_map.num_internal_dentries + 1 := Nat.mod_eq_of_lt (by omega)
    have hslot : aeon_get_internal_dentry cfg st.de_map
        = slot_addr cfg (st.de_map.block_dentry st.de_map.num_latest_dentry)
            st.de_map.num_internal_dentries := by
      unfold aeon_get_internal_dentry slot_addr
      simp only
      rw [Nat.mod_eq_of_lt (show st.de_map.num_latest_dentry < 2 ^ 32 by omega),
        Nat.mod_eq_of_lt (show st.de_map.num_internal_dentries < 2 ^ 32 by omega)]
    rw [h4]
    simp only [get_dentry_space_done, if_true]
    rw [hslot]
    apply slots_inv_internal cfg B st _ live hgeo hinv h2
    · exact h1
    · rfl
    · rfl
    · exact hl1
    · rfl
  · rw [h4]
    simp only [get_dentry_space_done, if_true]
    exact slots_inv_reuse cfg B st _ live d rest hinv h1 rfl rfl rfl rfl rfl

theorem get_dentry_space_tree (cfg : aeon_consts) (st : dir_state) :
    (aeon_get_dentry_space cfg st).2.2.rb_tree = st.rb_tree := by
  have hf := alloc_new_dentry_block_frame st
  rcases get_dentry_space_cases cfg st with ⟨_, _, _, h4⟩ | ⟨_, _, _, _, h4⟩ |
    ⟨_, _, _, _, h4⟩ | ⟨_, _, h4⟩ | ⟨d, rest, _, h4⟩
  · rw [h4]
  · rw [h4]; exact hf.2.2.1
  · rw [h4]; simp only [get_dentry_space_done, aeon_register_dentry_to_map]; exact hf.2.2.1
  · rw [h4]; rfl
  · rw [h4]; rfl

/-- The state after the part of `aeon_add_dentry` that follows the bootstrap: the dentry
map and the list of invalidated slots are those left by `aeon_get_dentry_space`, and the
index is that left by `aeon_insert_dir_tree` if a slot was obtained. -/
theorem add_dentry_entry_fields (cfg : aeon_consts) (st : dir_state) (am : aeon_mdata)
    (name : List Int) (namelen : Int) (node : Option aeon_range_node) :
    (add_dentry_entry cfg st am name namelen node).2.de_map
      = (aeon_get_dentry_space cfg st).2.2.de_map ∧
    (add_dentry_entry cfg st am name namelen node).2.invalid_list
      = (aeon_get_dentry_space cfg st).2.2.invalid_list ∧
    (add_dentry_entry cfg st am name namelen node).2.rb_tree
      = (if (aeon_get_dentry_space cfg st).1 = 0 then
          (aeon_insert_dir_tree st.rb_tree name namelen (aeon_get_dentry_space cfg st).2.1
            node).2
        else st.rb_tree) := by
  have ht := get_dentry_space_tree cfg st
  unfold add_dentry_entry
  cases hg : aeon_get_dentry_space cfg st with
  | mk err r =>
    obtain ⟨de, st1⟩ := r
    rw [hg] at ht
    simp only at ht ⊢
    by_cases he : err = 0
    · subst he
      simp only [ne_eq, not_true_eq_false, if_false, if_true]
      have hft : (aeon_fill_dentry_data cfg st1 de am name namelen).rb_tree = st.rb_tree := by
        unfold aeon_fill_dentry_data; exact ht
      rw [hft]
      cases hi : aeon_insert_dir_tree st.rb_tree name namelen de node with
      | mk err1 tree =>
        simp only
        split_ifs <;> exact ⟨rfl, rfl, rfl⟩
    · simp only [ne_eq, he, not_false_eq_true, if_true, if_false]
      exact ⟨trivial, trivial, ht⟩

/-- The invariant after the index was replaced by one whose payloads are live and pairwise
distinct. -/
theorem slots_inv_index (cfg : aeon_consts) (B : Nat) (st : dir_state) (live : List Nat)
    (t : rb_root) (h : slots_inv cfg B st live)
    (hl : ∀ n ∈ t.toList, n.direntry ∈ live)
    (hn : (t.toList.map aeon_range_node.direntry).Nodup) :
    slots_inv cfg B { st with rb_tree := t } live :=
  { live_nodup := h.live_nodup
    invalid_nodup := h.invalid_nodup
    invalid_not_live := h.invalid_not_live
    live_handed := h.live_handed
    invalid_handed := h.invalid_handed
    index_live := hl
    index_nodup := hn
    blocks_lt := h.blocks_lt
    blocks_inj := h.blocks_inj
    latest_lt := h.latest_lt
    internal_pos := h.internal_pos
    internal_le := h.internal_le
    internal_boot := h.internal_boot }

/-- The invariant is kept by the part of `aeon_add_dentry` that follows the bootstrap. -/
theorem slots_inv_add (cfg : aeon_consts) (B : Nat) (st : dir_state) (live : List Nat)
    (am : aeon_mdata) (name : List Int) (namelen : Int) (node : Option aeon_range_node)
    (hN2 : 2 ≤ cfg.AEON_INTERNAL_ENTRY) (hN : cfg.AEON_INTERNAL_ENTRY < 2 ^ 32)
    (hM1 : 1 ≤ cfg.MAX_ENTRY) (hM2 : cfg.MAX_ENTRY ≤ 2 ^ 32) (hB : B ≤ 2 ^ 64)
    (hgeo : slots_distinct cfg B) (hinv : slots_inv cfg B st live)
    (hfresh : fresh_answer cfg B st) :
    slots_inv cfg B (add_dentry_entry cfg st am name namelen node).2
      (if (aeon_get_dentry_space cfg st).1 = 0 then (aeon_get_dentry_space cfg st).2.1 :: live
        else live) := by
  have hg := slots_inv_get_space cfg B st live hN2 hN hM1 hM2 hB hgeo hinv hfresh
  obtain ⟨f1, f2, f3⟩ := add_dentry_entry_fields cfg st am name namelen node
  have ht := get_dentry_space_tree cfg st
  by_cases he : (aeon_get_dentry_space cfg st).1 = 0
  · rw [if_pos he] at hg f3 ⊢
    rcases insert_dir_tree_cases st.rb_tree name namelen (aeon_get_dentry_space cfg st).2.1 node
      with ⟨_, hi⟩ | ⟨_, n, A, Bl, hn, hl, hl1⟩
    · rw [hi] at f3
      exact slots_inv_congr cfg B _ _ _ hg f2 (by rw [f3, ht]) (by rw [f1]) (by rw [f1])
        (by rw [f1])
    · have hnl : (aeon_get_dentry_space cfg st).2.1 ∉ live :=
        (List.nodup_cons.1 hg.live_nodup).1
      have hold : ∀ m ∈ A ++ Bl, m.direntry ∈ live := by
        intro m hm
        exact hinv.index_live m (by rw [hl]; exact hm)
      have hnd := hinv.index_nodup
      rw [hl] at hnd
      have hidx := slots_inv_index cfg B _ _
        (aeon_insert_dir_tree st.rb_tree name namelen (aeon_get_dentry_space cfg st).2.1
          node).2 hg
        (by
          rw [hl1]
          intro m hm
          rcases List.mem_append.1 hm with hm | hm
          · exact List.mem_cons_of_mem _ (hold m (List.mem_append_left _ hm))
          · rcases List.mem_cons.1 hm with hm | hm
            · rw [hm, hn]; exact List.mem_cons_self _ _
            · exact List.mem_cons_of_mem _ (hold m (List.mem_append_right _ hm)))
        (by
          rw [hl1, List.map_append, List.map_cons]
          rw [List.map_append] at hnd
          refine List.Nodup.append (List.Nodup.of_append_left hnd)
            (List.nodup_cons.2 ⟨?_, List.Nodup.of_append_right hnd⟩) ?_
          · intro hmem
            obtain ⟨m, hm, hmd⟩ := List.mem_map.1 hmem
            apply hnl
            rw [← hn, ← hmd]
            exact hold m (List.mem_append_right _ hm)
          · intro x hx hy
            rcases List.mem_cons.1 hy with hy | hy
            · obtain ⟨m, hm, hmd⟩ := List.mem_map.1 hx
              apply hnl
              rw [← hn, ← hy, ← hmd]
              exact hold m (List.mem_append_left _ hm)
            · exact (List.disjoint_of_nodup_append hnd) hx hy)
      exact slots_inv_congr cfg B _ _ _ hidx f2 (by rw [f3]) (by rw [f1]) (by rw [f1])
        (by rw [f1])
  · rw [if_neg he] at hg f3 ⊢
    exact slots_inv_congr cfg B _ _ _ hg f2 (by rw [f3, ht]) (by rw [f1]) (by rw [f1])
      (by rw [f1])

/-- The invariant is kept by `aeon_remove_dentry` when it is passed the record that the
index holds for the removed name. -/
theorem slots_inv_remove (cfg : aeon_consts) (B : Nat) (st : dir_state) (live : List Nat)
    (name : List Int) (len de : Nat) (adi : Bool) (hlen : len < 2 ^ 32)
    (hde : aeon_find_dentry st.rb_tree name len = some de)
    (hinv : slots_inv cfg B st live) :
    slots_inv cfg B (aeon_remove_dentry cfg st name len de adi).2
      (if (aeon_remove_dentry cfg st name len de adi).1 = 0 then live.erase de else live) := by
  rcases remove_dentry_cases cfg st name len de adi with ⟨hne, hst⟩ | ⟨_, _, hr, heq⟩
  · rw [if_neg hne, hst]
    exact hinv
  · obtain ⟨m, hm, hfind, htree⟩ := remove_dir_tree_ok st.rb_tree name len hlen hr
    have hdm : de = m.direntry := by
      rw [hde] at hfind
      exact Option.some.inj hfind
    have hdl : de ∈ live := by rw [hdm]; exact hinv.index_live m hm
    rw [heq]
    simp only [if_true]
    have hsub : (rb_erase m.addr st.rb_tree).toList.Sublist st.rb_tree.toList := by
      rw [toList_rb_erase]
      exact List.filter_sublist _
    have hh : ∀ x, handed_out cfg st.de_map x →
        handed_out cfg { st.de_map with num_dentries := u64_dec st.de_map.num_dentries } x :=
      fun x hx => hx
    exact
      { live_nodup := hinv.live_nodup.erase de
        invalid_nodup := List.nodup_cons.2
          ⟨fun hmem => hinv.invalid_not_live de hmem hdl, hinv.invalid_nodup⟩
        invalid_not_live := by
          intro x hx hxl
          rcases List.mem_cons.1 hx with hx | hx
          · rw [hx] at hxl
            exact ((hinv.live_nodup.mem_erase_iff).1 hxl).1 rfl
          · exact hinv.invalid_not_live x hx (List.mem_of_mem_erase hxl)
        live_handed := fun x hx => hh x (hinv.live_handed x (List.mem_of_mem_erase hx))
        invalid_handed := by
          intro x hx
          rcases List.mem_cons.1 hx with hx | hx
          · rw [hx]; exact hh de (hinv.live_handed de hdl)
          · exact hh x (hinv.invalid_handed x hx)
        index_live := by
          intro n hn
          show n.direntry ∈ live.erase de
          rw [htree, toList_rb_erase] at hn
          obtain ⟨hn1, hn2⟩ := List.mem_filter.1 hn
          refine (hinv.live_nodup.mem_erase_iff).2 ⟨?_, hinv.index_live n hn1⟩
          intro hnd
          have hnm : n = m :=
            List.inj_on_of_nodup_map hinv.index_nodup hn1 hm (by rw [hnd, hdm])
          rw [hnm] at hn2
          simp at hn2
        index_nodup := by
          show ((aeon_remove_dir_tree st.rb_tree name
            (to_int (len % 2 ^ 32 : Nat))).2.toList.map aeon_range_node.direntry).Nodup
          rw [htree]
          exact List.Nodup.sublist (List.Sublist.map _ hsub) hinv.index_nodup
        blocks_lt := hinv.blocks_lt
        blocks_inj := hinv.blocks_inj
        latest_lt := hinv.latest_lt
        internal_pos := hinv.internal_pos
        internal_le := hinv.internal_le
        internal_boot := hinv.internal_boot }

/-- The invariant holds right after the bootstrap of an empty directory. -/
theorem slots_inv_init (cfg : aeon_consts) (B : Nat) (st : dir_state) (de_info adi : Bool)
    (hN2 : 2 ≤ cfg.AEON_INTERNAL_ENTRY)
    (h1 : (aeon_init_dentry_map cfg st de_info adi).1 = 0)
    (h2 : (aeon_init_dentry cfg (aeon_init_dentry_map cfg st de_info adi).2).1 = 0)
    (htree : st.rb_tree = .nil)
    (hb : (aeon_init_dentry cfg
      (aeon_init_dentry_map cfg st de_info adi).2).2.de_map.block_dentry 0 < B) :
    slots_inv cfg B (aeon_init_dentry cfg (aeon_init_dentry_map cfg st de_info adi).2).2 [] := by
  obtain ⟨a1, _, _, a4, _, _, a7⟩ := init_dentry_map_ok cfg st de_info adi h1
  obtain ⟨b1, _, b3, b4, b5, _, _⟩ :=
    init_dentry_ok cfg (aeon_init_dentry_map cfg st de_info adi).2 h2
  rw [a1] at b1
  rw [a4] at b4
  rw [a7, htree] at b5
  exact
    { live_nodup := List.nodup_nil
      invalid_nodup := by rw [b4]; exact List.nodup_nil
      invalid_not_live := fun x _ hx => by cases hx
      live_handed := fun x hx => by cases hx
      invalid_handed := by rw [b4]; intro x hx; cases hx
      index_live := by rw [b5]; intro n hn; simp [rb_root.toList] at hn
      index_nodup := by rw [b5]; simp [rb_root.toList]
      blocks_lt := by
        rw [b1]
        intro g hg
        have : g = 0 := by omega
        rw [this]; exact hb
      blocks_inj := by
        rw [b1]
        intro g g1 hg hg1 _
        omega
      latest_lt := by rw [b1]; omega
      internal_pos := by rw [b3]; omega
      internal_le := by rw [b3]; exact hN2
      internal_boot := by rw [b3]; intro _; omega }

/-- The invariant holds in every state reachable from a bootstrapped directory. -/
theorem slots_inv_reachable (cfg : aeon_consts) (B : Nat) (st : dir_state) (live : List Nat)
    (hN2 : 2 ≤ cfg.AEON_INTERNAL_ENTRY) (hN : cfg.AEON_INTERNAL_ENTRY < 2 ^ 32)
    (hM1 : 1 ≤ cfg.MAX_ENTRY) (hM2 : cfg.MAX_ENTRY ≤ 2 ^ 32) (hB : B ≤ 2 ^ 64)
    (hgeo : slots_distinct cfg B) (h : slots_reachable cfg B st live) :
    slots_inv cfg B st live := by
  induction h with
  | init st de_info adi h1 h2 htree hb =>
    exact slots_inv_init cfg B st de_info adi hN2 h1 h2 htree hb
  | add st live am name namelen node _ hfresh ih =>
    exact slots_inv_add cfg B st live am name namelen node hN2 hN hM1 hM2 hB hgeo ih hfresh
  | remove st live name len de adi _ hlen hde ih =>
    exact slots_inv_remove cfg B st live name len de adi hlen hde ih

/-- C38: in every state reachable from a bootstrapped directory by the slot allocation of
`aeon_add_dentry` and by `aeon_remove_dentry` passed the record the index holds for the
name, with a block allocator that answers each growth with a block not yet in the directory
and the address of its first slot, the slot addresses handed out by `aeon_get_dentry_space`
and not tombstoned since are pairwise distinct and differ from slots 0 and 1 of block 0, and
no slot of the invalid-slot list is live; in-block allocation hands out slot number
`num_internal_dentries` of the latest block and increments the counter, and a growth hands
out slot 0 of the new block and sets the counter to 1. -/
theorem C38_live_slots_distinct (cfg : aeon_consts) (B : Nat) (st : dir_state)
    (live : List Nat)
    (hN2 : 2 ≤ cfg.AEON_INTERNAL_ENTRY) (hN : cfg.AEON_INTERNAL_ENTRY < 2 ^ 32)
    (hM1 : 1 ≤ cfg.MAX_ENTRY) (hM2 : cfg.MAX_ENTRY ≤ 2 ^ 32) (hB : B ≤ 2 ^ 64)
    (hgeo : slots_distinct cfg B) (h : slots_reachable cfg B st live) :
    live.Nodup ∧
    (∀ x ∈ live, x ≠ slot_addr cfg (st.de_map.block_dentry 0) 0 ∧
      x ≠ slot_addr cfg (st.de_map.block_dentry 0) 1) ∧
    (∀ x ∈ st.invalid_list, x ∉ live) ∧
    (st.invalid_list = [] → st.de_map.num_internal_dentries ≠ cfg.AEON_INTERNAL_ENTRY →
      (aeon_get_dentry_space cfg st).1 = 0 ∧
      (aeon_get_dentry_space cfg st).2.1
        = slot_addr cfg (st.de_map.block_dentry st.de_map.num_latest_dentry)
            st.de_map.num_internal_dentries ∧
      (aeon_get_dentry_space cfg st).2.2.de_map.num_internal_dentries
        = st.de_map.num_internal_dentries + 1 ∧
      (aeon_get_dentry_space cfg st).2.2.de_map.num_latest_dentry
        = st.de_map.num_latest_dentry) ∧
    (st.invalid_list = [] → st.de_map.num_internal_dentries = cfg.AEON_INTERNAL_ENTRY →
      (aeon_get_dentry_space cfg st).1 = 0 → fresh_answer cfg B st →
      ∃ b a rest, st.new_dentry_blocks = (b, a) :: rest ∧
        (aeon_get_dentry_space cfg st).2.1 = slot_addr cfg b 0 ∧
        (aeon_get_dentry_space cfg st).2.2.de_map.num_internal_dentries = 1 ∧
        (aeon_get_dentry_space cfg st).2.2.de_map.num_latest_dentry
          = st.de_map.num_latest_dentry + 1 ∧
        (aeon_get_dentry_space cfg st).2.2.de_map.block_dentry
          (st.de_map.num_latest_dentry + 1) = b) := by
  have hinv := slots_inv_reachable cfg B st live hN2 hN hM1 hM2 hB hgeo h
  have hu : to_u32 ((cfg.MAX_ENTRY : Int) - 1) = cfg.MAX_ENTRY - 1 := by
    unfold to_u32
    omega
  have hL := hinv.latest_lt
  have hI := hinv.internal_le
  refine ⟨hinv.live_nodup, ?_, hinv.invalid_not_live, ?_, ?_⟩
  · intro x hx
    obtain ⟨g, j, hg, hj, hboot, hxe⟩ := hinv.live_handed x hx
    have hjN : j < cfg.AEON_INTERNAL_ENTRY := by
      split_ifs at hj
      · omega
      · exact hj
    have hb0 := hinv.blocks_lt 0 (Nat.zero_le _)
    have hbg := hinv.blocks_lt g hg
    constructor
    · intro he
      rw [hxe] at he
      obtain ⟨e1, e2⟩ := hgeo _ _ _ _ hbg hb0 hjN (by omega) he
      have := hinv.blocks_inj g 0 hg (Nat.zero_le _) e1
      exact hboot ⟨this, by omega⟩
    · intro he
      rw [hxe] at he
      obtain ⟨e1, e2⟩ := hgeo _ _ _ _ hbg hb0 hjN (by omega) he
      have := hinv.blocks_inj g 0 hg (Nat.zero_le _) e1
      exact hboot ⟨this, by omega⟩
  · intro hnil hne
    rcases get_dentry_space_cases cfg st with ⟨_, h2, _⟩ | ⟨_, h2, _⟩ | ⟨_, h2, _⟩ |
      ⟨_, _, h4⟩ | ⟨d, rest, h1, _⟩
    · exact absurd h2 hne
    · exact absurd h2 hne
    · exact absurd h2 hne
    · have hlt : st.de_map.num_internal_dentries < cfg.AEON_INTERNAL_ENTRY :=
        lt_of_le_of_ne hI hne
      rw [h4]
      simp only [get_dentry_space_done, aeon_get_internal_dentry, slot_addr]
      refine ⟨trivial, ?_, ?_, trivial⟩
      · rw [Nat.mod_eq_of_lt (show st.de_map.num_latest_dentry < 2 ^ 32 by omega),
          Nat.mod_eq_of_lt (show st.de_map.num_internal_dentries < 2 ^ 32 by omega)]
      · exact Nat.mod_eq_of_lt (by omega)
    · rw [hnil] at h1
      cases h1
  · intro hnil heq he hfresh
    rcases get_dentry_space_cases cfg st with ⟨_, _, _, h4⟩ | ⟨_, _, _, _, h4⟩ |
      ⟨_, _, h3, herr, h4⟩ | ⟨_, h2, _⟩ | ⟨d, rest, h1, _⟩
    · rw [h4] at he
      exact absurd he (show ¬ (-EMLINK : Int) = 0 by decide)
    · rw [h4] at he
      exact absurd he (show ¬ (-ENOSPC : Int) = 0 by decide)
    · obtain ⟨b, a, rest, hans, hb, ha⟩ := alloc_new_dentry_block_answer st herr
      obtain ⟨hbB, haE, _⟩ := hfresh b a rest hans
      have hfr := alloc_new_dentry_block_frame st
      rw [hu] at h3
      refine ⟨b, a, rest, hans, ?_⟩
      rw [h4]
      simp only [get_dentry_space_done, aeon_register_dentry_to_map]
      rw [hfr.1]
      have hl1 : (st.de_map.num_latest_dentry + 1) % 2 ^ 32 = st.de_map.num_latest_dentry + 1 :=
        Nat.mod_eq_of_lt (by omega)
      refine ⟨?_, trivial, hl1, ?_⟩
      · rw [ha, haE]
        exact Nat.mod_eq_of_lt (slot_addr_lt cfg b 0)
      · rw [hl1, Function.update_same, hb]
        exact Nat.mod_eq_of_lt (by omega)
    · exact absurd heq h2
    · rw [hnil] at h1
      cases h1

/-- The slots of the first 1024 blocks of the small example geometry have distinct
addresses. -/
theorem example_small_distinct : slots_distinct example_small_consts 1024 :=
  slots_distinct_of_geometry example_small_consts 1024 (by decide) (by decide) (by decide)

/-- The bootstrapped small example directory is reachable, with no slot handed out yet. -/
theorem example_small_dir_reachable :
    slots_reachable example_small_consts 1024 example_small_dir [] :=
  slots_reachable.init example_new_dir true true (by decide) (by decide) rfl (by decide)

/-- The next answer of the allocator of the small example directory is block 17, which is
not in the directory, with the address of its first slot. -/
theorem example_small_dir_fresh : fresh_answer example_small_consts 1024 example_small_dir := by
  intro b a rest h
  have e : example_small_dir.new_dentry_blocks = [(17, 1048576 + 17 * 4096)] := rfl
  rw [e] at h
  injection h with h1 h2
  injection h1 with hb ha
  subst hb
  subst ha
  refine ⟨by decide, by decide, ?_⟩
  intro g hg
  have e1 : example_small_dir.de_map.num_latest_dentry = 0 := rfl
  rw [e1] at hg
  have hg0 : g = 0 := by omega
  subst hg0
  decide

/-- The same after the name `a` was added. -/
theorem example_small_a_fresh : fresh_answer example_small_consts 1024 example_small_a := by
  intro b a rest h
  have e : example_small_a.new_dentry_blocks = [(17, 1048576 + 17 * 4096)] := rfl
  rw [e] at h
  injection h with h1 h2
  injection h1 with hb ha
  subst hb
  subst ha
  refine ⟨by decide, by decide, ?_⟩
  intro g hg
  have e1 : example_small_a.de_map.num_latest_dentry = 0 := rfl
  rw [e1] at hg
  have hg0 : g = 0 := by omega
  subst hg0
  decide

/-- The small example directory holding `a` is reachable; the slot handed out is slot 2
of block 16. -/
theorem example_small_a_reachable :
    slots_reachable example_small_consts 1024 example_small_a
      [1048576 + 16 * 4096 + 2 * 256] :=
  slots_reachable.add example_small_dir [] ⟨7, 1048576 + 12288, 0, 0, 0⟩ [97] 1
    (some ⟨1, 0, 0, 0⟩) example_small_dir_reachable example_small_dir_fresh

/-- The small example directory holding `a` and `b` is reachable; the slots handed out
are slot 2 of block 16 and slot 0 of block 17. -/
theorem example_small_ab_reachable :
    slots_reachable example_small_consts 1024 example_small_ab
      [1048576 + 17 * 4096, 1048576 + 16 * 4096 + 2 * 256] :=
  slots_reachable.add example_small_a [1048576 + 16 * 4096 + 2 * 256]
    ⟨8, 1048576 + 12544, 0, 0, 0⟩ [98] 1 (some ⟨2, 0, 0, 0⟩)
    example_small_a_reachable example_small_a_fresh

/-- The small example directory from which `a` was removed again is reachable; the live
slot is slot 0 of block 17. -/
theorem example_small_b_reachable :
    slots_reachable example_small_consts 1024 example_small_b [1048576 + 17 * 4096] :=
  slots_reachable.remove example_small_ab
    [1048576 + 17 * 4096, 1048576 + 16 * 4096 + 2 * 256] [97] 1
    (1048576 + 16 * 4096 + 2 * 256) true example_small_ab_reachable (by decide) (by decide)

/-- Witness of C38: blocks of 3 slots, a bootstrapped directory whose allocator answers
with block 17.  After `a` was added (slot 2 of block 16, which fills the block) the next
request makes the directory grow: it hands out slot 0 of block 17 and sets the counter to
1.  After `b` was added as well the two live slots are distinct and differ from slots 0
and 1 of block 16, and the next request is served inside block 17 with slot 1.  After `a`
was removed again its slot is in the invalid-slot list and is not live. -/
theorem C38_live_slots_distinct_witness :
    (slots_reachable example_small_consts 1024 example_small_ab
        [1048576 + 17 * 4096, 1048576 + 16 * 4096 + 2 * 256] ∧
      [1048576 + 17 * 4096, 1048576 + 16 * 4096 + 2 * 256].Nodup ∧
      (∀ x ∈ [1048576 + 17 * 4096, 1048576 + 16 * 4096 + 2 * 256],
        x ≠ slot_addr example_small_consts (example_small_ab.de_map.block_dentry 0) 0 ∧
        x ≠ slot_addr example_small_consts (example_small_ab.de_map.block_dentry 0) 1) ∧
      example_small_ab.de_map.block_dentry 0 = 16 ∧
      example_small_ab.de_map.block_dentry example_small_ab.de_map.num_latest_dentry = 17 ∧
      example_small_ab.de_map.num_internal_dentries = 1 ∧
      (aeon_get_dentry_space example_small_consts example_small_ab).1 = 0 ∧
      (aeon_get_dentry_space example_small_consts example_small_ab).2.1
        = slot_addr example_small_consts
            (example_small_ab.de_map.block_dentry example_small_ab.de_map.num_latest_dentry)
            example_small_ab.de_map.num_internal_dentries ∧
      (aeon_get_dentry_space example_small_consts example_small_ab).2.2.de_map.num_internal_dentries
        = example_small_ab.de_map.num_internal_dentries + 1) ∧
    (slots_reachable example_small_consts 1024 example_small_a
        [1048576 + 16 * 4096 + 2 * 256] ∧
      example_small_a.de_map.num_internal_dentries
        = example_small_consts.AEON_INTERNAL_ENTRY ∧
      ∃ b a rest, example_small_a.new_dentry_blocks = (b, a) :: rest ∧
        (aeon_get_dentry_space example_small_consts example_small_a).2.1
          = slot_addr example_small_consts b 0 ∧
        (aeon_get_dentry_space example_small_consts
          example_small_a).2.2.de_map.num_internal_dentries = 1 ∧
        (aeon_get_dentry_space example_small_consts
          example_small_a).2.2.de_map.num_latest_dentry
          = example_small_a.de_map.num_latest_dentry + 1 ∧
        (aeon_get_dentry_space example_small_consts example_small_a).2.2.de_map.block_dentry
          (example_small_a.de_map.num_latest_dentry + 1) = b) ∧
    (slots_reachable example_small_consts 1024 example_small_b [1048576 + 17 * 4096] ∧
      example_small_b.invalid_list = [1048576 + 16 * 4096 + 2 * 256] ∧
      ∀ x ∈ example_small_b.invalid_list, x ∉ [1048576 + 17 * 4096]) :=
  ⟨⟨example_small_ab_reachable,
    (C38_live_slots_distinct example_small_consts 1024 example_small_ab _ (by decide)
      (by decide) (by decide) (by decide) (by decide) example_small_distinct
      example_small_ab_reachable).1,
    (C38_live_slots_distinct example_small_consts 1024 example_small_ab _ (by decide)
      (by decide) (by decide) (by decide) (by decide) example_small_distinct
      example_small_ab_reachable).2.1,
    rfl, rfl, rfl,
    ((C38_live_slots_distinct example_small_consts 1024 example_small_ab _ (by decide)
      (by decide) (by decide) (by decide) (by decide) example_small_distinct
      example_small_ab_reachable).2.2.2.1 rfl (by decide)).1,
    ((C38_live_slots_distinct example_small_consts 1024 example_small_ab _ (by decide)
      (by decide) (by decide) (by decide) (by decide) example_small_distinct
      example_small_ab_reachable).2.2.2.1 rfl (by decide)).2.1,
    ((C38_live_slots_distinct example_small_consts 1024 example_small_ab _ (by decide)
      (by decide) (by decide) (by decide) (by decide) example_small_distinct
      example_small_ab_reachable).2.2.2.1 rfl (by decide)).2.2.1⟩,
   ⟨example_small_a_reachable, rfl,
    (C38_live_slots_distinct example_small_consts 1024 example_small_a _ (by decide)
      (by decide) (by decide) (by decide) (by decide) example_small_distinct
      example_small_a_reachable).2.2.2.2 rfl rfl (by decide) example_small_a_fresh⟩,
   ⟨example_small_b_reachable, rfl,
    (C38_live_slots_distinct example_small_consts 1024 example_small_b _ (by decide)
      (by decide) (by decide) (by decide) (by decide) example_small_distinct
      example_small_b_reachable).2.2.1⟩⟩

end Aeon
